import Mathlib

/-!
# 8puzzle: `Move`, `Board` and `Solver`

A shallow embedding of `src/include/board.h`, `src/src/board.cpp`, `src/include/solver.h` and
`src/src/solver.cpp`, followed by theorems about it.

Conventions of the embedding.

* `std::vector<T>` is `List T`; `v[i]` is `List.getD v i default` and `v[i] = x` is `List.set`.
  Where an index may leave the vector (undefined behaviour in C++) a separate `*_in_bounds`
  predicate states that it does not.
* `unsigned` is `Nat` reduced modulo `2 ^ 32` (`u32`) wherever the source stores into an
  `unsigned`; `std::size_t` indices are `Nat` (they index allocated vectors, no wrap), except
  `std::size_t + int` in `Board::my_move`, which wraps modulo `2 ^ 64` (`size_add`).
* `std::string` is `List Char`.
* Counted `for` loops run over `List.range`; `while` loops carry a fuel argument that the caller
  sets to a bound on the iteration count.
-/

namespace EightPuzzle

/-! ## Machine integers and small helpers -/

/-- Truncation to the C++ type `unsigned` (32 bits). -/
def u32 (x : Nat) : Nat := x % 4294967296

/-- The `std::size_t` value of `a + d` for a `std::size_t` `a` and an `int` `d`: the `int` is
converted to `std::size_t`, so the sum is taken modulo `2 ^ 64`. -/
def size_add (a : Nat) (d : Int) : Nat := (((a : Int) + d) % 18446744073709551616).toNat

/-- Model of `std::to_string(unsigned)`: decimal digits, most significant first, no leading
zeros, `0` printed as `0`. -/
def to_string_unsigned (v : Nat) : List Char := Nat.toDigits 10 v

/-- Read of `data[i][j]` in a vector of vectors. -/
def at2 (data : List (List Nat)) (i j : Nat) : Nat := (data.getD i []).getD j 0

/-- Write `data[i][j] = v` in a vector of vectors. -/
def set2 (data : List (List Nat)) (i j : Nat) (v : Nat) : List (List Nat) :=
  data.set i ((data.getD i []).set j v)

/-! ## Move -/

/-- The class `Move` of `board.h`: a displacement `(di, dj)` of the blank. -/
structure Move where
  di : Int
  dj : Int
deriving DecidableEq, Repr

namespace Move

/-- `Move::is_vertical`. -/
def is_vertical (m : Move) : Bool := m.dj == 0

/-- `Move::is_horizontal`. -/
def is_horizontal (m : Move) : Bool := m.di == 0

/-- `Move::get_di`. -/
def get_di (m : Move) : Int := m.di

/-- `Move::get_dj`. -/
def get_dj (m : Move) : Int := m.dj

/-- `Move::reverse`. -/
def reverse (m : Move) : Move := ⟨-m.di, -m.dj⟩

end Move

/-! ## Board: data and construction -/

/-- The class `Board` of `board.h`. The member `hash` holds `std::hash<std::string>` of a string;
the embedding keeps that string (`some s`), and `none` for the default member initialiser `0` of
a default-constructed board; `get_hash` applies the hash function. -/
structure Board where
  m_data : List (List Nat)
  m_inversions : Nat
  m_hamming_distance : Nat
  m_manhattan_distance : Nat
  m_blank_row : Nat
  m_blank_col : Nat
  hash : Option (List Char)
deriving DecidableEq, Repr

/-- `Board::expected` for a board of side `n` (`n` is `m_data.size()`). -/
def expected (n : Nat) (value : Nat) : Nat × Nat :=
  let expected_place := (value + n * n - 1) % (n * n)
  (expected_place / n, expected_place % n)

/-- `Board::unsigned_dist`; both parameters are `unsigned`. -/
def unsigned_dist (a b : Nat) : Nat := max (u32 a) (u32 b) - min (u32 a) (u32 b)

/-! ### Inversion counting (`calc_inversions`, `merge_sort`, `merge`) -/

/-- First `while` loop of `Board::merge`; returns `(temp, i, j, k, count)`. -/
def merge_loop1 (arr : List Nat) (mid right : Nat) :
    Nat → List Nat → Nat → Nat → Nat → Nat → List Nat × Nat × Nat × Nat × Nat
  | 0, temp, i, j, k, count => (temp, i, j, k, count)
  | fuel + 1, temp, i, j, k, count =>
    if i + 1 ≤ mid ∧ j ≤ right then
      if arr.getD i 0 ≤ arr.getD j 0 then
        merge_loop1 arr mid right fuel (temp.set k (arr.getD i 0)) (i + 1) j (k + 1) count
      else
        merge_loop1 arr mid right fuel (temp.set k (arr.getD j 0)) i (j + 1) (k + 1)
          (u32 (count + (mid - i)))
    else (temp, i, j, k, count)

/-- Second `while` loop of `Board::merge`; returns `(temp, k)`. -/
def merge_loop2 (arr : List Nat) (mid : Nat) : Nat → List Nat → Nat → Nat → List Nat × Nat
  | 0, temp, _, k => (temp, k)
  | fuel + 1, temp, i, k =>
    if i + 1 ≤ mid then merge_loop2 arr mid fuel (temp.set k (arr.getD i 0)) (i + 1) (k + 1)
    else (temp, k)

/-- Third `while` loop of `Board::merge`; returns `(temp, k)`. -/
def merge_loop3 (arr : List Nat) (right : Nat) : Nat → List Nat → Nat → Nat → List Nat × Nat
  | 0, temp, _, k => (temp, k)
  | fuel + 1, temp, j, k =>
    if j ≤ right then merge_loop3 arr right fuel (temp.set k (arr.getD j 0)) (j + 1) (k + 1)
    else (temp, k)

/-- The copy-back `for` loop of `Board::merge`: `arr[it] = temp[it]` for `left ≤ it ≤ right`. -/
def merge_copy (temp : List Nat) (left right : Nat) (arr : List Nat) : List Nat :=
  (List.range (right + 1 - left)).foldl (fun a d => a.set (left + d) (temp.getD (left + d) 0)) arr

/-- `Board::merge`; returns the updated `(arr, temp, count)`. Each loop runs at most
`right + 1 - left` times. -/
def merge (arr temp : List Nat) (left mid right : Nat) : List Nat × List Nat × Nat :=
  let fuel := right + 1 - left
  let (temp1, i, j, k, count) := merge_loop1 arr mid right fuel temp left mid left 0
  let (temp2, k2) := merge_loop2 arr mid fuel temp1 i k
  let (temp3, _) := merge_loop3 arr right fuel temp2 j k2
  (merge_copy temp3 left right arr, temp3, count)

/-- Recursion of `Board::merge_sort` with an explicit depth bound. -/
def merge_sort_go : Nat → List Nat → List Nat → Nat → Nat → List Nat × List Nat × Nat
  | 0, arr, temp, _, _ => (arr, temp, 0)
  | fuel + 1, arr, temp, left, right =>
    if right > left then
      let mid := (left + right) / 2
      let (arr1, temp1, c1) := merge_sort_go fuel arr temp left mid
      let (arr2, temp2, c2) := merge_sort_go fuel arr1 temp1 (mid + 1) right
      let (arr3, temp3, c3) := merge arr2 temp2 left (mid + 1) right
      (arr3, temp3, u32 (u32 (c1 + c2) + c3))
    else (arr, temp, 0)

/-- `Board::merge_sort`; returns the updated `(arr, temp, count)`. The recursion depth is at most
the length `right + 1 - left` of the segment. -/
def merge_sort (arr temp : List Nat) (left right : Nat) : List Nat × List Nat × Nat :=
  merge_sort_go (right + 1 - left) arr temp left right

/-- `Board::calc_inversions`; returns the array as the call leaves it and the count. -/
def calc_inversions (arr : List Nat) : List Nat × Nat :=
  if arr.isEmpty then (arr, 0)
  else
    let r := merge_sort arr (List.replicate arr.length 0) 0 (arr.length - 1)
    (r.1, r.2.2)

/-! ### `Board::initialize` and the constructors -/

/-- The local and member variables that `Board::initialize` updates in its loops. -/
structure InitState where
  all : List Nat
  string : List Char
  m_hamming_distance : Nat
  m_manhattan_distance : Nat
  m_blank_row : Nat
  m_blank_col : Nat
deriving DecidableEq, Repr

/-- Body of the inner loop of `Board::initialize` at cell `(i, j)` of a board of side `n`. -/
def initialize_cell (data : List (List Nat)) (i : Nat) (s : InitState) (j : Nat) : InitState :=
  let n := data.length
  let v := at2 data i j
  let string1 := if j != 0 then s.string ++ [' '] else s.string
  let string2 := string1 ++ to_string_unsigned v
  let e := expected n v
  let ham := u32 (s.m_hamming_distance + (if i != e.1 || j != e.2 then 1 else 0))
  if v != 0 then
    { s with string := string2, m_hamming_distance := ham, all := s.all ++ [v],
             m_manhattan_distance :=
               u32 (s.m_manhattan_distance + u32 (unsigned_dist i e.1 + unsigned_dist j e.2)) }
  else
    { s with string := string2, m_hamming_distance := ham, m_blank_row := i, m_blank_col := j }

/-- Body of the outer loop of `Board::initialize` at row `i`. -/
def initialize_row (data : List (List Nat)) (s : InitState) (i : Nat) : InitState :=
  let s1 := if i != 0 then { s with string := s.string ++ ['\n'] } else s
  (List.range (data.getD i []).length).foldl (initialize_cell data i) s1

/-- The two loops of `Board::initialize`, started from the default member initialisers. -/
def initialize_loops (data : List (List Nat)) : InitState :=
  (List.range data.length).foldl (initialize_row data) ⟨[], [], 0, 0, 0, 0⟩

/-- The constructors `Board::Board(data)`: store the grid and run `Board::initialize`. -/
def Board.fromData (data : List (List Nat)) : Board :=
  let s := initialize_loops data
  { m_data := data
    m_inversions := (calc_inversions s.all).2
    m_hamming_distance := s.m_hamming_distance
    m_manhattan_distance := s.m_manhattan_distance
    m_blank_row := s.m_blank_row
    m_blank_col := s.m_blank_col
    hash := some s.string }

/-- The default constructor `Board()`: an empty grid and the default member initialisers. -/
def Board.default : Board := ⟨[], 0, 0, 0, 0, 0, none⟩

/-- The grid that `Board::create_goal` fills before the final write: cell `(i, j)` holds
`i * size + j + 1`, stored into an `unsigned`. -/
def create_goal_fill (size : Nat) : List (List Nat) :=
  (List.range size).foldl
    (fun board i => (List.range size).foldl (fun board j => set2 board i j (u32 (i * size + j + 1)))
      board)
    (List.replicate size (List.replicate size 0))

/-- The index `size - 1` of `Board::create_goal`, computed in `unsigned`. -/
def create_goal_last (size : Nat) : Nat := u32 (size + 4294967295)

/-- `Board::create_goal`. -/
def Board.create_goal (size : Nat) : Board :=
  Board.fromData (set2 (create_goal_fill size) (create_goal_last size) (create_goal_last size) 0)

/-- The final write `board[size - 1][size - 1] = 0` of `Board::create_goal` stays inside the
vector. -/
def create_goal_in_bounds (size : Nat) : Bool := decide (create_goal_last size < size)

namespace Board

/-! ## Board: observers and moves -/

/-- `Board::size`. -/
def size (b : Board) : Nat := b.m_data.length

/-- `Board::is_goal`. -/
def is_goal (b : Board) : Bool := b.m_hamming_distance == 0

/-- `Board::hamming`. -/
def hamming (b : Board) : Nat := b.m_hamming_distance

/-- `Board::manhattan`. -/
def manhattan (b : Board) : Nat := b.m_manhattan_distance

/-- `Board::to_string`. -/
def to_string (b : Board) : List Char :=
  (List.range b.m_data.length).foldl
    (fun string i =>
      (List.range b.m_data.length).foldl
        (fun string j =>
          (if j != 0 then string ++ [' '] else string) ++ to_string_unsigned (at2 b.m_data i j))
        (if i != 0 then string ++ ['\n'] else string))
    []

/-- `Board::is_solvable`. -/
def is_solvable (b : Board) : Bool :=
  b.m_data.isEmpty ||
    (b.m_inversions % 2 == 0 && (b.m_blank_row % 2 == 1 || b.m_data.length % 2 == 1)) ||
    (b.m_inversions % 2 == 1 && b.m_data.length % 2 == 0 && b.m_blank_row % 2 == 0)

/-- `Board::my_move`: swap the blank cell with the cell `(m_blank_row + di, m_blank_col + dj)` in
a copy of the grid and construct a board from it. -/
def my_move (b : Board) (m : Move) : Board :=
  let r := size_add b.m_blank_row m.get_di
  let c := size_add b.m_blank_col m.get_dj
  let x := at2 b.m_data b.m_blank_row b.m_blank_col
  let y := at2 b.m_data r c
  Board.fromData (set2 (set2 b.m_data b.m_blank_row b.m_blank_col y) r c x)

/-- Both cells that `Board::my_move` swaps lie inside the grid. -/
def my_move_in_bounds (b : Board) (m : Move) : Prop :=
  b.m_blank_row < b.m_data.length ∧
  b.m_blank_col < (b.m_data.getD b.m_blank_row []).length ∧
  size_add b.m_blank_row m.get_di < b.m_data.length ∧
  size_add b.m_blank_col m.get_dj < (b.m_data.getD (size_add b.m_blank_row m.get_di) []).length

/-- `Board::is_valid_move`. -/
def is_valid_move (b : Board) (move : Move) : Bool :=
  if move.is_horizontal then
    !((b.m_blank_col == 0 && move.get_dj == -1) ||
      (b.m_blank_col + 1 == b.m_data.length && move.get_dj == 1))
  else
    !((b.m_blank_row == 0 && move.get_di == -1) ||
      (b.m_blank_row + 1 == b.m_data.length && move.get_di == 1))

/-- `Board::get_hash`, for a given `std::hash<std::string>`. -/
def get_hash (strHash : List Char → Nat) (b : Board) : Nat :=
  match b.hash with
  | none => 0
  | some s => strHash s

/-- The friend `operator==` of `Board`: the grids are equal. -/
def eq (lhs rhs : Board) : Bool := lhs.m_data == rhs.m_data

end Board

end EightPuzzle

namespace EightPuzzle

/-! ## Reference notions used in the statements -/

/-- Number of index pairs `p < q` of a list with `l[p] > l[q]`. -/
def inversions : List Nat → Nat
  | [] => 0
  | x :: xs => xs.countP (fun y => decide (y < x)) + inversions xs

/-- Number of pairs `(x, y)` with `x` in `L`, `y` in `R` and `x > y`. -/
def cross_inversions (L R : List Nat) : Nat :=
  (L.map (fun x => R.countP (fun y => decide (y < x)))).sum

/-- The `≤` test of `Board::merge` as a Boolean relation. -/
def le_unsigned (a b : Nat) : Bool := decide (a ≤ b)

/-- The cells `(i, j)` in the order in which the loops of `Board::initialize` visit them. -/
def visit_order (data : List (List Nat)) : List (Nat × Nat) :=
  (List.range data.length).flatMap fun i => (List.range (data.getD i []).length).map (Prod.mk i)

/-- What `Board::initialize` adds to `m_hamming_distance` at cell `p`. -/
def hamming_term (data : List (List Nat)) (p : Nat × Nat) : Nat :=
  if p.1 != (expected data.length (at2 data p.1 p.2)).1 ||
     p.2 != (expected data.length (at2 data p.1 p.2)).2 then 1 else 0

/-- What `Board::initialize` adds to `m_manhattan_distance` at cell `p`. -/
def manhattan_term (data : List (List Nat)) (p : Nat × Nat) : Nat :=
  if at2 data p.1 p.2 != 0 then
    u32 (unsigned_dist p.1 (expected data.length (at2 data p.1 p.2)).1 +
         unsigned_dist p.2 (expected data.length (at2 data p.1 p.2)).2)
  else 0

/-- The last cell of `P` that holds `0`, or `(0, 0)` when there is none. -/
def last_blank (data : List (List Nat)) (P : List (Nat × Nat)) : Nat × Nat :=
  P.foldl (fun b p => if at2 data p.1 p.2 = 0 then p else b) (0, 0)

/-- Loop invariant of `Board::initialize` after the cells `P` have been visited. -/
def InitInv (data : List (List Nat)) (P : List (Nat × Nat)) (s : InitState) : Prop :=
  s.all = (P.map fun p => at2 data p.1 p.2).filter (fun v => v != 0) ∧
  s.m_hamming_distance = u32 (P.map (hamming_term data)).sum ∧
  s.m_manhattan_distance = u32 (P.map (manhattan_term data)).sum ∧
  (s.m_blank_row, s.m_blank_col) = last_blank data P

end EightPuzzle

namespace EightPuzzle

/-- The cells of a grid of side `n` in row-major order. -/
def cells (n : Nat) : List (Nat × Nat) := List.product (List.range n) (List.range n)

/-- A valid board grid of side `n`: `n ≥ 1`, `n` rows of `n` cells, every cell an `unsigned`
value, and the cells in row-major order a permutation of `0 .. n² - 1`. -/
def ValidGrid (n : Nat) (data : List (List Nat)) : Prop :=
  1 ≤ n ∧ data.length = n ∧ (∀ row ∈ data, row.length = n) ∧
    (∀ row ∈ data, ∀ v ∈ row, v < 4294967296) ∧ data.flatten.Perm (List.range (n * n))

instance (n : Nat) (data : List (List Nat)) : Decidable (ValidGrid n data) := by
  unfold ValidGrid
  infer_instance

end EightPuzzle

namespace EightPuzzle

/-- The tiles of a grid in row-major order, the blank skipped. -/
def tiles (data : List (List Nat)) : List Nat := data.flatten.filter (fun v => v != 0)

/-- The 0-indexed row of the cell holding `0`. -/
def blank_row_of (data : List (List Nat)) : Nat := data.findIdx (fun row => row.contains 0)

/-- The brute-force parity rule for a grid of side `n`: with `inv` the number of inverted pairs
of tiles and `br` the row of the blank, `n` odd and `inv` even, or `n` even and `inv + br` odd. -/
def parity_solvable (n : Nat) (data : List (List Nat)) : Prop :=
  (n % 2 = 1 ∧ inversions (tiles data) % 2 = 0) ∨
    (n % 2 = 0 ∧ (inversions (tiles data) + blank_row_of data) % 2 = 1)

instance (n : Nat) (data : List (List Nat)) : Decidable (parity_solvable n data) := by
  unfold parity_solvable
  infer_instance

end EightPuzzle

namespace EightPuzzle

/-- The goal position `((v - 1) / n, (v - 1) mod n)` of tile `v` on a board of side `n`. -/
def goal_pos (n v : Nat) : Nat × Nat := ((v - 1) / n, (v - 1) % n)

/-- Number of non-blank cells `(i, j)` whose value `v` is not at `((v - 1) / n, (v - 1) mod n)`;
the blank cell is never counted. -/
def misplaced_tiles (n : Nat) (data : List (List Nat)) : Nat :=
  (cells n).countP fun p => at2 data p.1 p.2 != 0 && p != goal_pos n (at2 data p.1 p.2)

/-- Sum over the non-blank cells `(i, j)` with value `v` of
`|i - (v - 1) / n| + |j - (v - 1) mod n|`. -/
def manhattan_sum (n : Nat) (data : List (List Nat)) : Nat :=
  ((cells n).map fun p =>
    if at2 data p.1 p.2 != 0 then
      Nat.dist p.1 (goal_pos n (at2 data p.1 p.2)).1 +
        Nat.dist p.2 (goal_pos n (at2 data p.1 p.2)).2
    else 0).sum

end EightPuzzle

namespace EightPuzzle

/-- The grid of side `n` whose rows are the consecutive blocks of length `n` of `flat`. -/
def grid_of_list (n : Nat) (flat : List Nat) : List (List Nat) :=
  (List.range n).map fun i => (flat.drop (i * n)).take n

/-- A grid of side `4096`: the cell at row-major position `q` holds `(q + 2 ^ 23) mod 2 ^ 24`, so
every tile lies about `2048` rows away from its goal row. -/
def far_grid : List (List Nat) :=
  grid_of_list 4096 ((List.range (4096 * 4096)).rotate (2048 * 4096))

end EightPuzzle

namespace EightPuzzle

/-- The moves that pass the test `di * di + dj * dj == 1` of `Solver::solve`: the four unit
moves. -/
def Move.is_unit (m : Move) : Prop := m.di * m.di + m.dj * m.dj = 1

instance (m : Move) : Decidable m.is_unit := by
  unfold Move.is_unit
  infer_instance

/-- The grid with the contents of the cells `p` and `q` exchanged, as `std::swap` does it. -/
def swap_cells (data : List (List Nat)) (p q : Nat × Nat) : List (List Nat) :=
  set2 (set2 data p.1 p.2 (at2 data q.1 q.2)) q.1 q.2 (at2 data p.1 p.2)

end EightPuzzle

namespace EightPuzzle

/-- A square grid of side `n` (`n = 0` is the empty grid). -/
def SquareGrid (n : Nat) (data : List (List Nat)) : Prop :=
  data.length = n ∧ ∀ row ∈ data, row.length = n

instance (n : Nat) (data : List (List Nat)) : Decidable (SquareGrid n data) := by
  unfold SquareGrid
  infer_instance

/-- Read a decimal numeral. -/
def read_decimal (s : List Char) : Nat := s.foldl (fun acc c => acc * 10 + (c.toNat - 48)) 0

/-- The parser of the output of `Board::to_string`: split on newlines, then on spaces, and read
each piece as a decimal numeral. -/
def parse_grid (s : List Char) : List (List Nat) :=
  (s.splitOn '\n').map fun line => (line.splitOn ' ').map read_decimal

end EightPuzzle

namespace EightPuzzle

/-- The canonical goal grid of side `n` as a row-major list: `1, 2, …, n² - 1, 0`. -/
def goal_list (n : Nat) : List Nat := List.range' 1 (n * n - 1) ++ [0]

end EightPuzzle

namespace EightPuzzle

/-- The Manhattan term of a cell `x` that holds the value `v`, on a board of side `n`. -/
def manhattan_cell (n : Nat) (x : Nat × Nat) (v : Nat) : Nat :=
  if v != 0 then Nat.dist x.1 (goal_pos n v).1 + Nat.dist x.2 (goal_pos n v).2 else 0

/-- The Hamming term of a cell `x` that holds the value `v`, on a board of side `n`. -/
def hamming_cell (n : Nat) (x : Nat × Nat) (v : Nat) : Nat :=
  if x.1 != (expected n v).1 || x.2 != (expected n v).2 then 1 else 0

end EightPuzzle

namespace EightPuzzle

/-! ## Solver -/

/-- Rounding of the quotient `N / D` of two natural numbers (`D > 0`) to the nearest integer,
a tie going to the even one. -/
def round_half_even (N D : Nat) : Nat :=
  if 2 * (N % D) < D then N / D
  else if D < 2 * (N % D) then N / D + 1
  else if (N / D) % 2 = 0 then N / D
  else N / D + 1

/-- Halving `n` until it is below `2`, at most `fuel` times; the number of halvings. -/
def ilog2_loop : Nat → Nat → Nat
  | 0, _ => 0
  | fuel + 1, n => if n < 2 then 0 else ilog2_loop fuel (n / 2) + 1

/-- The position of the leading bit of `n > 0`: the `a` with `2 ^ a ≤ n < 2 ^ (a + 1)`. -/
def ilog2 (n : Nat) : Nat := ilog2_loop n n

/-- The binary exponent of `p / q` for `p, q > 0`: the integer `e` with
`2 ^ e ≤ p / q < 2 ^ (e + 1)`. -/
def binary_exponent (p q : Nat) : Int :=
  if q * 2 ^ ilog2 p ≤ p * 2 ^ ilog2 q then (ilog2 p : Int) - (ilog2 q : Int)
  else (ilog2 p : Int) - (ilog2 q : Int) - 1

/-- The `double` nearest to `p / q` for `p, q > 0`: the quotient is rounded, a tie to even, to a
multiple of `2 ^ (e - 52)`, where `e` is its binary exponent, so that `53` significant bits
remain. -/
def round_double_pos (p q : Nat) : ℚ :=
  if 0 ≤ binary_exponent p q - 52 then
    ((round_half_even p (q * 2 ^ (binary_exponent p q - 52).toNat)
      * 2 ^ (binary_exponent p q - 52).toNat : Nat) : ℚ)
  else
    ((round_half_even (p * 2 ^ (52 - binary_exponent p q).toNat) q : Nat) : ℚ)
      / ((2 ^ (52 - binary_exponent p q).toNat : Nat) : ℚ)

/-- The result of one `double` operation whose exact value is `x`, in the default rounding mode
(to nearest, ties to even). A `double` is a rational number here. The exponent range of `double`
is not part of the model: every product in `heuristic` has a factor that is an integer, and with
`|std::atan| < 2` every value stays below `2 ^ 100`, so that neither underflow nor overflow
occurs. -/
def round_double (x : ℚ) : ℚ :=
  if x = 0 then 0
  else if 0 < x then round_double_pos x.num.toNat x.den
  else -round_double_pos (-x).num.toNat x.den

/-- Conversion of an `unsigned` or `std::size_t` value to `double`. -/
def to_double (n : Nat) : ℚ := round_double (n : ℚ)

/-- The `double` product `x * y`. -/
def double_mul (x y : ℚ) : ℚ := round_double (x * y)

/-- The `double` sum `x + y`. -/
def double_add (x y : ℚ) : ℚ := round_double (x + y)

/-- Conversion of a `double` to `std::size_t`: the fraction is dropped. The conversion is
undefined when the integer part is not a value of `std::size_t`; the model takes the nearest
value of `std::size_t` then. -/
def to_size (x : ℚ) : Nat := min (Rat.floor x).toNat 18446744073709551615

/-- The sum `state.depth + 1` in `std::size_t`. -/
def next_depth (depth : Nat) : Nat := (depth + 1) % 18446744073709551616

/-- The function `heuristic` of `solver.cpp`. `std::atan` at an integer argument is a parameter
`atan`, from the argument to the `double` result. An operand of integer type is converted to
`double`, and each product and each sum is one `double` operation, rounded on its own; the
result is converted to `std::size_t`. The sum `board.manhattan() + depth` is taken in
`std::size_t`. The literals `2.25` and `2.5` are `double` values, `3.34` stands for the `double`
nearest to it. At every call `depth` is a value of `std::size_t`: `0` or a `next_depth`. -/
def heuristic (atan : Nat → ℚ) (board : Board) (depth : Nat) : Nat :=
  if board.size ≤ 3 then
    to_size (double_add (double_mul (atan board.manhattan) (to_double board.manhattan))
      (to_double depth))
  else if board.size = 4 then
    to_size (double_add
      (double_add (double_mul (9 / 4) (to_double board.manhattan)) (to_double board.hamming))
      (to_double depth))
  else if board.size = 5 then
    to_size (double_add
      (double_mul
        (if board.manhattan % 3 = 1 then round_double (167 / 50)
          else double_add (5 / 2) (atan board.manhattan))
        (to_double board.manhattan))
      (to_double board.hamming))
  else
    to_size (double_add
      (double_add
        (double_mul
          (double_add (to_double (board.size / 2))
            (atan ((board.manhattan + depth) % 18446744073709551616)))
          (to_double board.manhattan))
        (to_double board.hamming))
      (to_double depth))

/-- The struct `State` of `solver.cpp`. -/
structure State where
  board : Board
  heuristic_value : Nat
  depth : Nat
deriving DecidableEq

/-- The constructor `State(board, depth)`. -/
def State.new (atan : Nat → ℚ) (board : Board) (depth : Nat) : State :=
  ⟨board, heuristic atan board depth, depth⟩

/-- Model of `std::priority_queue<State, std::vector<State>, decltype(compare)>`, whose code is
not part of the repository: a container with `push` and a combined `top`/`pop` (`none` when the
queue is empty). `contents` lists the states it holds. -/
structure PriorityQueue where
  Q : Type
  contents : Q → List State
  empty : Q
  push : Q → State → Q
  pop : Q → Option (State × Q)

/-- The contract of `std::priority_queue` with the comparison
`a.heuristic_value > b.heuristic_value`: `pop` removes one state of least `heuristic_value`;
which one among equals is left open. -/
structure PriorityQueue.Lawful (P : PriorityQueue) : Prop where
  contents_empty : P.contents P.empty = []
  contents_push : ∀ q s, (P.contents (P.push q s)).Perm (s :: P.contents q)
  pop_none : ∀ q, P.pop q = none ↔ P.contents q = []
  pop_some : ∀ q s q', P.pop q = some (s, q') → (P.contents q).Perm (s :: P.contents q')
  pop_min : ∀ q s q', P.pop q = some (s, q') →
    ∀ t ∈ P.contents q, s.heuristic_value ≤ t.heuristic_value

/-- Removal of the first state of least `heuristic_value` from a list. -/
def list_pop : List State → Option (State × List State)
  | [] => none
  | s :: rest =>
    match list_pop rest with
    | none => some (s, [])
    | some (t, rest') =>
      if s.heuristic_value ≤ t.heuristic_value then some (s, rest) else some (t, s :: rest')

/-- A priority queue kept as a list in insertion order. -/
def list_queue : PriorityQueue where
  Q := List State
  contents := fun q => q
  empty := []
  push := fun q s => q ++ [s]
  pop := list_pop

/-- Model of `std::unordered_map<Board, Move>`: the entries, the newest first. Keys are compared
with `operator==`. -/
abbrev PrevMap := List (Board × Move)

/-- `prev.find(b)`: the move stored for `b`, if any. -/
def prev_find (prev : PrevMap) (b : Board) : Option Move :=
  (prev.find? fun e => e.1.eq b).map Prod.snd

/-- `prev[b]` as a read: the stored move, or the value-initialised `Move` when there is none. -/
def prev_at (prev : PrevMap) (b : Board) : Move :=
  (prev_find prev b).getD ⟨0, 0⟩

/-- The pairs `(di, dj)` in the order of the two `for` loops of `Solver::solve`. -/
def loop_moves : List Move :=
  [-1, 0, 1].flatMap fun di => [-1, 0, 1].map fun dj => ⟨di, dj⟩

/-- The body of the two `for` loops of `Solver::solve` for one `(di, dj)`. -/
def expand_move (P : PriorityQueue) (atan : Nat → ℚ) (state : State)
    (acc : P.Q × PrevMap) (move : Move) : P.Q × PrevMap :=
  if move.di * move.di + move.dj * move.dj != 1 || !state.board.is_valid_move move then acc
  else
    let new_board := state.board.my_move move
    if (prev_find acc.2 new_board).isNone then
      (P.push acc.1 (State.new atan new_board (next_depth state.depth)),
        (new_board, move) :: acc.2)
    else acc

/-- The two `for` loops of `Solver::solve` for a popped state. -/
def expand (P : PriorityQueue) (atan : Nat → ℚ) (state : State) (pq : P.Q) (prev : PrevMap) :
    P.Q × PrevMap :=
  loop_moves.foldl (expand_move P atan state) (pq, prev)

/-- The inner `while (result.back() != initial)` loop of `Solver::solve`; `none` when the fuel
runs out. -/
def reconstruct (initial : Board) (prev : PrevMap) : Nat → List Board → Option (List Board)
  | fuel, result =>
    match result.getLast? with
    | none => none
    | some back =>
      if !(back.eq initial) then
        match fuel with
        | 0 => none
        | fuel + 1 =>
          reconstruct initial prev fuel (result ++ [back.my_move (prev_at prev back).reverse])
      else some result

/-- The `while (!pq.empty())` loop of `Solver::solve`; returns `result` as the loop leaves it,
`none` when the fuel runs out. -/
def search (P : PriorityQueue) (atan : Nat → ℚ) (initial : Board) (rfuel : Nat) :
    Nat → P.Q → PrevMap → Option (List Board)
  | 0, _, _ => none
  | fuel + 1, pq, prev =>
    match P.pop pq with
    | none => some []
    | some (state, pq') =>
      if state.board.is_goal then reconstruct initial prev rfuel [state.board]
      else
        search P atan initial rfuel fuel (expand P atan state pq' prev).1
          (expand P atan state pq' prev).2

/-- The class `Solver::Solution`. -/
structure Solution where
  m_moves : List Board
deriving DecidableEq

/-- `Solution::moves`. -/
def Solution.moves (s : Solution) : Nat :=
  if s.m_moves.isEmpty then 0 else s.m_moves.length - 1

/-- `Solver::solve`; `none` when a loop runs out of fuel. -/
def solve (P : PriorityQueue) (atan : Nat → ℚ) (fuel : Nat) (initial : Board) : Option Solution :=
  if !initial.is_solvable then some ⟨[]⟩
  else if initial.size ≤ 1 || initial.is_goal then some ⟨[initial]⟩
  else
    (search P atan initial fuel fuel (P.push P.empty (State.new atan initial 0)) []).map
      fun result => ⟨result.reverse⟩

end EightPuzzle

namespace EightPuzzle

/-! ## Notions for the search -/

/-- A valid board of side `n`: a board constructed from a valid grid of side `n`. -/
def ValidBoard (n : Nat) (b : Board) : Prop :=
  ∃ data, ValidGrid n data ∧ b = Board.fromData data

/-- One legal unit move leads from `a` to `c`. -/
def Step (a c : Board) : Prop :=
  ∃ m : Move, m.is_unit ∧ a.is_valid_move m = true ∧ a.my_move m = c

/-- The board is the initial board or has an entry in the predecessor map. -/
def Known (initial : Board) (prev : PrevMap) (b : Board) : Prop :=
  b = initial ∨ ∃ m, (b, m) ∈ prev

/-- The entries of the predecessor map record legal unit moves between valid, known boards. -/
def PrevOk (n : Nat) (initial : Board) (prev : PrevMap) : Prop :=
  ∀ e ∈ prev, ValidBoard n e.1 ∧ e.2.is_unit ∧
    ∃ a, ValidBoard n a ∧ Known initial prev a ∧ a.is_valid_move e.2 = true ∧ a.my_move e.2 = e.1

/-- Loop invariant of the `while (!pq.empty())` loop of `Solver::solve`. -/
def SearchInv (P : PriorityQueue) (n : Nat) (initial : Board) (pq : P.Q) (prev : PrevMap) :
    Prop :=
  (∀ s ∈ P.contents pq, ValidBoard n s.board ∧ Known initial prev s.board) ∧
    PrevOk n initial prev

/-- Loop invariant of the path reconstruction: `result` starts at a goal board, every board is
valid and known, and each board is one legal move after its successor in `result`. -/
def PathInv (n : Nat) (initial : Board) (prev : PrevMap) (result : List Board) : Prop :=
  (∃ g, result.head? = some g ∧ g.is_goal = true) ∧
    (∀ r ∈ result, ValidBoard n r ∧ Known initial prev r) ∧
    List.Chain' (fun c a => Step a c) result

/-- State of the two `for` loops of `Solver::solve` after the moves `ms` have been handled,
started from the queue `pq` and the map `prev`. -/
def ExpandInv (P : PriorityQueue) (atan : Nat → ℚ) (state : State) (pq : P.Q) (prev : PrevMap)
    (ms : List Move) (acc : P.Q × PrevMap) : Prop :=
  (∀ e ∈ acc.2, e ∈ prev ∨
    (e.2.is_unit ∧ state.board.is_valid_move e.2 = true ∧ e.1 = state.board.my_move e.2 ∧
      State.new atan e.1 (next_depth state.depth) ∈ P.contents acc.1)) ∧
  (∀ s ∈ P.contents acc.1, s ∈ P.contents pq ∨
    ∃ m : Move, m.is_unit ∧ state.board.is_valid_move m = true ∧
      s = State.new atan (state.board.my_move m) (next_depth state.depth)) ∧
  (∀ e ∈ prev, e ∈ acc.2) ∧ (∀ s ∈ P.contents pq, s ∈ P.contents acc.1) ∧
  (∀ m ∈ ms, m.is_unit → state.board.is_valid_move m = true →
    (prev_find acc.2 (state.board.my_move m)).isSome = true)

end EightPuzzle

namespace EightPuzzle

/-! ## Notions for the reachability of the goal board -/

/-- The board `c` is reached from the board `a` by a sequence of legal unit moves. -/
def Reach (a c : Board) : Prop := Relation.ReflTransGen Step a c

/-- The cell with index `i` on the boustrophedon path through a grid of side `n`: the rows from
top to bottom, the even rows from left to right and the odd rows from right to left. -/
def snake_cell (n i : Nat) : Nat × Nat :=
  (i / n, if (i / n) % 2 = 0 then i % n else n - 1 - i % n)

/-- The cells of a grid of side `n` along the boustrophedon path. -/
def snake (n : Nat) : List (Nat × Nat) := (List.range (n * n)).map (snake_cell n)

/-- The tiles of a grid read along the boustrophedon path, the blank skipped. -/
def snake_tiles (n : Nat) (data : List (List Nat)) : List Nat :=
  ((snake n).map fun p => at2 data p.1 p.2).filter fun v => v != 0

/-- The effect of a vertical move between the rows `r` and `r + 1` on the tiles read along the
boustrophedon path: one tile jumps over the `2 * d` tiles between the two cells. -/
def Jump (n : Nat) (s t : List Nat) : Prop :=
  ∃ (r d : Nat) (A W B : List Nat) (x : Nat), r + 1 < n ∧ d < n ∧
    A.length = r * n + (n - 1 - d) ∧ W.length = 2 * d ∧
    s = A ++ W ++ [x] ++ B ∧ t = A ++ [x] ++ W ++ B

/-- The value of the cell with index `i` on the boustrophedon path. -/
def snake_val (n : Nat) (data : List (List Nat)) (i : Nat) : Nat :=
  at2 data (snake_cell n i).1 (snake_cell n i).2

/-- The cells `p` and `q` are neighbours in a row or in a column. -/
def adjacent (p q : Nat × Nat) : Prop :=
  (q.1 = p.1 ∧ (q.2 = p.2 + 1 ∨ p.2 = q.2 + 1)) ∨ (q.2 = p.2 ∧ (q.1 = p.1 + 1 ∨ p.1 = q.1 + 1))

/-- The goal grid with the tiles `1` and `2` exchanged. -/
def second_goal (n : Nat) : List (List Nat) :=
  swap_cells (grid_of_list n (goal_list n)) (0, 0) (0, 1)

/-- The list with its first two entries exchanged. -/
def swap_first_two : List Nat → List Nat
  | a :: b :: T => b :: a :: T
  | T => T

end EightPuzzle

namespace EightPuzzle

/-! ## Notions for the termination of the search -/

/-- The boards built from all arrangements of `0 .. n² - 1` in a grid of side `n`. -/
def all_boards (n : Nat) : List Board :=
  (List.range (n * n)).permutations.map fun l => Board.fromData (grid_of_list n l)

/-- Number of boards of side `n` that have no entry in the predecessor map. -/
def unkeyed (n : Nat) (prev : PrevMap) : Nat :=
  (all_boards n).countP fun b => (prev_find prev b).isNone

/-- The entries of the predecessor map in the order of their insertion: each entry has a new key,
and records a legal unit move from a board that was known before. -/
def PrevChain (n : Nat) (initial : Board) : PrevMap → Prop
  | [] => True
  | e :: rest =>
    (ValidBoard n e.1 ∧ e.2.is_unit ∧ prev_find rest e.1 = none ∧
      ∃ a, ValidBoard n a ∧ Known initial rest a ∧ a.is_valid_move e.2 = true ∧
        a.my_move e.2 = e.1) ∧
    PrevChain n initial rest

/-- The known board `b` is still in the queue, or it was expanded: it is not a goal board and
all its neighbours are known. -/
def Settled (P : PriorityQueue) (initial : Board) (pq : P.Q) (prev : PrevMap) (b : Board) :
    Prop :=
  (∃ s ∈ P.contents pq, s.board = b) ∨
    (b.is_goal = false ∧
      ∀ m : Move, m.is_unit → b.is_valid_move m = true → Known initial prev (b.my_move m))

/-- Loop invariant of the `while (!pq.empty())` loop of `Solver::solve` for its termination and
its completeness. -/
def RunInv (P : PriorityQueue) (n : Nat) (initial : Board) (pq : P.Q) (prev : PrevMap) : Prop :=
  (∀ s ∈ P.contents pq, ValidBoard n s.board ∧ Known initial prev s.board) ∧
    PrevChain n initial prev ∧
    (∀ b, ValidBoard n b → Known initial prev b → Settled P initial pq prev b) ∧
    prev.length + unkeyed n prev ≤ (all_boards n).length

/-- Invariant of the two `for` loops of `Solver::solve` while the board `b0` is expanded; `M`
bounds the size of the queue plus the number of boards without an entry. -/
def ExpandRun (P : PriorityQueue) (n : Nat) (initial b0 : Board) (M : Nat)
    (acc : P.Q × PrevMap) : Prop :=
  (∀ s ∈ P.contents acc.1, ValidBoard n s.board ∧ Known initial acc.2 s.board) ∧
    PrevChain n initial acc.2 ∧
    (∀ b, ValidBoard n b → Known initial acc.2 b → b = b0 ∨ Settled P initial acc.1 acc.2 b) ∧
    acc.2.length + unkeyed n acc.2 ≤ (all_boards n).length ∧
    (P.contents acc.1).length + unkeyed n acc.2 ≤ M ∧
    Known initial acc.2 b0

end EightPuzzle

namespace EightPuzzle

/-! ## Reference notions for the later properties -/

/-- The number of index pairs `p < q` of a list with `arr[p] > arr[q]`, counted pair by pair. -/
def inversion_pairs (arr : List Nat) : Nat :=
  ((List.range arr.length).map fun p =>
    (List.range arr.length).countP fun q =>
      decide (p < q) && decide (arr.getD q 0 < arr.getD p 0)).sum

/-- A grid of side `65536`: the cell at row-major position `q` holds `(q + 2) mod 2 ^ 32`, so no
cell holds the value whose place it is, the blank included. -/
def shifted_grid : List (List Nat) :=
  grid_of_list 65536 ((List.range (65536 * 65536)).rotate 2)

/-- The boards obtained through the public interface of `Board`: the default constructor, the
constructors from a grid, `create_goal` and `my_move`. -/
inductive Constructed : Board → Prop
  | default : Constructed Board.default
  | data (d : List (List Nat)) : Constructed (Board.fromData d)
  | goal (size : Nat) : Constructed (Board.create_goal size)
  | move (b : Board) (m : Move) : Constructed b → Constructed (b.my_move m)

/-! ## The search with a record of the pushes -/

/-- The body of the two `for` loops of `Solver::solve` for one `(di, dj)`, as `expand_move`, with
a third component that records the boards passed to `pq.emplace`. -/
def expand_move_log (P : PriorityQueue) (atan : Nat → ℚ) (state : State)
    (acc : P.Q × PrevMap × List Board) (move : Move) : P.Q × PrevMap × List Board :=
  if move.di * move.di + move.dj * move.dj != 1 || !state.board.is_valid_move move then acc
  else
    let new_board := state.board.my_move move
    if (prev_find acc.2.1 new_board).isNone then
      (P.push acc.1 (State.new atan new_board (next_depth state.depth)),
        (new_board, move) :: acc.2.1, acc.2.2 ++ [new_board])
    else acc

/-- The `while (!pq.empty())` loop of `Solver::solve`, as `search`, with the record of the boards
pushed so far; returns `result` and the record. -/
def search_log (P : PriorityQueue) (atan : Nat → ℚ) (initial : Board) (rfuel : Nat) :
    Nat → P.Q → PrevMap → List Board → Option (List Board × List Board)
  | 0, _, _, _ => none
  | fuel + 1, pq, prev, log =>
    match P.pop pq with
    | none => some ([], log)
    | some (state, pq') =>
      if state.board.is_goal then
        (reconstruct initial prev rfuel [state.board]).map fun result => (result, log)
      else
        search_log P atan initial rfuel fuel
          (loop_moves.foldl (expand_move_log P atan state) (pq', prev, log)).1
          (loop_moves.foldl (expand_move_log P atan state) (pq', prev, log)).2.1
          (loop_moves.foldl (expand_move_log P atan state) (pq', prev, log)).2.2

/-- The boards pushed onto the queue by the main loop of `Solver::solve` on `initial`, in the
order of the pushes, the seed push `pq.push(State(initial, 0))` first. -/
def pushed_boards (P : PriorityQueue) (atan : Nat → ℚ) (fuel : Nat) (initial : Board) :
    Option (List Board) :=
  (search_log P atan initial fuel fuel (P.push P.empty (State.new atan initial 0)) []
    [initial]).map Prod.snd

end EightPuzzle

namespace EightPuzzle

/-! ## Arithmetic of `u32` -/

theorem u32_lt (x : Nat) : u32 x < 4294967296 := Nat.mod_lt _ (by decide)

theorem u32_of_lt {x : Nat} (h : x < 4294967296) : u32 x = x := Nat.mod_eq_of_lt h

theorem u32_u32 (x : Nat) : u32 (u32 x) = u32 x := by simp [u32]

theorem u32_add_left (a b : Nat) : u32 (u32 a + b) = u32 (a + b) := by simp [u32]

theorem u32_add_right (a b : Nat) : u32 (a + u32 b) = u32 (a + b) := by simp [u32]

theorem u32_zero : u32 0 = 0 := rfl

theorem u32_mod_two (x : Nat) : u32 x % 2 = x % 2 := by
  unfold u32
  omega

/-! ## Inversions: algebra -/

theorem cross_inversions_nil_left (R : List Nat) : cross_inversions [] R = 0 := rfl

theorem cross_inversions_nil_right (L : List Nat) : cross_inversions L [] = 0 := by
  induction L with
  | nil => rfl
  | cons x L ih => simp [cross_inversions]

theorem cross_inversions_cons_left (x : Nat) (L R : List Nat) :
    cross_inversions (x :: L) R = R.countP (fun y => decide (y < x)) + cross_inversions L R := by
  simp [cross_inversions]

theorem cross_inversions_cons_right (y : Nat) (L R : List Nat) :
    cross_inversions L (y :: R) = L.countP (fun x => decide (y < x)) + cross_inversions L R := by
  induction L with
  | nil => rfl
  | cons x L ih =>
    rw [cross_inversions_cons_left, cross_inversions_cons_left, ih]
    by_cases h : y < x <;> simp [List.countP_cons, h] <;> omega

theorem inversions_append (L R : List Nat) :
    inversions (L ++ R) = inversions L + cross_inversions L R + inversions R := by
  induction L with
  | nil => simp [inversions, cross_inversions]
  | cons x L ih =>
    rw [List.cons_append, inversions, ih, inversions, cross_inversions_cons_left,
      List.countP_append]
    omega

theorem cross_inversions_perm {L L' R R' : List Nat} (hL : L.Perm L') (hR : R.Perm R') :
    cross_inversions L R = cross_inversions L' R' := by
  have h1 : cross_inversions L R = cross_inversions L R' := by
    unfold cross_inversions
    congr 1
    apply List.map_congr_left
    intro x _
    exact hR.countP_eq _
  rw [h1]
  unfold cross_inversions
  exact (hL.map _).sum_eq

theorem inversions_of_sorted {l : List Nat} (h : l.Sorted (· ≤ ·)) : inversions l = 0 := by
  induction l with
  | nil => rfl
  | cons x xs ih =>
    rw [List.sorted_cons] at h
    simp only [inversions, ih h.2, Nat.add_zero, List.countP_eq_zero, decide_eq_true_eq]
    intro y hy
    have := h.1 y hy
    omega

end EightPuzzle

namespace EightPuzzle

/-! ## Vectors split around an index -/

theorem getD_mid {α : Type} (X Y : List α) (x d : α) (i : Nat) (h : X.length = i) :
    (X ++ x :: Y).getD i d = x := by
  subst h
  induction X with
  | nil => rfl
  | cons a X ih => simpa using ih

theorem set_mid {α : Type} (X Y : List α) (x v : α) (i : Nat) (h : X.length = i) :
    (X ++ x :: Y).set i v = X ++ v :: Y := by
  subst h
  simp

/-! ## The loops of `Board::merge` -/

theorem merge_loop2_spec (arr : List Nat) (mid : Nat) (S : List Nat) :
    ∀ (fuel : Nat) (temp : List Nat) (i k : Nat) (X Y A B : List Nat),
      arr = X ++ S ++ Y → X.length = i → i + S.length = mid →
      temp = A ++ B → A.length = k → S.length ≤ B.length → S.length ≤ fuel →
      merge_loop2 arr mid fuel temp i k = (A ++ S ++ B.drop S.length, k + S.length) := by
  induction S with
  | nil =>
    intro fuel temp i k X Y A B _ _ hm ht _ _ _
    have : ¬ (i + 1 ≤ mid) := by simp at hm; omega
    cases fuel <;> simp [merge_loop2, this, ht]
  | cons x S ih =>
    intro fuel temp i k X Y A B ha hX hm ht hA hB hf
    obtain ⟨fuel, rfl⟩ : ∃ f, fuel = f + 1 := ⟨fuel - 1, by simp at hf; omega⟩
    obtain ⟨b, B, rfl⟩ : ∃ b B', B = b :: B' := by
      cases B with
      | nil => simp at hB
      | cons b B' => exact ⟨b, B', rfl⟩
    have hc : i + 1 ≤ mid := by simp at hm; omega
    have hx : arr.getD i 0 = x := by
      rw [ha, List.append_assoc, List.cons_append]; exact getD_mid _ _ _ _ _ hX
    have hs : temp.set k x = (A ++ [x]) ++ B := by
      rw [ht, set_mid _ _ _ _ _ hA]; simp
    rw [merge_loop2, if_pos hc, hx,
      ih fuel _ (i + 1) (k + 1) (X ++ [x]) Y (A ++ [x]) B (by simp [ha]) (by simp [hX])
        (by simp at hm ⊢; omega) hs (by simp [hA]) (by simp at hB; omega) (by simp at hf; omega)]
    simp
    omega

theorem merge_loop3_spec (arr : List Nat) (right : Nat) (S : List Nat) :
    ∀ (fuel : Nat) (temp : List Nat) (j k : Nat) (X Y A B : List Nat),
      arr = X ++ S ++ Y → X.length = j → j + S.length = right + 1 →
      temp = A ++ B → A.length = k → S.length ≤ B.length → S.length ≤ fuel →
      merge_loop3 arr right fuel temp j k = (A ++ S ++ B.drop S.length, k + S.length) := by
  induction S with
  | nil =>
    intro fuel temp j k X Y A B _ _ hm ht _ _ _
    have : ¬ (j ≤ right) := by simp at hm; omega
    cases fuel <;> simp [merge_loop3, this, ht]
  | cons x S ih =>
    intro fuel temp j k X Y A B ha hX hm ht hA hB hf
    obtain ⟨fuel, rfl⟩ : ∃ f, fuel = f + 1 := ⟨fuel - 1, by simp at hf; omega⟩
    obtain ⟨b, B, rfl⟩ : ∃ b B', B = b :: B' := by
      cases B with
      | nil => simp at hB
      | cons b B' => exact ⟨b, B', rfl⟩
    have hc : j ≤ right := by simp at hm; omega
    have hx : arr.getD j 0 = x := by
      rw [ha, List.append_assoc, List.cons_append]; exact getD_mid _ _ _ _ _ hX
    have hs : temp.set k x = (A ++ [x]) ++ B := by
      rw [ht, set_mid _ _ _ _ _ hA]; simp
    rw [merge_loop3, if_pos hc, hx,
      ih fuel _ (j + 1) (k + 1) (X ++ [x]) Y (A ++ [x]) B (by simp [ha]) (by simp [hX])
        (by simp at hm ⊢; omega) hs (by simp [hA]) (by simp at hB; omega) (by simp at hf; omega)]
    simp
    omega

end EightPuzzle

namespace EightPuzzle

theorem merge_loops_spec (arr : List Nat) (mid right : Nat) :
    ∀ (fuel f2 f3 : Nat) (temp : List Nat) (i j k count c0 : Nat) (X L Z R Y A B : List Nat),
      arr = X ++ L ++ Z ++ R ++ Y → X.length = i → i + L.length = mid →
      mid + Z.length = j → j + R.length = right + 1 →
      temp = A ++ B → A.length = k → L.length + R.length ≤ B.length →
      L.length + R.length ≤ fuel → L.length ≤ f2 → R.length ≤ f3 →
      L.Sorted (· ≤ ·) → R.Sorted (· ≤ ·) → count = u32 c0 →
      (merge_loop3 arr right f3
          (merge_loop2 arr mid f2 (merge_loop1 arr mid right fuel temp i j k count).1
            (merge_loop1 arr mid right fuel temp i j k count).2.1
            (merge_loop1 arr mid right fuel temp i j k count).2.2.2.1).1
          (merge_loop1 arr mid right fuel temp i j k count).2.2.1
          (merge_loop2 arr mid f2 (merge_loop1 arr mid right fuel temp i j k count).1
            (merge_loop1 arr mid right fuel temp i j k count).2.1
            (merge_loop1 arr mid right fuel temp i j k count).2.2.2.1).2).1
        = A ++ List.merge L R le_unsigned ++ B.drop (L.length + R.length) ∧
      (merge_loop1 arr mid right fuel temp i j k count).2.2.2.2
        = u32 (c0 + cross_inversions L R) := by
  intro fuel
  induction fuel with
  | zero =>
    intro f2 f3 temp i j k count c0 X L Z R Y A B ha hX hL hZ hR ht hA hB hf hf2 hf3 _ _ hc
    have hL0 : L = [] := List.length_eq_zero.mp (by omega)
    have hR0 : R = [] := List.length_eq_zero.mp (by omega)
    subst hL0 hR0
    simp only [merge_loop1]
    rw [merge_loop2_spec arr mid [] f2 temp i k X (Z ++ Y) A B (by simp [ha]) hX hL ht hA
      (by simp) (by simp)]
    rw [merge_loop3_spec arr right [] f3 _ j _ (X ++ Z) Y (A ++ []) (B.drop 0) (by simp [ha])
      (by simp at hL hZ ⊢; omega) hR (by simp) (by simp [hA]) (by simp) (by simp)]
    simp [cross_inversions, hc]
  | succ fuel ih =>
    intro f2 f3 temp i j k count c0 X L Z R Y A B ha hX hL hZ hR ht hA hB hf hf2 hf3 hLs hRs hc
    cases L with
    | nil =>
      have hcond : ¬ (i + 1 ≤ mid ∧ j ≤ right) := by simp at hL; omega
      simp only [merge_loop1, if_neg hcond]
      rw [merge_loop2_spec arr mid [] f2 temp i k X (Z ++ R ++ Y) A B (by simp [ha]) hX hL ht hA
        (by simp) (by simp)]
      rw [merge_loop3_spec arr right R f3 _ j _ (X ++ Z) Y (A ++ []) (B.drop 0) (by simp [ha])
        (by simp at hL hZ ⊢; omega) hR (by simp) (by simp [hA]) (by simpa using hB) hf3]
      simp [cross_inversions, hc]
    | cons x L =>
      cases R with
      | nil =>
        have hcond : ¬ (i + 1 ≤ mid ∧ j ≤ right) := by simp at hR; omega
        simp only [merge_loop1, if_neg hcond]
        rw [merge_loop2_spec arr mid (x :: L) f2 temp i k X (Z ++ Y) A B (by simp [ha]) hX hL ht hA
          (by simpa using hB) hf2]
        rw [merge_loop3_spec arr right [] f3 _ j _ (X ++ x :: L ++ Z) Y (A ++ x :: L)
          (B.drop (x :: L).length) (by simp [ha])
          (by simp at hL hZ ⊢; omega) hR (by simp) (by simp [hA]) (by simp) (by simp)]
        simp [cross_inversions_nil_right, hc]
      | cons y R =>
        have hcond : i + 1 ≤ mid ∧ j ≤ right := by simp at hL hR; omega
        have hx : arr.getD i 0 = x := by
          rw [ha]; simp only [List.append_assoc, List.cons_append]
          exact getD_mid _ _ _ _ _ hX
        have hy : arr.getD j 0 = y := by
          have : arr = (X ++ x :: L ++ Z) ++ y :: (R ++ Y) := by simp [ha]
          rw [this]
          exact getD_mid _ _ _ _ _ (by simp at hL hZ ⊢; omega)
        obtain ⟨b, B, rfl⟩ : ∃ b B', B = b :: B' := by
          cases B with
          | nil => simp at hB
          | cons b B' => exact ⟨b, B', rfl⟩
        rw [List.sorted_cons] at hLs hRs
        simp only [merge_loop1, if_pos hcond, hx, hy]
        by_cases hxy : x ≤ y
        · simp only [if_pos hxy]
          have hs : temp.set k x = (A ++ [x]) ++ B := by
            rw [ht, set_mid _ _ _ _ _ hA]; simp
          have h := ih f2 f3 (temp.set k x) (i + 1) j (k + 1) count c0 (X ++ [x]) L Z (y :: R) Y
            (A ++ [x]) B (by simp [ha]) (by simp [hX]) (by simp at hL ⊢; omega) hZ hR hs
            (by simp [hA]) (by simp at hB ⊢; omega) (by simp at hf ⊢; omega)
            (by simp at hf2; omega) hf3 hLs.2 (List.sorted_cons.mpr hRs) hc
          refine ⟨?_, ?_⟩
          · rw [h.1, List.cons_merge_cons_pos _ _ _ (by simpa [le_unsigned] using hxy)]
            simp only [List.append_assoc, List.singleton_append, List.length_cons, List.cons_append,
              List.append_cancel_left_eq, List.cons.injEq, true_and]
            rw [show L.length + 1 + (R.length + 1) = (L.length + (R.length + 1)) + 1 by omega,
              List.drop_succ_cons, List.nil_append]
          · rw [h.2, cross_inversions_cons_left]
            have : (y :: R).countP (fun z => decide (z < x)) = 0 := by
              rw [List.countP_eq_zero]
              intro z hz
              simp only [decide_eq_true_eq, not_lt]
              rcases List.mem_cons.mp hz with rfl | hz
              · exact hxy
              · exact le_trans hxy (hRs.1 z hz)
            rw [this, Nat.zero_add]
        · simp only [if_neg hxy]
          have hs : temp.set k y = (A ++ [y]) ++ B := by
            rw [ht, set_mid _ _ _ _ _ hA]; simp
          have h := ih f2 f3 (temp.set k y) i (j + 1) (k + 1) (u32 (count + (mid - i)))
            (c0 + (mid - i)) X (x :: L) (Z ++ [y]) R Y
            (A ++ [y]) B (by simp [ha]) hX hL (by simp at hZ ⊢; omega)
            (by simp at hR ⊢; omega) hs
            (by simp [hA]) (by simp at hB ⊢; omega) (by simp at hf ⊢; omega)
            hf2 (by simp at hf3; omega) (List.sorted_cons.mpr hLs) hRs.2
            (by rw [hc, u32_add_left])
          refine ⟨?_, ?_⟩
          · rw [h.1, List.cons_merge_cons_neg _ _ _ (by simpa [le_unsigned] using hxy)]
            simp only [List.append_assoc, List.singleton_append, List.length_cons, List.cons_append,
              List.append_cancel_left_eq, List.cons.injEq, true_and]
            rw [show L.length + 1 + (R.length + 1) = (L.length + 1 + R.length) + 1 by omega,
              List.drop_succ_cons, List.nil_append]
          · rw [h.2, cross_inversions_cons_right]
            have : (x :: L).countP (fun z => decide (y < z)) = mid - i := by
              have hall : (x :: L).countP (fun z => decide (y < z)) = (x :: L).length := by
                rw [List.countP_eq_length]
                intro z hz
                simp only [decide_eq_true_eq]
                rcases List.mem_cons.mp hz with rfl | hz
                · omega
                · have := hLs.1 z hz
                  omega
              rw [hall]
              simp at hL ⊢
              omega
            rw [this]
            congr 1
            omega

end EightPuzzle

namespace EightPuzzle

theorem take_succ_eq {α : Type} (M : List α) (d : Nat) (h : d < M.length) :
    M.take (d + 1) = M.take d ++ [M[d]] := by
  rw [List.take_succ, List.getElem?_eq_getElem h]
  rfl

theorem split_at_index {α : Type} (M : List α) (d : Nat) (h : d < M.length) :
    M = M.take d ++ M[d] :: M.drop (d + 1) := by
  rw [← List.drop_eq_getElem_cons h, List.take_append_drop]

theorem append_split_at_index {α : Type} (M C : List α) (d : Nat) (h : d < M.length) :
    M ++ C = M.take d ++ M[d] :: (M.drop (d + 1) ++ C) := by
  have h1 := congrArg (fun l => l ++ C) (split_at_index M d h)
  simp only [List.append_assoc, List.cons_append] at h1
  exact h1

theorem merge_copy_spec (arr temp X S Y A M C : List Nat) (left right : Nat)
    (ha : arr = X ++ S ++ Y) (ht : temp = A ++ M ++ C) (hX : X.length = left)
    (hA : A.length = left) (hS : S.length = right + 1 - left) (hM : M.length = right + 1 - left) :
    merge_copy temp left right arr = X ++ M ++ Y := by
  have key : ∀ d, d ≤ right + 1 - left →
      (List.range d).foldl (fun a d => a.set (left + d) (temp.getD (left + d) 0)) arr
        = X ++ M.take d ++ S.drop d ++ Y := by
    intro d
    induction d with
    | zero => intro _; simp [ha]
    | succ d ih =>
      intro hd
      have hdS : d < S.length := by omega
      have hdM : d < M.length := by omega
      rw [List.range_succ, List.foldl_append, ih (by omega)]
      simp only [List.foldl_cons, List.foldl_nil]
      have hg : temp.getD (left + d) 0 = M[d] := by
        have : temp = (A ++ M.take d) ++ M[d] :: (M.drop (d + 1) ++ C) := by
          rw [ht, List.append_assoc, List.append_assoc]
          congr 1
          exact append_split_at_index M C d hdM
        rw [this]
        exact getD_mid _ _ _ _ _ (by simp [hA]; omega)
      have hs : X ++ M.take d ++ S.drop d ++ Y
          = (X ++ M.take d) ++ S[d] :: (S.drop (d + 1) ++ Y) := by
        rw [List.drop_eq_getElem_cons hdS]
        simp only [List.append_assoc, List.cons_append]
      rw [hs, set_mid _ _ _ _ _ (by simp [hX]; omega), hg, take_succ_eq M d hdM]
      simp only [List.append_assoc, List.cons_append, List.nil_append]
  unfold merge_copy
  rw [key _ (le_refl _)]
  have h1 : M.take (right + 1 - left) = M := by rw [← hM, List.take_length]
  have h2 : S.drop (right + 1 - left) = [] := by rw [← hS, List.drop_length]
  rw [h1, h2]
  simp

theorem merge_spec (arr temp X L R Y A B C : List Nat) (left mid right : Nat)
    (ha : arr = X ++ L ++ R ++ Y) (ht : temp = A ++ B ++ C) (hX : X.length = left)
    (hL : left + L.length = mid) (hR : mid + R.length = right + 1) (hA : A.length = left)
    (hB : B.length = L.length + R.length)
    (hLs : L.Sorted (· ≤ ·)) (hRs : R.Sorted (· ≤ ·)) :
    merge arr temp left mid right
      = (X ++ List.merge L R le_unsigned ++ Y, A ++ List.merge L R le_unsigned ++ C,
          u32 (cross_inversions L R)) := by
  have hlen : (List.merge L R le_unsigned).length = L.length + R.length := by
    rw [(List.merge_perm_append le_unsigned).length_eq, List.length_append]
  have h := merge_loops_spec arr mid right (right + 1 - left) (right + 1 - left)
    (right + 1 - left) temp left mid left 0 0 X L [] R Y A (B ++ C) (by simp [ha]) hX hL
    (by simp) hR (by simp [ht]) hA (by simp [hB]) (by omega) (by omega) (by omega) hLs hRs rfl
  have hdrop : (B ++ C).drop (L.length + R.length) = C := by
    rw [← hB]; simp
  rw [hdrop] at h
  unfold merge
  simp only
  rw [h.1, h.2, Nat.zero_add]
  rw [merge_copy_spec arr _ X (L ++ R) Y A (List.merge L R le_unsigned) C left right
    (by simp [ha]) rfl hX hA (by simp; omega) (by rw [hlen]; omega)]

end EightPuzzle

namespace EightPuzzle

theorem sorted_merge_le {L R : List Nat} (hL : L.Sorted (· ≤ ·)) (hR : R.Sorted (· ≤ ·)) :
    (List.merge L R le_unsigned).Sorted (· ≤ ·) := by
  have h := @List.sorted_merge Nat le_unsigned
    (by intro a b c; simp only [le_unsigned, decide_eq_true_eq]; exact le_trans)
    (by intro a b; simp only [le_unsigned, Bool.or_eq_true, decide_eq_true_eq]; exact le_total a b)
    L R (by simpa [List.Sorted, le_unsigned] using hL) (by simpa [List.Sorted, le_unsigned] using hR)
  simpa [List.Sorted, le_unsigned] using h

theorem inversions_short {S : List Nat} (h : S.length ≤ 1) : inversions S = 0 := by
  match S, h with
  | [], _ => rfl
  | [_], _ => rfl

theorem sorted_short {S : List Nat} (h : S.length ≤ 1) : S.Sorted (· ≤ ·) := by
  match S, h with
  | [], _ => exact List.sorted_nil
  | [_], _ => exact List.sorted_singleton _

theorem merge_sort_go_spec :
    ∀ (fuel : Nat) (arr temp : List Nat) (left right : Nat) (X S Y A B C : List Nat),
      arr = X ++ S ++ Y → temp = A ++ B ++ C → X.length = left → A.length = left →
      left + S.length = right + 1 → B.length = S.length → S.length ≤ fuel →
      ∃ S' B', merge_sort_go fuel arr temp left right
          = (X ++ S' ++ Y, A ++ B' ++ C, u32 (inversions S)) ∧
        S'.Sorted (· ≤ ·) ∧ S'.Perm S ∧ B'.length = S.length := by
  intro fuel
  induction fuel with
  | zero =>
    intro arr temp left right X S Y A B C ha ht _ _ _ hB hf
    have hS : S = [] := List.length_eq_zero.mp (by omega)
    subst hS
    exact ⟨[], B, by simp [merge_sort_go, ha, ht, inversions, u32], List.sorted_nil,
      List.Perm.refl _, hB⟩
  | succ fuel ih =>
    intro arr temp left right X S Y A B C ha ht hX hA hlen hB hf
    by_cases hgt : right > left
    · have hmid1 : left ≤ (left + right) / 2 := by omega
      have hmid2 : (left + right) / 2 < right := by omega
      obtain ⟨S1', B1', e1, hs1, hp1, hb1⟩ := ih arr temp left ((left + right) / 2) X
        (S.take ((left + right) / 2 + 1 - left)) (S.drop ((left + right) / 2 + 1 - left) ++ Y)
        A (B.take ((left + right) / 2 + 1 - left)) (B.drop ((left + right) / 2 + 1 - left) ++ C)
        (by rw [ha]; simp only [List.append_assoc]; rw [← List.append_assoc (S.take _),
          List.take_append_drop])
        (by rw [ht]; simp only [List.append_assoc]; rw [← List.append_assoc (B.take _),
          List.take_append_drop])
        hX hA (by rw [List.length_take]; omega)
        (by rw [List.length_take, List.length_take]; omega)
        (by rw [List.length_take]; omega)
      obtain ⟨S2', B2', e2, hs2, hp2, hb2⟩ := ih (X ++ S1' ++ (S.drop ((left + right) / 2 + 1 - left) ++ Y))
        (A ++ B1' ++ (B.drop ((left + right) / 2 + 1 - left) ++ C)) ((left + right) / 2 + 1) right
        (X ++ S1') (S.drop ((left + right) / 2 + 1 - left)) Y
        (A ++ B1') (B.drop ((left + right) / 2 + 1 - left)) C
        (by simp only [List.append_assoc]) (by simp only [List.append_assoc])
        (by rw [List.length_append, hp1.length_eq, List.length_take]; omega)
        (by rw [List.length_append, hb1, List.length_take]; omega)
        (by rw [List.length_drop]; omega)
        (by rw [List.length_drop, List.length_drop]; omega)
        (by rw [List.length_drop]; omega)
      have e3 := merge_spec (X ++ S1' ++ S2' ++ Y) (A ++ B1' ++ B2' ++ C) X S1' S2' Y A
        (B1' ++ B2') C left ((left + right) / 2 + 1) right rfl (by simp only [List.append_assoc])
        hX (by rw [hp1.length_eq, List.length_take]; omega)
        (by rw [hp2.length_eq, List.length_drop]; omega) hA
        (by rw [List.length_append, hb1, hb2, hp1.length_eq, hp2.length_eq]) hs1 hs2
      refine ⟨List.merge S1' S2' le_unsigned, List.merge S1' S2' le_unsigned, ?_,
        sorted_merge_le hs1 hs2, ?_, ?_⟩
      · rw [merge_sort_go, if_pos hgt]
        simp only [e1, e2, e3]
        congr 2
        have hinv : inversions S = inversions (S.take ((left + right) / 2 + 1 - left))
            + cross_inversions S1' S2' + inversions (S.drop ((left + right) / 2 + 1 - left)) := by
          conv_lhs => rw [← List.take_append_drop ((left + right) / 2 + 1 - left) S]
          rw [inversions_append, cross_inversions_perm hp1 hp2]
        rw [hinv]
        simp only [u32]
        omega
      · refine (List.merge_perm_append le_unsigned).trans ?_
        conv_rhs => rw [← List.take_append_drop ((left + right) / 2 + 1 - left) S]
        exact hp1.append hp2
      · rw [(List.merge_perm_append le_unsigned).length_eq, List.length_append, hp1.length_eq,
          hp2.length_eq, ← List.length_append, List.take_append_drop]
    · have hS1 : S.length ≤ 1 := by omega
      refine ⟨S, B, ?_, sorted_short hS1, List.Perm.refl _, hB⟩
      rw [merge_sort_go, if_neg hgt, inversions_short hS1, ha, ht]
      rfl

/-- `Board::calc_inversions` returns the inversion count modulo `2 ^ 32` and leaves the array
sorted, a permutation of its original contents. -/
theorem calc_inversions_spec (arr : List Nat) :
    (calc_inversions arr).2 = u32 (inversions arr) ∧
      (calc_inversions arr).1.Sorted (· ≤ ·) ∧ (calc_inversions arr).1.Perm arr := by
  unfold calc_inversions
  cases harr : arr with
  | nil => simp [inversions, u32]
  | cons a as =>
    rw [← harr]
    have hne : arr.isEmpty = false := by simp [harr]
    obtain ⟨S', B', e, hs, hp, _⟩ := merge_sort_go_spec (arr.length - 1 + 1 - 0) arr
      (List.replicate arr.length 0) 0 (arr.length - 1) [] arr [] [] (List.replicate arr.length 0) []
      (by simp) (by simp) rfl rfl (by simp [harr]) (by simp) (by simp [harr])
    simp only [hne, Bool.false_eq_true, if_false, merge_sort, e]
    simpa using ⟨hs, hp⟩

end EightPuzzle

namespace EightPuzzle

/-! ## The loops of `Board::initialize` -/

theorem last_blank_append_single (data : List (List Nat)) (P : List (Nat × Nat)) (p : Nat × Nat) :
    last_blank data (P ++ [p]) = if at2 data p.1 p.2 = 0 then p else last_blank data P := by
  simp [last_blank, List.foldl_append]

theorem initInv_cell (data : List (List Nat)) (P : List (Nat × Nat)) (s : InitState) (i j : Nat)
    (h : InitInv data P s) : InitInv data (P ++ [(i, j)]) (initialize_cell data i s j) := by
  obtain ⟨h1, h2, h3, h4⟩ := h
  have h4r : s.m_blank_row = (last_blank data P).1 := congrArg Prod.fst h4
  have h4c : s.m_blank_col = (last_blank data P).2 := congrArg Prod.snd h4
  unfold InitInv
  rw [last_blank_append_single]
  simp only [List.map_append, List.filter_append, List.sum_append, List.map_cons, List.map_nil,
    List.sum_cons, List.sum_nil, Nat.add_zero]
  by_cases hv : at2 data i j = 0
  · simp [initialize_cell, hv, h1, h2, h3, hamming_term, manhattan_term, u32_add_left, h4r, h4c]
  · simp [initialize_cell, hv, h1, h2, h3, hamming_term, manhattan_term, u32_add_left, h4r, h4c]

theorem initInv_cols (data : List (List Nat)) (i : Nat) :
    ∀ (js : List Nat) (P : List (Nat × Nat)) (s : InitState), InitInv data P s →
      InitInv data (P ++ js.map (Prod.mk i)) (js.foldl (initialize_cell data i) s) := by
  intro js
  induction js with
  | nil => intro P s h; simpa using h
  | cons j js ih =>
    intro P s h
    have := ih (P ++ [(i, j)]) _ (initInv_cell data P s i j h)
    simpa using this

theorem initInv_row (data : List (List Nat)) (P : List (Nat × Nat)) (s : InitState) (i : Nat)
    (h : InitInv data P s) :
    InitInv data (P ++ (List.range (data.getD i []).length).map (Prod.mk i))
      (initialize_row data s i) := by
  unfold initialize_row
  apply initInv_cols
  by_cases hi : i = 0
  · simpa [hi] using h
  · simpa [hi, InitInv] using h

theorem initInv_rows (data : List (List Nat)) :
    ∀ (is : List Nat) (P : List (Nat × Nat)) (s : InitState), InitInv data P s →
      InitInv data
        (P ++ is.flatMap fun i => (List.range (data.getD i []).length).map (Prod.mk i))
        (is.foldl (initialize_row data) s) := by
  intro is
  induction is with
  | nil => intro P s h; simpa using h
  | cons i is ih =>
    intro P s h
    have := ih _ _ (initInv_row data P s i h)
    simpa [List.flatMap_cons, List.append_assoc] using this

theorem initInv_loops (data : List (List Nat)) :
    InitInv data (visit_order data) (initialize_loops data) := by
  have h := initInv_rows data (List.range data.length) [] ⟨[], [], 0, 0, 0, 0⟩
    ⟨rfl, rfl, rfl, rfl⟩
  simpa [visit_order, initialize_loops] using h

end EightPuzzle

namespace EightPuzzle

/-! ## Square grids and valid grids -/

theorem map_getD_range {α : Type} (l : List α) (d : α) :
    (List.range l.length).map (fun j => l.getD j d) = l := by
  apply List.ext_getElem
  · simp
  · intro i h1 h2
    simp [List.getD_eq_getElem?_getD, List.getElem?_eq_getElem h2]

theorem map_at2_visit_order (data : List (List Nat)) :
    (visit_order data).map (fun p => at2 data p.1 p.2) = data.flatten := by
  unfold visit_order
  rw [List.map_flatMap]
  have h : ∀ i, List.map (fun p : Nat × Nat => at2 data p.1 p.2)
      ((List.range (data.getD i []).length).map (Prod.mk i)) = data.getD i [] := by
    intro i
    rw [List.map_map]
    exact map_getD_range (data.getD i []) 0
  simp only [h]
  rw [List.flatMap_def, map_getD_range data []]

theorem visit_order_square {n : Nat} {data : List (List Nat)} (hlen : data.length = n)
    (hrow : ∀ row ∈ data, row.length = n) : visit_order data = cells n := by
  unfold visit_order cells List.product
  rw [hlen]
  apply List.flatMap_congr
  intro i hi
  have hi' : i < data.length := by rw [hlen]; exact List.mem_range.mp hi
  rw [List.getD_eq_getElem _ _ hi', hrow _ (List.getElem_mem hi')]

theorem mem_cells {n : Nat} {p : Nat × Nat} : p ∈ cells n ↔ p.1 < n ∧ p.2 < n := by
  obtain ⟨i, j⟩ := p
  simp [cells, List.pair_mem_product]

theorem cells_nodup (n : Nat) : (cells n).Nodup :=
  List.Nodup.product (List.nodup_range n) (List.nodup_range n)

theorem length_cells (n : Nat) : (cells n).length = n * n := by
  have h := List.length_product (List.range n) (List.range n)
  rw [List.length_range] at h
  exact h

theorem ValidGrid.map_cells {n : Nat} {data : List (List Nat)} (h : ValidGrid n data) :
    (cells n).map (fun p => at2 data p.1 p.2) = data.flatten := by
  rw [← visit_order_square h.2.1 h.2.2.1, map_at2_visit_order]

theorem ValidGrid.at2_inj {n : Nat} {data : List (List Nat)} (h : ValidGrid n data)
    {p q : Nat × Nat} (hp : p ∈ cells n) (hq : q ∈ cells n)
    (e : at2 data p.1 p.2 = at2 data q.1 q.2) : p = q := by
  have hnd : ((cells n).map (fun p => at2 data p.1 p.2)).Nodup := by
    rw [h.map_cells]
    exact h.2.2.2.2.nodup_iff.mpr (List.nodup_range _)
  exact List.inj_on_of_nodup_map hnd hp hq e

theorem ValidGrid.at2_lt {n : Nat} {data : List (List Nat)} (h : ValidGrid n data)
    {p : Nat × Nat} (hp : p ∈ cells n) : at2 data p.1 p.2 < n * n := by
  have hm : at2 data p.1 p.2 ∈ (cells n).map (fun p => at2 data p.1 p.2) :=
    List.mem_map_of_mem _ hp
  rw [h.map_cells] at hm
  exact List.mem_range.mp (h.2.2.2.2.mem_iff.mp hm)

theorem ValidGrid.exists_cell {n : Nat} {data : List (List Nat)} (h : ValidGrid n data)
    {v : Nat} (hv : v < n * n) : ∃ p ∈ cells n, at2 data p.1 p.2 = v := by
  have hm : v ∈ (cells n).map (fun p => at2 data p.1 p.2) := by
    rw [h.map_cells]
    exact h.2.2.2.2.mem_iff.mpr (List.mem_range.mpr hv)
  obtain ⟨p, hp, e⟩ := List.mem_map.mp hm
  exact ⟨p, hp, e⟩

theorem ValidGrid.sq_le {n : Nat} {data : List (List Nat)} (h : ValidGrid n data) :
    n * n ≤ 4294967296 := by
  by_contra hc
  obtain ⟨p, hp, e⟩ := h.exists_cell (v := 4294967296) (by omega)
  have hi : p.1 < data.length := by rw [h.2.1]; exact (mem_cells.mp hp).1
  have hrow : (data.getD p.1 []) ∈ data := by
    rw [List.getD_eq_getElem _ _ hi]; exact List.getElem_mem hi
  have hj : p.2 < (data.getD p.1 []).length := by
    rw [h.2.2.1 _ hrow]; exact (mem_cells.mp hp).2
  have hv : at2 data p.1 p.2 ∈ data.getD p.1 [] := by
    unfold at2
    rw [List.getD_eq_getElem _ _ hj]; exact List.getElem_mem hj
  have := h.2.2.2.1 _ hrow _ hv
  omega

theorem ValidGrid.side_le {n : Nat} {data : List (List Nat)} (h : ValidGrid n data) :
    n ≤ 65536 := by
  have := h.sq_le
  by_contra hc
  have : 65537 * 65537 ≤ n * n := Nat.mul_le_mul (by omega) (by omega)
  omega

/-- The blank cell of a valid grid: the only cell that holds `0`. -/
theorem ValidGrid.exists_blank {n : Nat} {data : List (List Nat)} (h : ValidGrid n data) :
    ∃ p ∈ cells n, at2 data p.1 p.2 = 0 ∧ ∀ q ∈ cells n, at2 data q.1 q.2 = 0 → q = p := by
  obtain ⟨p, hp, e⟩ := h.exists_cell (v := 0) (Nat.mul_pos h.1 h.1)
  exact ⟨p, hp, e, fun q hq eq => h.at2_inj hq hp (eq.trans e.symm)⟩

theorem last_blank_unique (data : List (List Nat)) (p : Nat × Nat) :
    ∀ (P : List (Nat × Nat)), p ∈ P → at2 data p.1 p.2 = 0 →
      (∀ q ∈ P, at2 data q.1 q.2 = 0 → q = p) → last_blank data P = p := by
  intro P
  induction P using List.reverseRecOn with
  | nil => intro hp; simp at hp
  | append_singleton P q ih =>
    intro hp h0 hu
    rw [last_blank_append_single]
    by_cases hq : at2 data q.1 q.2 = 0
    · rw [if_pos hq]
      exact hu q (by simp) hq
    · rw [if_neg hq]
      have hp' : p ∈ P := by
        rcases List.mem_append.mp hp with h | h
        · exact h
        · simp at h; subst h; exact absurd h0 hq
      exact ih hp' h0 (fun r hr => hu r (List.mem_append_left _ hr))

end EightPuzzle

namespace EightPuzzle

/-! ## The members of a constructed board -/

theorem fromData_data (data : List (List Nat)) : (Board.fromData data).m_data = data := rfl

theorem fromData_inversions (data : List (List Nat)) :
    (Board.fromData data).m_inversions = u32 (inversions (tiles data)) := by
  have h := (initInv_loops data).1
  rw [map_at2_visit_order] at h
  show (calc_inversions (initialize_loops data).all).2 = _
  rw [(calc_inversions_spec _).1, h]
  rfl

theorem fromData_hamming {n : Nat} {data : List (List Nat)} (hlen : data.length = n)
    (hrow : ∀ row ∈ data, row.length = n) :
    (Board.fromData data).m_hamming_distance = u32 ((cells n).map (hamming_term data)).sum := by
  have h := (initInv_loops data).2.1
  rw [visit_order_square hlen hrow] at h
  exact h

theorem fromData_manhattan {n : Nat} {data : List (List Nat)} (hlen : data.length = n)
    (hrow : ∀ row ∈ data, row.length = n) :
    (Board.fromData data).m_manhattan_distance
      = u32 ((cells n).map (manhattan_term data)).sum := by
  have h := (initInv_loops data).2.2.1
  rw [visit_order_square hlen hrow] at h
  exact h

theorem fromData_blank {n : Nat} {data : List (List Nat)} (h : ValidGrid n data)
    {p : Nat × Nat} (hp : p ∈ cells n) (h0 : at2 data p.1 p.2 = 0) :
    (Board.fromData data).m_blank_row = p.1 ∧ (Board.fromData data).m_blank_col = p.2 := by
  have hi := (initInv_loops data).2.2.2
  rw [visit_order_square h.2.1 h.2.2.1,
    last_blank_unique data p (cells n) hp h0
      (fun q hq e => h.at2_inj hq hp (e.trans h0.symm))] at hi
  exact ⟨congrArg Prod.fst hi, congrArg Prod.snd hi⟩

theorem at2_mem_row {data : List (List Nat)} {i j : Nat}
    (hj : j < (data.getD i []).length) : at2 data i j ∈ data.getD i [] := by
  unfold at2
  rw [List.getD_eq_getElem _ _ hj]
  exact List.getElem_mem hj

theorem blank_row_of_eq {n : Nat} {data : List (List Nat)} (h : ValidGrid n data)
    {p : Nat × Nat} (hp : p ∈ cells n) (h0 : at2 data p.1 p.2 = 0) :
    blank_row_of data = p.1 := by
  have hp' := mem_cells.mp hp
  have hi : p.1 < data.length := by rw [h.2.1]; exact hp'.1
  unfold blank_row_of
  rw [List.findIdx_eq hi]
  constructor
  · have hrow : data[p.1] ∈ data := List.getElem_mem hi
    have hj : p.2 < (data.getD p.1 []).length := by
      rw [List.getD_eq_getElem _ _ hi, h.2.2.1 _ hrow]; exact hp'.2
    have := at2_mem_row hj
    rw [h0, List.getD_eq_getElem _ _ hi] at this
    simpa using this
  · intro j hj
    have hjl : j < data.length := lt_trans hj hi
    by_contra hc
    simp only [Bool.not_eq_false, List.contains_iff_exists_mem_beq, beq_iff_eq] at hc
    obtain ⟨v, hv, e⟩ := hc
    obtain ⟨c, hc1, hc2⟩ := List.getElem_of_mem hv
    have hrow : data[j] ∈ data := List.getElem_mem hjl
    have hq : (j, c) ∈ cells n :=
      mem_cells.mpr ⟨by rw [← h.2.1]; exact hjl, by rw [← h.2.2.1 _ hrow]; exact hc1⟩
    have hz : at2 data j c = 0 := by
      unfold at2
      rw [List.getD_eq_getElem _ _ hjl, List.getD_eq_getElem _ _ hc1, hc2, e]
    have := h.at2_inj hq hp (hz.trans h0.symm)
    have : j = p.1 := congrArg Prod.fst this
    omega

end EightPuzzle

namespace EightPuzzle

/-! ## Goal positions and the two distances -/

theorem expected_tile {n v : Nat} (hv : 1 ≤ v) (hlt : v < n * n) :
    expected n v = goal_pos n v := by
  unfold expected goal_pos
  have h : (v + n * n - 1) % (n * n) = v - 1 := by
    rw [show v + n * n - 1 = (v - 1) + n * n by omega, Nat.add_mod_right]
    exact Nat.mod_eq_of_lt (by omega)
  simp only [h]

theorem expected_blank {n : Nat} (hn : 1 ≤ n) : expected n 0 = (n - 1, n - 1) := by
  unfold expected
  have hpos : 0 < n * n := Nat.mul_pos hn hn
  have h : (0 + n * n - 1) % (n * n) = (n - 1) + n * (n - 1) := by
    rw [Nat.zero_add, Nat.mod_eq_of_lt (by omega)]
    obtain ⟨m, rfl⟩ : ∃ m, n = m + 1 := ⟨n - 1, by omega⟩
    simp only [Nat.add_sub_cancel]
    ring_nf
    omega
  simp only [h]
  rw [Nat.add_mul_div_left _ _ (by omega : 0 < n), Nat.add_mul_mod_self_left,
    Nat.div_eq_of_lt (by omega), Nat.mod_eq_of_lt (by omega), Nat.zero_add]

theorem sum_indicator {α : Type} (P : List α) (f : α → Bool) :
    (P.map fun p => if f p then 1 else 0).sum = P.countP f := by
  induction P with
  | nil => rfl
  | cons a P ih =>
    rw [List.map_cons, List.sum_cons, ih, List.countP_cons]
    omega

theorem countP_unique {α : Type} [DecidableEq α] {P : List α} (hnd : P.Nodup) {a : α}
    (ha : a ∈ P) (f : α → Bool) (hf : ∀ q ∈ P, f q = true → q = a) :
    P.countP f = if f a then 1 else 0 := by
  by_cases h : f a = true
  · rw [if_pos h, ← List.count_eq_one_of_mem hnd ha, List.count]
    apply List.countP_congr
    intro q hq
    constructor
    · intro hfq; simp [hf q hq hfq]
    · intro e; simp at e; rw [e]; exact h
  · rw [if_neg h, List.countP_eq_zero]
    intro q hq hfq
    exact h (hf q hq hfq ▸ hfq)

theorem hamming_sum_eq {n : Nat} {data : List (List Nat)} (h : ValidGrid n data) :
    ((cells n).map (hamming_term data)).sum
      = misplaced_tiles n data + (if at2 data (n - 1) (n - 1) = 0 then 0 else 1) := by
  obtain ⟨p0, hp0, hz, hu⟩ := h.exists_blank
  have hlast : (n - 1, n - 1) ∈ cells n := mem_cells.mpr ⟨by have := h.1; simp; omega,
    by have := h.1; simp; omega⟩
  have hterm : ∀ p ∈ cells n, hamming_term data p
      = (if (at2 data p.1 p.2 != 0 && p != goal_pos n (at2 data p.1 p.2)) then 1 else 0)
        + (if (at2 data p.1 p.2 == 0 && p != (n - 1, n - 1)) then 1 else 0) := by
    intro p hp
    unfold hamming_term
    rw [h.2.1]
    by_cases hv : at2 data p.1 p.2 = 0
    · rw [hv, expected_blank h.1]
      obtain ⟨i, j⟩ := p
      by_cases e : (i, j) = (n - 1, n - 1)
      · simp at e; simp [e.1, e.2]
      · have e' : ¬ (i = n - 1 ∧ j = n - 1) := by simpa using e
        by_cases ei : i = n - 1
        · have ej : j ≠ n - 1 := fun ej => e' ⟨ei, ej⟩
          simp [ei, ej]
        · simp [ei]
    · rw [expected_tile (by omega) (h.at2_lt hp)]
      obtain ⟨i, j⟩ := p
      by_cases e : (i, j) = goal_pos n (at2 data i j)
      · have e1 : i = (goal_pos n (at2 data i j)).1 := congrArg Prod.fst e
        have e2 : j = (goal_pos n (at2 data i j)).2 := congrArg Prod.snd e
        simp [hv, ← e1, ← e2, ← e]
      · have e' : ¬ (i = (goal_pos n (at2 data i j)).1 ∧ j = (goal_pos n (at2 data i j)).2) := by
          intro hc; exact e (Prod.ext hc.1 hc.2)
        by_cases ei : i = (goal_pos n (at2 data i j)).1
        · have ej : j ≠ (goal_pos n (at2 data i j)).2 := fun ej => e' ⟨ei, ej⟩
          simp [hv, e, ← ei, ej]
        · simp [hv, e, ei]
  rw [List.map_congr_left hterm, List.sum_map_add, sum_indicator, sum_indicator]
  unfold misplaced_tiles
  congr 1
  rw [countP_unique (cells_nodup n) hp0 _ (fun q hq hf => hu q hq (by
    simp only [Bool.and_eq_true, beq_iff_eq] at hf; exact hf.1))]
  by_cases hl : at2 data (n - 1) (n - 1) = 0
  · have : p0 = (n - 1, n - 1) := (hu _ hlast hl).symm
    simp [hl, this]
  · have : p0 ≠ (n - 1, n - 1) := by
      intro e; rw [e] at hz; exact hl hz
    simp [hl, hz, this]

end EightPuzzle

namespace EightPuzzle

/-! ## C5: `is_solvable` and the parity rule -/

/-- `is_solvable()` of a board built from a valid grid, in terms of the inversion count of the
tiles and the row of the cell holding `0`. -/
theorem is_solvable_formula {n : Nat} {data : List (List Nat)} (h : ValidGrid n data)
    {p : Nat × Nat} (hp : p ∈ cells n) (h0 : at2 data p.1 p.2 = 0) :
    (Board.fromData data).is_solvable = true ↔
      (inversions (tiles data) % 2 = 0 ∧ (p.1 % 2 = 1 ∨ n % 2 = 1)) ∨
        (inversions (tiles data) % 2 = 1 ∧ n % 2 = 0 ∧ p.1 % 2 = 0) := by
  have hbr := (fromData_blank h hp h0).1
  have hne : data.isEmpty = false := by
    cases hd : data with
    | nil => have := h.2.1; rw [hd] at this; have := h.1; simp at *; omega
    | cons a as => rfl
  unfold Board.is_solvable
  rw [fromData_inversions, hbr, fromData_data, h.2.1, hne, u32_mod_two]
  simp only [Bool.false_or, Bool.or_eq_true, Bool.and_eq_true, beq_iff_eq, and_assoc]

/-- C5. For every valid grid of side `n ≥ 1` (a permutation of `0 .. n² - 1`), `is_solvable()` of
the board built from it agrees with the brute-force parity rule: with `inv` the number of
inverted pairs of tiles in row-major order (blank skipped) and `br` the row of the blank, the
board is solvable iff `n` is odd and `inv` even, or `n` is even and `inv + br` odd. -/
theorem is_solvable_iff_parity_rule (n : Nat) (data : List (List Nat))
    (h : ValidGrid n data) :
    (Board.fromData data).is_solvable = true ↔ parity_solvable n data := by
  obtain ⟨p, hp, h0, _⟩ := h.exists_blank
  rw [is_solvable_formula h hp h0]
  unfold parity_solvable
  rw [blank_row_of_eq h hp h0]
  omega

/-- C5, concrete input: `[[1,2,3],[4,5,6],[8,7,0]]` is a valid grid, the two predicates agree on
it, and the board is not solvable. -/
theorem is_solvable_iff_parity_rule_witness :
    ValidGrid 3 [[1, 2, 3], [4, 5, 6], [8, 7, 0]] ∧
      ((Board.fromData [[1, 2, 3], [4, 5, 6], [8, 7, 0]]).is_solvable = true ↔
        parity_solvable 3 [[1, 2, 3], [4, 5, 6], [8, 7, 0]]) ∧
      (Board.fromData [[1, 2, 3], [4, 5, 6], [8, 7, 0]]).is_solvable = false :=
  ⟨by decide, is_solvable_iff_parity_rule 3 _ (by decide), by decide⟩

end EightPuzzle

namespace EightPuzzle

theorem goal_pos_lt {n v : Nat} (hn : 1 ≤ n) (hv : v < n * n) :
    (goal_pos n v).1 < n ∧ (goal_pos n v).2 < n := by
  unfold goal_pos
  constructor
  · exact Nat.div_lt_of_lt_mul (by omega)
  · exact Nat.mod_lt _ (by omega)

theorem unsigned_dist_eq {a b : Nat} (ha : a < 4294967296) (hb : b < 4294967296) :
    unsigned_dist a b = Nat.dist a b := by
  unfold unsigned_dist Nat.dist
  rw [u32_of_lt ha, u32_of_lt hb]
  omega

theorem manhattan_sum_eq {n : Nat} {data : List (List Nat)} (h : ValidGrid n data) :
    ((cells n).map (manhattan_term data)).sum = manhattan_sum n data := by
  unfold manhattan_sum
  congr 1
  apply List.map_congr_left
  intro p hp
  have hn := h.side_le
  have hp' := mem_cells.mp hp
  unfold manhattan_term
  rw [h.2.1]
  by_cases hv : at2 data p.1 p.2 = 0
  · simp [hv]
  · have hg := goal_pos_lt h.1 (h.at2_lt hp)
    have hv' : (at2 data p.1 p.2 != 0) = true := by simpa using hv
    rw [if_pos hv', if_pos hv', expected_tile (by omega) (h.at2_lt hp),
      unsigned_dist_eq (by omega) (by omega), unsigned_dist_eq (by omega) (by omega)]
    apply u32_of_lt
    have h1 : Nat.dist p.1 (goal_pos n (at2 data p.1 p.2)).1 < 65536 := by
      unfold Nat.dist; omega
    have h2 : Nat.dist p.2 (goal_pos n (at2 data p.1 p.2)).2 < 65536 := by
      unfold Nat.dist; omega
    omega

/-! ## C6: the Hamming distance -/

/-- C6 as stated fails: on the valid grid `[[1,2,3],[4,5,6],[7,0,8]]` the count of misplaced
non-blank cells is `1`, while `hamming()` is `2` (the blank, which is not in the last cell, is
counted as well). -/
theorem hamming_excludes_blank_counterexample :
    ValidGrid 3 [[1, 2, 3], [4, 5, 6], [7, 0, 8]] ∧
      misplaced_tiles 3 [[1, 2, 3], [4, 5, 6], [7, 0, 8]] = 1 ∧
      (Board.fromData [[1, 2, 3], [4, 5, 6], [7, 0, 8]]).hamming = 2 ∧
      (Board.fromData [[1, 2, 3], [4, 5, 6], [7, 0, 8]]).hamming
        ≠ misplaced_tiles 3 [[1, 2, 3], [4, 5, 6], [7, 0, 8]] := by
  decide

/-- C6, amended. For every valid grid of side `n`, `hamming()` is, modulo `2 ^ 32`, the number of
misplaced non-blank cells plus one when the blank is not in the last cell `(n - 1, n - 1)`; for
`n < 65536` no reduction takes place. -/
theorem hamming_counts_tiles_and_blank (n : Nat) (data : List (List Nat))
    (h : ValidGrid n data) :
    (Board.fromData data).hamming
        = u32 (misplaced_tiles n data + (if at2 data (n - 1) (n - 1) = 0 then 0 else 1)) ∧
      (n < 65536 → (Board.fromData data).hamming
        = misplaced_tiles n data + (if at2 data (n - 1) (n - 1) = 0 then 0 else 1)) := by
  have e : (Board.fromData data).hamming
      = u32 (misplaced_tiles n data + (if at2 data (n - 1) (n - 1) = 0 then 0 else 1)) := by
    unfold Board.hamming
    rw [fromData_hamming h.2.1 h.2.2.1, hamming_sum_eq h]
  refine ⟨e, fun hn => ?_⟩
  rw [e]
  apply u32_of_lt
  rw [← hamming_sum_eq h]
  have hle : ((cells n).map (hamming_term data)).sum ≤ ((cells n).map (hamming_term data)).length • 1 :=
    List.sum_le_card_nsmul _ 1 (by
      intro x hx
      obtain ⟨p, _, rfl⟩ := List.mem_map.mp hx
      unfold hamming_term
      split <;> omega)
  rw [List.length_map, length_cells] at hle
  have : n * n ≤ 65535 * 65535 := Nat.mul_le_mul (by omega) (by omega)
  simp only [smul_eq_mul, Nat.mul_one] at hle
  omega

/-- C6, amended, at a concrete input: the grid `[[1,2,3],[4,5,6],[7,0,8]]`. -/
theorem hamming_counts_tiles_and_blank_witness :
    ValidGrid 3 [[1, 2, 3], [4, 5, 6], [7, 0, 8]] ∧
      (Board.fromData [[1, 2, 3], [4, 5, 6], [7, 0, 8]]).hamming
        = u32 (misplaced_tiles 3 [[1, 2, 3], [4, 5, 6], [7, 0, 8]] +
            (if at2 [[1, 2, 3], [4, 5, 6], [7, 0, 8]] (3 - 1) (3 - 1) = 0 then 0 else 1)) :=
  ⟨by decide, (hamming_counts_tiles_and_blank 3 _ (by decide)).1⟩

end EightPuzzle

namespace EightPuzzle

/-! ## C7: the Manhattan distance -/

theorem flatten_grid_of_list_aux (n : Nat) (flat : List Nat) (m : Nat) :
    ((List.range m).map fun i => (flat.drop (i * n)).take n).flatten = flat.take (m * n) := by
  induction m with
  | zero => simp
  | succ m ih =>
    rw [List.range_succ, List.map_append, List.flatten_append, ih, Nat.succ_mul, List.take_add]
    simp

theorem flatten_grid_of_list {n : Nat} {flat : List Nat} (h : flat.length = n * n) :
    (grid_of_list n flat).flatten = flat := by
  unfold grid_of_list
  rw [flatten_grid_of_list_aux, ← h, List.take_length]

theorem row_grid_of_list {n : Nat} {flat : List Nat} (h : flat.length = n * n) :
    ∀ row ∈ grid_of_list n flat, row.length = n := by
  intro row hrow
  obtain ⟨i, hi, rfl⟩ := List.mem_map.mp hrow
  have hi' := List.mem_range.mp hi
  have : (i + 1) * n ≤ n * n := Nat.mul_le_mul_right n hi'
  rw [List.length_take, List.length_drop, h]
  have : i * n + n ≤ n * n := by rw [← Nat.succ_mul]; exact this
  omega

theorem at2_grid_of_list {n : Nat} {flat : List Nat} {i j : Nat} (hi : i < n) (hj : j < n) :
    at2 (grid_of_list n flat) i j = flat.getD (i * n + j) 0 := by
  unfold at2 grid_of_list
  have h1 : ((List.range n).map fun i => (flat.drop (i * n)).take n).getD i []
      = (flat.drop (i * n)).take n := by
    rw [List.getD_eq_getElem _ _ (by simpa using hi)]
    simp
  rw [h1]
  simp only [List.getD_eq_getElem?_getD, List.getElem?_take, hj, if_true, List.getElem?_drop]

theorem valid_grid_of_list {n : Nat} {flat : List Nat} (hn : 1 ≤ n) (hbig : n * n ≤ 4294967296)
    (hperm : flat.Perm (List.range (n * n))) : ValidGrid n (grid_of_list n flat) := by
  have hlen : flat.length = n * n := by rw [hperm.length_eq, List.length_range]
  refine ⟨hn, by simp [grid_of_list], row_grid_of_list hlen, ?_, ?_⟩
  · intro row hrow v hv
    have hmem : v ∈ (grid_of_list n flat).flatten := List.mem_flatten.mpr ⟨row, hrow, hv⟩
    rw [flatten_grid_of_list hlen] at hmem
    have := List.mem_range.mp (hperm.mem_iff.mp hmem)
    omega
  · rw [flatten_grid_of_list hlen]
    exact hperm

theorem far_grid_valid : ValidGrid 4096 far_grid :=
  valid_grid_of_list (by decide) (by decide) (List.rotate_perm _ _)

theorem at2_far_grid {i j : Nat} (hi : i < 4096) (hj : j < 4096) :
    at2 far_grid i j = (i * 4096 + j + 2048 * 4096) % (4096 * 4096) := by
  unfold far_grid
  rw [at2_grid_of_list hi hj]
  have hlt : i * 4096 + j < ((List.range (4096 * 4096)).rotate (2048 * 4096)).length := by
    rw [List.length_rotate, List.length_range]
    omega
  rw [List.getD_eq_getElem _ _ hlt, List.getElem_rotate, List.getElem_range, List.length_range]

theorem far_grid_term {p : Nat × Nat} (hp : p ∈ List.product (List.range 2048) (List.range 4096)) :
    2047 ≤ (if at2 far_grid p.1 p.2 != 0 then
      Nat.dist p.1 (goal_pos 4096 (at2 far_grid p.1 p.2)).1 +
        Nat.dist p.2 (goal_pos 4096 (at2 far_grid p.1 p.2)).2
    else 0) := by
  obtain ⟨i, j⟩ := p
  have hij : i < 2048 ∧ j < 4096 := by simpa [List.pair_mem_product] using hp
  have hv : at2 far_grid i j = i * 4096 + j + 2048 * 4096 := by
    rw [at2_far_grid (by omega) hij.2]
    exact Nat.mod_eq_of_lt (by omega)
  have hne : (i * 4096 + j + 2048 * 4096 != 0) = true := by
    rw [bne_iff_ne]; omega
  simp only [hv, hne, if_true, goal_pos, Nat.dist]
  omega

theorem product_append_left {α β : Type} (l₁ l₂ : List α) (r : List β) :
    List.product (l₁ ++ l₂) r = List.product l₁ r ++ List.product l₂ r := by
  unfold List.product
  exact List.flatMap_append l₁ l₂ _

theorem far_grid_sum : 4294967296 ≤ manhattan_sum 4096 far_grid := by
  unfold manhattan_sum cells
  have hsplit : List.range 4096 = List.range 2048 ++ (List.range 2048).map (2048 + ·) :=
    List.range_add 2048 2048
  have hprod : List.product (List.range 4096) (List.range 4096)
      = List.product (List.range 2048) (List.range 4096)
        ++ List.product ((List.range 2048).map (2048 + ·)) (List.range 4096) := by
    rw [← product_append_left, ← hsplit]
  rw [hprod, List.map_append, List.sum_append]
  have hlow := List.card_nsmul_le_sum
    ((List.product (List.range 2048) (List.range 4096)).map fun p =>
      if at2 far_grid p.1 p.2 != 0 then
        Nat.dist p.1 (goal_pos 4096 (at2 far_grid p.1 p.2)).1 +
          Nat.dist p.2 (goal_pos 4096 (at2 far_grid p.1 p.2)).2
      else 0) 2047 (by
        intro x hx
        obtain ⟨p, hp, rfl⟩ := List.mem_map.mp hx
        exact far_grid_term hp)
  have hlen : (List.product (List.range 2048) (List.range 4096)).length = 2048 * 4096 := by
    have h := List.length_product (List.range 2048) (List.range 4096)
    rw [List.length_range, List.length_range] at h
    exact h
  rw [List.length_map, hlen] at hlow
  simp only [smul_eq_mul] at hlow
  omega

theorem manhattan_eq_u32_sum {n : Nat} {data : List (List Nat)} (h : ValidGrid n data) :
    (Board.fromData data).manhattan = u32 (manhattan_sum n data) := by
  unfold Board.manhattan
  rw [fromData_manhattan h.2.1 h.2.2.1, manhattan_sum_eq h]

theorem manhattan_ne_of_large {n : Nat} {data : List (List Nat)} (h : ValidGrid n data)
    (hbig : 4294967296 ≤ manhattan_sum n data) :
    (Board.fromData data).manhattan ≠ manhattan_sum n data := by
  rw [manhattan_eq_u32_sum h]
  have := u32_lt (manhattan_sum n data)
  omega

/-- C7 as stated fails: `far_grid` is a valid grid of side `4096` whose Manhattan sum is at least
`2 ^ 32`, so the `unsigned` member returned by `manhattan()` differs from it. -/
theorem manhattan_sum_counterexample :
    ValidGrid 4096 far_grid ∧
      (Board.fromData far_grid).manhattan ≠ manhattan_sum 4096 far_grid :=
  ⟨far_grid_valid, manhattan_ne_of_large far_grid_valid far_grid_sum⟩

/-- C7, amended. For every valid grid of side `n`, `manhattan()` is the sum over the non-blank
cells of `|i - (v - 1) / n| + |j - (v - 1) mod n|` reduced modulo `2 ^ 32`; for `n ≤ 1024` it is
the sum itself. -/
theorem manhattan_is_sum_mod (n : Nat) (data : List (List Nat)) (h : ValidGrid n data) :
    (Board.fromData data).manhattan = manhattan_sum n data % 4294967296 ∧
      (n ≤ 1024 → (Board.fromData data).manhattan = manhattan_sum n data) := by
  have e : (Board.fromData data).manhattan = manhattan_sum n data % 4294967296 :=
    manhattan_eq_u32_sum h
  refine ⟨e, fun hn => ?_⟩
  rw [e]
  apply Nat.mod_eq_of_lt
  unfold manhattan_sum
  have hle := List.sum_le_card_nsmul ((cells n).map fun p =>
      if at2 data p.1 p.2 != 0 then
        Nat.dist p.1 (goal_pos n (at2 data p.1 p.2)).1 +
          Nat.dist p.2 (goal_pos n (at2 data p.1 p.2)).2
      else 0) 2048 (by
    intro x hx
    obtain ⟨p, hp, rfl⟩ := List.mem_map.mp hx
    have hp' := mem_cells.mp hp
    have hg := goal_pos_lt h.1 (h.at2_lt hp)
    split
    · unfold Nat.dist; omega
    · omega)
  rw [List.length_map, length_cells] at hle
  have : n * n ≤ 1024 * 1024 := Nat.mul_le_mul hn hn
  simp only [smul_eq_mul] at hle
  omega

/-- C7, amended, at a concrete input: the grid `[[1,2,3],[4,5,6],[7,0,8]]`. -/
theorem manhattan_is_sum_mod_witness :
    ValidGrid 3 [[1, 2, 3], [4, 5, 6], [7, 0, 8]] ∧
      (Board.fromData [[1, 2, 3], [4, 5, 6], [7, 0, 8]]).manhattan
        = manhattan_sum 3 [[1, 2, 3], [4, 5, 6], [7, 0, 8]] % 4294967296 :=
  ⟨by decide, (manhattan_is_sum_mod 3 _ (by decide)).1⟩

end EightPuzzle

namespace EightPuzzle

/-! ## Writing cells -/

theorem length_set2 (data : List (List Nat)) (i j v : Nat) :
    (set2 data i j v).length = data.length := by
  simp [set2]

theorem getD_set2 (data : List (List Nat)) (i j v k : Nat) :
    (set2 data i j v).getD k [] = if k = i then (data.getD i []).set j v else data.getD k [] := by
  unfold set2
  simp only [List.getD_eq_getElem?_getD, List.getElem?_set]
  by_cases hk : i = k
  · subst hk
    by_cases hl : i < data.length
    · simp [hl]
    · simp [hl, List.getElem?_eq_none (Nat.le_of_not_lt hl)]
  · have hk' : ¬ k = i := fun e => hk e.symm
    simp [hk, hk']

theorem row_length_set2 (data : List (List Nat)) (i j v k : Nat) :
    ((set2 data i j v).getD k []).length = (data.getD k []).length := by
  rw [getD_set2]
  split
  · next h => subst h; simp
  · rfl

theorem getD_set_row (row : List Nat) (j v l : Nat) (hj : j < row.length) :
    (row.set j v).getD l 0 = if l = j then v else row.getD l 0 := by
  simp only [List.getD_eq_getElem?_getD, List.getElem?_set]
  by_cases hl : j = l
  · subst hl
    simp [hj]
  · have hl' : ¬ l = j := fun e => hl e.symm
    simp [hl, hl']

theorem at2_set2 (data : List (List Nat)) (i j v k l : Nat)
    (hj : j < (data.getD i []).length) :
    at2 (set2 data i j v) k l = if k = i ∧ l = j then v else at2 data k l := by
  unfold at2
  rw [getD_set2]
  by_cases hk : k = i
  · subst hk
    rw [if_pos rfl, getD_set_row _ _ _ _ hj]
    simp
  · simp [hk]

theorem mem_rows_iff {n : Nat} {data : List (List Nat)} (hlen : data.length = n) :
    (∀ row ∈ data, row.length = n) ↔ ∀ k, k < n → (data.getD k []).length = n := by
  constructor
  · intro h k hk
    have hk' : k < data.length := by omega
    rw [List.getD_eq_getElem _ _ hk']
    exact h _ (List.getElem_mem hk')
  · intro h row hrow
    obtain ⟨k, hk, rfl⟩ := List.getElem_of_mem hrow
    have := h k (by omega)
    rwa [List.getD_eq_getElem _ _ hk] at this

/-- Two grids of side `n` with the same cell contents are equal. -/
theorem grid_ext {n : Nat} {d1 d2 : List (List Nat)} (h1 : d1.length = n) (h2 : d2.length = n)
    (r1 : ∀ row ∈ d1, row.length = n) (r2 : ∀ row ∈ d2, row.length = n)
    (e : ∀ p ∈ cells n, at2 d1 p.1 p.2 = at2 d2 p.1 p.2) : d1 = d2 := by
  apply List.ext_getElem (by omega)
  intro i hi1 hi2
  have hr1 := (mem_rows_iff h1).mp r1 i (by omega)
  have hr2 := (mem_rows_iff h2).mp r2 i (by omega)
  rw [List.getD_eq_getElem _ _ hi1] at hr1
  rw [List.getD_eq_getElem _ _ hi2] at hr2
  apply List.ext_getElem (by omega)
  intro j hj1 hj2
  have := e (i, j) (mem_cells.mpr ⟨by omega, by simp; omega⟩)
  unfold at2 at this
  dsimp only at this
  rw [List.getD_eq_getElem _ _ hi1, List.getD_eq_getElem _ _ hi2,
    List.getD_eq_getElem _ _ hj1, List.getD_eq_getElem _ _ hj2] at this
  exact this

theorem length_swap_cells (data : List (List Nat)) (p q : Nat × Nat) :
    (swap_cells data p q).length = data.length := by
  simp [swap_cells, length_set2]

theorem rows_swap_cells {n : Nat} {data : List (List Nat)} (hlen : data.length = n)
    (hrow : ∀ row ∈ data, row.length = n) (p q : Nat × Nat) :
    ∀ row ∈ swap_cells data p q, row.length = n := by
  rw [mem_rows_iff (by rw [length_swap_cells]; exact hlen)]
  intro k hk
  unfold swap_cells
  rw [row_length_set2, row_length_set2]
  exact (mem_rows_iff hlen).mp hrow k hk

theorem at2_swap_cells {n : Nat} {data : List (List Nat)} (hlen : data.length = n)
    (hrow : ∀ row ∈ data, row.length = n) {p q : Nat × Nat} (hp : p ∈ cells n)
    (hq : q ∈ cells n) (x : Nat × Nat) :
    at2 (swap_cells data p q) x.1 x.2 = at2 data (Equiv.swap p q x).1 (Equiv.swap p q x).2 := by
  have hp' := mem_cells.mp hp
  have hq' := mem_cells.mp hq
  have hrows := (mem_rows_iff hlen).mp hrow
  unfold swap_cells
  rw [at2_set2 _ _ _ _ _ _ (by rw [row_length_set2, hrows _ hq'.1]; exact hq'.2),
    at2_set2 _ _ _ _ _ _ (by rw [hrows _ hp'.1]; exact hp'.2),
    Equiv.swap_apply_def]
  obtain ⟨x1, x2⟩ := x
  obtain ⟨p1, p2⟩ := p
  obtain ⟨q1, q2⟩ := q
  simp only [Prod.mk.injEq]
  by_cases h1 : x1 = q1 ∧ x2 = q2
  · obtain ⟨rfl, rfl⟩ := h1
    by_cases h2 : x1 = p1 ∧ x2 = p2
    · obtain ⟨rfl, rfl⟩ := h2
      simp
    · simp [h2]
  · by_cases h2 : x1 = p1 ∧ x2 = p2
    · obtain ⟨rfl, rfl⟩ := h2
      simp [h1]
    · simp [h1, h2]

theorem map_swap_perm {α : Type} [DecidableEq α] {L : List α} (hnd : L.Nodup) {p q : α}
    (hp : p ∈ L) (hq : q ∈ L) : (L.map (Equiv.swap p q)).Perm L := by
  rw [List.perm_ext_iff_of_nodup (hnd.map (Equiv.swap p q).injective) hnd]
  intro a
  rw [List.mem_map]
  constructor
  · rintro ⟨x, hx, rfl⟩
    rw [Equiv.swap_apply_def]
    split
    · exact hq
    · split
      · exact hp
      · exact hx
  · intro ha
    refine ⟨Equiv.swap p q a, ?_, by simp⟩
    rw [Equiv.swap_apply_def]
    split
    · exact hq
    · split
      · exact hp
      · exact ha

theorem validGrid_of_cells {n : Nat} {data : List (List Nat)} (hn : 1 ≤ n)
    (hlen : data.length = n) (hrow : ∀ row ∈ data, row.length = n)
    (hbig : n * n ≤ 4294967296)
    (hperm : ((cells n).map fun p => at2 data p.1 p.2).Perm (List.range (n * n))) :
    ValidGrid n data := by
  have hflat : (cells n).map (fun p => at2 data p.1 p.2) = data.flatten := by
    rw [← visit_order_square hlen hrow, map_at2_visit_order]
  rw [hflat] at hperm
  refine ⟨hn, hlen, hrow, ?_, hperm⟩
  intro row hr v hv
  have hmem : v ∈ data.flatten := List.mem_flatten.mpr ⟨row, hr, hv⟩
  have := List.mem_range.mp (hperm.mem_iff.mp hmem)
  omega

theorem ValidGrid.swap_cells {n : Nat} {data : List (List Nat)} (h : ValidGrid n data)
    {p q : Nat × Nat} (hp : p ∈ cells n) (hq : q ∈ cells n) :
    ValidGrid n (swap_cells data p q) := by
  apply validGrid_of_cells h.1 (by rw [length_swap_cells]; exact h.2.1)
    (rows_swap_cells h.2.1 h.2.2.1 p q) h.sq_le
  have e : (cells n).map (fun x => at2 (EightPuzzle.swap_cells data p q) x.1 x.2)
      = ((cells n).map (Equiv.swap p q)).map (fun x => at2 data x.1 x.2) := by
    rw [List.map_map]
    apply List.map_congr_left
    intro x _
    exact at2_swap_cells h.2.1 h.2.2.1 hp hq x
  rw [e]
  refine ((map_swap_perm (cells_nodup n) hp hq).map _).trans ?_
  rw [h.map_cells]
  exact h.2.2.2.2

end EightPuzzle

namespace EightPuzzle

/-! ## Moves on a valid board -/

theorem Move.is_unit_iff (m : Move) :
    m.is_unit ↔ (m.di = 0 ∧ (m.dj = 1 ∨ m.dj = -1)) ∨ (m.dj = 0 ∧ (m.di = 1 ∨ m.di = -1)) := by
  unfold Move.is_unit
  constructor
  · intro h
    have h1 : -1 ≤ m.di ∧ m.di ≤ 1 := by constructor <;> nlinarith [mul_self_nonneg m.dj]
    have h2 : -1 ≤ m.dj ∧ m.dj ≤ 1 := by constructor <;> nlinarith [mul_self_nonneg m.di]
    obtain ⟨a1, a2⟩ := h1
    obtain ⟨b1, b2⟩ := h2
    interval_cases hdi : m.di <;> interval_cases hdj : m.dj <;> simp_all
  · rintro (⟨h1, h2 | h2⟩ | ⟨h1, h2 | h2⟩) <;> simp [h1, h2]

theorem my_move_eq_swap (b : Board) (m : Move) :
    b.my_move m = Board.fromData (swap_cells b.m_data (b.m_blank_row, b.m_blank_col)
      (size_add b.m_blank_row m.get_di, size_add b.m_blank_col m.get_dj)) := rfl

/-- The recorded blank position of a board built from a valid grid is the cell holding `0`. -/
theorem blank_cell {n : Nat} {data : List (List Nat)} (h : ValidGrid n data) :
    ((Board.fromData data).m_blank_row, (Board.fromData data).m_blank_col) ∈ cells n ∧
      at2 data (Board.fromData data).m_blank_row (Board.fromData data).m_blank_col = 0 := by
  obtain ⟨p, hp, h0, _⟩ := h.exists_blank
  obtain ⟨e1, e2⟩ := fromData_blank h hp h0
  rw [e1, e2]
  exact ⟨hp, h0⟩

theorem is_valid_move_iff {n : Nat} {data : List (List Nat)} (h : ValidGrid n data) (m : Move)
    (hm : m.is_unit) :
    (Board.fromData data).is_valid_move m = true ↔
      0 ≤ ((Board.fromData data).m_blank_row : Int) + m.di ∧
      ((Board.fromData data).m_blank_row : Int) + m.di < n ∧
      0 ≤ ((Board.fromData data).m_blank_col : Int) + m.dj ∧
      ((Board.fromData data).m_blank_col : Int) + m.dj < n := by
  have hb := mem_cells.mp (blank_cell h).1
  simp only at hb
  unfold Board.is_valid_move Move.is_horizontal Move.get_di Move.get_dj
  rw [fromData_data, h.2.1]
  rcases (Move.is_unit_iff m).mp hm with ⟨h1, h2 | h2⟩ | ⟨h1, h2 | h2⟩
  · simp [h1, h2]; omega
  · simp [h1, h2]; omega
  · have hdi : m.di ≠ 0 := by omega
    simp [h1, h2]; omega
  · have hdi : m.di ≠ 0 := by omega
    simp [h1, h2]; omega

theorem target_cell {n : Nat} {data : List (List Nat)} (h : ValidGrid n data) (m : Move)
    (hm : m.is_unit) (hv : (Board.fromData data).is_valid_move m = true) :
    ((size_add (Board.fromData data).m_blank_row m.di : Nat) : Int)
        = (Board.fromData data).m_blank_row + m.di ∧
      ((size_add (Board.fromData data).m_blank_col m.dj : Nat) : Int)
        = (Board.fromData data).m_blank_col + m.dj ∧
      (size_add (Board.fromData data).m_blank_row m.di,
        size_add (Board.fromData data).m_blank_col m.dj) ∈ cells n ∧
      (size_add (Board.fromData data).m_blank_row m.di,
        size_add (Board.fromData data).m_blank_col m.dj)
        ≠ ((Board.fromData data).m_blank_row, (Board.fromData data).m_blank_col) := by
  have hb := mem_cells.mp (blank_cell h).1
  simp only at hb
  have hn := h.side_le
  have hiff := (is_valid_move_iff h m hm).mp hv
  have hu := (Move.is_unit_iff m).mp hm
  refine ⟨by unfold size_add; omega, by unfold size_add; omega,
    mem_cells.mpr ⟨by unfold size_add; simp only; omega, by unfold size_add; simp only; omega⟩, ?_⟩
  intro e
  have e1 := congrArg Prod.fst e
  have e2 := congrArg Prod.snd e
  simp only at e1 e2
  unfold size_add at e1 e2
  omega

end EightPuzzle

namespace EightPuzzle

/-! ## C8 and C9: `is_valid_move` and `my_move` -/

/-- C8. For every valid board of side `n` and every unit move `m = (di, dj)`: the recorded blank
position `(br, bc)` is the cell holding `0`; `is_valid_move(m)` is true iff
`0 ≤ br + di < n` and `0 ≤ bc + dj < n`; and when it is true, both cells that `my_move(m)`
swaps lie inside the grid. -/
theorem is_valid_move_iff_in_bounds (n : Nat) (data : List (List Nat)) (h : ValidGrid n data)
    (m : Move) (hm : m.is_unit) :
    at2 data (Board.fromData data).m_blank_row (Board.fromData data).m_blank_col = 0 ∧
      ((Board.fromData data).is_valid_move m = true ↔
        0 ≤ ((Board.fromData data).m_blank_row : Int) + m.di ∧
        ((Board.fromData data).m_blank_row : Int) + m.di < n ∧
        0 ≤ ((Board.fromData data).m_blank_col : Int) + m.dj ∧
        ((Board.fromData data).m_blank_col : Int) + m.dj < n) ∧
      ((Board.fromData data).is_valid_move m = true →
        (Board.fromData data).my_move_in_bounds m) := by
  refine ⟨(blank_cell h).2, is_valid_move_iff h m hm, fun hv => ?_⟩
  have hb := mem_cells.mp (blank_cell h).1
  have ht := mem_cells.mp (target_cell h m hm hv).2.2.1
  have hrows := (mem_rows_iff h.2.1).mp h.2.2.1
  simp only at hb ht
  unfold Board.my_move_in_bounds Move.get_di Move.get_dj
  rw [fromData_data, h.2.1, hrows _ hb.1, hrows _ ht.1]
  exact ⟨hb.1, hb.2, ht.1, ht.2⟩

/-- C8 at a concrete input: the grid `[[1,2,3],[4,5,6],[7,0,8]]` and the move `(0, 1)`. -/
theorem is_valid_move_iff_in_bounds_witness :
    ValidGrid 3 [[1, 2, 3], [4, 5, 6], [7, 0, 8]] ∧ (⟨0, 1⟩ : Move).is_unit ∧
      (Board.fromData [[1, 2, 3], [4, 5, 6], [7, 0, 8]]).is_valid_move ⟨0, 1⟩ = true ∧
      (Board.fromData [[1, 2, 3], [4, 5, 6], [7, 0, 8]]).my_move_in_bounds ⟨0, 1⟩ :=
  ⟨by decide, by decide, by decide,
    (is_valid_move_iff_in_bounds 3 _ (by decide) ⟨0, 1⟩ (by decide)).2.2 (by decide)⟩

theorem my_move_data {n : Nat} {data : List (List Nat)} (h : ValidGrid n data) (m : Move)
    (hm : m.is_unit) (hv : (Board.fromData data).is_valid_move m = true) :
    ValidGrid n ((Board.fromData data).my_move m).m_data ∧
      ∀ x ∈ cells n, at2 ((Board.fromData data).my_move m).m_data x.1 x.2
        = at2 data
            (Equiv.swap ((Board.fromData data).m_blank_row, (Board.fromData data).m_blank_col)
              (size_add (Board.fromData data).m_blank_row m.di,
                size_add (Board.fromData data).m_blank_col m.dj) x).1
            (Equiv.swap ((Board.fromData data).m_blank_row, (Board.fromData data).m_blank_col)
              (size_add (Board.fromData data).m_blank_row m.di,
                size_add (Board.fromData data).m_blank_col m.dj) x).2 := by
  have hb := (blank_cell h).1
  have ht := (target_cell h m hm hv).2.2.1
  rw [my_move_eq_swap, fromData_data, fromData_data]
  exact ⟨h.swap_cells hb ht, fun x _ => at2_swap_cells h.2.1 h.2.2.1 hb ht x⟩

/-- After a legal unit move the moved board holds `0` at the target cell and records it as its
blank. -/
theorem my_move_blank {n : Nat} {data : List (List Nat)} (h : ValidGrid n data) (m : Move)
    (hm : m.is_unit) (hv : (Board.fromData data).is_valid_move m = true) :
    at2 ((Board.fromData data).my_move m).m_data
        (size_add (Board.fromData data).m_blank_row m.di)
        (size_add (Board.fromData data).m_blank_col m.dj) = 0 ∧
      ((Board.fromData data).my_move m).m_blank_row
        = size_add (Board.fromData data).m_blank_row m.di ∧
      ((Board.fromData data).my_move m).m_blank_col
        = size_add (Board.fromData data).m_blank_col m.dj := by
  have hb := blank_cell h
  have ht := target_cell h m hm hv
  obtain ⟨hvalid, hat⟩ := my_move_data h m hm hv
  have hzero : at2 ((Board.fromData data).my_move m).m_data
      (size_add (Board.fromData data).m_blank_row m.di)
      (size_add (Board.fromData data).m_blank_col m.dj) = 0 := by
    have := hat _ ht.2.2.1
    rw [Equiv.swap_apply_right] at this
    exact this.trans hb.2
  have hblank := fromData_blank hvalid ht.2.2.1 hzero
  have hc : Board.fromData ((Board.fromData data).my_move m).m_data
      = (Board.fromData data).my_move m := by
    rw [my_move_eq_swap, fromData_data]
  rw [hc] at hblank
  exact ⟨hzero, hblank.1, hblank.2⟩

/-- C9. For every valid board `b` of side `n` with blank at `(br, bc)` and every unit move
`m = (di, dj)` with `b.is_valid_move(m)`, the board `c = b.my_move(m)` holds `0` at
`(br + di, bc + dj)`, holds `b[br + di][bc + dj]` at `(br, bc)`, agrees with `b` on every other
cell, is again a valid grid of side `n`, and records `(br + di, bc + dj)` as its blank. -/
theorem my_move_swaps_two_cells (n : Nat) (data : List (List Nat)) (h : ValidGrid n data)
    (m : Move) (hm : m.is_unit) (hv : (Board.fromData data).is_valid_move m = true) :
    ((size_add (Board.fromData data).m_blank_row m.di : Nat) : Int)
        = (Board.fromData data).m_blank_row + m.di ∧
      ((size_add (Board.fromData data).m_blank_col m.dj : Nat) : Int)
        = (Board.fromData data).m_blank_col + m.dj ∧
      at2 ((Board.fromData data).my_move m).m_data
        (size_add (Board.fromData data).m_blank_row m.di)
        (size_add (Board.fromData data).m_blank_col m.dj) = 0 ∧
      at2 ((Board.fromData data).my_move m).m_data
        (Board.fromData data).m_blank_row (Board.fromData data).m_blank_col
        = at2 data (size_add (Board.fromData data).m_blank_row m.di)
            (size_add (Board.fromData data).m_blank_col m.dj) ∧
      (∀ i j, i < n → j < n →
        (i, j) ≠ ((Board.fromData data).m_blank_row, (Board.fromData data).m_blank_col) →
        (i, j) ≠ (size_add (Board.fromData data).m_blank_row m.di,
          size_add (Board.fromData data).m_blank_col m.dj) →
        at2 ((Board.fromData data).my_move m).m_data i j = at2 data i j) ∧
      ValidGrid n ((Board.fromData data).my_move m).m_data ∧
      ((Board.fromData data).my_move m).size = n ∧
      ((Board.fromData data).my_move m).m_blank_row
        = size_add (Board.fromData data).m_blank_row m.di ∧
      ((Board.fromData data).my_move m).m_blank_col
        = size_add (Board.fromData data).m_blank_col m.dj := by
  have hb := blank_cell h
  have ht := target_cell h m hm hv
  obtain ⟨hvalid, hat⟩ := my_move_data h m hm hv
  obtain ⟨hzero, hrow, hcol⟩ := my_move_blank h m hm hv
  refine ⟨ht.1, ht.2.1, hzero, ?_, ?_, hvalid, hvalid.2.1, hrow, hcol⟩
  · have := hat _ hb.1
    rw [Equiv.swap_apply_left] at this
    exact this
  · intro i j hi hj h1 h2
    have := hat (i, j) (mem_cells.mpr ⟨hi, hj⟩)
    rw [Equiv.swap_apply_of_ne_of_ne h1 h2] at this
    exact this

/-- C9 at a concrete input: the grid `[[1,2,3],[4,5,6],[7,0,8]]` and the move `(0, 1)` give the
goal grid. -/
theorem my_move_swaps_two_cells_witness :
    ValidGrid 3 [[1, 2, 3], [4, 5, 6], [7, 0, 8]] ∧ (⟨0, 1⟩ : Move).is_unit ∧
      (Board.fromData [[1, 2, 3], [4, 5, 6], [7, 0, 8]]).is_valid_move ⟨0, 1⟩ = true ∧
      ValidGrid 3 ((Board.fromData [[1, 2, 3], [4, 5, 6], [7, 0, 8]]).my_move ⟨0, 1⟩).m_data ∧
      ((Board.fromData [[1, 2, 3], [4, 5, 6], [7, 0, 8]]).my_move ⟨0, 1⟩).m_data
        = [[1, 2, 3], [4, 5, 6], [7, 8, 0]] :=
  ⟨by decide, by decide, by decide,
    (my_move_swaps_two_cells 3 _ (by decide) ⟨0, 1⟩ (by decide) (by decide)).2.2.2.2.2.1,
    by decide⟩

end EightPuzzle

namespace EightPuzzle

/-! ## C10: `to_string` can be parsed back -/

theorem digitChar_toNat {k : Nat} (hk : k < 10) : (Nat.digitChar k).toNat - 48 = k := by
  interval_cases k <;> rfl

theorem digitChar_not_sep {k : Nat} (hk : k < 10) :
    Nat.digitChar k ≠ ' ' ∧ Nat.digitChar k ≠ '\n' := by
  interval_cases k <;> decide

theorem read_toDigitsCore :
    ∀ (fuel v : Nat) (ds : List Char), v < fuel →
      (Nat.toDigitsCore 10 fuel v ds).foldl (fun acc c => acc * 10 + (c.toNat - 48)) 0
        = ds.foldl (fun acc c => acc * 10 + (c.toNat - 48)) v := by
  intro fuel
  induction fuel with
  | zero => intro v ds h; omega
  | succ fuel ih =>
    intro v ds h
    unfold Nat.toDigitsCore
    simp only
    by_cases h0 : v / 10 = 0
    · rw [if_pos h0, List.foldl_cons, digitChar_toNat (Nat.mod_lt _ (by omega))]
      congr 1
      omega
    · rw [if_neg h0, ih _ _ (by omega), List.foldl_cons,
        digitChar_toNat (Nat.mod_lt _ (by omega))]
      congr 1
      omega

theorem read_to_string_unsigned (v : Nat) : read_decimal (to_string_unsigned v) = v := by
  unfold read_decimal to_string_unsigned Nat.toDigits
  rw [read_toDigitsCore _ _ _ (by omega)]
  rfl

theorem toDigitsCore_chars :
    ∀ (fuel v : Nat) (ds : List Char) (c : Char), c ∈ Nat.toDigitsCore 10 fuel v ds →
      c ∈ ds ∨ ∃ k, k < 10 ∧ c = Nat.digitChar k := by
  intro fuel
  induction fuel with
  | zero => intro v ds c h; exact Or.inl h
  | succ fuel ih =>
    intro v ds c h
    unfold Nat.toDigitsCore at h
    simp only at h
    by_cases h0 : v / 10 = 0
    · rw [if_pos h0] at h
      rcases List.mem_cons.mp h with rfl | h
      · exact Or.inr ⟨v % 10, Nat.mod_lt _ (by omega), rfl⟩
      · exact Or.inl h
    · rw [if_neg h0] at h
      rcases ih _ _ _ h with h | h
      · rcases List.mem_cons.mp h with rfl | h
        · exact Or.inr ⟨v % 10, Nat.mod_lt _ (by omega), rfl⟩
        · exact Or.inl h
      · exact Or.inr h

theorem to_string_unsigned_no_sep (v : Nat) :
    ' ' ∉ to_string_unsigned v ∧ '\n' ∉ to_string_unsigned v := by
  constructor
  · intro h
    rcases toDigitsCore_chars _ _ _ _ h with h | ⟨k, hk, e⟩
    · simp at h
    · exact (digitChar_not_sep hk).1 e.symm
  · intro h
    rcases toDigitsCore_chars _ _ _ _ h with h | ⟨k, hk, e⟩
    · simp at h
    · exact (digitChar_not_sep hk).2 e.symm

theorem intercalate_append_single {α : Type} (sep : List α) (L : List (List α)) (x : List α)
    (hL : L ≠ []) : sep.intercalate (L ++ [x]) = sep.intercalate L ++ sep ++ x := by
  induction L with
  | nil => exact absurd rfl hL
  | cons a L ih =>
    cases L with
    | nil => simp [List.intercalate, List.intersperse]
    | cons b L =>
      have h := ih (by simp)
      simp only [List.intercalate, List.cons_append, List.intersperse_cons_cons,
        List.flatten_cons, List.append_assoc] at h ⊢
      rw [h]

theorem mem_intercalate {α : Type} (sep : List α) (L : List (List α)) (c : α)
    (h : c ∈ sep.intercalate L) : c ∈ sep ∨ ∃ l ∈ L, c ∈ l := by
  induction L with
  | nil => simp [List.intercalate] at h
  | cons a L ih =>
    cases L with
    | nil =>
      simp [List.intercalate, List.intersperse] at h
      exact Or.inr ⟨a, by simp, h⟩
    | cons b L =>
      simp only [List.intercalate, List.intersperse_cons_cons, List.flatten_cons,
        List.mem_append] at h ih
      rcases h with h | h | h
      · exact Or.inr ⟨a, by simp, h⟩
      · exact Or.inl h
      · rcases ih h with h | ⟨l, hl, hc⟩
        · exact Or.inl h
        · exact Or.inr ⟨l, List.mem_cons_of_mem _ hl, hc⟩

/-- A loop that appends tokens, with a separator before every token but the first, appends the
tokens joined by the separator. -/
theorem foldl_sep_tokens (sep : Char) (tok : Nat → List Char) (m : Nat) (s0 : List Char) :
    (List.range m).foldl
        (fun string j => (if j != 0 then string ++ [sep] else string) ++ tok j) s0
      = s0 ++ [sep].intercalate ((List.range m).map tok) := by
  induction m with
  | zero => simp [List.intercalate]
  | succ m ih =>
    rw [List.range_succ, List.foldl_append, ih, List.map_append]
    simp only [List.foldl_cons, List.foldl_nil, List.map_cons, List.map_nil]
    cases m with
    | zero => simp [List.intercalate]
    | succ m =>
      rw [intercalate_append_single _ _ _ (by simp [List.range_succ])]
      simp

theorem to_string_eq_intercalate {n : Nat} {data : List (List Nat)} (h : SquareGrid n data) :
    (Board.fromData data).to_string
      = ['\n'].intercalate
          (data.map fun row => [' '].intercalate (row.map to_string_unsigned)) := by
  unfold Board.to_string
  rw [fromData_data, h.1]
  have hinner : ∀ (string : List Char) (i : Nat),
      (List.range n).foldl
          (fun string j =>
            (if j != 0 then string ++ [' '] else string) ++ to_string_unsigned (at2 data i j))
          (if i != 0 then string ++ ['\n'] else string)
        = (if i != 0 then string ++ ['\n'] else string)
            ++ [' '].intercalate ((List.range n).map fun j => to_string_unsigned (at2 data i j)) := by
    intro string i
    exact foldl_sep_tokens ' ' (fun j => to_string_unsigned (at2 data i j)) n _
  simp only [hinner]
  have houter := foldl_sep_tokens '\n'
    (fun i => [' '].intercalate ((List.range n).map fun j => to_string_unsigned (at2 data i j)))
    n []
  simp only [List.nil_append] at houter
  rw [houter]
  congr 1
  have hrows := (mem_rows_iff h.1).mp h.2
  conv_rhs => rw [← map_getD_range data [], h.1, List.map_map]
  apply List.map_congr_left
  intro i hi
  have hi' := List.mem_range.mp hi
  simp only [Function.comp]
  congr 1
  conv_rhs => rw [← map_getD_range (data.getD i []) 0, hrows i hi', List.map_map]
  rfl

/-- Parsing the output of `to_string` gives the grid back, for square grids of side `n ≥ 1`. -/
theorem parse_to_string {n : Nat} {data : List (List Nat)} (hn : 1 ≤ n)
    (h : SquareGrid n data) : parse_grid (Board.fromData data).to_string = data := by
  rw [to_string_eq_intercalate h]
  unfold parse_grid
  rw [List.splitOn_intercalate]
  · rw [List.map_map]
    conv_rhs => rw [← List.map_id data]
    apply List.map_congr_left
    intro row hrow
    simp only [Function.comp, id]
    rw [List.splitOn_intercalate]
    · rw [List.map_map]
      conv_rhs => rw [← List.map_id row]
      apply List.map_congr_left
      intro v _
      exact read_to_string_unsigned v
    · intro l hl
      obtain ⟨v, _, rfl⟩ := List.mem_map.mp hl
      exact (to_string_unsigned_no_sep v).1
    · have := h.2 row hrow
      intro e
      have : row = [] := List.map_eq_nil_iff.mp e
      subst this
      simp at *
      omega
  · intro l hl
    obtain ⟨row, _, rfl⟩ := List.mem_map.mp hl
    intro hmem
    rcases mem_intercalate _ _ _ hmem with hsep | ⟨l, hl, hc⟩
    · simp at hsep
    · obtain ⟨v, _, rfl⟩ := List.mem_map.mp hl
      exact (to_string_unsigned_no_sep v).2 hc
  · intro e
    have : data = [] := List.map_eq_nil_iff.mp e
    have := h.1
    simp_all
    omega

end EightPuzzle

namespace EightPuzzle

theorem to_string_ne_nil {n : Nat} {data : List (List Nat)} (hn : 1 ≤ n)
    (h : SquareGrid n data) : (Board.fromData data).to_string ≠ [] := by
  intro e
  have hp := parse_to_string hn h
  rw [e] at hp
  have hd : data = [[0]] := by rw [← hp]; decide
  rw [hd] at e
  revert e
  decide

/-- C10. `Board::to_string` can be parsed back and is injective on square grids: for a square grid
of side `n ≥ 1` the parser (split on newlines, then on spaces, read decimals) recovers the grid
from `to_string()`, and two boards built from square grids of any sides, `0` included, with equal
`to_string()` are equal. -/
theorem to_string_round_trip (n₁ n₂ : Nat) (d₁ d₂ : List (List Nat))
    (h₁ : SquareGrid n₁ d₁) (h₂ : SquareGrid n₂ d₂) :
    (1 ≤ n₁ → parse_grid (Board.fromData d₁).to_string = d₁) ∧
      ((Board.fromData d₁).to_string = (Board.fromData d₂).to_string →
        (Board.fromData d₁).eq (Board.fromData d₂) = true) := by
  refine ⟨fun hn => parse_to_string hn h₁, fun e => ?_⟩
  have goal : d₁ = d₂ := by
    rcases Nat.eq_zero_or_pos n₁ with z1 | p1
    · have e1 : d₁ = [] := List.length_eq_zero.mp (by rw [h₁.1]; exact z1)
      rcases Nat.eq_zero_or_pos n₂ with z2 | p2
      · have e2 : d₂ = [] := List.length_eq_zero.mp (by rw [h₂.1]; exact z2)
        rw [e1, e2]
      · exfalso
        apply to_string_ne_nil p2 h₂
        rw [← e, e1]
        rfl
    · rcases Nat.eq_zero_or_pos n₂ with z2 | p2
      · have e2 : d₂ = [] := List.length_eq_zero.mp (by rw [h₂.1]; exact z2)
        exfalso
        apply to_string_ne_nil p1 h₁
        rw [e, e2]
        rfl
      · rw [← parse_to_string p1 h₁, ← parse_to_string p2 h₂, e]
  unfold Board.eq
  rw [fromData_data, fromData_data, goal]
  simp

/-- C10 at a concrete input: the grids `[[1,2],[3,0]]` and `[[12]]` have different strings, and
the first is recovered by the parser. -/
theorem to_string_round_trip_witness :
    SquareGrid 2 [[1, 2], [3, 0]] ∧ SquareGrid 1 [[12]] ∧
      (Board.fromData [[1, 2], [3, 0]]).to_string = ['1', ' ', '2', '\n', '3', ' ', '0'] ∧
      parse_grid (Board.fromData [[1, 2], [3, 0]]).to_string = [[1, 2], [3, 0]] :=
  ⟨by decide, by decide, by decide,
    (to_string_round_trip 2 1 [[1, 2], [3, 0]] [[12]] (by decide) (by decide)).1 (by decide)⟩

end EightPuzzle

namespace EightPuzzle

/-! ## `Board::create_goal` -/

theorem fill_row_spec (f : Nat → Nat) (i : Nat) :
    ∀ (m : Nat) (B : List (List Nat)), m ≤ (B.getD i []).length →
      (((List.range m).foldl (fun board j => set2 board i j (f j)) B).length = B.length ∧
        (∀ k, (((List.range m).foldl (fun board j => set2 board i j (f j)) B).getD k []).length
          = (B.getD k []).length) ∧
        ∀ k l, at2 ((List.range m).foldl (fun board j => set2 board i j (f j)) B) k l
          = if k = i ∧ l < m then f l else at2 B k l) := by
  intro m
  induction m with
  | zero => intro B _; simp
  | succ m ih =>
    intro B hm
    obtain ⟨h1, h2, h3⟩ := ih B (by omega)
    rw [List.range_succ, List.foldl_append]
    simp only [List.foldl_cons, List.foldl_nil]
    refine ⟨by rw [length_set2, h1], fun k => by rw [row_length_set2, h2], fun k l => ?_⟩
    rw [at2_set2 _ _ _ _ _ _ (by rw [h2]; omega), h3]
    by_cases hk : k = i
    · by_cases hl : l = m
      · simp [hk, hl]
      · by_cases hl2 : l < m
        · have : l < m + 1 := by omega
          simp [hk, hl, hl2, this]
        · have : ¬ l < m + 1 := by omega
          simp [hk, hl, hl2, this]
    · simp [hk]

theorem fill_rows_spec (size : Nat) (f : Nat → Nat → Nat) :
    ∀ (m : Nat) (B : List (List Nat)), (∀ k, k < m → (B.getD k []).length = size) →
      (((List.range m).foldl
          (fun board i => (List.range size).foldl (fun board j => set2 board i j (f i j)) board)
          B).length = B.length ∧
        (∀ k, (((List.range m).foldl
          (fun board i => (List.range size).foldl (fun board j => set2 board i j (f i j)) board)
          B).getD k []).length = (B.getD k []).length) ∧
        ∀ k l, at2 ((List.range m).foldl
          (fun board i => (List.range size).foldl (fun board j => set2 board i j (f i j)) board)
          B) k l = if k < m ∧ l < size then f k l else at2 B k l) := by
  intro m
  induction m with
  | zero => intro B _; simp
  | succ m ih =>
    intro B hB
    obtain ⟨h1, h2, h3⟩ := ih B (fun k hk => hB k (by omega))
    rw [List.range_succ, List.foldl_append]
    simp only [List.foldl_cons, List.foldl_nil]
    obtain ⟨g1, g2, g3⟩ := fill_row_spec (f m) m size
      ((List.range m).foldl
        (fun board i => (List.range size).foldl (fun board j => set2 board i j (f i j)) board) B)
      (by rw [h2, hB m (by omega)])
    refine ⟨by rw [g1, h1], fun k => by rw [g2, h2], fun k l => ?_⟩
    rw [g3, h3]
    by_cases hk : k = m
    · by_cases hl : l < size
      · simp [hk, hl]
      · simp [hk, hl]
    · by_cases hk2 : k < m
      · have : k < m + 1 := by omega
        simp [hk, hk2, this]
      · have : ¬ k < m + 1 := by omega
        simp [hk, hk2, this]

theorem getD_replicate_row (size k : Nat) (hk : k < size) :
    ((List.replicate size (List.replicate size 0)).getD k []).length = size := by
  rw [List.getD_eq_getElem _ _ (by simpa using hk)]
  simp

theorem create_goal_fill_spec (size : Nat) :
    (create_goal_fill size).length = size ∧
      (∀ k, k < size → ((create_goal_fill size).getD k []).length = size) ∧
      ∀ k l, k < size → l < size → at2 (create_goal_fill size) k l = u32 (k * size + l + 1) := by
  obtain ⟨h1, h2, h3⟩ := fill_rows_spec size (fun i j => u32 (i * size + j + 1)) size
    (List.replicate size (List.replicate size 0)) (fun k hk => getD_replicate_row size k hk)
  unfold create_goal_fill
  refine ⟨by rw [h1]; simp, fun k hk => by rw [h2, getD_replicate_row size k hk],
    fun k l hk hl => by rw [h3, if_pos ⟨hk, hl⟩]⟩

theorem u32_pred {size : Nat} (h1 : 1 ≤ size) (h2 : size < 4294967296) :
    create_goal_last size = size - 1 := by
  unfold create_goal_last u32
  omega

/-- The grid that `Board::create_goal` builds, for `1 ≤ size < 2 ^ 32`: side `size`, cell
`(k, l)` holds `k * size + l + 1` truncated to `unsigned`, except the last cell, which holds
`0`. -/
theorem create_goal_data_spec {size : Nat} (h1 : 1 ≤ size) (h2 : size < 4294967296) :
    SquareGrid size (Board.create_goal size).m_data ∧
      ∀ k l, k < size → l < size → at2 (Board.create_goal size).m_data k l
        = if k = size - 1 ∧ l = size - 1 then 0 else u32 (k * size + l + 1) := by
  obtain ⟨g1, g2, g3⟩ := create_goal_fill_spec size
  unfold Board.create_goal
  rw [fromData_data, u32_pred h1 h2]
  refine ⟨⟨by rw [length_set2, g1], ?_⟩, fun k l hk hl => ?_⟩
  · rw [mem_rows_iff (by rw [length_set2, g1])]
    intro k hk
    rw [row_length_set2, g2 k hk]
  · rw [at2_set2 _ _ _ _ _ _ (by rw [g2 _ (by omega)]; omega), g3 k l hk hl]

theorem getD_goal_list {n q : Nat} (hq : q < n * n) :
    (goal_list n).getD q 0 = if q = n * n - 1 then 0 else q + 1 := by
  unfold goal_list
  rw [List.getD_eq_getElem?_getD]
  by_cases h : q < n * n - 1
  · have hne : ¬ q = n * n - 1 := by omega
    rw [List.getElem?_append_left (by simpa using h), List.getElem?_range' _ _ h, if_neg hne]
    simp
    omega
  · have : q = n * n - 1 := by omega
    rw [List.getElem?_append_right (by simp; omega)]
    simp [this]

theorem goal_list_perm (n : Nat) (hn : 1 ≤ n) : (goal_list n).Perm (List.range (n * n)) := by
  unfold goal_list
  have hpos : 0 < n * n := Nat.mul_pos hn hn
  have e : List.range (n * n) = 0 :: List.range' 1 (n * n - 1) := by
    rw [List.range_eq_range']
    conv_lhs => rw [show n * n = (n * n - 1) + 1 by omega]
    rfl
  rw [e]
  exact List.perm_append_singleton 0 _

/-- For `1 ≤ n ≤ 65536` the grid of `create_goal(n)` is the canonical goal grid. -/
theorem create_goal_data {n : Nat} (h1 : 1 ≤ n) (h2 : n ≤ 65536) :
    (Board.create_goal n).m_data = grid_of_list n (goal_list n) := by
  obtain ⟨hs, hat⟩ := create_goal_data_spec h1 (by omega : n < 4294967296)
  have hlen : (goal_list n).length = n * n := by
    rw [(goal_list_perm n h1).length_eq, List.length_range]
  apply grid_ext hs.1 (by simp [grid_of_list]) hs.2 (row_grid_of_list hlen)
  intro p hp
  have hp' := mem_cells.mp hp
  have hq : p.1 * n + p.2 < n * n := by
    have : (p.1 + 1) * n ≤ n * n := Nat.mul_le_mul_right n hp'.1
    rw [Nat.succ_mul] at this
    omega
  have hsq : n * n ≤ 65536 * 65536 := Nat.mul_le_mul h2 h2
  rw [hat _ _ hp'.1 hp'.2, at2_grid_of_list hp'.1 hp'.2, getD_goal_list hq]
  by_cases hl : p.1 = n - 1 ∧ p.2 = n - 1
  · have : p.1 * n + p.2 = n * n - 1 := by
      rw [hl.1, hl.2]
      obtain ⟨m, rfl⟩ : ∃ m, n = m + 1 := ⟨n - 1, by omega⟩
      simp only [Nat.add_sub_cancel]
      ring_nf
      omega
    rw [if_pos hl, if_pos this]
  · have : ¬ p.1 * n + p.2 = n * n - 1 := by
      intro e
      apply hl
      have h3 : (n - 1) * n + (n - 1) = n * n - 1 := by
        obtain ⟨m, rfl⟩ : ∃ m, n = m + 1 := ⟨n - 1, by omega⟩
        simp only [Nat.add_sub_cancel]
        ring_nf
        omega
      have h4 : p.1 ≤ n - 1 := by omega
      have h5 : p.2 ≤ n - 1 := by omega
      rcases Nat.lt_or_ge p.1 (n - 1) with h6 | h6
      · exfalso
        have : (p.1 + 1) * n ≤ (n - 1) * n := Nat.mul_le_mul_right n h6
        rw [Nat.succ_mul] at this
        omega
      · have e1 : p.1 = n - 1 := by omega
        rw [e1] at e
        exact ⟨e1, by omega⟩
    rw [if_neg hl, if_neg this]
    apply u32_of_lt
    omega

theorem goal_grid_valid {n : Nat} (h1 : 1 ≤ n) (h2 : n ≤ 65536) :
    ValidGrid n (grid_of_list n (goal_list n)) :=
  valid_grid_of_list h1 (by have := Nat.mul_le_mul h2 h2; omega) (goal_list_perm n h1)

end EightPuzzle

namespace EightPuzzle

/-! ## The canonical goal board -/

theorem at2_goal_grid {n : Nat} {p : Nat × Nat} (hp : p ∈ cells n) :
    at2 (grid_of_list n (goal_list n)) p.1 p.2
      = if p.1 * n + p.2 = n * n - 1 then 0 else p.1 * n + p.2 + 1 := by
  have hp' := mem_cells.mp hp
  have hq : p.1 * n + p.2 < n * n := by
    have : (p.1 + 1) * n ≤ n * n := Nat.mul_le_mul_right n hp'.1
    rw [Nat.succ_mul] at this
    omega
  rw [at2_grid_of_list hp'.1 hp'.2, getD_goal_list hq]

theorem last_index {n : Nat} (hn : 1 ≤ n) : (n - 1) * n + (n - 1) = n * n - 1 := by
  obtain ⟨m, rfl⟩ : ∃ m, n = m + 1 := ⟨n - 1, by omega⟩
  simp only [Nat.add_sub_cancel]
  ring_nf
  omega

theorem goal_pos_succ {n i j : Nat} (hj : j < n) : goal_pos n (i * n + j + 1) = (i, j) := by
  unfold goal_pos
  rw [Nat.add_sub_cancel, Nat.mul_comm i n, Nat.mul_add_div (by omega), Nat.mul_add_mod,
    Nat.div_eq_of_lt hj, Nat.mod_eq_of_lt hj, Nat.add_zero]

theorem misplaced_goal_grid {n : Nat} :
    misplaced_tiles n (grid_of_list n (goal_list n)) = 0 := by
  unfold misplaced_tiles
  rw [List.countP_eq_zero]
  intro p hp
  have hp' := mem_cells.mp hp
  rw [at2_goal_grid hp]
  by_cases hq : p.1 * n + p.2 = n * n - 1
  · simp [hq]
  · rw [if_neg hq, goal_pos_succ hp'.2]
    simp

theorem last_cell_mem {n : Nat} (hn : 1 ≤ n) : (n - 1, n - 1) ∈ cells n :=
  mem_cells.mpr ⟨by simp; omega, by simp; omega⟩

theorem at2_goal_grid_last {n : Nat} (hn : 1 ≤ n) :
    at2 (grid_of_list n (goal_list n)) (n - 1) (n - 1) = 0 := by
  have := at2_goal_grid (last_cell_mem hn)
  simp only at this
  rw [this, if_pos (last_index hn)]

theorem tiles_goal_grid {n : Nat} (hn : 1 ≤ n) :
    tiles (grid_of_list n (goal_list n)) = List.range' 1 (n * n - 1) := by
  have hlen : (goal_list n).length = n * n := by
    rw [(goal_list_perm n hn).length_eq, List.length_range]
  unfold tiles
  rw [flatten_grid_of_list hlen]
  unfold goal_list
  rw [List.filter_append]
  have h1 : List.filter (fun v => v != 0) (List.range' 1 (n * n - 1))
      = List.range' 1 (n * n - 1) := by
    rw [List.filter_eq_self]
    intro v hv
    have := (List.mem_range'_1.mp hv).1
    simp
    omega
  rw [h1]
  simp

theorem create_goal_eq {n : Nat} (h1 : 1 ≤ n) (h2 : n ≤ 65536) :
    Board.create_goal n = Board.fromData (grid_of_list n (goal_list n)) := by
  rw [← create_goal_data h1 h2]
  rfl

theorem goal_grid_hamming {n : Nat} (h1 : 1 ≤ n) (h2 : n ≤ 65536) :
    (Board.fromData (grid_of_list n (goal_list n))).m_hamming_distance = 0 := by
  have hv := goal_grid_valid h1 h2
  rw [fromData_hamming hv.2.1 hv.2.2.1, hamming_sum_eq hv, misplaced_goal_grid,
    if_pos (at2_goal_grid_last h1)]
  rfl

theorem create_goal_is_goal {n : Nat} (h1 : 1 ≤ n) (h2 : n ≤ 65536) :
    (Board.create_goal n).is_goal = true := by
  rw [create_goal_eq h1 h2]
  unfold Board.is_goal
  rw [goal_grid_hamming h1 h2]
  rfl

theorem create_goal_is_solvable {n : Nat} (h1 : 1 ≤ n) (h2 : n ≤ 65536) :
    (Board.create_goal n).is_solvable = true := by
  rw [create_goal_eq h1 h2,
    is_solvable_formula (goal_grid_valid h1 h2) (last_cell_mem h1) (at2_goal_grid_last h1)]
  have hinv : inversions (tiles (grid_of_list n (goal_list n))) = 0 := by
    rw [tiles_goal_grid h1]
    apply inversions_of_sorted
    exact List.pairwise_le_range' 1 (n * n - 1)
  rw [hinv]
  dsimp only
  omega

end EightPuzzle

namespace EightPuzzle

/-! ## C3: solving the goal board -/

theorem create_goal_eq_fromData (n : Nat) :
    Board.create_goal n = Board.fromData (Board.create_goal n).m_data := rfl

theorem is_goal_false_of_sum {n : Nat} {data : List (List Nat)} (h : SquareGrid n data)
    (h1 : 1 ≤ ((cells n).map (hamming_term data)).sum)
    (h2 : ((cells n).map (hamming_term data)).sum < 4294967296) :
    (Board.fromData data).is_goal = false := by
  unfold Board.is_goal
  rw [fromData_hamming h.1 h.2, u32_of_lt h2]
  simp
  omega

theorem hamming_term_le_one (data : List (List Nat)) (p : Nat × Nat) :
    hamming_term data p ≤ 1 := by
  unfold hamming_term
  split <;> omega

/-- The misplacement sum of the grid of `create_goal(65537)`: every cell of the rows below
`65535` is in place, and the cell `(65535, 0)` holds `2 ^ 32` truncated to `0`. -/
theorem create_goal_wrap_sum (n : Nat) (hn : n = 65537) :
    1 ≤ ((cells n).map (hamming_term (Board.create_goal n).m_data)).sum ∧
      ((cells n).map (hamming_term (Board.create_goal n).m_data)).sum < 4294967296 := by
  obtain ⟨hs, hat⟩ := create_goal_data_spec (by omega : 1 ≤ n) (by omega : n < 4294967296)
  have hsplit : List.range n = List.range 65535 ++ (List.range 2).map (65535 + ·) := by
    rw [hn]
    exact List.range_add 65535 2
  have hprod : cells n = List.product (List.range 65535) (List.range n)
      ++ List.product ((List.range 2).map (65535 + ·)) (List.range n) := by
    unfold cells
    rw [← product_append_left, ← hsplit]
  have hlow : ∀ x ∈ (List.product (List.range 65535) (List.range n)).map
      (hamming_term (Board.create_goal n).m_data), x = 0 := by
    intro x hx
    obtain ⟨p, hp, rfl⟩ := List.mem_map.mp hx
    obtain ⟨i, j⟩ := p
    have hij : i < 65535 ∧ j < n := by simpa [List.pair_mem_product] using hp
    have hv : at2 (Board.create_goal n).m_data i j = i * n + j + 1 := by
      rw [hat i j (by omega) hij.2, if_neg (by omega)]
      apply u32_of_lt
      subst hn
      omega
    unfold hamming_term
    rw [hs.1]
    simp only
    rw [hv, expected_tile (by omega) (by subst hn; omega), goal_pos_succ hij.2]
    simp
  have hmem : (65535, 0) ∈ List.product ((List.range 2).map (65535 + ·)) (List.range n) := by
    rw [List.pair_mem_product]
    exact ⟨List.mem_map.mpr ⟨0, by simp, rfl⟩, List.mem_range.mpr (by omega)⟩
  have hone : hamming_term (Board.create_goal n).m_data (65535, 0) = 1 := by
    have hv : at2 (Board.create_goal n).m_data 65535 0 = 0 := by
      rw [hat 65535 0 (by omega) (by omega), if_neg (by omega)]
      subst hn
      rfl
    unfold hamming_term
    rw [hs.1]
    simp only
    rw [hv, expected_blank (by omega)]
    subst hn
    rfl
  have hge := List.le_sum_of_mem (List.mem_map_of_mem
    (hamming_term (Board.create_goal n).m_data) hmem)
  have hle := List.sum_le_card_nsmul
    ((List.product ((List.range 2).map (65535 + ·)) (List.range n)).map
      (hamming_term (Board.create_goal n).m_data)) 1 (by
        intro x hx
        obtain ⟨p, _, rfl⟩ := List.mem_map.mp hx
        exact hamming_term_le_one _ p)
  have hlen : (List.product ((List.range 2).map (65535 + ·)) (List.range n)).length = 2 * n := by
    have h := List.length_product ((List.range 2).map (65535 + ·)) (List.range n)
    rw [List.length_map, List.length_range, List.length_range] at h
    exact h
  rw [List.length_map, hlen] at hle
  rw [hone] at hge
  rw [hprod, List.map_append, List.sum_append, List.sum_eq_zero hlow]
  simp only [smul_eq_mul] at hle
  omega

/-- C3 as stated fails for sizes whose squares exceed the range of a cell: `create_goal(65537)`
is not a goal board for `is_goal()`, because the cell values `i * size + j + 1` wrap modulo
`2 ^ 32`. -/
theorem create_goal_counterexample : (Board.create_goal 65537).is_goal = false := by
  rw [create_goal_eq_fromData]
  exact is_goal_false_of_sum (create_goal_data_spec (by omega) (by omega)).1
    (create_goal_wrap_sum 65537 rfl).1 (create_goal_wrap_sum 65537 rfl).2

/-- C3, amended. For every size `1 ≤ n ≤ 65536`, `create_goal(n)` satisfies `is_solvable()` and
`is_goal()`, its final write stays inside the grid, and `solve(create_goal(n))` returns exactly
the one-board sequence `[create_goal(n)]`, with `moves() == 0`, for any queue, any `atan` and any
fuel. -/
theorem solve_goal_board (P : PriorityQueue) (atan : Nat → ℚ) (fuel n : Nat)
    (h1 : 1 ≤ n) (h2 : n ≤ 65536) :
    create_goal_in_bounds n = true ∧
      (Board.create_goal n).is_solvable = true ∧ (Board.create_goal n).is_goal = true ∧
      solve P atan fuel (Board.create_goal n) = some ⟨[Board.create_goal n]⟩ ∧
      (Solution.mk [Board.create_goal n]).moves = 0 := by
  have hs := create_goal_is_solvable h1 h2
  have hg := create_goal_is_goal h1 h2
  refine ⟨?_, hs, hg, ?_, rfl⟩
  · unfold create_goal_in_bounds
    rw [u32_pred h1 (by omega)]
    simp
    omega
  · unfold solve
    rw [hs, hg]
    simp

/-- C3, amended, at a concrete input: size `3`, the list queue, a constant `atan` and fuel `0`. -/
theorem solve_goal_board_witness :
    solve list_queue (fun _ => 1) 0 (Board.create_goal 3) = some ⟨[Board.create_goal 3]⟩ ∧
      (Board.create_goal 3).m_data = [[1, 2, 3], [4, 5, 6], [7, 8, 0]] :=
  ⟨(solve_goal_board list_queue (fun _ => 1) 0 3 (by decide) (by decide)).2.2.2.1, by decide⟩

end EightPuzzle

namespace EightPuzzle

/-! ## Valid boards under moves -/

theorem my_move_eq_fromData (b : Board) (m : Move) :
    b.my_move m = Board.fromData (b.my_move m).m_data := rfl

theorem ValidBoard.my_move {n : Nat} {b : Board} (h : ValidBoard n b) {m : Move}
    (hm : m.is_unit) (hv : b.is_valid_move m = true) : ValidBoard n (b.my_move m) := by
  obtain ⟨data, hd, rfl⟩ := h
  exact ⟨((Board.fromData data).my_move m).m_data, (my_move_data hd m hm hv).1,
    my_move_eq_fromData _ _⟩

theorem ValidBoard.eq_iff {n : Nat} {a b : Board} (ha : ValidBoard n a) (hb : ValidBoard n b) :
    a.eq b = true ↔ a = b := by
  obtain ⟨d1, _, rfl⟩ := ha
  obtain ⟨d2, _, rfl⟩ := hb
  unfold Board.eq
  rw [fromData_data, fromData_data]
  constructor
  · intro h
    rw [beq_iff_eq] at h
    rw [h]
  · intro h
    have := congrArg Board.m_data h
    rw [fromData_data, fromData_data] at this
    rw [this]
    simp

theorem Move.reverse_is_unit {m : Move} (hm : m.is_unit) : m.reverse.is_unit := by
  unfold Move.is_unit Move.reverse at *
  simp only [neg_mul_neg]
  exact hm

/-- The reverse move is legal on the moved board and undoes the move. -/
theorem my_move_reverse {n : Nat} {b : Board} (h : ValidBoard n b) {m : Move}
    (hm : m.is_unit) (hv : b.is_valid_move m = true) :
    (b.my_move m).is_valid_move m.reverse = true ∧ (b.my_move m).my_move m.reverse = b := by
  obtain ⟨data, hd, rfl⟩ := h
  obtain ⟨_, hr, hc⟩ := my_move_blank hd m hm hv
  have hvalid := (my_move_data hd m hm hv).1
  have hb := mem_cells.mp (blank_cell hd).1
  have ht := target_cell hd m hm hv
  have hc' : (Board.fromData data).my_move m
      = Board.fromData ((Board.fromData data).my_move m).m_data := my_move_eq_fromData _ _
  have hside := hd.side_le
  simp only at hb
  have hrev : ((Board.fromData data).my_move m).is_valid_move m.reverse = true := by
    rw [hc']
    rw [is_valid_move_iff hvalid _ (Move.reverse_is_unit hm)]
    rw [← hc', hr, hc]
    simp only [Move.reverse]
    omega
  refine ⟨hrev, ?_⟩
  have hback1 : size_add ((Board.fromData data).my_move m).m_blank_row m.reverse.get_di
      = (Board.fromData data).m_blank_row := by
    rw [hr]
    have h1 := ht.1
    generalize size_add (Board.fromData data).m_blank_row m.di = r at h1 ⊢
    unfold size_add Move.reverse Move.get_di
    simp only
    omega
  have hback2 : size_add ((Board.fromData data).my_move m).m_blank_col m.reverse.get_dj
      = (Board.fromData data).m_blank_col := by
    rw [hc]
    have h1 := ht.2.1
    generalize size_add (Board.fromData data).m_blank_col m.dj = r at h1 ⊢
    unfold size_add Move.reverse Move.get_dj
    simp only
    omega
  rw [my_move_eq_swap ((Board.fromData data).my_move m), hback1, hback2, hr, hc]
  congr 1
  rw [my_move_eq_swap, fromData_data]
  have hsw := hd.swap_cells (blank_cell hd).1 ht.2.2.1
  apply grid_ext (n := n)
    (by rw [length_swap_cells, length_swap_cells]; exact hd.2.1)
    hd.2.1 (rows_swap_cells hsw.2.1 hsw.2.2.1 _ _) hd.2.2.1
  intro x _
  rw [at2_swap_cells hsw.2.1 hsw.2.2.1 ht.2.2.1 (blank_cell hd).1,
    at2_swap_cells hd.2.1 hd.2.2.1 (blank_cell hd).1 ht.2.2.1, Equiv.swap_comm,
    Equiv.swap_apply_self]

end EightPuzzle

namespace EightPuzzle

/-! ## The loops of `Solver::solve` -/

theorem Known.mono {initial : Board} {prev : PrevMap} {b : Board} (e : Board × Move)
    (h : Known initial prev b) : Known initial (e :: prev) b := by
  rcases h with h | ⟨m, hm⟩
  · exact Or.inl h
  · exact Or.inr ⟨m, List.mem_cons_of_mem _ hm⟩

theorem PrevOk.cons {n : Nat} {initial : Board} {prev : PrevMap} (h : PrevOk n initial prev)
    {a : Board} {m : Move} (ha : ValidBoard n a) (hk : Known initial prev a) (hm : m.is_unit)
    (hv : a.is_valid_move m = true) : PrevOk n initial ((a.my_move m, m) :: prev) := by
  intro e he
  rcases List.mem_cons.mp he with rfl | he
  · exact ⟨ha.my_move hm hv, hm, a, ha, hk.mono _, hv, rfl⟩
  · obtain ⟨h1, h2, a', h3, h4, h5, h6⟩ := h e he
    exact ⟨h1, h2, a', h3, h4.mono _, h5, h6⟩

theorem prev_find_of_mem {n : Nat} {initial : Board} {prev : PrevMap}
    (h : PrevOk n initial prev) {b : Board} (hb : ValidBoard n b) {m : Move}
    (hm : (b, m) ∈ prev) : ∃ m', prev_find prev b = some m' ∧ (b, m') ∈ prev := by
  unfold prev_find
  cases hf : prev.find? (fun e => e.1.eq b) with
  | none =>
    rw [List.find?_eq_none] at hf
    exact absurd ((ValidBoard.eq_iff hb hb).mpr rfl) (hf _ hm)
  | some e =>
    have h1 := List.find?_some hf
    have h2 := List.mem_of_find?_eq_some hf
    have h3 : e.1 = b := (ValidBoard.eq_iff (h e h2).1 hb).mp h1
    refine ⟨e.2, rfl, ?_⟩
    rw [← h3]
    exact h2

theorem prev_find_none {n : Nat} {prev : PrevMap} {b : Board} {m : Move}
    (hb : ValidBoard n b) (h : prev_find prev b = none) : (b, m) ∉ prev := by
  intro hm
  unfold prev_find at h
  rw [Option.map_eq_none', List.find?_eq_none] at h
  exact h _ hm ((ValidBoard.eq_iff hb hb).mpr rfl)

theorem reconstruct_spec {n : Nat} {initial : Board} {prev : PrevMap}
    (hi : ValidBoard n initial) (hp : PrevOk n initial prev) :
    ∀ (fuel : Nat) (result out : List Board), PathInv n initial prev result →
      reconstruct initial prev fuel result = some out →
      PathInv n initial prev out ∧ out.getLast? = some initial := by
  intro fuel
  induction fuel with
  | zero =>
    intro result out hinv hr
    unfold reconstruct at hr
    cases hl : result.getLast? with
    | none => rw [hl] at hr; simp at hr
    | some back =>
      rw [hl] at hr
      simp only at hr
      by_cases he : back.eq initial = true
      · simp only [he, Bool.not_true, Bool.false_eq_true, if_false, Option.some.injEq] at hr
        subst hr
        have hb := (hinv.2.1 back (List.mem_of_getLast?_eq_some hl)).1
        rw [(ValidBoard.eq_iff hb hi).mp he] at hl
        exact ⟨hinv, hl⟩
      · simp [he] at hr
  | succ fuel ih =>
    intro result out hinv hr
    unfold reconstruct at hr
    cases hl : result.getLast? with
    | none => rw [hl] at hr; simp at hr
    | some back =>
      rw [hl] at hr
      simp only at hr
      have hmem := List.mem_of_getLast?_eq_some hl
      obtain ⟨hb, hk⟩ := hinv.2.1 back hmem
      by_cases he : back.eq initial = true
      · simp only [he, Bool.not_true, Bool.false_eq_true, if_false, Option.some.injEq] at hr
        subst hr
        rw [(ValidBoard.eq_iff hb hi).mp he] at hl
        exact ⟨hinv, hl⟩
      · simp only [he, Bool.not_false, if_true] at hr
        have hne : back ≠ initial := fun e => he ((ValidBoard.eq_iff hb hi).mpr e)
        rcases hk with hk | ⟨m, hm⟩
        · exact absurd hk hne
        · obtain ⟨m', hf, hm'⟩ := prev_find_of_mem hp hb hm
          obtain ⟨_, hu, a, ha, hka, hva, hmv⟩ := hp _ hm'
          simp only at hu hva hmv
          have hat : prev_at prev back = m' := by
            unfold prev_at
            rw [hf]
            rfl
          have hrev := (my_move_reverse ha hu hva).2
          rw [hmv] at hrev
          rw [hat, hrev] at hr
          apply ih _ _ _ hr
          refine ⟨?_, ?_, ?_⟩
          · obtain ⟨g, hg1, hg2⟩ := hinv.1
            refine ⟨g, ?_, hg2⟩
            cases result with
            | nil => simp at hg1
            | cons x xs => simpa using hg1
          · intro r hr'
            rcases List.mem_append.mp hr' with h | h
            · exact hinv.2.1 r h
            · simp only [List.mem_singleton] at h
              subst h
              exact ⟨ha, hka⟩
          · rw [List.chain'_append]
            refine ⟨hinv.2.2, List.chain'_singleton _, ?_⟩
            intro x hx y hy
            simp only [List.head?_cons, Option.mem_def, Option.some.injEq] at hy
            subst hy
            rw [Option.mem_def, hl] at hx
            simp only [Option.some.injEq] at hx
            subst hx
            exact ⟨m', hu, hva, hmv⟩

theorem expand_move_inv {P : PriorityQueue} (hP : P.Lawful) (atan : Nat → ℚ) {n : Nat}
    {initial : Board} (state : State) (acc : P.Q × PrevMap) (move : Move)
    (hinv : SearchInv P n initial acc.1 acc.2) (hs : ValidBoard n state.board)
    (hk : Known initial acc.2 state.board) :
    SearchInv P n initial (expand_move P atan state acc move).1
        (expand_move P atan state acc move).2 ∧
      Known initial (expand_move P atan state acc move).2 state.board := by
  unfold expand_move
  by_cases hc : (move.di * move.di + move.dj * move.dj != 1
      || !state.board.is_valid_move move) = true
  · rw [if_pos hc]
    exact ⟨hinv, hk⟩
  · rw [if_neg hc]
    simp only [Bool.or_eq_true, bne_iff_ne, ne_eq, Bool.not_eq_true', not_or, not_not,
      Bool.not_eq_false] at hc
    obtain ⟨hu, hv⟩ := hc
    have hu' : move.is_unit := hu
    simp only
    by_cases hf : (prev_find acc.2 (state.board.my_move move)).isNone = true
    · rw [if_pos hf]
      refine ⟨⟨?_, hinv.2.cons hs hk hu' hv⟩, hk.mono _⟩
      intro s hs'
      rcases List.mem_cons.mp ((hP.contents_push _ _).mem_iff.mp hs') with rfl | h
      · exact ⟨hs.my_move hu' hv, Or.inr ⟨move, List.mem_cons_self _ _⟩⟩
      · exact ⟨(hinv.1 s h).1, (hinv.1 s h).2.mono _⟩
    · rw [if_neg hf]
      exact ⟨hinv, hk⟩

theorem expand_inv {P : PriorityQueue} (hP : P.Lawful) (atan : Nat → ℚ) {n : Nat}
    {initial : Board} (state : State) (pq : P.Q) (prev : PrevMap)
    (hinv : SearchInv P n initial pq prev) (hs : ValidBoard n state.board)
    (hk : Known initial prev state.board) :
    SearchInv P n initial (expand P atan state pq prev).1 (expand P atan state pq prev).2 := by
  have key : ∀ (moves : List Move) (acc : P.Q × PrevMap),
      SearchInv P n initial acc.1 acc.2 → Known initial acc.2 state.board →
      SearchInv P n initial (moves.foldl (expand_move P atan state) acc).1
        (moves.foldl (expand_move P atan state) acc).2 := by
    intro moves
    induction moves with
    | nil => intro acc h _; exact h
    | cons mv moves ih =>
      intro acc h hk'
      obtain ⟨h1, h2⟩ := expand_move_inv hP atan state acc mv h hs hk'
      exact ih _ h1 h2
  exact key loop_moves (pq, prev) hinv hk

theorem pop_mem {P : PriorityQueue} (hP : P.Lawful) {q q' : P.Q} {s : State}
    (h : P.pop q = some (s, q')) :
    s ∈ P.contents q ∧ ∀ t ∈ P.contents q', t ∈ P.contents q := by
  have hperm := hP.pop_some q s q' h
  exact ⟨hperm.mem_iff.mpr (List.mem_cons_self _ _),
    fun t ht => hperm.mem_iff.mpr (List.mem_cons_of_mem _ ht)⟩

theorem search_spec {P : PriorityQueue} (hP : P.Lawful) (atan : Nat → ℚ) {n : Nat}
    {initial : Board} (hi : ValidBoard n initial) (rfuel : Nat) :
    ∀ (fuel : Nat) (pq : P.Q) (prev : PrevMap) (out : List Board),
      SearchInv P n initial pq prev → search P atan initial rfuel fuel pq prev = some out →
      out = [] ∨ ∃ prev', PathInv n initial prev' out ∧ out.getLast? = some initial := by
  intro fuel
  induction fuel with
  | zero => intro pq prev out _ h; simp [search] at h
  | succ fuel ih =>
    intro pq prev out hinv h
    unfold search at h
    cases hpop : P.pop pq with
    | none =>
      rw [hpop] at h
      simp only [Option.some.injEq] at h
      exact Or.inl h.symm
    | some r =>
      obtain ⟨state, pq'⟩ := r
      rw [hpop] at h
      simp only at h
      obtain ⟨hmem, hsub⟩ := pop_mem hP hpop
      obtain ⟨hv, hk⟩ := hinv.1 state hmem
      by_cases hg : state.board.is_goal = true
      · rw [if_pos hg] at h
        right
        refine ⟨prev, reconstruct_spec hi hinv.2 rfuel [state.board] out ?_ h⟩
        refine ⟨⟨state.board, rfl, hg⟩, ?_, List.chain'_singleton _⟩
        intro r hr
        simp only [List.mem_singleton] at hr
        subst hr
        exact ⟨hv, hk⟩
      · rw [if_neg hg] at h
        exact ih _ _ out
          (expand_inv hP atan state pq' prev ⟨fun s hs => hinv.1 s (hsub s hs), hinv.2⟩ hv hk) h

end EightPuzzle

namespace EightPuzzle

/-! ## The list queue satisfies the contract -/

theorem list_pop_spec : ∀ (q : List State),
    (list_pop q = none ↔ q = []) ∧
      ∀ s q', list_pop q = some (s, q') →
        q.Perm (s :: q') ∧ ∀ t ∈ q, s.heuristic_value ≤ t.heuristic_value := by
  intro q
  induction q with
  | nil => simp [list_pop]
  | cons a rest ih =>
    refine ⟨by
      unfold list_pop
      cases list_pop rest with
      | none => simp
      | some r => obtain ⟨t, r'⟩ := r; simp only; split <;> simp, ?_⟩
    intro s q' h
    unfold list_pop at h
    cases hr : list_pop rest with
    | none =>
      rw [hr] at h
      simp only [Option.some.injEq, Prod.mk.injEq] at h
      obtain ⟨rfl, rfl⟩ := h
      have : rest = [] := ih.1.mp hr
      subst this
      exact ⟨List.Perm.refl _, by simp⟩
    | some r =>
      obtain ⟨t, r'⟩ := r
      rw [hr] at h
      simp only at h
      obtain ⟨hperm, hmin⟩ := ih.2 t r' hr
      by_cases hle : a.heuristic_value ≤ t.heuristic_value
      · rw [if_pos hle] at h
        simp only [Option.some.injEq, Prod.mk.injEq] at h
        obtain ⟨rfl, rfl⟩ := h
        refine ⟨List.Perm.refl _, ?_⟩
        intro u hu
        rcases List.mem_cons.mp hu with rfl | hu
        · exact le_refl _
        · exact le_trans hle (hmin u hu)
      · rw [if_neg hle] at h
        simp only [Option.some.injEq, Prod.mk.injEq] at h
        obtain ⟨rfl, rfl⟩ := h
        refine ⟨?_, ?_⟩
        · exact (hperm.cons a).trans (List.Perm.swap _ _ _)
        · intro u hu
          rcases List.mem_cons.mp hu with rfl | hu
          · omega
          · exact hmin u hu

theorem list_queue_lawful : list_queue.Lawful where
  contents_empty := rfl
  contents_push := fun q s => List.perm_append_singleton s q
  pop_none := fun q => (list_pop_spec q).1
  pop_some := fun q s q' h => ((list_pop_spec q).2 s q' h).1
  pop_min := fun q s q' h => ((list_pop_spec q).2 s q' h).2

/-! ## Boards of side one -/

theorem valid_side_one {data : List (List Nat)} (h : ValidGrid 1 data) : data = [[0]] := by
  obtain ⟨_, hlen, hrow, _, hperm⟩ := h
  match data, hlen with
  | [row], _ =>
    have hr := hrow row (by simp)
    match row, hr with
    | [v], _ =>
      have := hperm.mem_iff (a := v)
      simp at this
      rw [this]

/-- The initial checks of `Solver::solve` let through only boards that are solvable, of side at
least two and not goal boards. -/
theorem solve_search_case (P : PriorityQueue) (atan : Nat → ℚ) (fuel : Nat) (initial : Board)
    (hs : initial.is_solvable = true) (hn : ¬ initial.size ≤ 1) (hg : initial.is_goal = false) :
    solve P atan fuel initial
      = (search P atan initial fuel fuel (P.push P.empty (State.new atan initial 0)) []).map
          fun result => ⟨result.reverse⟩ := by
  unfold solve
  simp [hs, hn, hg]

theorem search_inv_init {P : PriorityQueue} (hP : P.Lawful) (atan : Nat → ℚ) {n : Nat}
    {initial : Board} (hi : ValidBoard n initial) :
    SearchInv P n initial (P.push P.empty (State.new atan initial 0)) [] := by
  refine ⟨?_, fun e he => by simp at he⟩
  intro s hs
  have := (hP.contents_push P.empty (State.new atan initial 0)).mem_iff.mp hs
  rw [hP.contents_empty] at this
  simp only [List.mem_singleton] at this
  subst this
  exact ⟨hi, Or.inl rfl⟩

/-- What `Solver::solve` returns on a valid board, when it returns: nothing, or a path from the
initial board to a goal board by legal unit moves. -/
theorem solve_path {P : PriorityQueue} (hP : P.Lawful) (atan : Nat → ℚ) (fuel n : Nat)
    {data : List (List Nat)} (h : ValidGrid n data) {s : Solution}
    (hs : solve P atan fuel (Board.fromData data) = some s) :
    s.m_moves = [] ∨
      (s.m_moves.head? = some (Board.fromData data) ∧
        (∃ g, s.m_moves.getLast? = some g ∧ g.is_goal = true) ∧
        List.Chain' Step s.m_moves) := by
  have hi : ValidBoard n (Board.fromData data) := ⟨data, h, rfl⟩
  by_cases hsol : (Board.fromData data).is_solvable = true
  · by_cases hg : (Board.fromData data).is_goal = true
    · right
      have : s = ⟨[Board.fromData data]⟩ := by
        unfold solve at hs
        simp [hsol, hg] at hs
        exact hs.symm
      subst this
      exact ⟨rfl, ⟨_, rfl, hg⟩, List.chain'_singleton _⟩
    · by_cases hn : (Board.fromData data).size ≤ 1
      · exfalso
        have hn1 : n = 1 := by
          have := h.1
          have h2 : (Board.fromData data).size = n := h.2.1
          omega
        subst hn1
        rw [valid_side_one h] at hg
        exact hg (by decide)
      · rw [solve_search_case P atan fuel _ hsol hn (by simpa using hg)] at hs
        obtain ⟨out, ho, rfl⟩ := Option.map_eq_some'.mp hs
        rcases search_spec hP atan hi fuel fuel _ _ out (search_inv_init hP atan hi) ho with
          rfl | ⟨prev', hpath, hlast⟩
        · left; rfl
        · right
          refine ⟨by simpa using hlast, ?_, ?_⟩
          · obtain ⟨g, hg1, hg2⟩ := hpath.1
            exact ⟨g, by simpa using hg1, hg2⟩
          · show List.Chain' Step out.reverse
            rw [List.chain'_reverse]
            exact hpath.2.2
  · left
    unfold solve at hs
    simp [hsol] at hs
    rw [← hs]

end EightPuzzle

namespace EightPuzzle

/-! ## What one expansion adds to the queue and to the predecessor map -/

theorem Board.eq_self (b : Board) : b.eq b = true := by
  unfold Board.eq
  simp

theorem prev_find_cons (e : Board × Move) (prev : PrevMap) (c : Board) :
    prev_find (e :: prev) c = if e.1.eq c then some e.2 else prev_find prev c := by
  unfold prev_find
  rw [List.find?_cons]
  cases h : e.1.eq c <;> simp

theorem prev_find_cons_isSome (e : Board × Move) (prev : PrevMap) (c : Board)
    (h : (prev_find prev c).isSome = true) : (prev_find (e :: prev) c).isSome = true := by
  rw [prev_find_cons]
  split
  · rfl
  · exact h

theorem prev_find_mem {prev : PrevMap} {c : Board} {m : Move} (h : prev_find prev c = some m) :
    ∃ e ∈ prev, e.1.eq c = true ∧ e.2 = m := by
  unfold prev_find at h
  obtain ⟨e, he, rfl⟩ := Option.map_eq_some'.mp h
  have h1 := List.find?_some he
  exact ⟨e, List.mem_of_find?_eq_some he, h1, rfl⟩

theorem unit_mem_loop_moves {m : Move} (hm : m.is_unit) : m ∈ loop_moves := by
  obtain ⟨di, dj⟩ := m
  rcases (Move.is_unit_iff _).mp hm with ⟨h1, h2 | h2⟩ | ⟨h1, h2 | h2⟩ <;>
    simp only at h1 h2 <;> subst h1 <;> subst h2 <;> decide

theorem expandInv_step {P : PriorityQueue} (hP : P.Lawful) (atan : Nat → ℚ) (state : State)
    (pq : P.Q) (prev : PrevMap) (ms : List Move) (acc : P.Q × PrevMap) (mv : Move)
    (h : ExpandInv P atan state pq prev ms acc) :
    ExpandInv P atan state pq prev (ms ++ [mv]) (expand_move P atan state acc mv) := by
  obtain ⟨ha, hb, hc, hd, he⟩ := h
  unfold expand_move
  by_cases hcond : (mv.di * mv.di + mv.dj * mv.dj != 1
      || !state.board.is_valid_move mv) = true
  · rw [if_pos hcond]
    refine ⟨ha, hb, hc, hd, ?_⟩
    intro m hm hu hv
    rcases List.mem_append.mp hm with h | h
    · exact he m h hu hv
    · simp only [List.mem_singleton] at h
      subst h
      exfalso
      simp only [Bool.or_eq_true, bne_iff_ne, ne_eq, Bool.not_eq_true'] at hcond
      rcases hcond with h1 | h1
      · exact h1 hu
      · rw [hv] at h1; exact Bool.noConfusion h1
  · rw [if_neg hcond]
    simp only [Bool.or_eq_true, bne_iff_ne, ne_eq, Bool.not_eq_true', not_or, not_not,
      Bool.not_eq_false] at hcond
    obtain ⟨hu, hv⟩ := hcond
    have hu' : mv.is_unit := hu
    simp only
    by_cases hf : (prev_find acc.2 (state.board.my_move mv)).isNone = true
    · rw [if_pos hf]
      have hpush := hP.contents_push acc.1 (State.new atan (state.board.my_move mv)
        (next_depth state.depth))
      refine ⟨?_, ?_, ?_, ?_, ?_⟩
      · intro e hmem
        rcases List.mem_cons.mp hmem with rfl | hmem
        · exact Or.inr ⟨hu', hv, rfl, hpush.mem_iff.mpr (List.mem_cons_self _ _)⟩
        · rcases ha e hmem with h | ⟨h1, h2, h3, h4⟩
          · exact Or.inl h
          · exact Or.inr ⟨h1, h2, h3, hpush.mem_iff.mpr (List.mem_cons_of_mem _ h4)⟩
      · intro s hs
        rcases List.mem_cons.mp (hpush.mem_iff.mp hs) with rfl | hs
        · exact Or.inr ⟨mv, hu', hv, rfl⟩
        · exact hb s hs
      · intro e hmem
        exact List.mem_cons_of_mem _ (hc e hmem)
      · intro s hs
        exact hpush.mem_iff.mpr (List.mem_cons_of_mem _ (hd s hs))
      · intro m hm hum hvm
        rcases List.mem_append.mp hm with h | h
        · exact prev_find_cons_isSome _ _ _ (he m h hum hvm)
        · simp only [List.mem_singleton] at h
          subst h
          rw [prev_find_cons]
          simp [Board.eq_self]
    · rw [if_neg hf]
      refine ⟨ha, hb, hc, hd, ?_⟩
      intro m hm hum hvm
      rcases List.mem_append.mp hm with h | h
      · exact he m h hum hvm
      · simp only [List.mem_singleton] at h
        subst h
        cases hx : prev_find acc.2 (state.board.my_move m) with
        | none => rw [hx] at hf; exact absurd rfl hf
        | some v => rfl

theorem expand_spec {P : PriorityQueue} (hP : P.Lawful) (atan : Nat → ℚ) (state : State)
    (pq : P.Q) (prev : PrevMap) :
    ExpandInv P atan state pq prev loop_moves (expand P atan state pq prev) := by
  have key : ∀ (rest ms : List Move) (acc : P.Q × PrevMap),
      ExpandInv P atan state pq prev ms acc →
      ExpandInv P atan state pq prev (ms ++ rest)
        (rest.foldl (expand_move P atan state) acc) := by
    intro rest
    induction rest with
    | nil => intro ms acc h; simpa using h
    | cons mv rest ih =>
      intro ms acc h
      have := ih (ms ++ [mv]) _ (expandInv_step hP atan state pq prev ms acc mv h)
      simpa using this
  have h0 : ExpandInv P atan state pq prev [] (pq, prev) :=
    ⟨fun e he => Or.inl he, fun s hs => Or.inl hs, fun e he => he, fun s hs => hs,
      fun m hm => by simp at hm⟩
  exact key loop_moves [] (pq, prev) h0

end EightPuzzle

namespace EightPuzzle

/-! ## The row-major list of a grid under a write -/

theorem set2_cons_succ (row : List Nat) (rest : List (List Nat)) (i j v : Nat) :
    set2 (row :: rest) (i + 1) j v = row :: set2 rest i j v := by
  simp [set2]

theorem set2_cons_zero (row : List Nat) (rest : List (List Nat)) (j v : Nat) :
    set2 (row :: rest) 0 j v = row.set j v :: rest := by
  simp [set2]

theorem flatten_set2 {n : Nat} :
    ∀ (data : List (List Nat)) (i j v : Nat), (∀ row ∈ data, row.length = n) →
      i < data.length → j < n →
      (set2 data i j v).flatten = data.flatten.set (i * n + j) v := by
  intro data
  induction data with
  | nil => intro i j v _ hi _; simp at hi
  | cons row rest ih =>
    intro i j v hrow hi hj
    have hr : row.length = n := hrow row (by simp)
    cases i with
    | zero =>
      rw [set2_cons_zero, List.flatten_cons, List.flatten_cons, Nat.zero_mul, Nat.zero_add,
        List.set_append_left _ _ (by omega)]
    | succ i =>
      rw [set2_cons_succ, List.flatten_cons, List.flatten_cons,
        ih i j v (fun r h => hrow r (List.mem_cons_of_mem _ h)) (by simpa using hi) hj,
        List.set_append_right _ _ (by rw [hr, Nat.succ_mul]; omega)]
      congr 2
      rw [hr, Nat.succ_mul]
      omega

theorem at2_eq_flatten {n : Nat} :
    ∀ (data : List (List Nat)) (i j : Nat), (∀ row ∈ data, row.length = n) →
      i < data.length → j < n → at2 data i j = data.flatten.getD (i * n + j) 0 := by
  intro data
  induction data with
  | nil => intro i j _ hi _; simp at hi
  | cons row rest ih =>
    intro i j hrow hi hj
    have hr : row.length = n := hrow row (by simp)
    cases i with
    | zero =>
      unfold at2
      rw [List.getD_cons_zero, List.flatten_cons, Nat.zero_mul, Nat.zero_add,
        List.getD_append _ _ _ _ (by omega)]
    | succ i =>
      have := ih i j (fun r h => hrow r (List.mem_cons_of_mem _ h)) (by simpa using hi) hj
      unfold at2 at this ⊢
      rw [List.getD_cons_succ, this, List.flatten_cons,
        List.getD_append_right _ _ _ _ (by rw [hr, Nat.succ_mul]; omega)]
      congr 1
      rw [hr, Nat.succ_mul]
      omega

theorem length_flatten_valid {n : Nat} {data : List (List Nat)} (h : ValidGrid n data) :
    data.flatten.length = n * n := by
  rw [h.2.2.2.2.length_eq, List.length_range]

theorem cell_index_lt {n : Nat} {p : Nat × Nat} (hp : p ∈ cells n) : p.1 * n + p.2 < n * n := by
  have hp' := mem_cells.mp hp
  have : (p.1 + 1) * n ≤ n * n := Nat.mul_le_mul_right n hp'.1
  rw [Nat.succ_mul] at this
  omega

/-- Splitting a list around two positions `a < b`. -/
theorem split_two {F : List Nat} {a b : Nat} (hab : a < b) (hb : b < F.length) :
    ∃ A B C, F = A ++ F.getD a 0 :: B ++ F.getD b 0 :: C ∧ A.length = a ∧
      B.length = b - a - 1 := by
  have ha : a < F.length := by omega
  refine ⟨F.take a, (F.drop (a + 1)).take (b - a - 1), F.drop (b + 1), ?_, ?_, ?_⟩
  · have h1 : F = F.take a ++ F[a] :: F.drop (a + 1) := split_at_index F a ha
    have hb' : b - a - 1 < (F.drop (a + 1)).length := by rw [List.length_drop]; omega
    have h2 := split_at_index (F.drop (a + 1)) (b - a - 1) hb'
    have h3 : (F.drop (a + 1))[b - a - 1] = F[b] := by
      rw [List.getElem_drop]
      congr 1
      omega
    have h4 : (F.drop (a + 1)).drop (b - a - 1 + 1) = F.drop (b + 1) := by
      rw [List.drop_drop]
      congr 1
      omega
    rw [h3, h4] at h2
    rw [List.getD_eq_getElem _ _ ha, List.getD_eq_getElem _ _ hb]
    conv_lhs => rw [h1, h2]
    simp
  · rw [List.length_take]; omega
  · rw [List.length_take, List.length_drop]; omega

/-! ## Inversions when one tile jumps over a block -/

theorem countP_lt_add_gt {B : List Nat} {t : Nat} (ht : t ∉ B) :
    B.countP (fun y => decide (t < y)) + B.countP (fun y => decide (y < t)) = B.length := by
  induction B with
  | nil => rfl
  | cons b B ih =>
    have hb : b ≠ t := fun e => ht (by simp [e])
    have := ih (fun h => ht (List.mem_cons_of_mem _ h))
    rw [List.countP_cons, List.countP_cons, List.length_cons]
    by_cases h1 : t < b
    · have h2 : ¬ b < t := by omega
      simp only [h1, h2, decide_True, decide_False, if_true, Bool.false_eq_true, if_false]
      omega
    · have h2 : b < t := by omega
      simp only [h1, h2, decide_True, decide_False, if_true, Bool.false_eq_true, if_false]
      omega

theorem inversions_frame (A X X' C : List Nat) (h : X.Perm X') :
    inversions (A ++ X ++ C) + inversions X' = inversions (A ++ X' ++ C) + inversions X := by
  rw [List.append_assoc, List.append_assoc, inversions_append, inversions_append A,
    inversions_append X, inversions_append X',
    cross_inversions_perm (List.Perm.refl A) (h.append_right C),
    cross_inversions_perm h (List.Perm.refl C)]
  omega

theorem inversions_jump (A B C : List Nat) (t : Nat) (ht : t ∉ B) :
    (inversions (A ++ (t :: B) ++ C) + inversions (A ++ (B ++ [t]) ++ C)) % 2
      = B.length % 2 := by
  have hperm : (t :: B).Perm (B ++ [t]) := (List.perm_append_singleton t B).symm
  have h1 := inversions_frame A (t :: B) (B ++ [t]) C hperm
  have h2 : inversions (t :: B) = B.countP (fun y => decide (y < t)) + inversions B := rfl
  have h3 : inversions (B ++ [t]) = inversions B + B.countP (fun y => decide (t < y)) := by
    rw [inversions_append, cross_inversions_cons_right, cross_inversions_nil_right]
    simp [inversions]
  have h4 := countP_lt_add_gt ht
  omega

end EightPuzzle

namespace EightPuzzle

/-! ## Solvability is invariant under legal moves -/

theorem tiles_swap_parity (A B C : List Nat) (t : Nat)
    (hnd : (A ++ 0 :: B ++ t :: C).Nodup) :
    (inversions ((A ++ 0 :: B ++ t :: C).filter fun v => v != 0)
      + inversions ((A ++ t :: B ++ 0 :: C).filter fun v => v != 0)) % 2 = B.length % 2 := by
  have h1 : (A ++ 0 :: B ++ t :: C) = A ++ (0 :: (B ++ t :: C)) := by simp
  rw [h1] at hnd
  have h2 := (List.nodup_append.mp hnd).2.1
  rw [List.nodup_cons] at h2
  have h0B : 0 ∉ B := fun h => h2.1 (List.mem_append_left _ h)
  have ht0 : t ≠ 0 := fun h => h2.1 (List.mem_append_right _ (by simp [h]))
  have htB : t ∉ B := by
    have h3 := (List.nodup_append.mp h2.2).2.2
    intro h
    exact h3 h (List.mem_cons_self _ _)
  have hB : B.filter (fun v => v != 0) = B := by
    rw [List.filter_eq_self]
    intro a ha
    have : a ≠ 0 := fun e => h0B (e ▸ ha)
    simpa using this
  have e1 : (A ++ 0 :: B ++ t :: C).filter (fun v => v != 0)
      = A.filter (fun v => v != 0) ++ (B ++ [t]) ++ C.filter (fun v => v != 0) := by
    simp [List.filter_append, List.filter_cons, hB, ht0]
  have e2 : (A ++ t :: B ++ 0 :: C).filter (fun v => v != 0)
      = A.filter (fun v => v != 0) ++ (t :: B) ++ C.filter (fun v => v != 0) := by
    simp [List.filter_append, List.filter_cons, hB, ht0]
  rw [e1, e2, Nat.add_comm]
  exact inversions_jump _ B _ t htB

theorem flatten_swap_cells {n : Nat} {data : List (List Nat)} (h : ValidGrid n data)
    {p q : Nat × Nat} (hp : p ∈ cells n) (hq : q ∈ cells n)
    (hlt : p.1 * n + p.2 < q.1 * n + q.2) :
    ∃ A B C, data.flatten = A ++ at2 data p.1 p.2 :: B ++ at2 data q.1 q.2 :: C ∧
      (swap_cells data p q).flatten = A ++ at2 data q.1 q.2 :: B ++ at2 data p.1 p.2 :: C ∧
      (swap_cells data q p).flatten = A ++ at2 data q.1 q.2 :: B ++ at2 data p.1 p.2 :: C ∧
      B.length = q.1 * n + q.2 - (p.1 * n + p.2) - 1 := by
  have hp' := mem_cells.mp hp
  have hq' := mem_cells.mp hq
  have hlen := length_flatten_valid h
  have hqi := cell_index_lt hq
  obtain ⟨A, B, C, hF, hA, hB⟩ := split_two hlt (by rw [hlen]; exact hqi)
  rw [← at2_eq_flatten data p.1 p.2 h.2.2.1 (by rw [h.2.1]; exact hp'.1) hp'.2,
    ← at2_eq_flatten data q.1 q.2 h.2.2.1 (by rw [h.2.1]; exact hq'.1) hq'.2] at hF
  have hrows1 : ∀ row ∈ set2 data p.1 p.2 (at2 data q.1 q.2), row.length = n := by
    rw [mem_rows_iff (by rw [length_set2]; exact h.2.1)]
    intro k hk
    rw [row_length_set2]
    exact (mem_rows_iff h.2.1).mp h.2.2.1 k hk
  have hrows2 : ∀ row ∈ set2 data q.1 q.2 (at2 data p.1 p.2), row.length = n := by
    rw [mem_rows_iff (by rw [length_set2]; exact h.2.1)]
    intro k hk
    rw [row_length_set2]
    exact (mem_rows_iff h.2.1).mp h.2.2.1 k hk
  refine ⟨A, B, C, hF, ?_, ?_, hB⟩
  · unfold swap_cells
    rw [flatten_set2 _ _ _ _ hrows1 (by rw [length_set2, h.2.1]; exact hq'.1) hq'.2,
      flatten_set2 _ _ _ _ h.2.2.1 (by rw [h.2.1]; exact hp'.1) hp'.2, hF,
      List.append_assoc, List.cons_append, set_mid _ _ _ _ _ hA]
    have : A ++ at2 data q.1 q.2 :: (B ++ at2 data q.1 q.2 :: C)
        = (A ++ at2 data q.1 q.2 :: B) ++ at2 data q.1 q.2 :: C := by simp
    rw [this, set_mid _ _ _ _ _ (by simp [hA, hB]; omega)]
  · unfold swap_cells
    rw [flatten_set2 _ _ _ _ hrows2 (by rw [length_set2, h.2.1]; exact hp'.1) hp'.2,
      flatten_set2 _ _ _ _ h.2.2.1 (by rw [h.2.1]; exact hq'.1) hq'.2, hF,
      set_mid _ _ _ _ _ (by simp [hA, hB]; omega)]
    have : (A ++ at2 data p.1 p.2 :: B) ++ at2 data p.1 p.2 :: C
        = A ++ at2 data p.1 p.2 :: (B ++ at2 data p.1 p.2 :: C) := by simp
    rw [this, set_mid _ _ _ _ _ hA]
    simp

/-- The tiles of a valid grid after the contents of two cells, one of them the blank, are
exchanged: the parity of the inversion count changes by the number of cells strictly between
the two in row-major order. -/
theorem tiles_swap_cells {n : Nat} {data : List (List Nat)} (h : ValidGrid n data)
    {p q : Nat × Nat} (hp : p ∈ cells n) (hq : q ∈ cells n)
    (h0 : at2 data p.1 p.2 = 0 ∨ at2 data q.1 q.2 = 0)
    (hlt : p.1 * n + p.2 < q.1 * n + q.2) :
    (inversions (tiles data) + inversions (tiles (swap_cells data p q))) % 2
        = (q.1 * n + q.2 - (p.1 * n + p.2) - 1) % 2 ∧
      (inversions (tiles data) + inversions (tiles (swap_cells data q p))) % 2
        = (q.1 * n + q.2 - (p.1 * n + p.2) - 1) % 2 := by
  obtain ⟨A, B, C, hF, hF1, hF2, hB⟩ := flatten_swap_cells h hp hq hlt
  have hnd : data.flatten.Nodup := h.2.2.2.2.nodup_iff.mpr (List.nodup_range _)
  have hnd' : (swap_cells data p q).flatten.Nodup :=
    (h.swap_cells hp hq).2.2.2.2.nodup_iff.mpr (List.nodup_range _)
  unfold tiles
  rw [hF1, hF2, hF, ← hB]
  rw [hF] at hnd
  rw [hF1] at hnd'
  rcases h0 with h0 | h0
  · rw [h0] at hnd ⊢
    exact ⟨tiles_swap_parity A B C _ hnd, tiles_swap_parity A B C _ hnd⟩
  · rw [h0] at hnd' ⊢
    rw [Nat.add_comm]
    exact ⟨tiles_swap_parity A B C _ hnd', tiles_swap_parity A B C _ hnd'⟩

theorem parity_rule_step (a a' r r' n : Nat) (hn : 1 ≤ n)
    (h : ((a + a') % 2 = 0 ∧ r' = r) ∨
      ((a + a') % 2 = (n - 1) % 2 ∧ (r' = r + 1 ∨ r = r' + 1))) :
    ((a' % 2 = 0 ∧ (r' % 2 = 1 ∨ n % 2 = 1)) ∨ (a' % 2 = 1 ∧ n % 2 = 0 ∧ r' % 2 = 0)) ↔
      ((a % 2 = 0 ∧ (r % 2 = 1 ∨ n % 2 = 1)) ∨ (a % 2 = 1 ∧ n % 2 = 0 ∧ r % 2 = 0)) := by
  rcases h with ⟨h1, h2⟩ | ⟨h1, h2 | h2⟩
  · subst h2; omega
  · subst h2; omega
  · subst h2; omega

theorem index_gap (r c n : Nat) : (r + 1) * n + c - (r * n + c) - 1 = n - 1 := by
  rw [Nat.succ_mul]
  omega

/-- The inversion parity and the blank row before and after a legal unit move. -/
theorem tiles_my_move {n : Nat} {data : List (List Nat)} (h : ValidGrid n data)
    (m : Move) (hm : m.is_unit) (hv : (Board.fromData data).is_valid_move m = true) :
    ((inversions (tiles data)
        + inversions (tiles ((Board.fromData data).my_move m).m_data)) % 2 = 0 ∧
      size_add (Board.fromData data).m_blank_row m.di = (Board.fromData data).m_blank_row) ∨
    ((inversions (tiles data)
        + inversions (tiles ((Board.fromData data).my_move m).m_data)) % 2 = (n - 1) % 2 ∧
      (size_add (Board.fromData data).m_blank_row m.di = (Board.fromData data).m_blank_row + 1 ∨
        (Board.fromData data).m_blank_row
          = size_add (Board.fromData data).m_blank_row m.di + 1)) := by
  have hb := blank_cell h
  have ht := target_cell h m hm hv
  have hdata : ((Board.fromData data).my_move m).m_data
      = swap_cells data ((Board.fromData data).m_blank_row, (Board.fromData data).m_blank_col)
          (size_add (Board.fromData data).m_blank_row m.di,
            size_add (Board.fromData data).m_blank_col m.dj) := by
    rw [my_move_eq_swap, fromData_data]
    rfl
  rw [hdata]
  have h1 := ht.1
  have h2 := ht.2.1
  have hmem := ht.2.2.1
  have hbm := hb.1
  have hbz := hb.2
  have hn := h.1
  clear ht hb hdata hv
  generalize (Board.fromData data).m_blank_row = r at *
  generalize (Board.fromData data).m_blank_col = c at *
  generalize size_add r m.di = r' at *
  generalize size_add c m.dj = c' at *
  rcases (Move.is_unit_iff m).mp hm with ⟨e1, e2 | e2⟩ | ⟨e1, e2 | e2⟩
  · have hr : r' = r := by omega
    have hc : c' = c + 1 := by omega
    subst hr hc
    have := (tiles_swap_cells h hbm hmem (Or.inl hbz) (by simp only; omega)).1
    simp only at this
    rw [show r' * n + (c + 1) - (r' * n + c) - 1 = 0 by omega] at this
    exact Or.inl ⟨this, rfl⟩
  · have hr : r' = r := by omega
    have hc : c = c' + 1 := by omega
    subst hr hc
    have := (tiles_swap_cells h hmem hbm (Or.inr hbz) (by simp only; omega)).2
    simp only at this
    rw [show r' * n + (c' + 1) - (r' * n + c') - 1 = 0 by omega] at this
    exact Or.inl ⟨this, rfl⟩
  · have hr : r' = r + 1 := by omega
    have hc : c' = c := by omega
    subst hr hc
    have := (tiles_swap_cells h hbm hmem (Or.inl hbz)
      (by simp only; rw [Nat.succ_mul]; omega)).1
    simp only at this
    rw [index_gap] at this
    exact Or.inr ⟨this, Or.inl rfl⟩
  · have hr : r = r' + 1 := by omega
    have hc : c' = c := by omega
    subst hr hc
    have := (tiles_swap_cells h hmem hbm (Or.inr hbz)
      (by simp only; rw [Nat.succ_mul]; omega)).2
    simp only at this
    rw [index_gap] at this
    exact Or.inr ⟨this, Or.inr rfl⟩

/-- `is_solvable()` is the same before and after a legal unit move. -/
theorem is_solvable_my_move {n : Nat} {data : List (List Nat)} (h : ValidGrid n data)
    (m : Move) (hm : m.is_unit) (hv : (Board.fromData data).is_valid_move m = true) :
    ((Board.fromData data).my_move m).is_solvable = (Board.fromData data).is_solvable := by
  have hb := blank_cell h
  have ht := target_cell h m hm hv
  obtain ⟨hzero, _, _⟩ := my_move_blank h m hm hv
  have hvalid := (my_move_data h m hm hv).1
  have f1 := is_solvable_formula h hb.1 hb.2
  have f2 := is_solvable_formula hvalid ht.2.2.1 hzero
  rw [← my_move_eq_fromData] at f2
  have hiff : ((Board.fromData data).my_move m).is_solvable = true
      ↔ (Board.fromData data).is_solvable = true := by
    rw [f1, f2]
    exact parity_rule_step _ _ _ _ n h.1 (tiles_my_move h m hm hv)
  cases h3 : ((Board.fromData data).my_move m).is_solvable <;>
    cases h4 : (Board.fromData data).is_solvable <;> simp_all

end EightPuzzle

namespace EightPuzzle

/-! ## Sums over the cells when two cells change -/

theorem sum_one_point {α : Type} [DecidableEq α] (F F' : α → Nat) (p : α) :
    ∀ (L : List α), L.Nodup → p ∈ L → (∀ x ∈ L, x ≠ p → F' x = F x) →
      (L.map F').sum + F p = (L.map F).sum + F' p := by
  intro L
  induction L with
  | nil => intro _ hp; simp at hp
  | cons a L ih =>
    intro hnd hp h
    rw [List.nodup_cons] at hnd
    rw [List.map_cons, List.map_cons, List.sum_cons, List.sum_cons]
    by_cases ha : a = p
    · subst ha
      have : L.map F' = L.map F := by
        apply List.map_congr_left
        intro x hx
        exact h x (List.mem_cons_of_mem _ hx) (fun e => hnd.1 (e ▸ hx))
      rw [this]
      omega
    · have hp' : p ∈ L := by
        rcases List.mem_cons.mp hp with e | e
        · exact absurd e.symm ha
        · exact e
      have := ih hnd.2 hp' (fun x hx hne => h x (List.mem_cons_of_mem _ hx) hne)
      rw [h a (List.mem_cons_self _ _) ha]
      omega

theorem sum_two_point {α : Type} [DecidableEq α] (F F' : α → Nat) {p q : α} (hpq : p ≠ q)
    {L : List α} (hnd : L.Nodup) (hp : p ∈ L) (hq : q ∈ L)
    (h : ∀ x ∈ L, x ≠ p → x ≠ q → F' x = F x) :
    (L.map F').sum + F p + F q = (L.map F).sum + F' p + F' q := by
  have h1 := sum_one_point F (fun x => if x = p then F' p else F x) p L hnd hp
    (fun x _ hne => by simp [hne])
  have h2 := sum_one_point (fun x => if x = p then F' p else F x) F' q L hnd hq
    (fun x hx hne => by
      by_cases hxp : x = p
      · simp [hxp]
      · simp [hxp, h x hx hxp hne])
  simp only [if_true, if_neg (Ne.symm hpq)] at h1 h2
  omega

/-- Sums of a term that depends on the cell and its content, before and after a legal unit move
of a valid board: only the blank cell and the target cell contribute differently. -/
theorem sum_my_move {n : Nat} {data : List (List Nat)} (h : ValidGrid n data) (m : Move)
    (hm : m.is_unit) (hv : (Board.fromData data).is_valid_move m = true)
    (T : Nat × Nat → Nat → Nat) :
    ((cells n).map fun x => T x (at2 ((Board.fromData data).my_move m).m_data x.1 x.2)).sum
        + T ((Board.fromData data).m_blank_row, (Board.fromData data).m_blank_col) 0
        + T (size_add (Board.fromData data).m_blank_row m.di,
              size_add (Board.fromData data).m_blank_col m.dj)
            (at2 data (size_add (Board.fromData data).m_blank_row m.di)
              (size_add (Board.fromData data).m_blank_col m.dj))
      = ((cells n).map fun x => T x (at2 data x.1 x.2)).sum
        + T ((Board.fromData data).m_blank_row, (Board.fromData data).m_blank_col)
            (at2 data (size_add (Board.fromData data).m_blank_row m.di)
              (size_add (Board.fromData data).m_blank_col m.dj))
        + T (size_add (Board.fromData data).m_blank_row m.di,
              size_add (Board.fromData data).m_blank_col m.dj) 0 := by
  have hb := blank_cell h
  have ht := target_cell h m hm hv
  obtain ⟨_, hat⟩ := my_move_data h m hm hv
  have key := sum_two_point (fun x => T x (at2 data x.1 x.2))
    (fun x => T x (at2 ((Board.fromData data).my_move m).m_data x.1 x.2))
    (Ne.symm ht.2.2.2) (cells_nodup n) hb.1 ht.2.2.1 (by
      intro x hx h1 h2
      simp only
      rw [hat x hx, Equiv.swap_apply_of_ne_of_ne h1 h2])
  have e1 := hat _ hb.1
  have e2 := hat _ ht.2.2.1
  rw [Equiv.swap_apply_left] at e1
  rw [Equiv.swap_apply_right] at e2
  simp only at e1 e2 key
  rw [e1, e2, hb.2] at key
  rw [hb.2] at e2
  omega

end EightPuzzle

namespace EightPuzzle

/-! ## The Manhattan sum under a move, and when it vanishes -/

theorem manhattan_sum_eq_cell (n : Nat) (data : List (List Nat)) :
    manhattan_sum n data = ((cells n).map fun x => manhattan_cell n x (at2 data x.1 x.2)).sum :=
  rfl

theorem dist_step (r c r' c' g1 g2 : Nat) (di dj : Int) (M M' : Nat)
    (h1 : (r' : Int) = r + di) (h2 : (c' : Int) = c + dj)
    (hu : (di = 0 ∧ (dj = 1 ∨ dj = -1)) ∨ (dj = 0 ∧ (di = 1 ∨ di = -1)))
    (key : M' + 0 + (Nat.dist r' g1 + Nat.dist c' g2) = M + (Nat.dist r g1 + Nat.dist c g2) + 0) :
    M' = M + 1 ∨ M' + 1 = M := by
  unfold Nat.dist at key
  rcases hu with ⟨e1, e2 | e2⟩ | ⟨e1, e2 | e2⟩
  · subst e1 e2; omega
  · subst e1 e2; omega
  · subst e1 e2; omega
  · subst e1 e2; omega

theorem manhattan_sum_my_move {n : Nat} {data : List (List Nat)} (h : ValidGrid n data)
    (m : Move) (hm : m.is_unit) (hv : (Board.fromData data).is_valid_move m = true) :
    manhattan_sum n ((Board.fromData data).my_move m).m_data = manhattan_sum n data + 1 ∨
      manhattan_sum n ((Board.fromData data).my_move m).m_data + 1 = manhattan_sum n data := by
  have hb := blank_cell h
  have ht := target_cell h m hm hv
  have key := sum_my_move h m hm hv (manhattan_cell n)
  rw [← manhattan_sum_eq_cell, ← manhattan_sum_eq_cell] at key
  have htne : at2 data (size_add (Board.fromData data).m_blank_row m.di)
      (size_add (Board.fromData data).m_blank_col m.dj) ≠ 0 := by
    intro e
    exact ht.2.2.2 (h.at2_inj ht.2.2.1 hb.1 (e.trans hb.2.symm))
  have htne' : (at2 data (size_add (Board.fromData data).m_blank_row m.di)
      (size_add (Board.fromData data).m_blank_col m.dj) != 0) = true := by simpa using htne
  simp only [manhattan_cell, htne', if_true, bne_self_eq_false, Bool.false_eq_true, if_false]
    at key
  exact dist_step _ _ _ _ _ _ m.di m.dj _ _ ht.1 ht.2.1 ((Move.is_unit_iff m).mp hm) key

theorem manhattan_sum_goal_grid (n : Nat) :
    manhattan_sum n (grid_of_list n (goal_list n)) = 0 := by
  unfold manhattan_sum
  apply List.sum_eq_zero
  intro x hx
  obtain ⟨p, hp, rfl⟩ := List.mem_map.mp hx
  have hp' := mem_cells.mp hp
  rw [at2_goal_grid hp]
  by_cases hq : p.1 * n + p.2 = n * n - 1
  · simp [hq]
  · rw [if_neg hq, goal_pos_succ hp'.2]
    simp [Nat.dist]

theorem cell_index_inj {n : Nat} {p q : Nat × Nat} (hp : p ∈ cells n) (hq : q ∈ cells n)
    (e : p.1 * n + p.2 = q.1 * n + q.2) : p = q := by
  have hp' := mem_cells.mp hp
  have hq' := mem_cells.mp hq
  have h1 : (p.1 * n + p.2) / n = p.1 := by
    rw [Nat.mul_comm, Nat.mul_add_div (by omega), Nat.div_eq_of_lt hp'.2, Nat.add_zero]
  have h2 : (q.1 * n + q.2) / n = q.1 := by
    rw [Nat.mul_comm, Nat.mul_add_div (by omega), Nat.div_eq_of_lt hq'.2, Nat.add_zero]
  have h3 : (p.1 * n + p.2) % n = p.2 := by
    rw [Nat.mul_comm, Nat.mul_add_mod, Nat.mod_eq_of_lt hp'.2]
  have h4 : (q.1 * n + q.2) % n = q.2 := by
    rw [Nat.mul_comm, Nat.mul_add_mod, Nat.mod_eq_of_lt hq'.2]
  rw [e] at h1 h3
  exact Prod.ext (h1.symm.trans h2) (h3.symm.trans h4)

/-- A valid grid with Manhattan sum `0` is the goal grid. -/
theorem manhattan_sum_zero {n : Nat} {data : List (List Nat)} (h : ValidGrid n data)
    (hz : manhattan_sum n data = 0) : data = grid_of_list n (goal_list n) := by
  have hlen : (goal_list n).length = n * n := by
    rw [(goal_list_perm n h.1).length_eq, List.length_range]
  have hcell : ∀ p ∈ cells n, at2 data p.1 p.2 ≠ 0 → at2 data p.1 p.2 = p.1 * n + p.2 + 1 := by
    intro p hp hne
    have hterm : manhattan_cell n p (at2 data p.1 p.2) = 0 := by
      rw [manhattan_sum_eq_cell] at hz
      exact List.sum_eq_zero_iff.mp hz _ (List.mem_map_of_mem _ hp)
    have hne' : (at2 data p.1 p.2 != 0) = true := by simpa using hne
    simp only [manhattan_cell, hne', if_true, goal_pos, Nat.dist] at hterm
    have hd := Nat.div_add_mod (at2 data p.1 p.2 - 1) n
    have e1 : (at2 data p.1 p.2 - 1) / n = p.1 := by omega
    have e2 : (at2 data p.1 p.2 - 1) % n = p.2 := by omega
    rw [e1, e2, Nat.mul_comm] at hd
    omega
  obtain ⟨p0, hp0, hz0, hu⟩ := h.exists_blank
  have hlast : p0 = (n - 1, n - 1) := by
    by_contra hne
    have hidx : p0.1 * n + p0.2 + 1 < n * n := by
      have h1 := cell_index_lt hp0
      have h2 : p0.1 * n + p0.2 ≠ n * n - 1 := by
        intro e
        apply hne
        apply cell_index_inj hp0 (last_cell_mem h.1)
        rw [e, last_index h.1]
      omega
    obtain ⟨x, hx, ex⟩ := h.exists_cell hidx
    have := hcell x hx (by rw [ex]; omega)
    rw [ex] at this
    have hxp : x = p0 := (cell_index_inj hp0 hx (by omega)).symm
    rw [hxp, hz0] at ex
    omega
  apply grid_ext h.2.1 (by simp [grid_of_list]) h.2.2.1 (row_grid_of_list hlen)
  intro p hp
  rw [at2_goal_grid hp]
  by_cases hq : p.1 * n + p.2 = n * n - 1
  · rw [if_pos hq]
    have : p = p0 := by
      rw [hlast]
      apply cell_index_inj hp (last_cell_mem h.1)
      rw [hq, last_index h.1]
    rw [this, hz0]
  · rw [if_neg hq]
    apply hcell p hp
    intro e
    have := hu p hp e
    rw [this, hlast] at hq
    exact hq (last_index h.1)

end EightPuzzle

namespace EightPuzzle

/-! ## Rounding to `double` -/

theorem ilog2_loop_spec : ∀ (fuel n : Nat), 0 < n → n ≤ fuel →
    2 ^ ilog2_loop fuel n ≤ n ∧ n < 2 ^ (ilog2_loop fuel n + 1)
  | 0, n, h0, hf => by omega
  | fuel + 1, n, h0, hf => by
    unfold ilog2_loop
    by_cases h2 : n < 2
    · rw [if_pos h2]
      simp
      omega
    · rw [if_neg h2]
      obtain ⟨h3, h4⟩ := ilog2_loop_spec fuel (n / 2) (by omega) (by omega)
      constructor
      · rw [pow_succ]
        omega
      · rw [pow_succ] at h4 ⊢
        omega

/-- The leading bit: `2 ^ ilog2 n ≤ n < 2 ^ (ilog2 n + 1)` for `n > 0`. -/
theorem ilog2_spec {n : Nat} (h : 0 < n) : 2 ^ ilog2 n ≤ n ∧ n < 2 ^ (ilog2 n + 1) :=
  ilog2_loop_spec n n h (Nat.le_refl n)

/-- The binary exponent `e` of `p / q` satisfies `2 ^ e ≤ p / q < 2 ^ (e + 1)`. -/
theorem binary_exponent_spec {p q : Nat} (hp : 0 < p) (hq : 0 < q) :
    (2 : ℚ) ^ binary_exponent p q ≤ (p : ℚ) / q ∧
      (p : ℚ) / q < (2 : ℚ) ^ (binary_exponent p q + 1) := by
  obtain ⟨pa, pb⟩ := ilog2_spec hp
  obtain ⟨qa, qb⟩ := ilog2_spec hq
  have hq' : (0 : ℚ) < q := Nat.cast_pos.mpr hq
  have h2 : (2 : ℚ) ≠ 0 := by norm_num
  have hpa : ((2 : ℚ) ^ ilog2 p) ≤ p := by exact_mod_cast pa
  have hpb : (p : ℚ) < (2 : ℚ) ^ (ilog2 p + 1) := by exact_mod_cast pb
  have hqa : ((2 : ℚ) ^ ilog2 q) ≤ q := by exact_mod_cast qa
  have hqb : (q : ℚ) < (2 : ℚ) ^ (ilog2 q + 1) := by exact_mod_cast qb
  have hA : (0 : ℚ) < (2 : ℚ) ^ ilog2 p := by positivity
  have hB : (0 : ℚ) < (2 : ℚ) ^ ilog2 q := by positivity
  have e1 : (2 : ℚ) ^ ((ilog2 p : Int) - (ilog2 q : Int))
      = (2 : ℚ) ^ ilog2 p / (2 : ℚ) ^ ilog2 q := by
    rw [zpow_sub₀ h2, zpow_natCast, zpow_natCast]
  unfold binary_exponent
  by_cases hc : q * 2 ^ ilog2 p ≤ p * 2 ^ ilog2 q
  · rw [if_pos hc]
    have hc' : (q : ℚ) * (2 : ℚ) ^ ilog2 p ≤ (p : ℚ) * (2 : ℚ) ^ ilog2 q := by
      exact_mod_cast hc
    constructor
    · rw [e1, div_le_div_iff₀ hB hq']
      linarith
    · rw [zpow_add₀ h2, e1, zpow_one, div_mul_eq_mul_div, div_lt_div_iff₀ hq' hB]
      rw [pow_succ] at hpb
      nlinarith
  · rw [if_neg hc]
    have hc' : (p : ℚ) * (2 : ℚ) ^ ilog2 q < (q : ℚ) * (2 : ℚ) ^ ilog2 p := by
      exact_mod_cast Nat.lt_of_not_le hc
    have e2 : (2 : ℚ) ^ ((ilog2 p : Int) - (ilog2 q : Int) - 1)
        = (2 : ℚ) ^ ilog2 p / ((2 : ℚ) ^ ilog2 q * 2) := by
      rw [zpow_sub₀ h2, e1, zpow_one, div_div]
    constructor
    · rw [e2, div_le_div_iff₀ (by positivity) hq']
      rw [pow_succ] at hqb
      nlinarith
    · rw [sub_add_cancel, e1, div_lt_div_iff₀ hq' hB]
      linarith

/-- Rounding to the nearest integer does not go below an integer that is below the quotient. -/
theorem le_round_half_even {N D C : Nat} (hD : 0 < D) (h : C * D ≤ N) :
    C ≤ round_half_even N D := by
  have h1 : C ≤ N / D := (Nat.le_div_iff_mul_le hD).mpr h
  unfold round_half_even
  split_ifs <;> omega

/-- Rounding to the nearest integer keeps an integer quotient. -/
theorem round_half_even_mul {D C : Nat} (hD : 0 < D) : round_half_even (C * D) D = C := by
  unfold round_half_even
  rw [Nat.mul_mod_left, Nat.mul_div_cancel _ hD, if_pos (by omega)]

/-- The rounded quotient is within one half of the quotient. -/
theorem round_half_even_near {N D : Nat} (hD : 0 < D) :
    2 * N ≤ 2 * round_half_even N D * D + D ∧ 2 * round_half_even N D * D ≤ 2 * N + D := by
  have h1 := Nat.div_add_mod N D
  have h2 := Nat.mod_lt N hD
  have e1 : 2 * (N / D + 1) * D = 2 * (D * (N / D)) + 2 * D := by ring
  have e2 : 2 * (N / D) * D = 2 * (D * (N / D)) := by ring
  unfold round_half_even
  split_ifs <;> (try rw [e1]) <;> (try rw [e2]) <;> omega

/-- The value of `round_double_pos`: the quotient `p / q`, scaled by `2 ^ (52 - e)`, is rounded
to the nearest integer. -/
theorem round_double_pos_eq {p q : Nat} (hq : 0 < q) :
    ∃ N D : Nat, 0 < D ∧
      (N : ℚ) / D = (p : ℚ) / q / (2 : ℚ) ^ (binary_exponent p q - 52) ∧
      round_double_pos p q
        = (round_half_even N D : ℚ) * (2 : ℚ) ^ (binary_exponent p q - 52) := by
  have hq' : (q : ℚ) ≠ 0 := Nat.cast_ne_zero.mpr (by omega)
  have h2 : (2 : ℚ) ≠ 0 := by norm_num
  unfold round_double_pos
  by_cases hk : 0 ≤ binary_exponent p q - 52
  · rw [if_pos hk]
    have ek : (2 : ℚ) ^ (binary_exponent p q - 52)
        = (2 : ℚ) ^ (binary_exponent p q - 52).toNat := by
      rw [← zpow_natCast, Int.toNat_of_nonneg hk]
    refine ⟨p, q * 2 ^ (binary_exponent p q - 52).toNat, by positivity, ?_, ?_⟩
    · rw [ek]
      push_cast
      rw [div_div]
    · rw [ek]
      push_cast
      rfl
  · rw [if_neg hk]
    have ek : (2 : ℚ) ^ (binary_exponent p q - 52)
        = ((2 : ℚ) ^ (52 - binary_exponent p q).toNat)⁻¹ := by
      rw [← zpow_natCast, Int.toNat_of_nonneg (by omega), ← zpow_neg]
      congr 1
      omega
    refine ⟨p * 2 ^ (52 - binary_exponent p q).toNat, q, hq, ?_, ?_⟩
    · rw [ek]
      push_cast
      field_simp
    · rw [ek]
      push_cast
      rfl

/-- A `double` value `m * 2 ^ j` (with `m < 2 ^ 53`) below `p / q` is not above the rounded
quotient. -/
theorem le_round_double_pos {p q : Nat} (hp : 0 < p) (hq : 0 < q) (m : Nat) (j : Int)
    (hm : m < 2 ^ 53) (hle : (m : ℚ) * (2 : ℚ) ^ j ≤ (p : ℚ) / q) :
    (m : ℚ) * (2 : ℚ) ^ j ≤ round_double_pos p q := by
  obtain ⟨N, D, hD, hND, hr⟩ := round_double_pos_eq (p := p) hq
  obtain ⟨he, _⟩ := binary_exponent_spec hp hq
  have h2 : (2 : ℚ) ≠ 0 := by norm_num
  have hD' : (0 : ℚ) < D := Nat.cast_pos.mpr hD
  have hK : (0 : ℚ) < (2 : ℚ) ^ (binary_exponent p q - 52) := by positivity
  rw [hr]
  by_cases hj : binary_exponent p q - 52 ≤ j
  · -- `m * 2 ^ j` is a multiple of the unit
    have ej : (2 : ℚ) ^ j = (2 : ℚ) ^ (j - (binary_exponent p q - 52)).toNat
        * (2 : ℚ) ^ (binary_exponent p q - 52) := by
      rw [← zpow_natCast, Int.toNat_of_nonneg (by omega), ← zpow_add₀ h2]
      congr 1
      omega
    have hC : ((m * 2 ^ (j - (binary_exponent p q - 52)).toNat : Nat) : ℚ) ≤ (N : ℚ) / D := by
      rw [hND, le_div_iff₀ hK]
      push_cast
      rw [mul_assoc, ← ej]
      exact hle
    have hC' : m * 2 ^ (j - (binary_exponent p q - 52)).toNat * D ≤ N := by
      rw [le_div_iff₀ hD'] at hC
      exact_mod_cast hC
    have := le_round_half_even hD hC'
    have h3 : ((m * 2 ^ (j - (binary_exponent p q - 52)).toNat : Nat) : ℚ)
        ≤ (round_half_even N D : ℚ) := Nat.cast_le.mpr this
    rw [ej, ← mul_assoc]
    push_cast at h3
    exact mul_le_mul_of_nonneg_right h3 hK.le
  · -- `m * 2 ^ j` is below `2 ^ e`
    have e52 : ((2 ^ 52 : Nat) : ℚ) * (2 : ℚ) ^ (binary_exponent p q - 52)
        = (2 : ℚ) ^ binary_exponent p q := by
      have : binary_exponent p q = ((52 : Nat) : Int) + (binary_exponent p q - 52) := by
        push_cast
        ring
      conv_rhs => rw [this, zpow_add₀ h2, zpow_natCast]
      push_cast
      rfl
    have h52 : ((2 ^ 52 : Nat) : ℚ) ≤ (N : ℚ) / D := by
      rw [hND, le_div_iff₀ hK, e52]
      exact he
    have h52' : 2 ^ 52 * D ≤ N := by
      rw [le_div_iff₀ hD'] at h52
      exact_mod_cast h52
    have h3 : ((2 ^ 52 : Nat) : ℚ) ≤ (round_half_even N D : ℚ) :=
      Nat.cast_le.mpr (le_round_half_even hD h52')
    have h4 : (m : ℚ) ≤ ((2 ^ 53 : Nat) : ℚ) := Nat.cast_le.mpr hm.le
    have h5 : (2 : ℚ) ^ j ≤ (2 : ℚ) ^ (binary_exponent p q - 52 - 1) :=
      zpow_le_zpow_right₀ (by norm_num) (by omega)
    have e6 : (2 : ℚ) ^ (binary_exponent p q - 52 - 1)
        = (2 : ℚ) ^ (binary_exponent p q - 52) / 2 := by
      rw [zpow_sub₀ h2, zpow_one]
    have hJ : (0 : ℚ) < (2 : ℚ) ^ j := by positivity
    calc (m : ℚ) * (2 : ℚ) ^ j ≤ ((2 ^ 53 : Nat) : ℚ) * (2 : ℚ) ^ j :=
          mul_le_mul_of_nonneg_right h4 hJ.le
      _ ≤ ((2 ^ 53 : Nat) : ℚ) * ((2 : ℚ) ^ (binary_exponent p q - 52) / 2) := by
          rw [← e6]
          exact mul_le_mul_of_nonneg_left h5 (by positivity)
      _ = ((2 ^ 52 : Nat) : ℚ) * (2 : ℚ) ^ (binary_exponent p q - 52) := by
          push_cast
          ring
      _ ≤ (round_half_even N D : ℚ) * (2 : ℚ) ^ (binary_exponent p q - 52) :=
          mul_le_mul_of_nonneg_right h3 hK.le

/-- A `double` value `m * 2 ^ j` (with `m < 2 ^ 53`) is kept by the rounding. -/
theorem round_double_pos_fix {p q : Nat} (hp : 0 < p) (hq : 0 < q) (m : Nat) (j : Int)
    (hm : m < 2 ^ 53) (heq : (m : ℚ) * (2 : ℚ) ^ j = (p : ℚ) / q) :
    round_double_pos p q = (m : ℚ) * (2 : ℚ) ^ j := by
  obtain ⟨N, D, hD, hND, hr⟩ := round_double_pos_eq (p := p) hq
  obtain ⟨he, _⟩ := binary_exponent_spec hp hq
  have h2 : (2 : ℚ) ≠ 0 := by norm_num
  have hD' : (0 : ℚ) < D := Nat.cast_pos.mpr hD
  have hK : (0 : ℚ) < (2 : ℚ) ^ (binary_exponent p q - 52) := by positivity
  have hj : binary_exponent p q - 52 ≤ j := by
    by_contra hj
    have h4 : (m : ℚ) < ((2 ^ 53 : Nat) : ℚ) := Nat.cast_lt.mpr hm
    have h5 : (2 : ℚ) ^ j ≤ (2 : ℚ) ^ (binary_exponent p q - 52 - 1) :=
      zpow_le_zpow_right₀ (by norm_num) (by omega)
    have e6 : (2 : ℚ) ^ (binary_exponent p q - 52 - 1) * ((2 ^ 53 : Nat) : ℚ)
        = (2 : ℚ) ^ binary_exponent p q := by
      have : binary_exponent p q = (binary_exponent p q - 52 - 1) + ((53 : Nat) : Int) := by
        push_cast
        ring
      conv_rhs => rw [this, zpow_add₀ h2, zpow_natCast]
      push_cast
      rfl
    have hJ : (0 : ℚ) < (2 : ℚ) ^ j := by positivity
    have : (m : ℚ) * (2 : ℚ) ^ j < (2 : ℚ) ^ binary_exponent p q := by
      calc (m : ℚ) * (2 : ℚ) ^ j < ((2 ^ 53 : Nat) : ℚ) * (2 : ℚ) ^ j :=
            mul_lt_mul_of_pos_right h4 hJ
        _ ≤ ((2 ^ 53 : Nat) : ℚ) * (2 : ℚ) ^ (binary_exponent p q - 52 - 1) :=
            mul_le_mul_of_nonneg_left h5 (by positivity)
        _ = (2 : ℚ) ^ binary_exponent p q := by rw [mul_comm, e6]
    rw [heq] at this
    exact absurd he (not_le.mpr this)
  have ej : (2 : ℚ) ^ j = (2 : ℚ) ^ (j - (binary_exponent p q - 52)).toNat
      * (2 : ℚ) ^ (binary_exponent p q - 52) := by
    rw [← zpow_natCast, Int.toNat_of_nonneg (by omega), ← zpow_add₀ h2]
    congr 1
    omega
  have hC : ((m * 2 ^ (j - (binary_exponent p q - 52)).toNat : Nat) : ℚ) = (N : ℚ) / D := by
    rw [hND, eq_div_iff hK.ne.symm]
    push_cast
    rw [mul_assoc, ← ej]
    exact heq
  have hC' : N = m * 2 ^ (j - (binary_exponent p q - 52)).toNat * D := by
    rw [eq_div_iff hD'.ne.symm] at hC
    exact_mod_cast hC.symm
  rw [hr, hC', round_half_even_mul hD, ej]
  push_cast
  ring

theorem rat_pos_parts {x : ℚ} (h : 0 < x) :
    0 < x.num.toNat ∧ 0 < x.den ∧ ((x.num.toNat : Nat) : ℚ) / ((x.den : Nat) : ℚ) = x := by
  have hn : 0 < x.num := Rat.num_pos.mpr h
  refine ⟨by omega, x.den_pos, ?_⟩
  have e : ((x.num.toNat : Nat) : ℚ) = ((x.num : Int) : ℚ) := by
    have : ((x.num.toNat : Nat) : Int) = x.num := Int.toNat_of_nonneg hn.le
    rw [← Int.cast_natCast, this]
  rw [e]
  exact Rat.num_div_den x

theorem round_double_zero : round_double 0 = 0 := by
  unfold round_double
  rw [if_pos rfl]

/-- A `double` value `m * 2 ^ j` (with `m < 2 ^ 53`) that is not above `x` is not above the
`double` nearest to `x`. -/
theorem le_round_double {x : ℚ} (m : Nat) (j : Int) (hm : m < 2 ^ 53)
    (h : (m : ℚ) * (2 : ℚ) ^ j ≤ x) : (m : ℚ) * (2 : ℚ) ^ j ≤ round_double x := by
  have h0 : (0 : ℚ) ≤ (m : ℚ) * (2 : ℚ) ^ j := by positivity
  unfold round_double
  by_cases hx : x = 0
  · rw [if_pos hx]
    rw [hx] at h
    exact h
  · have hpos : 0 < x := lt_of_le_of_ne (le_trans h0 h) (Ne.symm hx)
    rw [if_neg hx, if_pos hpos]
    obtain ⟨h1, h2, h3⟩ := rat_pos_parts hpos
    apply le_round_double_pos h1 h2 m j hm
    rw [h3]
    exact h

/-- The rounding keeps every `double` value `m * 2 ^ j` with `m < 2 ^ 53`. -/
theorem round_double_fix (m : Nat) (j : Int) (hm : m < 2 ^ 53) :
    round_double ((m : ℚ) * (2 : ℚ) ^ j) = (m : ℚ) * (2 : ℚ) ^ j := by
  have hJ : (0 : ℚ) < (2 : ℚ) ^ j := by positivity
  unfold round_double
  by_cases hx : (m : ℚ) * (2 : ℚ) ^ j = 0
  · rw [if_pos hx, hx]
  · have hpos : 0 < (m : ℚ) * (2 : ℚ) ^ j :=
      lt_of_le_of_ne (by positivity) (Ne.symm hx)
    rw [if_neg hx, if_pos hpos]
    obtain ⟨h1, h2, h3⟩ := rat_pos_parts hpos
    exact round_double_pos_fix h1 h2 m j hm h3.symm

theorem round_double_nonneg {x : ℚ} (h : 0 ≤ x) : 0 ≤ round_double x := by
  have := le_round_double (x := x) 0 0 (by norm_num) (by simpa using h)
  simpa using this

theorem round_double_natCast {n : Nat} (h : n < 2 ^ 53) : round_double (n : ℚ) = n := by
  have := round_double_fix n 0 h
  simpa using this

theorem le_round_double_nat {x : ℚ} {n : Nat} (hn : n < 2 ^ 53) (h : (n : ℚ) ≤ x) :
    (n : ℚ) ≤ round_double x := by
  have := le_round_double (x := x) n 0 hn (by simpa using h)
  simpa using this

theorem round_double_quarter {n : Nat} (h : n < 2 ^ 53) :
    round_double ((n : ℚ) / 4) = (n : ℚ) / 4 := by
  have := round_double_fix n (-2) h
  have e : (n : ℚ) * (2 : ℚ) ^ (-2 : Int) = (n : ℚ) / 4 := by
    rw [zpow_neg, div_eq_mul_inv]
    norm_num
  rw [e] at this
  exact this

theorem to_double_eq {n : Nat} (h : n < 2 ^ 53) : to_double n = n :=
  round_double_natCast h

theorem to_double_nonneg (n : Nat) : 0 ≤ to_double n :=
  round_double_nonneg (Nat.cast_nonneg n)

theorem le_to_double {n k : Nat} (hk : k < 2 ^ 53) (h : k ≤ n) : (k : ℚ) ≤ to_double n :=
  le_round_double_nat hk (Nat.cast_le.mpr h)

theorem le_double_add {a b : ℚ} {n : Nat} (hn : n < 2 ^ 53) (h : (n : ℚ) ≤ a + b) :
    (n : ℚ) ≤ double_add a b :=
  le_round_double_nat hn h

theorem le_double_mul {a b : ℚ} {n : Nat} (hn : n < 2 ^ 53) (h : (n : ℚ) ≤ a * b) :
    (n : ℚ) ≤ double_mul a b :=
  le_round_double_nat hn h

theorem double_mul_zero (a : ℚ) : double_mul a 0 = 0 := by
  unfold double_mul
  rw [mul_zero, round_double_zero]

theorem to_double_zero : to_double 0 = 0 := by
  unfold to_double
  rw [Nat.cast_zero, round_double_zero]

theorem to_size_le {x : ℚ} {k : Nat} (h : x < k + 1) : to_size x ≤ k := by
  have e : Rat.floor x = ⌊x⌋ := rfl
  have h1 : ⌊x⌋ < (k : Int) + 1 := by
    rw [Int.floor_lt]
    push_cast
    exact h
  unfold to_size
  rw [e]
  omega

theorem le_to_size {x : ℚ} {k : Nat} (hk : k ≤ 18446744073709551615) (h : (k : ℚ) ≤ x) :
    k ≤ to_size x := by
  have e : Rat.floor x = ⌊x⌋ := rfl
  have h1 : (k : Int) ≤ ⌊x⌋ := by
    rw [Int.le_floor]
    push_cast
    exact h
  unfold to_size
  rw [e]
  omega

theorem to_size_quarter {n : Nat} (h : n / 4 ≤ 18446744073709551615) :
    to_size ((n : ℚ) / 4) = n / 4 := by
  apply Nat.le_antisymm
  · apply to_size_le
    have h1 : ((n : Nat) : ℚ) < ((4 * (n / 4) + 4 : Nat) : ℚ) := Nat.cast_lt.mpr (by omega)
    push_cast at h1
    linarith
  · apply le_to_size h
    have h1 : ((4 * (n / 4) : Nat) : ℚ) ≤ ((n : Nat) : ℚ) := Nat.cast_le.mpr (by omega)
    push_cast at h1
    linarith

/-- On a positive `x` with binary exponent `e`, `round_double x` is a multiple `r * 2 ^ (e - 52)`
with `2 ^ 52 ≤ r ≤ 2 ^ 53`, and it differs from `x` by at most half of `2 ^ (e - 52)`. -/
theorem round_double_near {x : ℚ} (h : 0 < x) :
    ∃ (e : Int) (r : Nat), (2 : ℚ) ^ e ≤ x ∧ x < (2 : ℚ) ^ (e + 1) ∧
      round_double x = (r : ℚ) * (2 : ℚ) ^ (e - 52) ∧ 2 ^ 52 ≤ r ∧ r ≤ 2 ^ 53 ∧
      |round_double x - x| ≤ (2 : ℚ) ^ (e - 52) / 2 := by
  obtain ⟨h1, h2, h3⟩ := rat_pos_parts h
  obtain ⟨N, D, hD, hND, hr⟩ := round_double_pos_eq (p := x.num.toNat) h2
  obtain ⟨he, he'⟩ := binary_exponent_spec h1 h2
  rw [h3] at he he' hND
  have h2' : (2 : ℚ) ≠ 0 := by norm_num
  have hD' : (0 : ℚ) < D := Nat.cast_pos.mpr hD
  have hK : (0 : ℚ) < (2 : ℚ) ^ (binary_exponent x.num.toNat x.den - 52) := by positivity
  have hrd : round_double x = round_double_pos x.num.toNat x.den := by
    unfold round_double
    rw [if_neg h.ne.symm, if_pos h]
  have e52 : ((2 ^ 52 : Nat) : ℚ) * (2 : ℚ) ^ (binary_exponent x.num.toNat x.den - 52)
      = (2 : ℚ) ^ binary_exponent x.num.toNat x.den := by
    have : binary_exponent x.num.toNat x.den
        = ((52 : Nat) : Int) + (binary_exponent x.num.toNat x.den - 52) := by
      push_cast
      ring
    conv_rhs => rw [this, zpow_add₀ h2', zpow_natCast]
    push_cast
    rfl
  have e53 : ((2 ^ 53 : Nat) : ℚ) * (2 : ℚ) ^ (binary_exponent x.num.toNat x.den - 52)
      = (2 : ℚ) ^ (binary_exponent x.num.toNat x.den + 1) := by
    have : binary_exponent x.num.toNat x.den + 1
        = ((53 : Nat) : Int) + (binary_exponent x.num.toNat x.den - 52) := by
      push_cast
      ring
    conv_rhs => rw [this, zpow_add₀ h2', zpow_natCast]
    push_cast
    rfl
  have hx : x = (N : ℚ) / D * (2 : ℚ) ^ (binary_exponent x.num.toNat x.den - 52) := by
    rw [hND, div_mul_cancel₀ _ hK.ne.symm]
  have hlo : 2 ^ 52 * D ≤ N := by
    have : ((2 ^ 52 : Nat) : ℚ) ≤ (N : ℚ) / D := by
      rw [hND, le_div_iff₀ hK, e52]
      exact he
    rw [le_div_iff₀ hD'] at this
    exact_mod_cast this
  have hhi : N < 2 ^ 53 * D := by
    have : (N : ℚ) / D < ((2 ^ 53 : Nat) : ℚ) := by
      rw [hND, div_lt_iff₀ hK, e53]
      exact he'
    rw [div_lt_iff₀ hD'] at this
    exact_mod_cast this
  obtain ⟨n1, n2⟩ := round_half_even_near (N := N) hD
  have hrlo : 2 ^ 52 ≤ round_half_even N D := le_round_half_even hD hlo
  have hrhi : round_half_even N D ≤ 2 ^ 53 := by
    by_contra hc
    have : (2 ^ 53 + 1) * D ≤ round_half_even N D * D := Nat.mul_le_mul_right D (by omega)
    have e1 : 2 * round_half_even N D * D = 2 * (round_half_even N D * D) := by ring
    have e2 : (2 ^ 53 + 1) * D = 2 ^ 53 * D + D := by ring
    omega
  refine ⟨binary_exponent x.num.toNat x.den, round_half_even N D, he, he', ?_, hrlo, hrhi, ?_⟩
  · rw [hrd, hr]
  · rw [hrd, hr]
    have q1 : (2 * N : ℚ) ≤ 2 * round_half_even N D * D + D := by exact_mod_cast n1
    have q2 : (2 * round_half_even N D * D : ℚ) ≤ 2 * N + D := by exact_mod_cast n2
    have hd : (round_half_even N D : ℚ) * (2 : ℚ) ^ (binary_exponent x.num.toNat x.den - 52) - x
        = ((round_half_even N D : ℚ) - (N : ℚ) / D)
          * (2 : ℚ) ^ (binary_exponent x.num.toNat x.den - 52) := by
      linear_combination (-1 : ℚ) * hx
    rw [hd, abs_mul, abs_of_pos hK]
    have habs : |(round_half_even N D : ℚ) - (N : ℚ) / D| ≤ 1 / 2 := by
      rw [abs_le]
      constructor
      · rw [le_sub_iff_add_le, ← sub_eq_neg_add, sub_le_iff_le_add, div_le_iff₀ hD']
        linarith
      · rw [sub_le_iff_le_add, ← sub_le_iff_le_add', le_div_iff₀ hD']
        linarith
    calc |(round_half_even N D : ℚ) - (N : ℚ) / D|
          * (2 : ℚ) ^ (binary_exponent x.num.toNat x.den - 52)
        ≤ 1 / 2 * (2 : ℚ) ^ (binary_exponent x.num.toNat x.den - 52) :=
          mul_le_mul_of_nonneg_right habs hK.le
      _ = (2 : ℚ) ^ (binary_exponent x.num.toNat x.den - 52) / 2 := by ring

end EightPuzzle

namespace EightPuzzle

/-! ## Boards one move from the goal -/

theorem hamming_term_eq_cell {n : Nat} {data : List (List Nat)} (hlen : data.length = n) :
    (cells n).map (hamming_term data)
      = (cells n).map fun x => hamming_cell n x (at2 data x.1 x.2) := by
  have : hamming_term data = fun x => hamming_cell n x (at2 data x.1 x.2) := by
    funext x
    unfold hamming_term hamming_cell
    rw [hlen]
  rw [this]

theorem hamming_cell_le_one (n : Nat) (x : Nat × Nat) (v : Nat) : hamming_cell n x v ≤ 1 := by
  unfold hamming_cell
  split <;> omega

theorem hamming_sum_goal_grid {n : Nat} (h1 : 1 ≤ n) (h2 : n ≤ 65536) :
    ((cells n).map (hamming_term (grid_of_list n (goal_list n)))).sum = 0 := by
  rw [hamming_sum_eq (goal_grid_valid h1 h2), misplaced_goal_grid, at2_goal_grid_last h1]
  rfl

/-- The move that leads to the goal board brings the blank to the last cell. -/
theorem one_move_target {n : Nat} {data : List (List Nat)} (h : ValidGrid n data) (m : Move)
    (hm : m.is_unit) (hv : (Board.fromData data).is_valid_move m = true)
    (hg : (Board.fromData data).my_move m = Board.create_goal n) :
    (size_add (Board.fromData data).m_blank_row m.di,
      size_add (Board.fromData data).m_blank_col m.dj) = (n - 1, n - 1) := by
  have hG := goal_grid_valid h.1 h.side_le
  have hz := (my_move_blank h m hm hv).1
  rw [hg, create_goal_data h.1 h.side_le] at hz
  exact hG.at2_inj (target_cell h m hm hv).2.2.1 (last_cell_mem h.1)
    (hz.trans (at2_goal_grid_last h.1).symm)

/-- A board one move from the goal is not a goal board. -/
theorem one_move_not_goal {n : Nat} {data : List (List Nat)} (h : ValidGrid n data) (m : Move)
    (hm : m.is_unit) (hv : (Board.fromData data).is_valid_move m = true)
    (hg : (Board.fromData data).my_move m = Board.create_goal n) :
    (Board.fromData data).is_goal = false := by
  have hG := goal_grid_valid h.1 h.side_le
  have hd : ((Board.fromData data).my_move m).m_data = grid_of_list n (goal_list n) := by
    rw [hg, create_goal_data h.1 h.side_le]
  have key := sum_my_move h m hm hv (hamming_cell n)
  rw [hd, ← hamming_term_eq_cell hG.2.1, ← hamming_term_eq_cell h.2.1,
    hamming_sum_goal_grid h.1 h.side_le] at key
  have a1 := hamming_cell_le_one n
    ((Board.fromData data).m_blank_row, (Board.fromData data).m_blank_col) 0
  have a2 := hamming_cell_le_one n
    (size_add (Board.fromData data).m_blank_row m.di,
      size_add (Board.fromData data).m_blank_col m.dj)
    (at2 data (size_add (Board.fromData data).m_blank_row m.di)
      (size_add (Board.fromData data).m_blank_col m.dj))
  have hlast : at2 data (n - 1) (n - 1) ≠ 0 := by
    intro e
    have hb := blank_cell h
    have := h.at2_inj (last_cell_mem h.1) hb.1 (e.trans hb.2.symm)
    exact (target_cell h m hm hv).2.2.2 ((one_move_target h m hm hv hg).trans this)
  have hs := hamming_sum_eq h
  rw [if_neg hlast] at hs
  exact is_goal_false_of_sum ⟨h.2.1, h.2.2.1⟩ (by omega) (by omega)

/-- The Manhattan sum of a board one move from the goal is `1`. -/
theorem one_move_manhattan {n : Nat} {data : List (List Nat)} (h : ValidGrid n data) (m : Move)
    (hm : m.is_unit) (hv : (Board.fromData data).is_valid_move m = true)
    (hg : (Board.fromData data).my_move m = Board.create_goal n) :
    manhattan_sum n data = 1 := by
  have key := manhattan_sum_my_move h m hm hv
  rw [hg, create_goal_data h.1 h.side_le, manhattan_sum_goal_grid] at key
  omega

/-- Every neighbour of a board one move from the goal is the goal board or has Manhattan
distance `2`. -/
theorem one_move_neighbour {n : Nat} {data : List (List Nat)} (h : ValidGrid n data) (m : Move)
    (hm : m.is_unit) (hv : (Board.fromData data).is_valid_move m = true)
    (hg : (Board.fromData data).my_move m = Board.create_goal n)
    (m' : Move) (hm' : m'.is_unit) (hv' : (Board.fromData data).is_valid_move m' = true) :
    (Board.fromData data).my_move m' = Board.create_goal n ∨
      ((Board.fromData data).my_move m').manhattan = 2 := by
  have hM := one_move_manhattan h m hm hv hg
  have hvd := (my_move_data h m' hm' hv').1
  rcases manhattan_sum_my_move h m' hm' hv' with e | e
  · right
    rw [my_move_eq_fromData, manhattan_eq_u32_sum hvd, e, hM]
    rfl
  · left
    have hz : manhattan_sum n ((Board.fromData data).my_move m').m_data = 0 := by omega
    rw [my_move_eq_fromData, manhattan_sum_zero hvd hz, create_goal_eq h.1 h.side_le]

/-! ## The heuristic of the goal and of its second neighbours -/

/-- The goal board at depth `1` has a heuristic value of at most `1`. -/
theorem heuristic_goal (atan : Nat → ℚ) {n : Nat} (h1 : 1 ≤ n) (h2 : n ≤ 65536) :
    heuristic atan (Board.create_goal n) 1 ≤ 1 := by
  have hM : (Board.create_goal n).manhattan = 0 := by
    rw [create_goal_eq h1 h2, manhattan_eq_u32_sum (goal_grid_valid h1 h2),
      manhattan_sum_goal_grid]
    rfl
  have hH : (Board.create_goal n).hamming = 0 := by
    rw [create_goal_eq h1 h2]
    exact goal_grid_hamming h1 h2
  have e1 : double_add 0 (to_double 1) = 1 := by
    unfold double_add
    rw [to_double_eq (by norm_num), Nat.cast_one, zero_add]
    exact_mod_cast round_double_natCast (n := 1) (by norm_num)
  have e0 : double_add 0 0 = 0 := by
    unfold double_add
    rw [add_zero, round_double_zero]
  unfold heuristic
  rw [hM, hH]
  simp only [to_double_zero, double_mul_zero, e0, e1]
  split_ifs <;> apply to_size_le <;> norm_num

/-- A board with Manhattan distance `2` at depth `1` has a heuristic value of at least `2`. -/
theorem heuristic_two (atan : Nat → ℚ) (h2 : 1 / 2 ≤ atan 2) (h3 : 0 ≤ atan 3) (c : Board)
    (hM : c.manhattan = 2) : 2 ≤ heuristic atan c 1 := by
  have hH : (0 : ℚ) ≤ to_double c.hamming := to_double_nonneg _
  have e2 : to_double 2 = 2 := by
    rw [to_double_eq (by norm_num)]
    norm_num
  have e1 : to_double 1 = 1 := by
    rw [to_double_eq (by norm_num)]
    norm_num
  have e3 : (2 + 1) % 18446744073709551616 = 3 := by norm_num
  unfold heuristic
  rw [hM, e2, e1, e3]
  split_ifs with c1 c2 c3
  · apply le_to_size (by norm_num)
    have a1 : ((1 : Nat) : ℚ) ≤ double_mul (atan 2) 2 :=
      le_double_mul (by norm_num) (by push_cast; linarith)
    have a2 : ((2 : Nat) : ℚ) ≤ double_add (double_mul (atan 2) 2) 1 :=
      le_double_add (by norm_num) (by push_cast at a1 ⊢; linarith)
    exact a2
  · apply le_to_size (by norm_num)
    have a1 : ((4 : Nat) : ℚ) ≤ double_mul (9 / 4) 2 :=
      le_double_mul (by norm_num) (by push_cast; norm_num)
    have a2 : ((4 : Nat) : ℚ) ≤ double_add (double_mul (9 / 4) 2) (to_double c.hamming) :=
      le_double_add (by norm_num) (by push_cast at a1 ⊢; linarith)
    have a3 : ((2 : Nat) : ℚ)
        ≤ double_add (double_add (double_mul (9 / 4) 2) (to_double c.hamming)) 1 :=
      le_double_add (by norm_num) (by push_cast at a2 ⊢; linarith)
    exact a3
  · omega
  · apply le_to_size (by norm_num)
    have a1 : ((3 : Nat) : ℚ) ≤ double_add (5 / 2) (atan 2) :=
      le_double_add (by norm_num) (by push_cast; linarith)
    have a2 : ((6 : Nat) : ℚ) ≤ double_mul (double_add (5 / 2) (atan 2)) 2 :=
      le_double_mul (by norm_num) (by push_cast at a1 ⊢; linarith)
    have a3 : ((2 : Nat) : ℚ)
        ≤ double_add (double_mul (double_add (5 / 2) (atan 2)) 2) (to_double c.hamming) :=
      le_double_add (by norm_num) (by push_cast at a2 ⊢; linarith)
    exact a3
  · apply le_to_size (by norm_num)
    have a0 : ((3 : Nat) : ℚ) ≤ to_double (c.size / 2) := le_to_double (by norm_num) (by omega)
    have a1 : ((3 : Nat) : ℚ) ≤ double_add (to_double (c.size / 2)) (atan 3) :=
      le_double_add (by norm_num) (by linarith)
    have a2 : ((6 : Nat) : ℚ) ≤ double_mul (double_add (to_double (c.size / 2)) (atan 3)) 2 :=
      le_double_mul (by norm_num) (by push_cast at a1 ⊢; linarith)
    have a3 : ((6 : Nat) : ℚ)
        ≤ double_add (double_mul (double_add (to_double (c.size / 2)) (atan 3)) 2)
          (to_double c.hamming) :=
      le_double_add (by norm_num) (by linarith)
    have a4 : ((2 : Nat) : ℚ)
        ≤ double_add (double_add (double_mul (double_add (to_double (c.size / 2)) (atan 3)) 2)
          (to_double c.hamming)) 1 :=
      le_double_add (by norm_num) (by push_cast at a3 ⊢; linarith)
    exact a4

end EightPuzzle

namespace EightPuzzle

/-! ## The search on a board one move from the goal -/

theorem contents_push_empty {P : PriorityQueue} (hP : P.Lawful) (s : State) :
    P.contents (P.push P.empty s) = [s] := by
  have h := hP.contents_push P.empty s
  rw [hP.contents_empty] at h
  exact List.perm_singleton.mp h

theorem pop_of_mem {P : PriorityQueue} (hP : P.Lawful) {q : P.Q} {t : State}
    (ht : t ∈ P.contents q) : ∃ s q', P.pop q = some (s, q') := by
  cases hpop : P.pop q with
  | none =>
    rw [(hP.pop_none q).mp hpop] at ht
    cases ht
  | some x => exact ⟨x.1, x.2, rfl⟩

theorem two_cells_side {n : Nat} {p q : Nat × Nat} (hp : p ∈ cells n) (hq : q ∈ cells n)
    (hne : p ≠ q) : 2 ≤ n := by
  by_contra hc
  have h1 := mem_cells.mp hp
  have h2 := mem_cells.mp hq
  exact hne (Prod.ext (by omega) (by omega))

/-- The path reconstruction from a goal board whose stored move leads back to the initial
board. -/
theorem reconstruct_two {n : Nat} {b g : Board} (prev : PrevMap) (hb : ValidBoard n b)
    (hgv : ValidBoard n g) (hne : g ≠ b) (hprev : g.my_move (prev_at prev g).reverse = b)
    (fuel : Nat) : reconstruct b prev (fuel + 1) [g] = some [g, b] := by
  have he : g.eq b = false := by
    cases h : g.eq b with
    | false => rfl
    | true => exact absurd ((ValidBoard.eq_iff hgv hb).mp h) hne
  unfold reconstruct
  simp only [List.getLast?_singleton, he, Bool.not_false, if_true, hprev]
  unfold reconstruct
  have hl : ([g] ++ [b]).getLast? = some b := rfl
  rw [hl]
  simp only [Board.eq_self, Bool.not_true, Bool.false_eq_true, if_false]
  rfl

/-- The `while (!pq.empty())` loop on a board one move from the goal: the second state popped
is the goal board, and the path reconstruction returns the goal board and the initial board. -/
theorem search_one_move {P : PriorityQueue} (hP : P.Lawful) (atan : Nat → ℚ)
    (h2 : 1 / 2 ≤ atan 2) (h3 : 0 ≤ atan 3) {n : Nat} {data : List (List Nat)}
    (h : ValidGrid n data) (m : Move) (hm : m.is_unit)
    (hv : (Board.fromData data).is_valid_move m = true)
    (hg : (Board.fromData data).my_move m = Board.create_goal n) (rfuel fuel : Nat) :
    search P atan (Board.fromData data) (rfuel + 1) (fuel + 2)
        (P.push P.empty (State.new atan (Board.fromData data) 0)) []
      = some [Board.create_goal n, Board.fromData data] := by
  have hb : ValidBoard n (Board.fromData data) := ⟨data, h, rfl⟩
  have hgv : ValidBoard n (Board.create_goal n) :=
    ⟨_, goal_grid_valid h.1 h.side_le, create_goal_eq h.1 h.side_le⟩
  have hng := one_move_not_goal h m hm hv hg
  have hgg := create_goal_is_goal h.1 h.side_le
  have hne : Board.create_goal n ≠ Board.fromData data := by
    intro e
    rw [e, hng] at hgg
    cases hgg
  -- the first iteration pops the initial state
  have hc0 := contents_push_empty hP (State.new atan (Board.fromData data) 0)
  obtain ⟨s, pq1, hpop⟩ := pop_of_mem hP
    (q := P.push P.empty (State.new atan (Board.fromData data) 0))
    (t := State.new atan (Board.fromData data) 0) (by rw [hc0]; exact List.mem_singleton_self _)
  have hs : s = State.new atan (Board.fromData data) 0 := by
    have hmem := (pop_mem hP hpop).1
    rw [hc0] at hmem
    exact List.mem_singleton.mp hmem
  have hc1 : P.contents pq1 = [] := by
    have hl := (hP.pop_some _ _ _ hpop).length_eq
    rw [hc0] at hl
    have hl' : 1 = (P.contents pq1).length + 1 := hl
    exact List.eq_nil_of_length_eq_zero (by omega)
  subst hs
  unfold search
  rw [hpop]
  simp only
  have hng' : ¬ (State.new atan (Board.fromData data) 0).board.is_goal = true := by
    intro e
    rw [show (State.new atan (Board.fromData data) 0).board = Board.fromData data from rfl,
      hng] at e
    cases e
  rw [if_neg hng']
  -- the two `for` loops
  have hE := expand_spec hP atan (State.new atan (Board.fromData data) 0) pq1 []
  generalize expand P atan (State.new atan (Board.fromData data) 0) pq1 [] = acc at hE ⊢
  have hE1 : ∀ e ∈ acc.2, e.2.is_unit ∧ (Board.fromData data).is_valid_move e.2 = true ∧
      e.1 = (Board.fromData data).my_move e.2 ∧ State.new atan e.1 1 ∈ P.contents acc.1 := by
    intro e he
    rcases hE.1 e he with hx | hx
    · cases hx
    · exact hx
  have hE2 : ∀ t ∈ P.contents acc.1, ∃ m' : Move, m'.is_unit ∧
      (Board.fromData data).is_valid_move m' = true ∧
      t = State.new atan ((Board.fromData data).my_move m') 1 := by
    intro t ht
    rcases hE.2.1 t ht with hx | hx
    · rw [hc1] at hx
      cases hx
    · exact hx
  have hfind : (prev_find acc.2 (Board.create_goal n)).isSome = true := by
    have := hE.2.2.2.2 m (unit_mem_loop_moves hm) hm hv
    rw [← hg]
    exact this
  obtain ⟨m0, hm0⟩ := Option.isSome_iff_exists.mp hfind
  obtain ⟨e, he, heq, he2⟩ := prev_find_mem hm0
  obtain ⟨hu, hva, hmv, hin⟩ := hE1 e he
  have hge : e.1 = Board.create_goal n := by
    have hev : ValidBoard n e.1 := by
      rw [hmv]
      exact hb.my_move hu hva
    exact (ValidBoard.eq_iff hev hgv).mp heq
  rw [hge] at hin
  have hback : (Board.create_goal n).my_move (prev_at acc.2 (Board.create_goal n)).reverse
      = Board.fromData data := by
    have hat : prev_at acc.2 (Board.create_goal n) = e.2 := by
      unfold prev_at
      rw [hm0, ← he2]
      rfl
    have hrev := (my_move_reverse hb hu hva).2
    rw [← hmv, hge] at hrev
    rw [hat, hrev]
  -- the second iteration pops the goal state
  obtain ⟨s2, pq2, hpop2⟩ := pop_of_mem hP hin
  have hs2 : s2 = State.new atan (Board.create_goal n) 1 := by
    obtain ⟨m', hu', hv', e'⟩ := hE2 s2 (pop_mem hP hpop2).1
    have hmin := hP.pop_min _ _ _ hpop2 _ hin
    have hgoal := heuristic_goal atan h.1 h.side_le
    rcases one_move_neighbour h m hm hv hg m' hu' hv' with hx | hx
    · rw [e', hx]
    · have htwo := heuristic_two atan h2 h3 _ hx
      have e1 : s2.heuristic_value = heuristic atan ((Board.fromData data).my_move m') 1 := by
        rw [e']
        rfl
      have e2 : (State.new atan (Board.create_goal n) 1).heuristic_value
          = heuristic atan (Board.create_goal n) 1 := rfl
      rw [e1, e2] at hmin
      omega
  subst hs2
  unfold search
  rw [hpop2]
  simp only
  have hgg' : (State.new atan (Board.create_goal n) 1).board.is_goal = true := hgg
  rw [if_pos hgg']
  exact reconstruct_two acc.2 hb hgv hne hback rfuel

end EightPuzzle

namespace EightPuzzle

/-- C4: one move from the goal. For every lawful priority queue, every `atan` with
`atan 2 ≥ 1/2` and `atan 3 ≥ 0` (as `std::atan` has), every fuel of at least `2`, and every valid
board `b` of side `n` with a legal unit move `m` such that `b.my_move(m) == create_goal(n)`:
the side is at least `2`, `b` is not a goal board, and `solve(b)` returns exactly the two boards
`b`, `create_goal(n)`, for which `moves()` is `1`. -/
theorem solve_one_move_from_goal (P : PriorityQueue) (hP : P.Lawful) (atan : Nat → ℚ)
    (h2 : 1 / 2 ≤ atan 2) (h3 : 0 ≤ atan 3) (fuel n : Nat) (hfuel : 2 ≤ fuel)
    (data : List (List Nat)) (h : ValidGrid n data) (m : Move) (hm : m.is_unit)
    (hv : (Board.fromData data).is_valid_move m = true)
    (he : ((Board.fromData data).my_move m).eq (Board.create_goal n) = true) :
    2 ≤ n ∧ (Board.fromData data).is_goal = false ∧
      solve P atan fuel (Board.fromData data)
        = some ⟨[Board.fromData data, Board.create_goal n]⟩ ∧
      (Solution.mk [Board.fromData data, Board.create_goal n]).moves = 1 := by
  have hg : (Board.fromData data).my_move m = Board.create_goal n :=
    (ValidBoard.eq_iff (ValidBoard.my_move ⟨data, h, rfl⟩ hm hv)
      ⟨_, goal_grid_valid h.1 h.side_le, create_goal_eq h.1 h.side_le⟩).mp he
  have hn : 2 ≤ n :=
    two_cells_side (target_cell h m hm hv).2.2.1 (blank_cell h).1 (target_cell h m hm hv).2.2.2
  have hng := one_move_not_goal h m hm hv hg
  refine ⟨hn, hng, ?_, rfl⟩
  have hsol : (Board.fromData data).is_solvable = true := by
    rw [← is_solvable_my_move h m hm hv, hg]
    exact create_goal_is_solvable h.1 h.side_le
  have hsize : ¬ (Board.fromData data).size ≤ 1 := by
    have : (Board.fromData data).size = n := h.2.1
    omega
  obtain ⟨k, rfl⟩ : ∃ k, fuel = k + 2 := ⟨fuel - 2, by omega⟩
  rw [solve_search_case P atan _ _ hsol hsize hng,
    search_one_move hP atan h2 h3 h m hm hv hg (k + 1) k]
  rfl

theorem solve_one_move_from_goal_witness :
    solve list_queue (fun _ => 1) 2 (Board.fromData [[1, 2, 3], [4, 5, 6], [7, 0, 8]])
        = some ⟨[Board.fromData [[1, 2, 3], [4, 5, 6], [7, 0, 8]], Board.create_goal 3]⟩ ∧
      (Board.create_goal 3).m_data = [[1, 2, 3], [4, 5, 6], [7, 8, 0]] :=
  ⟨(solve_one_move_from_goal list_queue list_queue_lawful (fun _ => 1) (by norm_num)
      (by norm_num) 2 3 (by decide) [[1, 2, 3], [4, 5, 6], [7, 0, 8]] (by decide) ⟨0, 1⟩
      (by decide) (by decide) (by decide)).2.2.1, by decide⟩

end EightPuzzle

namespace EightPuzzle

/-! ## Rotations of three neighbours from jumps -/

theorem window_rotate (n r : Nat) (hr : r + 1 < n) :
    ∀ (Y X A B : List Nat), A.length = r * n → X.length + Y.length = 2 * n - 1 →
      Relation.EqvGen (Jump n) (A ++ X ++ Y ++ B) (A ++ Y ++ X ++ B) := by
  intro Y
  induction Y using List.reverseRecOn with
  | nil =>
    intro X A B _ _
    simp only [List.append_nil, List.append_assoc, List.nil_append]
    exact Relation.EqvGen.refl _
  | append_singleton Y y ih =>
    intro X A B hA hlen
    simp only [List.length_append, List.length_singleton] at hlen
    have hj : Jump n (A ++ (X ++ Y) ++ [y] ++ B) (A ++ [y] ++ (X ++ Y) ++ B) :=
      ⟨r, n - 1, A, X ++ Y, B, y, hr, by omega, by rw [hA]; omega,
        by rw [List.length_append]; omega, rfl, rfl⟩
    have h2 := ih (y :: X) A B hA (by simp only [List.length_cons]; omega)
    have e1 : A ++ X ++ (Y ++ [y]) ++ B = A ++ (X ++ Y) ++ [y] ++ B := by
      simp only [List.append_assoc]
    have e2 : A ++ [y] ++ (X ++ Y) ++ B = A ++ (y :: X) ++ Y ++ B := by
      simp only [List.append_assoc, List.cons_append, List.nil_append]
    have e3 : A ++ Y ++ (y :: X) ++ B = A ++ (Y ++ [y]) ++ X ++ B := by
      simp only [List.append_assoc, List.cons_append, List.nil_append]
    rw [e1, ← e3]
    refine Relation.EqvGen.trans _ _ _ (Relation.EqvGen.rel _ _ hj) ?_
    rw [e2]
    exact h2

theorem rot3_in_window (n r : Nat) (hr : r + 1 < n) (A P Q B : List Nat) (a b c : Nat)
    (hA : A.length = r * n) (hlen : P.length + Q.length + 3 = 2 * n - 1) :
    Relation.EqvGen (Jump n) (A ++ P ++ [a, b, c] ++ Q ++ B) (A ++ P ++ [c, a, b] ++ Q ++ B) := by
  have centre : ∀ (F G : List Nat) (u v w : Nat), F.length = n - 2 →
      Jump n (A ++ F ++ [u, v, w] ++ G) (A ++ F ++ [w, u, v] ++ G) := by
    intro F G u v w hF
    refine ⟨r, 1, A ++ F, [u, v], G, w, hr, by omega, ?_, rfl, ?_, ?_⟩
    · rw [List.length_append, hA, hF]
      omega
    · simp only [List.append_assoc, List.cons_append, List.nil_append]
    · simp only [List.append_assoc, List.cons_append, List.nil_append]
  by_cases ho : P.length ≤ n - 2
  · -- rotate the window to the right
    obtain ⟨Q1, Q2, rfl, hQ1⟩ : ∃ Q1 Q2, Q = Q1 ++ Q2 ∧ Q1.length = n - 2 :=
      ⟨Q.take (n - 2), Q.drop (n - 2), (List.take_append_drop _ _).symm,
        by rw [List.length_take]; omega⟩
    simp only [List.length_append] at hlen
    have h1 := window_rotate n r hr Q2 (P ++ [a, b, c] ++ Q1) A B hA
      (by simp only [List.length_append, List.length_cons, List.length_nil]; omega)
    have h2 := centre (Q2 ++ P) (Q1 ++ B) a b c (by rw [List.length_append]; omega)
    have h3 := window_rotate n r hr Q2 (P ++ [c, a, b] ++ Q1) A B hA
      (by simp only [List.length_append, List.length_cons, List.length_nil]; omega)
    simp only [List.append_assoc, List.cons_append, List.nil_append] at h1 h2 h3 ⊢
    exact Relation.EqvGen.trans _ _ _ h1
      (Relation.EqvGen.trans _ _ _ (Relation.EqvGen.rel _ _ h2) (Relation.EqvGen.symm _ _ h3))
  · -- rotate the window to the left
    obtain ⟨P1, P2, rfl, hP2⟩ : ∃ P1 P2, P = P1 ++ P2 ∧ P2.length = n - 2 :=
      ⟨P.take (P.length - (n - 2)), P.drop (P.length - (n - 2)),
        (List.take_append_drop _ _).symm, by rw [List.length_drop]; omega⟩
    simp only [List.length_append] at hlen
    have h1 := window_rotate n r hr (P2 ++ [a, b, c] ++ Q) P1 A B hA
      (by simp only [List.length_append, List.length_cons, List.length_nil]; omega)
    have h2 := centre P2 (Q ++ P1 ++ B) a b c hP2
    have h3 := window_rotate n r hr (P2 ++ [c, a, b] ++ Q) P1 A B hA
      (by simp only [List.length_append, List.length_cons, List.length_nil]; omega)
    simp only [List.append_assoc, List.cons_append, List.nil_append] at h1 h2 h3 ⊢
    exact Relation.EqvGen.trans _ _ _ h1
      (Relation.EqvGen.trans _ _ _ (Relation.EqvGen.rel _ _ h2) (Relation.EqvGen.symm _ _ h3))

/-- On the tiles of a grid of side `n` read along the boustrophedon path, every rotation of
three neighbours is a composition of jumps and reversed jumps. -/
theorem rot3_of_jump (n : Nat) (hn : 2 ≤ n) (A B : List Nat) (a b c : Nat)
    (hlen : A.length + 3 + B.length = n * n - 1) :
    Relation.EqvGen (Jump n) (A ++ [a, b, c] ++ B) (A ++ [c, a, b] ++ B) := by
  obtain ⟨r, hr, h1, h2⟩ : ∃ r, r + 1 < n ∧ r * n ≤ A.length ∧
      A.length + 3 ≤ r * n + (2 * n - 1) := by
    by_cases hc : A.length / n + 1 < n
    · refine ⟨A.length / n, hc, Nat.div_mul_le_self _ _, ?_⟩
      have hlt := Nat.lt_div_mul_add (a := A.length) (b := n) (by omega)
      by_cases h3 : 3 ≤ n
      · omega
      · have hn2 : n = 2 := by omega
        subst hn2
        omega
    · refine ⟨n - 2, by omega, ?_, ?_⟩
      · have : (n - 1) * n ≤ A.length := by
          have := Nat.div_mul_le_self A.length n
          have h5 : n - 1 ≤ A.length / n := by omega
          exact le_trans (Nat.mul_le_mul_right n h5) this
        have h6 : (n - 2) * n ≤ (n - 1) * n := Nat.mul_le_mul_right n (by omega)
        omega
      · have e : n * n = (n - 2) * n + 2 * n := by
          obtain ⟨k, rfl⟩ : ∃ k, n = k + 2 := ⟨n - 2, by omega⟩
          simp only [Nat.add_sub_cancel]
          ring
        omega
  have hB : 2 * n - 1 - 3 - (A.length - r * n) ≤ B.length := by
    have e : (r + 2) * n ≤ n * n := by
      rw [Nat.mul_comm n n]
      exact Nat.mul_le_mul_right n (by omega)
    rw [Nat.add_mul] at e
    omega
  obtain ⟨A0, P, rfl, hA0⟩ : ∃ A0 P, A = A0 ++ P ∧ A0.length = r * n :=
    ⟨A.take (r * n), A.drop (r * n), (List.take_append_drop _ _).symm,
      by rw [List.length_take]; omega⟩
  rw [List.length_append, hA0] at h1 h2 hB hlen
  obtain ⟨Q, B0, rfl, hQ⟩ : ∃ Q B0, B = Q ++ B0 ∧ Q.length = 2 * n - 1 - 3 - P.length :=
    ⟨B.take (2 * n - 1 - 3 - P.length), B.drop (2 * n - 1 - 3 - P.length),
      (List.take_append_drop _ _).symm, by rw [List.length_take]; omega⟩
  have h := rot3_in_window n r hr A0 P Q B0 a b c hA0 (by omega)
  simp only [List.append_assoc, List.cons_append, List.nil_append] at h ⊢
  exact h

end EightPuzzle

namespace EightPuzzle

/-! ## Sorting by rotations of three neighbours -/

theorem swap_first_two_append (T S : List Nat) (h : 2 ≤ T.length) :
    swap_first_two (T ++ S) = swap_first_two T ++ S := by
  match T, h with
  | a :: b :: T', _ => rfl

theorem perm_pair {s : List Nat} {a b : Nat} (h : s.Perm [a, b]) : s = [a, b] ∨ s = [b, a] := by
  have hl := h.length_eq
  match s, hl with
  | [u, v], _ =>
    have hu : u ∈ [a, b] := h.subset (List.mem_cons_self _ _)
    simp only [List.mem_cons, List.mem_singleton, List.not_mem_nil, or_false] at hu
    rcases hu with rfl | rfl
    · have := List.perm_singleton.mp ((List.perm_cons u).mp h)
      left
      rw [this]
    · have h2 : [u, v].Perm [u, a] := h.trans (List.Perm.swap _ _ _)
      have := List.perm_singleton.mp ((List.perm_cons u).mp h2)
      right
      rw [this]

/-- An entry is moved to the end of the unsorted part by rotations of three neighbours. -/
theorem move_to_end (E : List Nat → List Nat → Prop) (hE : Equivalence E) (L : Nat)
    (hrot : ∀ (A B : List Nat) (a b c : Nat), A.length + 3 + B.length = L →
      E (A ++ [a, b, c] ++ B) (A ++ [c, a, b] ++ B)) :
    ∀ (k : Nat) (Y X S : List Nat) (z : Nat), Y.length ≤ k →
      3 ≤ X.length + 1 + Y.length → X.length + 1 + Y.length + S.length = L →
      ∃ s', s'.Perm (X ++ Y) ∧ E (X ++ [z] ++ Y ++ S) (s' ++ [z] ++ S) := by
  intro k
  induction k using Nat.strong_induction_on with
  | _ k ih =>
    intro Y X S z hk h3 hL
    match Y, hk, h3, hL with
    | [], _, _, _ =>
      refine ⟨X, by rw [List.append_nil], ?_⟩
      rw [List.append_nil]
      exact hE.refl _
    | [y], _, h3, hL =>
      simp only [List.length_singleton] at h3 hL
      have hX : X ≠ [] := by
        intro e
        rw [e] at h3
        simp only [List.length_nil] at h3
        omega
      obtain ⟨X', x, rfl⟩ : ∃ X' x, X = X' ++ [x] :=
        ⟨X.dropLast, X.getLast hX, (List.dropLast_append_getLast hX).symm⟩
      simp only [List.length_append, List.length_singleton] at hL
      refine ⟨X' ++ [y, x], ?_, ?_⟩
      · rw [List.append_assoc]
        exact List.Perm.append_left _ (List.Perm.swap _ _ _)
      · have h := hrot X' S x z y (by omega)
        simp only [List.append_assoc, List.cons_append, List.nil_append] at h ⊢
        exact h
    | y1 :: y2 :: Y', hk, h3, hL =>
      simp only [List.length_cons] at hk h3 hL
      have h := hrot X (Y' ++ S) y1 y2 z
        (by simp only [List.length_append]; omega)
      obtain ⟨s', hp, he⟩ := ih (k - 2) (by omega) Y' (X ++ [y1, y2]) S z (by omega)
        (by simp only [List.length_append, List.length_cons, List.length_nil]; omega)
        (by simp only [List.length_append, List.length_cons, List.length_nil]; omega)
      refine ⟨s', ?_, ?_⟩
      · simp only [List.append_assoc, List.cons_append, List.nil_append] at hp ⊢
        exact hp
      · simp only [List.append_assoc, List.cons_append, List.nil_append] at h he ⊢
        exact hE.trans (hE.symm h) he

/-- Rotations of three neighbours bring every arrangement of a list to the list itself or to the
list with its first two entries exchanged. -/
theorem sort_by_rot3 (E : List Nat → List Nat → Prop) (hE : Equivalence E) (L : Nat)
    (hrot : ∀ (A B : List Nat) (a b c : Nat), A.length + 3 + B.length = L →
      E (A ++ [a, b, c] ++ B) (A ++ [c, a, b] ++ B)) :
    ∀ (k : Nat) (T s S : List Nat), T.length = k → s.Perm T → T.length + S.length = L →
      E (s ++ S) (T ++ S) ∨ E (s ++ S) (swap_first_two T ++ S) := by
  intro k
  induction k with
  | zero =>
    intro T s S hk hp _
    rw [List.length_eq_zero.mp hk] at hp ⊢
    rw [List.perm_nil.mp hp]
    exact Or.inl (hE.refl _)
  | succ k ih =>
    intro T s S hk hp hL
    have hT : T ≠ [] := by
      intro e
      rw [e] at hk
      cases hk
    obtain ⟨T0, z, rfl⟩ : ∃ T0 z, T = T0 ++ [z] :=
      ⟨T.dropLast, T.getLast hT, (List.dropLast_append_getLast hT).symm⟩
    simp only [List.length_append, List.length_singleton] at hk hL
    by_cases h2 : T0.length < 2
    · -- at most two entries
      match T0, h2 with
      | [], _ =>
        rw [List.perm_singleton.mp hp]
        exact Or.inl (hE.refl _)
      | [t], _ =>
        rcases perm_pair hp with e | e
        · rw [e]
          exact Or.inl (hE.refl _)
        · rw [e]
          exact Or.inr (hE.refl _)
    · have hz : z ∈ s := hp.symm.subset (List.mem_append_right _ (List.mem_singleton_self z))
      obtain ⟨X, Y, rfl⟩ := List.append_of_mem hz
      have hlen := hp.length_eq
      simp only [List.length_append, List.length_cons, List.length_nil] at hlen
      obtain ⟨s', hs', he⟩ := move_to_end E hE L hrot Y.length Y X S z (le_refl _) (by omega)
        (by omega)
      have hp0 : s'.Perm T0 := by
        have h1 : (z :: (X ++ Y)).Perm (z :: T0) :=
          (List.perm_middle.symm.trans hp).trans (List.perm_append_singleton z T0)
        exact hs'.trans ((List.perm_cons z).mp h1)
      have hrec := ih T0 s' ([z] ++ S) (by omega) hp0
        (by simp only [List.length_append, List.length_singleton]; omega)
      rw [swap_first_two_append T0 [z] (by omega)]
      simp only [List.append_assoc, List.cons_append, List.nil_append] at he hrec ⊢
      rcases hrec with h | h
      · exact Or.inl (hE.trans he h)
      · exact Or.inr (hE.trans he h)

end EightPuzzle

namespace EightPuzzle

/-! ## The boustrophedon path -/

theorem snake_cell_row (n r c : Nat) (hc : c < n) :
    snake_cell n (r * n + c) = (r, if r % 2 = 0 then c else n - 1 - c) := by
  have hn : 0 < n := by omega
  have h1 : (r * n + c) / n = r := by
    rw [Nat.add_comm, Nat.add_mul_div_right _ _ hn, Nat.div_eq_of_lt hc, Nat.zero_add]
  have h2 : (r * n + c) % n = c := by
    rw [Nat.add_comm, Nat.add_mul_mod_self_right, Nat.mod_eq_of_lt hc]
  unfold snake_cell
  rw [h1, h2]

theorem index_row_col {n i : Nat} (h : i < n * n) :
    i = i / n * n + i % n ∧ i / n < n ∧ i % n < n := by
  have hn : 0 < n := by
    rcases Nat.eq_zero_or_pos n with e | e
    · subst e
      simp at h
    · exact e
  refine ⟨?_, Nat.div_lt_of_lt_mul h, Nat.mod_lt _ hn⟩
  have := Nat.div_add_mod i n
  rw [Nat.mul_comm] at this
  exact this.symm

theorem snake_cell_mem {n i : Nat} (h : i < n * n) : snake_cell n i ∈ cells n := by
  obtain ⟨_, h2, h3⟩ := index_row_col h
  rw [mem_cells]
  unfold snake_cell
  refine ⟨h2, ?_⟩
  dsimp only
  split <;> omega

theorem snake_cell_inj {n i j : Nat} (hi : i < n * n) (hj : j < n * n)
    (e : snake_cell n i = snake_cell n j) : i = j := by
  obtain ⟨a1, a2, a3⟩ := index_row_col hi
  obtain ⟨b1, b2, b3⟩ := index_row_col hj
  unfold snake_cell at e
  have e1 : i / n = j / n := congrArg Prod.fst e
  have e2 := congrArg Prod.snd e
  dsimp only at e2
  rw [e1] at e2
  have e3 : i % n = j % n := by
    split at e2 <;> omega
  rw [a1, b1, e1, e3]

theorem snake_cell_index {n : Nat} {p : Nat × Nat} (hp : p ∈ cells n) :
    ∃ i, i < n * n ∧ snake_cell n i = p := by
  obtain ⟨h1, h2⟩ := mem_cells.mp hp
  have hb : p.1 * n + n ≤ n * n := by
    have : (p.1 + 1) * n ≤ n * n := Nat.mul_le_mul_right n h1
    rw [Nat.add_mul, Nat.one_mul] at this
    exact this
  refine ⟨p.1 * n + (if p.1 % 2 = 0 then p.2 else n - 1 - p.2), ?_, ?_⟩
  · split <;> omega
  · rw [snake_cell_row n p.1 _ (by split <;> omega)]
    apply Prod.ext
    · rfl
    · dsimp only
      split <;> omega

theorem snake_adjacent {n i : Nat} (h : i + 1 < n * n) :
    adjacent (snake_cell n i) (snake_cell n (i + 1)) := by
  obtain ⟨a1, a2, a3⟩ := index_row_col (show i < n * n by omega)
  generalize i / n = r at a1 a2
  generalize i % n = c at a1 a3
  subst a1
  rw [snake_cell_row n r c a3]
  by_cases hc : c + 1 < n
  · rw [show r * n + c + 1 = r * n + (c + 1) by omega, snake_cell_row n r (c + 1) hc]
    unfold adjacent
    left
    dsimp only
    refine ⟨rfl, ?_⟩
    split <;> omega
  · have e : r * n + c + 1 = (r + 1) * n + 0 := by
      rw [Nat.add_mul, Nat.one_mul]
      omega
    rw [e, snake_cell_row n (r + 1) 0 (by omega)]
    unfold adjacent
    right
    dsimp only
    refine ⟨?_, Or.inl rfl⟩
    split <;> split <;> omega

theorem snake_rung {n r d : Nat} (hd : d < n) :
    adjacent (snake_cell n (r * n + (n - 1 - d))) (snake_cell n (r * n + (n - 1 - d) + 2 * d + 1))
      := by
  have e : r * n + (n - 1 - d) + 2 * d + 1 = (r + 1) * n + d := by
    rw [Nat.add_mul, Nat.one_mul]
    omega
  rw [e, snake_cell_row n r _ (by omega), snake_cell_row n (r + 1) d hd]
  unfold adjacent
  right
  dsimp only
  refine ⟨?_, Or.inl rfl⟩
  split <;> split <;> omega

end EightPuzzle

namespace EightPuzzle

/-! ## Moves of the blank to a neighbouring cell -/

theorem exists_move {n : Nat} {data : List (List Nat)} (h : ValidGrid n data) {q : Nat × Nat}
    (hq : q ∈ cells n)
    (hadj : adjacent ((Board.fromData data).m_blank_row, (Board.fromData data).m_blank_col) q) :
    ∃ m : Move, m.is_unit ∧ (Board.fromData data).is_valid_move m = true ∧
      (size_add (Board.fromData data).m_blank_row m.di,
        size_add (Board.fromData data).m_blank_col m.dj) = q := by
  obtain ⟨q1, q2⟩ := mem_cells.mp hq
  have hb := mem_cells.mp (blank_cell h).1
  have hiff := fun m hm => is_valid_move_iff h m hm
  have htc := fun m hm hv => target_cell h m hm hv
  unfold adjacent at hadj
  dsimp only at hadj hb
  generalize (Board.fromData data).m_blank_row = r at *
  generalize (Board.fromData data).m_blank_col = c at *
  have hm : (⟨(q.1 : Int) - r, (q.2 : Int) - c⟩ : Move).is_unit := by
    rw [Move.is_unit_iff]
    dsimp only
    omega
  have hv := (hiff _ hm).mpr (by dsimp only; omega)
  refine ⟨_, hm, hv, ?_⟩
  have t := htc _ hm hv
  dsimp only at t
  apply Prod.ext
  · dsimp only
    omega
  · dsimp only
    omega

/-- The blank moves from the cell with index `i` of the boustrophedon path to a neighbouring
cell with index `j`: the two values are exchanged and the other cells keep their values. -/
theorem snake_val_move {n : Nat} {data : List (List Nat)} (h : ValidGrid n data) {i j : Nat}
    (hi : i < n * n) (hj : j < n * n) (h0 : snake_val n data i = 0)
    (hadj : adjacent (snake_cell n i) (snake_cell n j)) :
    ∃ data', ValidGrid n data' ∧ Step (Board.fromData data) (Board.fromData data') ∧
      snake_val n data' j = 0 ∧ snake_val n data' i = snake_val n data j ∧
      ∀ k, k < n * n → k ≠ i → k ≠ j → snake_val n data' k = snake_val n data k := by
  have hci := snake_cell_mem hi
  have hcj := snake_cell_mem hj
  obtain ⟨b1, b2⟩ := fromData_blank h hci h0
  have hb : ((Board.fromData data).m_blank_row, (Board.fromData data).m_blank_col)
      = snake_cell n i := Prod.ext b1 b2
  obtain ⟨m, hm, hv, ht⟩ := exists_move h hcj (by rw [hb]; exact hadj)
  obtain ⟨hvalid, hat⟩ := my_move_data h m hm hv
  rw [hb, ht] at hat
  have hne : i ≠ j := by
    intro e
    subst e
    unfold adjacent at hadj
    omega
  refine ⟨((Board.fromData data).my_move m).m_data, hvalid,
    ⟨m, hm, hv, my_move_eq_fromData _ _⟩, ?_, ?_, ?_⟩
  · unfold snake_val
    rw [hat _ hcj, Equiv.swap_apply_right]
    exact h0
  · unfold snake_val
    rw [hat _ hci, Equiv.swap_apply_left]
  · intro k hk hki hkj
    unfold snake_val
    rw [hat _ (snake_cell_mem hk), Equiv.swap_apply_of_ne_of_ne]
    · exact fun e => hki (snake_cell_inj hk hi e)
    · exact fun e => hkj (snake_cell_inj hk hj e)

end EightPuzzle

namespace EightPuzzle

/-! ## The tiles along the boustrophedon path -/

theorem range'_split (a k i : Nat) (hi : i < k) :
    List.range' a k = List.range' a i ++ (a + i) :: List.range' (a + i + 1) (k - i - 1) := by
  have e : k = (k - i - 1 + 1) + i := by omega
  conv_lhs => rw [e, ← List.range'_append_1, List.range'_succ]

theorem snake_tiles_eq (n : Nat) (data : List (List Nat)) :
    snake_tiles n data
      = ((List.range' 0 (n * n)).map (snake_val n data)).filter fun v => v != 0 := by
  unfold snake_tiles snake
  rw [List.map_map, List.range_eq_range']
  rfl

theorem snake_val_ne_zero {n : Nat} {data : List (List Nat)} (h : ValidGrid n data) {i k : Nat}
    (hi : i < n * n) (hk : k < n * n) (h0 : snake_val n data i = 0) (hne : k ≠ i) :
    snake_val n data k ≠ 0 := by
  intro e
  exact hne (snake_cell_inj hk hi
    (h.at2_inj (snake_cell_mem hk) (snake_cell_mem hi) (e.trans h0.symm)))

theorem filter_snake_vals {n : Nat} {data : List (List Nat)} (h : ValidGrid n data) {i : Nat}
    (hi : i < n * n) (h0 : snake_val n data i = 0) (a k : Nat) (hk : a + k ≤ n * n)
    (hout : i < a ∨ a + k ≤ i) :
    ((List.range' a k).map (snake_val n data)).filter (fun v => v != 0)
      = (List.range' a k).map (snake_val n data) := by
  rw [List.filter_eq_self]
  intro v hv
  obtain ⟨x, hx, rfl⟩ := List.mem_map.mp hv
  have hx' := List.mem_range'_1.mp hx
  have := snake_val_ne_zero h hi (show x < n * n by omega) h0 (by omega)
  simpa using this

/-- The tiles along the path are the values before and after the blank. -/
theorem snake_tiles_blank {n : Nat} {data : List (List Nat)} (h : ValidGrid n data) {i : Nat}
    (hi : i < n * n) (h0 : snake_val n data i = 0) :
    snake_tiles n data = (List.range' 0 i).map (snake_val n data)
      ++ (List.range' (i + 1) (n * n - i - 1)).map (snake_val n data) := by
  rw [snake_tiles_eq, range'_split 0 (n * n) i hi, List.map_append, List.filter_append,
    List.map_cons, List.filter_cons_of_neg (by rw [Nat.zero_add, h0]; simp),
    filter_snake_vals h hi h0 0 i (by omega) (by omega), Nat.zero_add,
    filter_snake_vals h hi h0 (i + 1) (n * n - i - 1) (by omega) (by omega)]

theorem map_snake_val_congr {n : Nat} {data data' : List (List Nat)} {i j : Nat}
    (hk : ∀ k, k < n * n → k ≠ i → k ≠ j → snake_val n data' k = snake_val n data k)
    (a k : Nat) (hak : a + k ≤ n * n) (hi : i < a ∨ a + k ≤ i) (hj : j < a ∨ a + k ≤ j) :
    (List.range' a k).map (snake_val n data') = (List.range' a k).map (snake_val n data) := by
  apply List.map_congr_left
  intro x hx
  have hx' := List.mem_range'_1.mp hx
  exact hk x (by omega) (by omega) (by omega)

/-- The effect on the tiles along the path of a move of the blank from index `i` to a larger
index `j`: the tile at `j` jumps over the tiles between `i` and `j`. -/
theorem snake_tiles_move {n : Nat} {data data' : List (List Nat)} (h : ValidGrid n data)
    (h' : ValidGrid n data') {i j : Nat} (hij : i < j) (hj : j < n * n)
    (h0 : snake_val n data i = 0) (h0' : snake_val n data' j = 0)
    (hx : snake_val n data' i = snake_val n data j)
    (hk : ∀ k, k < n * n → k ≠ i → k ≠ j → snake_val n data' k = snake_val n data k) :
    ∃ (A W B : List Nat) (x : Nat), A.length = i ∧ W.length = j - i - 1 ∧
      snake_tiles n data = A ++ W ++ [x] ++ B ∧ snake_tiles n data' = A ++ [x] ++ W ++ B := by
  refine ⟨(List.range' 0 i).map (snake_val n data),
    (List.range' (i + 1) (j - i - 1)).map (snake_val n data),
    (List.range' (j + 1) (n * n - j - 1)).map (snake_val n data), snake_val n data j,
    by rw [List.length_map, List.length_range'], by rw [List.length_map, List.length_range'],
    ?_, ?_⟩
  · rw [snake_tiles_blank h (by omega) h0, range'_split (i + 1) (n * n - i - 1) (j - i - 1)
      (by omega), List.map_append, List.map_cons]
    rw [show i + 1 + (j - i - 1) = j by omega,
      show n * n - i - 1 - (j - i - 1) - 1 = n * n - j - 1 by omega]
    simp only [List.append_assoc, List.cons_append, List.nil_append]
  · rw [snake_tiles_blank h' hj h0', range'_split 0 j i hij, List.map_append, List.map_cons,
      Nat.zero_add, hx, map_snake_val_congr hk 0 i (by omega) (by omega) (by omega),
      map_snake_val_congr hk (i + 1) (j - i - 1) (by omega) (by omega) (by omega),
      map_snake_val_congr hk (j + 1) (n * n - j - 1) (by omega) (by omega) (by omega)]
    simp only [List.append_assoc, List.cons_append, List.nil_append]

theorem adjacent_symm {p q : Nat × Nat} (h : adjacent p q) : adjacent q p := by
  unfold adjacent at h ⊢
  omega

theorem exists_blank_index {n : Nat} {data : List (List Nat)} (h : ValidGrid n data) :
    ∃ i, i < n * n ∧ snake_val n data i = 0 := by
  obtain ⟨p, hp, h0, _⟩ := h.exists_blank
  obtain ⟨i, hi, e⟩ := snake_cell_index hp
  refine ⟨i, hi, ?_⟩
  unfold snake_val
  rw [e]
  exact h0

end EightPuzzle

namespace EightPuzzle

/-! ## The blank is free along the path, and the jumps are realised by moves -/

/-- A move of the blank between the cells with indices `i` and `j` of the path, and its effect
on the tiles along the path. -/
theorem move_tiles {n : Nat} {data : List (List Nat)} (h : ValidGrid n data) {i j : Nat}
    (hi : i < n * n) (hj : j < n * n) (h0 : snake_val n data i = 0)
    (hadj : adjacent (snake_cell n i) (snake_cell n j)) :
    ∃ data', ValidGrid n data' ∧ Step (Board.fromData data) (Board.fromData data') ∧
      snake_val n data' j = 0 ∧
      (i < j → ∃ (A W B : List Nat) (x : Nat), A.length = i ∧ W.length = j - i - 1 ∧
        snake_tiles n data = A ++ W ++ [x] ++ B ∧ snake_tiles n data' = A ++ [x] ++ W ++ B) ∧
      (j < i → ∃ (A W B : List Nat) (x : Nat), A.length = j ∧ W.length = i - j - 1 ∧
        snake_tiles n data = A ++ [x] ++ W ++ B ∧ snake_tiles n data' = A ++ W ++ [x] ++ B) := by
  obtain ⟨data', h', hstep, h0', hx, hk⟩ := snake_val_move h hi hj h0 hadj
  refine ⟨data', h', hstep, h0', ?_, ?_⟩
  · intro hij
    exact snake_tiles_move h h' hij hj h0 h0' hx hk
  · intro hji
    obtain ⟨A, W, B, x, hA, hW, e1, e2⟩ := snake_tiles_move h' h hji hi h0' h0 hx.symm
      (fun k hk1 hk2 hk3 => (hk k hk1 hk3 hk2).symm)
    exact ⟨A, W, B, x, hA, hW, e2, e1⟩

theorem blank_up {n : Nat} : ∀ (d : Nat) (data : List (List Nat)) (i : Nat), ValidGrid n data →
    i + d < n * n → snake_val n data i = 0 →
    ∃ data', ValidGrid n data' ∧ Reach (Board.fromData data) (Board.fromData data') ∧
      snake_val n data' (i + d) = 0 ∧ snake_tiles n data' = snake_tiles n data := by
  intro d
  induction d with
  | zero =>
    intro data i h _ h0
    exact ⟨data, h, Relation.ReflTransGen.refl, h0, rfl⟩
  | succ d ih =>
    intro data i h hlt h0
    obtain ⟨data1, h1, hstep, h01, hf, _⟩ := move_tiles h (show i < n * n by omega)
      (show i + 1 < n * n by omega) h0 (snake_adjacent (by omega))
    obtain ⟨A, W, B, x, _, hW, e1, e2⟩ := hf (by omega)
    have hW' : W = [] := List.eq_nil_of_length_eq_zero (by omega)
    subst hW'
    obtain ⟨data2, h2, hreach, h02, e3⟩ := ih data1 (i + 1) h1 (by omega) h01
    refine ⟨data2, h2, Relation.ReflTransGen.head hstep hreach, ?_, ?_⟩
    · rw [show i + (d + 1) = i + 1 + d by omega]
      exact h02
    · rw [e3, e1, e2]
      simp only [List.append_nil, List.append_assoc]

theorem blank_down {n : Nat} : ∀ (d : Nat) (data : List (List Nat)) (i : Nat), ValidGrid n data →
    i + d < n * n → snake_val n data (i + d) = 0 →
    ∃ data', ValidGrid n data' ∧ Reach (Board.fromData data) (Board.fromData data') ∧
      snake_val n data' i = 0 ∧ snake_tiles n data' = snake_tiles n data := by
  intro d
  induction d with
  | zero =>
    intro data i h _ h0
    exact ⟨data, h, Relation.ReflTransGen.refl, h0, rfl⟩
  | succ d ih =>
    intro data i h hlt h0
    obtain ⟨data1, h1, hstep, h01, _, hf⟩ := move_tiles h (show i + d + 1 < n * n by omega)
      (show i + d < n * n by omega) h0 (adjacent_symm (snake_adjacent (by omega)))
    obtain ⟨A, W, B, x, _, hW, e1, e2⟩ := hf (by omega)
    have hW' : W = [] := List.eq_nil_of_length_eq_zero (by omega)
    subst hW'
    obtain ⟨data2, h2, hreach, h02, e3⟩ := ih data1 i h1 (by omega) h01
    refine ⟨data2, h2, Relation.ReflTransGen.head hstep hreach, h02, ?_⟩
    rw [e3, e1, e2]
    simp only [List.append_nil, List.append_assoc]

/-- The blank is brought to any cell by moves that keep the tiles along the path. -/
theorem blank_free {n : Nat} {data : List (List Nat)} (h : ValidGrid n data) {j : Nat}
    (hj : j < n * n) :
    ∃ data', ValidGrid n data' ∧ Reach (Board.fromData data) (Board.fromData data') ∧
      snake_val n data' j = 0 ∧ snake_tiles n data' = snake_tiles n data := by
  obtain ⟨i, hi, h0⟩ := exists_blank_index h
  by_cases hij : i ≤ j
  · have := blank_up (j - i) data i h (by omega) h0
    rw [show i + (j - i) = j by omega] at this
    exact this
  · exact blank_down (i - j) data j h (by omega) (by rw [show j + (i - j) = i by omega]; exact h0)

theorem jump_decompose {A W B A' W' B' : List Nat} {x x' : Nat}
    (e : A ++ W ++ [x] ++ B = A' ++ W' ++ [x'] ++ B') (hA : A.length = A'.length)
    (hW : W.length = W'.length) : A = A' ∧ W = W' ∧ x = x' ∧ B = B' := by
  simp only [List.append_assoc] at e
  obtain ⟨e1, e2⟩ := List.append_inj e hA
  obtain ⟨e3, e4⟩ := List.append_inj e2 hW
  simp only [List.cons_append, List.nil_append, List.cons.injEq] at e4
  exact ⟨e1, e3, e4.1, e4.2⟩

theorem jump_decompose' {A W B A' W' B' : List Nat} {x x' : Nat}
    (e : A ++ [x] ++ W ++ B = A' ++ [x'] ++ W' ++ B') (hA : A.length = A'.length)
    (hW : W.length = W'.length) : A = A' ∧ W = W' ∧ x = x' ∧ B = B' := by
  simp only [List.append_assoc] at e
  obtain ⟨e1, e2⟩ := List.append_inj e hA
  simp only [List.cons_append, List.nil_append, List.cons.injEq] at e2
  obtain ⟨e3, e4⟩ := List.append_inj e2.2 hW
  exact ⟨e1, e3, e2.1, e4⟩

theorem rung_bounds {n r d : Nat} (hr : r + 1 < n) (hd : d < n) :
    r * n + (n - 1 - d) + 2 * d + 1 < n * n := by
  have e : (r + 2) * n ≤ n * n := Nat.mul_le_mul_right n (by omega)
  rw [Nat.add_mul] at e
  omega

/-- A jump of the tiles along the path is realised by moves. -/
theorem jump_realize {n : Nat} {data : List (List Nat)} (h : ValidGrid n data) {t : List Nat}
    (hJ : Jump n (snake_tiles n data) t) :
    ∃ data', ValidGrid n data' ∧ Reach (Board.fromData data) (Board.fromData data') ∧
      snake_tiles n data' = t := by
  obtain ⟨r, d, A, W, B, x, hr, hd, hA, hW, es, et⟩ := hJ
  have hb := rung_bounds hr hd
  obtain ⟨data1, h1, hreach, h01, e1⟩ := blank_free h (show r * n + (n - 1 - d) < n * n by omega)
  obtain ⟨data2, h2, hstep, _, hf, _⟩ := move_tiles h1 (by omega) hb h01 (snake_rung hd)
  obtain ⟨A', W', B', x', hA', hW', e2, e3⟩ := hf (by omega)
  rw [e1, es] at e2
  obtain ⟨rfl, rfl, rfl, rfl⟩ := jump_decompose e2 (by omega) (by omega)
  exact ⟨data2, h2, hreach.tail hstep, by rw [e3, et]⟩

/-- A reversed jump of the tiles along the path is realised by moves. -/
theorem jump_realize_rev {n : Nat} {data : List (List Nat)} (h : ValidGrid n data)
    {s : List Nat} (hJ : Jump n s (snake_tiles n data)) :
    ∃ data', ValidGrid n data' ∧ Reach (Board.fromData data) (Board.fromData data') ∧
      snake_tiles n data' = s := by
  obtain ⟨r, d, A, W, B, x, hr, hd, hA, hW, es, et⟩ := hJ
  have hb := rung_bounds hr hd
  obtain ⟨data1, h1, hreach, h01, e1⟩ := blank_free h hb
  obtain ⟨data2, h2, hstep, _, _, hf⟩ := move_tiles h1 hb
    (show r * n + (n - 1 - d) < n * n by omega) h01 (adjacent_symm (snake_rung hd))
  obtain ⟨A', W', B', x', hA', hW', e2, e3⟩ := hf (by omega)
  rw [e1, et] at e2
  obtain ⟨rfl, rfl, rfl, rfl⟩ := jump_decompose' e2 (by omega) (by omega)
  exact ⟨data2, h2, hreach.tail hstep, by rw [e3, es]⟩

/-- Every composition of jumps and reversed jumps is realised by moves, in both directions. -/
theorem eqv_realize {n : Nat} {s t : List Nat} (hE : Relation.EqvGen (Jump n) s t) :
    (∀ data, ValidGrid n data → snake_tiles n data = s →
      ∃ data', ValidGrid n data' ∧ Reach (Board.fromData data) (Board.fromData data') ∧
        snake_tiles n data' = t) ∧
    (∀ data, ValidGrid n data → snake_tiles n data = t →
      ∃ data', ValidGrid n data' ∧ Reach (Board.fromData data) (Board.fromData data') ∧
        snake_tiles n data' = s) := by
  induction hE with
  | rel a b hJ =>
    constructor
    · intro data h e
      subst e
      exact jump_realize h hJ
    · intro data h e
      subst e
      exact jump_realize_rev h hJ
  | refl a =>
    exact ⟨fun data h e => ⟨data, h, Relation.ReflTransGen.refl, e⟩,
      fun data h e => ⟨data, h, Relation.ReflTransGen.refl, e⟩⟩
  | symm a b _ ih => exact ⟨ih.2, ih.1⟩
  | trans a b c _ _ ih1 ih2 =>
    constructor
    · intro data h e
      obtain ⟨data1, h1, r1, e1⟩ := ih1.1 data h e
      obtain ⟨data2, h2, r2, e2⟩ := ih2.1 data1 h1 e1
      exact ⟨data2, h2, Relation.ReflTransGen.trans r1 r2, e2⟩
    · intro data h e
      obtain ⟨data1, h1, r1, e1⟩ := ih2.2 data h e
      obtain ⟨data2, h2, r2, e2⟩ := ih1.2 data1 h1 e1
      exact ⟨data2, h2, Relation.ReflTransGen.trans r1 r2, e2⟩

end EightPuzzle

namespace EightPuzzle

/-! ## A grid is determined by its tiles along the path and the place of the blank -/

theorem snake_val_ext {n : Nat} {d1 d2 : List (List Nat)} (h1 : ValidGrid n d1)
    (h2 : ValidGrid n d2) (e : ∀ k, k < n * n → snake_val n d1 k = snake_val n d2 k) :
    d1 = d2 := by
  apply grid_ext h1.2.1 h2.2.1 h1.2.2.1 h2.2.2.1
  intro p hp
  obtain ⟨i, hi, rfl⟩ := snake_cell_index hp
  exact e i hi

theorem snake_determined {n : Nat} {d1 d2 : List (List Nat)} (h1 : ValidGrid n d1)
    (h2 : ValidGrid n d2) {i : Nat} (hi : i < n * n) (z1 : snake_val n d1 i = 0)
    (z2 : snake_val n d2 i = 0) (e : snake_tiles n d1 = snake_tiles n d2) : d1 = d2 := by
  rw [snake_tiles_blank h1 hi z1, snake_tiles_blank h2 hi z2] at e
  obtain ⟨e1, e2⟩ := List.append_inj e (by rw [List.length_map, List.length_map])
  rw [List.map_inj_left] at e1 e2
  apply snake_val_ext h1 h2
  intro k hk
  rcases Nat.lt_trichotomy k i with hlt | heq | hgt
  · exact e1 k (List.mem_range'_1.mpr ⟨by omega, by omega⟩)
  · rw [heq, z1, z2]
  · exact e2 k (List.mem_range'_1.mpr ⟨by omega, by omega⟩)

theorem snake_nodup (n : Nat) : (snake n).Nodup := by
  unfold snake
  apply List.Nodup.map_on _ (List.nodup_range _)
  intro x hx y hy e
  exact snake_cell_inj (List.mem_range.mp hx) (List.mem_range.mp hy) e

theorem snake_perm_cells (n : Nat) : (snake n).Perm (cells n) := by
  rw [List.perm_ext_iff_of_nodup (snake_nodup n) (cells_nodup n)]
  intro p
  constructor
  · intro hp
    unfold snake at hp
    obtain ⟨i, hi, rfl⟩ := List.mem_map.mp hp
    exact snake_cell_mem (List.mem_range.mp hi)
  · intro hp
    obtain ⟨i, hi, rfl⟩ := snake_cell_index hp
    unfold snake
    exact List.mem_map_of_mem _ (List.mem_range.mpr hi)

theorem snake_tiles_perm {n : Nat} {data : List (List Nat)} (h : ValidGrid n data) :
    (snake_tiles n data).Perm ((List.range (n * n)).filter fun v => v != 0) := by
  unfold snake_tiles
  apply List.Perm.filter
  have := (snake_perm_cells n).map fun p => at2 data p.1 p.2
  rw [h.map_cells] at this
  exact this.trans h.2.2.2.2

theorem length_snake_tiles {n : Nat} {data : List (List Nat)} (h : ValidGrid n data) :
    (snake_tiles n data).length = n * n - 1 := by
  obtain ⟨i, hi, h0⟩ := exists_blank_index h
  rw [snake_tiles_blank h hi h0, List.length_append, List.length_map, List.length_map,
    List.length_range', List.length_range']
  omega

/-! ## Solvability along a sequence of moves -/

theorem reach_valid {n : Nat} {a c : Board} (ha : ValidBoard n a) (h : Reach a c) :
    ValidBoard n c ∧ c.is_solvable = a.is_solvable := by
  induction h with
  | refl => exact ⟨ha, rfl⟩
  | tail _ hstep ih =>
    obtain ⟨m, hm, hv, rfl⟩ := hstep
    obtain ⟨hb, hsol⟩ := ih
    refine ⟨hb.my_move hm hv, ?_⟩
    obtain ⟨data, hd, rfl⟩ := hb
    rw [is_solvable_my_move hd m hm hv, hsol]

/-! ## The goal grid with two tiles exchanged -/

theorem snake_cell_zero {n : Nat} (hn : 2 ≤ n) : snake_cell n 0 = (0, 0) := by
  have := snake_cell_row n 0 0 (by omega)
  simpa using this

theorem snake_cell_one {n : Nat} (hn : 2 ≤ n) : snake_cell n 1 = (0, 1) := by
  have := snake_cell_row n 0 1 (by omega)
  simpa using this

theorem side_sq {n : Nat} (hn : 2 ≤ n) : 4 ≤ n * n := Nat.mul_le_mul hn hn

theorem second_goal_valid {n : Nat} (h2 : 2 ≤ n) (h3 : n ≤ 65536) :
    ValidGrid n (second_goal n) :=
  (goal_grid_valid (by omega) h3).swap_cells (mem_cells.mpr ⟨by dsimp only; omega,
    by dsimp only; omega⟩) (mem_cells.mpr ⟨by dsimp only; omega, by dsimp only; omega⟩)

theorem at2_second_goal {n : Nat} (h2 : 2 ≤ n) (h3 : n ≤ 65536) (x : Nat × Nat) :
    at2 (second_goal n) x.1 x.2
      = at2 (grid_of_list n (goal_list n)) (Equiv.swap ((0 : Nat), (0 : Nat)) (0, 1) x).1
          (Equiv.swap ((0 : Nat), (0 : Nat)) (0, 1) x).2 := by
  have hG := goal_grid_valid (show 1 ≤ n by omega) h3
  exact at2_swap_cells hG.2.1 hG.2.2.1 (mem_cells.mpr ⟨by dsimp only; omega,
    by dsimp only; omega⟩) (mem_cells.mpr ⟨by dsimp only; omega, by dsimp only; omega⟩) x

theorem goal_list_eq {n : Nat} (h2 : 2 ≤ n) :
    goal_list n = 1 :: 2 :: (List.range' 3 (n * n - 3) ++ [0]) := by
  have := side_sq h2
  unfold goal_list
  rw [show n * n - 1 = (n * n - 3) + 1 + 1 by omega, List.range'_succ, List.range'_succ]
  rfl

theorem second_goal_inversions {n : Nat} (h2 : 2 ≤ n) (h3 : n ≤ 65536) :
    inversions (tiles (second_goal n)) = 1 := by
  have h4 := side_sq h2
  have hG := goal_grid_valid (show 1 ≤ n by omega) h3
  have hp0 : ((0 : Nat), (0 : Nat)) ∈ cells n := mem_cells.mpr ⟨by dsimp only; omega,
    by dsimp only; omega⟩
  have hp1 : ((0 : Nat), (1 : Nat)) ∈ cells n := mem_cells.mpr ⟨by dsimp only; omega,
    by dsimp only; omega⟩
  obtain ⟨A, B, C, e1, e2, _, hB⟩ := flatten_swap_cells hG hp0 hp1 (by dsimp only; omega)
  have hlen : (goal_list n).length = n * n := by
    rw [(goal_list_perm n (by omega)).length_eq, List.length_range]
  have v0 : at2 (grid_of_list n (goal_list n)) 0 0 = 1 := by
    have := at2_goal_grid hp0
    dsimp only at this
    rw [this, if_neg (by omega)]
    omega
  have v1 : at2 (grid_of_list n (goal_list n)) 0 1 = 2 := by
    have := at2_goal_grid hp1
    dsimp only at this
    rw [this, if_neg (by omega)]
    omega
  dsimp only at e1 e2 hB
  rw [v0, v1] at e1 e2
  have hB' : B = [] := List.eq_nil_of_length_eq_zero (by omega)
  subst hB'
  rw [flatten_grid_of_list hlen, goal_list_eq h2] at e1
  have hA : A = [] := by
    cases A with
    | nil => rfl
    | cons a A' =>
      exfalso
      simp only [List.cons_append, List.cons.injEq, List.nil_append] at e1
      have hm : 1 ∈ 2 :: (List.range' 3 (n * n - 3) ++ [0]) := by
        rw [e1.2]
        simp
      simp only [List.mem_cons, List.mem_append, List.mem_range'_1, List.mem_singleton,
        List.not_mem_nil, or_false] at hm
      omega
  subst hA
  simp only [List.nil_append, List.cons_append, List.cons.injEq, true_and] at e1
  have hC : C = List.range' 3 (n * n - 3) ++ [0] := e1.symm
  have ht : tiles (second_goal n) = [] ++ [2, 1] ++ List.range' 3 (n * n - 3) := by
    unfold tiles second_goal
    rw [e2, hC]
    simp only [List.nil_append, List.cons_append, List.filter_cons, List.filter_append,
      List.filter_nil]
    have h1 : List.filter (fun v => v != 0) (List.range' 3 (n * n - 3))
        = List.range' 3 (n * n - 3) := by
      rw [List.filter_eq_self]
      intro v hv
      have := (List.mem_range'_1.mp hv).1
      simp
      omega
    rw [h1]
    simp
  have hfr := inversions_frame [] [1, 2] [2, 1] (List.range' 3 (n * n - 3))
    (List.Perm.swap _ _ _)
  have hs : inversions ([] ++ [1, 2] ++ List.range' 3 (n * n - 3)) = 0 := by
    apply inversions_of_sorted
    have e : [] ++ [1, 2] ++ List.range' 3 (n * n - 3) = List.range' 1 (n * n - 3 + 1 + 1) := by
      rw [List.range'_succ, List.range'_succ]
      rfl
    rw [e]
    exact (List.pairwise_lt_range' 1 _).imp (fun h => Nat.le_of_lt h)
  have i1 : inversions [2, 1] = 1 := by decide
  have i2 : inversions [1, 2] = 0 := by decide
  rw [ht]
  omega

theorem second_goal_not_solvable {n : Nat} (h2 : 2 ≤ n) (h3 : n ≤ 65536) :
    (Board.fromData (second_goal n)).is_solvable = false := by
  have hS := second_goal_valid h2 h3
  have h0 : at2 (second_goal n) (n - 1) (n - 1) = 0 := by
    have := at2_second_goal h2 h3 (n - 1, n - 1)
    rw [Equiv.swap_apply_of_ne_of_ne (by simp; omega) (by simp; omega)] at this
    rw [this]
    exact at2_goal_grid_last (by omega)
  have hf := is_solvable_formula hS (last_cell_mem (show 1 ≤ n by omega)) h0
  have hi := second_goal_inversions h2 h3
  rw [hi] at hf
  dsimp only at hf
  cases hsol : (Board.fromData (second_goal n)).is_solvable with
  | false => rfl
  | true =>
    have := hf.mp hsol
    omega

end EightPuzzle

namespace EightPuzzle

/-! ## Every board accepted by `is_solvable` reaches the goal board -/

theorem snake_tiles_swap {n : Nat} {D D' : List (List Nat)} (h : ValidGrid n D)
    (h' : ValidGrid n D') {i : Nat} (hi : i < n * n) (h2 : 2 ≤ i)
    (h0 : snake_val n D i = 0) (h0' : snake_val n D' i = 0)
    (e0 : snake_val n D' 0 = snake_val n D 1) (e1 : snake_val n D' 1 = snake_val n D 0)
    (hk : ∀ k, k < n * n → 2 ≤ k → snake_val n D' k = snake_val n D k) :
    snake_tiles n D' = swap_first_two (snake_tiles n D) := by
  rw [snake_tiles_blank h hi h0, snake_tiles_blank h' hi h0']
  obtain ⟨k, rfl⟩ : ∃ k, i = k + 2 := ⟨i - 2, by omega⟩
  have m1 : (List.range' 2 k).map (snake_val n D') = (List.range' 2 k).map (snake_val n D) :=
    List.map_congr_left fun x hx => by
      have := List.mem_range'_1.mp hx
      exact hk x (by omega) (by omega)
  have m2 : (List.range' (k + 2 + 1) (n * n - (k + 2) - 1)).map (snake_val n D')
      = (List.range' (k + 2 + 1) (n * n - (k + 2) - 1)).map (snake_val n D) :=
    List.map_congr_left fun x hx => by
      have := List.mem_range'_1.mp hx
      exact hk x (by omega) (by omega)
  rw [m2, List.range'_succ, List.range'_succ]
  simp only [List.map_cons, List.cons_append, e0, e1, m1]
  rfl

theorem second_goal_tiles {n : Nat} (h2 : 2 ≤ n) (h3 : n ≤ 65536) :
    ∃ i, i < n * n ∧ snake_val n (grid_of_list n (goal_list n)) i = 0 ∧
      snake_val n (second_goal n) i = 0 ∧
      snake_tiles n (second_goal n) = swap_first_two (snake_tiles n (grid_of_list n (goal_list n)))
      := by
  have h4 := side_sq h2
  have hG := goal_grid_valid (show 1 ≤ n by omega) h3
  have hS := second_goal_valid h2 h3
  obtain ⟨i, hi, h0⟩ := exists_blank_index hG
  have c0 := snake_cell_zero h2
  have c1 := snake_cell_one h2
  have hrest : ∀ k, k < n * n → 2 ≤ k →
      snake_val n (second_goal n) k = snake_val n (grid_of_list n (goal_list n)) k := by
    intro k hk h2k
    unfold snake_val
    rw [at2_second_goal h2 h3, Equiv.swap_apply_of_ne_of_ne]
    · rw [← c0]
      exact fun e => absurd (snake_cell_inj hk (by omega) e) (by omega)
    · rw [← c1]
      exact fun e => absurd (snake_cell_inj hk (by omega) e) (by omega)
  have e0 : snake_val n (second_goal n) 0 = snake_val n (grid_of_list n (goal_list n)) 1 := by
    unfold snake_val
    rw [at2_second_goal h2 h3, c0, c1, Equiv.swap_apply_left]
  have e1 : snake_val n (second_goal n) 1 = snake_val n (grid_of_list n (goal_list n)) 0 := by
    unfold snake_val
    rw [at2_second_goal h2 h3, c0, c1, Equiv.swap_apply_right]
  have v0 : snake_val n (grid_of_list n (goal_list n)) 0 ≠ 0 := by
    unfold snake_val
    rw [c0, at2_goal_grid (mem_cells.mpr ⟨by dsimp only; omega, by dsimp only; omega⟩)]
    dsimp only
    rw [if_neg (by omega)]
    omega
  have v1 : snake_val n (grid_of_list n (goal_list n)) 1 ≠ 0 := by
    unfold snake_val
    rw [c1, at2_goal_grid (mem_cells.mpr ⟨by dsimp only; omega, by dsimp only; omega⟩)]
    dsimp only
    rw [if_neg (by omega)]
    omega
  have hi2 : 2 ≤ i := by
    by_contra hc
    have : i = 0 ∨ i = 1 := by omega
    rcases this with e | e
    · rw [e] at h0
      exact v0 h0
    · rw [e] at h0
      exact v1 h0
  have z : snake_val n (second_goal n) i = 0 := by rw [hrest i hi hi2, h0]
  exact ⟨i, hi, h0, z, snake_tiles_swap hG hS hi hi2 h0 z e0 e1 hrest⟩

/-- Every valid board that `is_solvable` accepts reaches the goal board by legal unit moves. -/
theorem reach_goal {n : Nat} {data : List (List Nat)} (h : ValidGrid n data)
    (hs : (Board.fromData data).is_solvable = true) :
    Reach (Board.fromData data) (Board.create_goal n) := by
  have h1 := h.1
  have h3 := h.side_le
  have hG := goal_grid_valid h1 h3
  rw [create_goal_eq h1 h3]
  by_cases hn : n = 1
  · subst hn
    rw [valid_side_one h, valid_side_one hG]
    exact Relation.ReflTransGen.refl
  have h2 : 2 ≤ n := by omega
  have hL := length_snake_tiles hG
  have hperm : (snake_tiles n data).Perm (snake_tiles n (grid_of_list n (goal_list n))) :=
    (snake_tiles_perm h).trans (snake_tiles_perm hG).symm
  have key := sort_by_rot3 (Relation.EqvGen (Jump n)) (Relation.EqvGen.is_equivalence _)
    (n * n - 1) (fun A B a b c hl => rot3_of_jump n h2 A B a b c hl) (n * n - 1)
    (snake_tiles n (grid_of_list n (goal_list n))) (snake_tiles n data) [] hL hperm
    (by rw [hL]; rfl)
  simp only [List.append_nil] at key
  obtain ⟨iG, hiG, zG, zS, eS⟩ := second_goal_tiles h2 h3
  rcases key with hE | hE
  · obtain ⟨d1, hd1, r1, e1⟩ := (eqv_realize hE).1 data h rfl
    obtain ⟨d2, hd2, r2, z2, e2⟩ := blank_free hd1 hiG
    have e : d2 = grid_of_list n (goal_list n) :=
      snake_determined hd2 hG hiG z2 zG (e2.trans e1)
    rw [← e]
    exact Relation.ReflTransGen.trans r1 r2
  · exfalso
    obtain ⟨d1, hd1, r1, e1⟩ := (eqv_realize hE).1 data h rfl
    obtain ⟨d2, hd2, r2, z2, e2⟩ := blank_free hd1 hiG
    have e : d2 = second_goal n :=
      snake_determined hd2 (second_goal_valid h2 h3) hiG z2 zS ((e2.trans e1).trans eS.symm)
    have hr := (reach_valid ⟨data, h, rfl⟩ (Relation.ReflTransGen.trans r1 r2)).2
    rw [e, second_goal_not_solvable h2 h3, hs] at hr
    cases hr

end EightPuzzle

namespace EightPuzzle

/-! ## The boards of side `n` -/

theorem grid_of_list_flatten {n : Nat} {data : List (List Nat)} (h : ValidGrid n data) :
    grid_of_list n data.flatten = data := by
  apply grid_ext (by unfold grid_of_list; rw [List.length_map, List.length_range]) h.2.1
    (row_grid_of_list (length_flatten_valid h)) h.2.2.1
  intro p hp
  obtain ⟨h1, h2⟩ := mem_cells.mp hp
  rw [at2_grid_of_list h1 h2, at2_eq_flatten data p.1 p.2 h.2.2.1 (by rw [h.2.1]; exact h1) h2]

theorem mem_all_boards {n : Nat} {b : Board} (hb : ValidBoard n b) : b ∈ all_boards n := by
  obtain ⟨data, h, rfl⟩ := hb
  unfold all_boards
  refine List.mem_map.mpr ⟨data.flatten, List.mem_permutations.mpr h.2.2.2.2, ?_⟩
  rw [grid_of_list_flatten h]

theorem length_all_boards (n : Nat) : (all_boards n).length = (n * n).factorial := by
  unfold all_boards
  rw [List.length_map, List.length_permutations, List.length_range]

theorem countP_lt_of_imp {α : Type} (p q : α → Bool) :
    ∀ (l : List α), (∀ x ∈ l, q x = true → p x = true) →
      ∀ c ∈ l, p c = true → q c = false → l.countP q < l.countP p := by
  intro l
  induction l with
  | nil => intro _ c hc; cases hc
  | cons a l ih =>
    intro himp c hc hp hq
    have hle : l.countP q ≤ l.countP p :=
      List.countP_mono_left fun x hx hqx => himp x (List.mem_cons_of_mem _ hx) hqx
    rw [List.countP_cons, List.countP_cons]
    rcases List.mem_cons.mp hc with e | hmem
    · subst e
      rw [if_pos hp, if_neg (by rw [hq]; exact Bool.false_ne_true)]
      omega
    · have := ih (fun x hx => himp x (List.mem_cons_of_mem _ hx)) c hmem hp hq
      by_cases hqa : q a = true
      · rw [if_pos hqa, if_pos (himp a (List.mem_cons_self _ _) hqa)]
        omega
      · rw [if_neg hqa]
        split <;> omega

theorem unkeyed_nil (n : Nat) : unkeyed n [] = (all_boards n).length := by
  unfold unkeyed
  rw [List.countP_eq_length]
  intro b _
  rfl

/-- A new key lowers the number of boards without an entry. -/
theorem unkeyed_cons {n : Nat} {prev : PrevMap} {c : Board} (m : Move) (hc : ValidBoard n c)
    (hnone : prev_find prev c = none) : unkeyed n ((c, m) :: prev) + 1 ≤ unkeyed n prev := by
  unfold unkeyed
  apply countP_lt_of_imp _ _ _ _ c (mem_all_boards hc)
  · rw [hnone]
    rfl
  · rw [prev_find_cons]
    dsimp only
    rw [Board.eq_self]
    rfl
  · intro x _ hx
    rw [prev_find_cons] at hx
    split at hx
    · cases hx
    · exact hx

end EightPuzzle

namespace EightPuzzle

/-! ## The predecessor map in the order of insertion -/

theorem PrevChain.valid {n : Nat} {initial : Board} :
    ∀ {prev : PrevMap}, PrevChain n initial prev → ∀ e ∈ prev, ValidBoard n e.1 := by
  intro prev
  induction prev with
  | nil => intro _ e he; cases he
  | cons x rest ih =>
    intro h e he
    rcases List.mem_cons.mp he with rfl | hmem
    · exact h.1.1
    · exact ih h.2 e hmem

theorem PrevChain.find {n : Nat} {initial : Board} :
    ∀ {prev : PrevMap}, PrevChain n initial prev →
      ∀ b m, (b, m) ∈ prev → prev_find prev b = some m := by
  intro prev
  induction prev with
  | nil => intro _ b m hm; cases hm
  | cons x rest ih =>
    intro h b m hm
    rw [prev_find_cons]
    rcases List.mem_cons.mp hm with e | hmem
    · subst e
      dsimp only
      rw [Board.eq_self, if_pos rfl]
    · have hf := ih h.2 b m hmem
      by_cases he : x.1.eq b = true
      · exfalso
        have hb := PrevChain.valid h.2 _ hmem
        have e := (ValidBoard.eq_iff h.1.1 hb).mp he
        have hnone := h.1.2.2.1
        rw [e, hf] at hnone
        cases hnone
      · rw [if_neg he, hf]

theorem known_of_find {n : Nat} {initial : Board} {prev : PrevMap}
    (hc : PrevChain n initial prev) {b : Board} (hb : ValidBoard n b)
    (h : (prev_find prev b).isSome = true) : Known initial prev b := by
  obtain ⟨m, hm⟩ := Option.isSome_iff_exists.mp h
  obtain ⟨e, he, heq, _⟩ := prev_find_mem hm
  have := (ValidBoard.eq_iff (hc.valid e he) hb).mp heq
  exact Or.inr ⟨e.2, by rw [← this]; exact he⟩

/-! ## The path reconstruction terminates -/

theorem reconstruct_done (initial : Board) (prev : PrevMap) (fuel : Nat) {back : Board}
    {result : List Board} (hl : result.getLast? = some back) (he : back.eq initial = true) :
    reconstruct initial prev fuel result = some result := by
  unfold reconstruct
  rw [hl]
  simp only [he, Bool.not_true, Bool.false_eq_true, if_false]

theorem reconstruct_step (initial : Board) (prev : PrevMap) (fuel : Nat) {back : Board}
    {result : List Board} (hl : result.getLast? = some back) (he : ¬ back.eq initial = true) :
    reconstruct initial prev (fuel + 1) result
      = reconstruct initial prev fuel (result ++ [back.my_move (prev_at prev back).reverse]) := by
  conv_lhs => unfold reconstruct
  rw [hl]
  simp only [he, Bool.not_false, if_true]

theorem ne_nil_of_getLast? {result : List Board} {back : Board}
    (hl : result.getLast? = some back) : result ≠ [] := by
  intro e
  rw [e] at hl
  cases hl

/-- The inner `while` loop of `Solver::solve` terminates within as many steps as the
predecessor map has entries. -/
theorem reconstruct_total {n : Nat} {initial : Board} (full : PrevMap) :
    ∀ (rest : PrevMap), PrevChain n initial rest →
      (∀ b m, (b, m) ∈ rest → prev_find full b = some m) →
      ∀ (fuel : Nat) (back : Board) (result : List Board), Known initial rest back →
        result.getLast? = some back → rest.length ≤ fuel →
        ∃ out, reconstruct initial full fuel result = some out ∧ out ≠ [] := by
  intro rest
  induction rest with
  | nil =>
    intro _ _ fuel back result hk hl _
    rcases hk with rfl | ⟨m, hm⟩
    · exact ⟨result, reconstruct_done _ _ _ hl (Board.eq_self _), ne_nil_of_getLast? hl⟩
    · cases hm
  | cons e rest ih =>
    intro hc hag fuel back result hk hl hf
    by_cases heq : back.eq initial = true
    · exact ⟨result, reconstruct_done _ _ _ hl heq, ne_nil_of_getLast? hl⟩
    have hag' : ∀ b m, (b, m) ∈ rest → prev_find full b = some m :=
      fun b m hm => hag b m (List.mem_cons_of_mem _ hm)
    rcases hk with rfl | ⟨m, hm⟩
    · exact absurd (Board.eq_self _) heq
    rcases List.mem_cons.mp hm with e1 | hmem
    · subst e1
      obtain ⟨⟨_, hu, _, a, ha, hka, hva, hmv⟩, hrest⟩ := hc
      dsimp only at hu hva hmv
      obtain ⟨f, rfl⟩ : ∃ f, fuel = f + 1 := ⟨fuel - 1, by
        simp only [List.length_cons] at hf
        omega⟩
      have hat : prev_at full back = m := by
        unfold prev_at
        rw [hag back m (List.mem_cons_self _ _)]
        rfl
      have hrev := (my_move_reverse ha hu hva).2
      rw [hmv] at hrev
      rw [reconstruct_step _ _ _ hl heq, hat, hrev]
      exact ih hrest hag' f a (result ++ [a]) hka (by simp) (by
        simp only [List.length_cons] at hf
        omega)
    · exact ih hc.2 hag' fuel back result (Or.inr ⟨m, hmem⟩) hl (by
        simp only [List.length_cons] at hf
        omega)

end EightPuzzle

namespace EightPuzzle

/-! ## The search loop: one expansion -/

theorem settled_mono {P : PriorityQueue} (hP : P.Lawful) {initial : Board} {q : P.Q}
    {prev : PrevMap} {b : Board} (s : State) (e : Board × Move)
    (h : Settled P initial q prev b) : Settled P initial (P.push q s) (e :: prev) b := by
  rcases h with ⟨s', hs', hb⟩ | ⟨hg, hn⟩
  · exact Or.inl ⟨s', (hP.contents_push q s).mem_iff.mpr (List.mem_cons_of_mem _ hs'), hb⟩
  · exact Or.inr ⟨hg, fun m hm hv => (hn m hm hv).mono e⟩

theorem expandRun_step {P : PriorityQueue} (hP : P.Lawful) (atan : Nat → ℚ) {n : Nat}
    {initial : Board} (state : State) (M : Nat) (acc : P.Q × PrevMap) (move : Move)
    (hs : ValidBoard n state.board) (h : ExpandRun P n initial state.board M acc) :
    ExpandRun P n initial state.board M (expand_move P atan state acc move) := by
  unfold expand_move
  by_cases hc : (move.di * move.di + move.dj * move.dj != 1
      || !state.board.is_valid_move move) = true
  · rw [if_pos hc]
    exact h
  · rw [if_neg hc]
    simp only [Bool.or_eq_true, bne_iff_ne, ne_eq, Bool.not_eq_true', not_or, not_not,
      Bool.not_eq_false] at hc
    obtain ⟨hu, hv⟩ := hc
    have hu' : move.is_unit := hu
    simp only
    by_cases hf : (prev_find acc.2 (state.board.my_move move)).isNone = true
    · rw [if_pos hf]
      obtain ⟨h1, h2, h3, h4, h5, h6⟩ := h
      have hnone : prev_find acc.2 (state.board.my_move move) = none :=
        Option.isNone_iff_eq_none.mp hf
      have hnew := hs.my_move hu' hv
      have hpush := hP.contents_push acc.1
        (State.new atan (state.board.my_move move) (next_depth state.depth))
      have hunk := unkeyed_cons move hnew hnone
      refine ⟨?_, ⟨⟨hnew, hu', hnone, state.board, hs, h6, hv, rfl⟩, h2⟩, ?_, ?_, ?_,
        h6.mono _⟩
      · intro s hs'
        rcases List.mem_cons.mp (hpush.mem_iff.mp hs') with rfl | hmem
        · exact ⟨hnew, Or.inr ⟨move, List.mem_cons_self _ _⟩⟩
        · exact ⟨(h1 s hmem).1, (h1 s hmem).2.mono _⟩
      · intro b hb hk
        have hold : Known initial acc.2 b → b = state.board ∨
            Settled P initial
              (P.push acc.1
                (State.new atan (state.board.my_move move) (next_depth state.depth)))
              ((state.board.my_move move, move) :: acc.2) b := fun hk' =>
          (h3 b hb hk').imp id (settled_mono hP _ _)
        rcases hk with rfl | ⟨m, hm⟩
        · exact hold (Or.inl rfl)
        · rcases List.mem_cons.mp hm with e | hmem
          · have e1 : b = state.board.my_move move := congrArg Prod.fst e
            exact Or.inr (Or.inl ⟨_, hpush.mem_iff.mpr (List.mem_cons_self _ _), e1.symm⟩)
          · exact hold (Or.inr ⟨m, hmem⟩)
      · simp only [List.length_cons]
        omega
      · have := hpush.length_eq
        simp only [List.length_cons] at this
        dsimp only
        omega
    · rw [if_neg hf]
      exact h

theorem expandRun_fold {P : PriorityQueue} (hP : P.Lawful) (atan : Nat → ℚ) {n : Nat}
    {initial : Board} (state : State) (M : Nat) (hs : ValidBoard n state.board) :
    ∀ (moves : List Move) (acc : P.Q × PrevMap), ExpandRun P n initial state.board M acc →
      ExpandRun P n initial state.board M (moves.foldl (expand_move P atan state) acc) := by
  intro moves
  induction moves with
  | nil => intro acc h; exact h
  | cons mv moves ih =>
    intro acc h
    exact ih _ (expandRun_step hP atan state M acc mv hs h)

/-- The two `for` loops of `Solver::solve` keep the invariant of the search loop and do not
raise the size of the queue plus the number of boards without an entry. -/
theorem expand_run {P : PriorityQueue} (hP : P.Lawful) (atan : Nat → ℚ) {n : Nat}
    {initial : Board} {pq pq' : P.Q} {prev : PrevMap} {state : State}
    (hinv : RunInv P n initial pq prev) (hpop : P.pop pq = some (state, pq'))
    (hg : ¬ state.board.is_goal = true) :
    RunInv P n initial (expand P atan state pq' prev).1 (expand P atan state pq' prev).2 ∧
      (P.contents (expand P atan state pq' prev).1).length
          + unkeyed n (expand P atan state pq' prev).2 + 1
        ≤ (P.contents pq).length + unkeyed n prev := by
  obtain ⟨hmem, hsub⟩ := pop_mem hP hpop
  obtain ⟨hv, hk⟩ := hinv.1 state hmem
  have hperm := hP.pop_some _ _ _ hpop
  have hlen := hperm.length_eq
  simp only [List.length_cons] at hlen
  have h0 : ExpandRun P n initial state.board ((P.contents pq').length + unkeyed n prev)
      (pq', prev) := by
    refine ⟨fun s hs => hinv.1 s (hsub s hs), hinv.2.1, ?_, hinv.2.2.2, le_refl _, hk⟩
    intro b hb hkb
    rcases hinv.2.2.1 b hb hkb with ⟨s, hs, rfl⟩ | hexp
    · rcases List.mem_cons.mp (hperm.mem_iff.mp hs) with rfl | hs'
      · exact Or.inl rfl
      · exact Or.inr (Or.inl ⟨s, hs', rfl⟩)
    · exact Or.inr (Or.inr hexp)
  have hrun := expandRun_fold hP atan state _ hv loop_moves (pq', prev) h0
  have hspec := (expand_spec hP atan state pq' prev).2.2.2.2
  change ExpandRun P n initial state.board _ (expand P atan state pq' prev) at hrun
  generalize expand P atan state pq' prev = acc at hrun hspec ⊢
  obtain ⟨h1, h2, h3, h4, h5, h6⟩ := hrun
  refine ⟨⟨h1, h2, ?_, h4⟩, by omega⟩
  intro b hb hkb
  rcases h3 b hb hkb with rfl | hset
  · refine Or.inr ⟨?_, ?_⟩
    · cases hx : state.board.is_goal with
      | false => rfl
      | true => exact absurd hx hg
    · intro m hm hvm
      exact known_of_find h2 (hv.my_move hm hvm)
        (hspec m (unit_mem_loop_moves hm) hm hvm)
  · exact hset

end EightPuzzle

namespace EightPuzzle

/-! ## The search loop terminates and is complete -/

/-- When the queue is empty, every board reached from the initial board by legal unit moves
has been expanded, and none of them is a goal board. -/
theorem closed_of_empty {P : PriorityQueue} {n : Nat} {initial : Board} {pq : P.Q}
    {prev : PrevMap} (hi : ValidBoard n initial) (hinv : RunInv P n initial pq prev)
    (hempty : P.contents pq = []) :
    ∀ b, Reach initial b → ValidBoard n b ∧ Known initial prev b ∧ b.is_goal = false := by
  have key : ∀ b, ValidBoard n b → Known initial prev b → b.is_goal = false ∧
      ∀ m : Move, m.is_unit → b.is_valid_move m = true → Known initial prev (b.my_move m) := by
    intro b hb hk
    rcases hinv.2.2.1 b hb hk with ⟨s, hs, _⟩ | h
    · rw [hempty] at hs
      cases hs
    · exact h
  intro b hr
  induction hr with
  | refl => exact ⟨hi, Or.inl rfl, (key _ hi (Or.inl rfl)).1⟩
  | tail _ hstep ih =>
    obtain ⟨m, hm, hv, rfl⟩ := hstep
    obtain ⟨hb, hk, _⟩ := ih
    have hk' := (key _ hb hk).2 m hm hv
    have hb' := hb.my_move hm hv
    exact ⟨hb', hk', (key _ hb' hk').1⟩

/-- The `while (!pq.empty())` loop of `Solver::solve` returns within as many iterations as the
queue has states plus the number of boards without an entry; it returns the empty result only
when no board reached from the initial board is a goal board. -/
theorem search_total {P : PriorityQueue} (hP : P.Lawful) (atan : Nat → ℚ) {n : Nat}
    {initial : Board} (hi : ValidBoard n initial) (rfuel : Nat)
    (hr : (all_boards n).length ≤ rfuel) :
    ∀ (fuel : Nat) (pq : P.Q) (prev : PrevMap), RunInv P n initial pq prev →
      (P.contents pq).length + unkeyed n prev < fuel →
      ∃ out, search P atan initial rfuel fuel pq prev = some out ∧
        (out = [] → ∀ b, Reach initial b → b.is_goal = false) := by
  intro fuel
  induction fuel with
  | zero => intro pq prev _ h; omega
  | succ fuel ih =>
    intro pq prev hinv hmu
    unfold search
    cases hpop : P.pop pq with
    | none =>
      have hempty := (hP.pop_none pq).mp hpop
      exact ⟨[], rfl, fun _ b hb => (closed_of_empty hi hinv hempty b hb).2.2⟩
    | some r =>
      obtain ⟨state, pq'⟩ := r
      simp only
      obtain ⟨hmem, _⟩ := pop_mem hP hpop
      obtain ⟨hv, hk⟩ := hinv.1 state hmem
      by_cases hg : state.board.is_goal = true
      · rw [if_pos hg]
        obtain ⟨out, e, hne⟩ := reconstruct_total prev prev hinv.2.1
          (fun b m hm => hinv.2.1.find b m hm) rfuel state.board [state.board] hk rfl
          (by have := hinv.2.2.2; omega)
        exact ⟨out, e, fun h => absurd h hne⟩
      · rw [if_neg hg]
        obtain ⟨hinv', hle⟩ := expand_run hP atan hinv hpop hg
        exact ih _ _ hinv' (by omega)

theorem run_inv_init {P : PriorityQueue} (hP : P.Lawful) (atan : Nat → ℚ) {n : Nat}
    {initial : Board} (hi : ValidBoard n initial) :
    RunInv P n initial (P.push P.empty (State.new atan initial 0)) [] := by
  have hc := contents_push_empty hP (State.new atan initial 0)
  refine ⟨?_, trivial, ?_, ?_⟩
  · intro s hs
    rw [hc] at hs
    rw [List.mem_singleton.mp hs]
    exact ⟨hi, Or.inl rfl⟩
  · intro b _ hk
    rcases hk with rfl | ⟨m, hm⟩
    · exact Or.inl ⟨_, by rw [hc]; exact List.mem_singleton_self _, rfl⟩
    · cases hm
  · rw [unkeyed_nil]
    simp

/-- With fuel for `(n²)! + 2` iterations `Solver::solve` returns on every valid board, and the
result is empty exactly when `is_solvable` rejects the board. -/
theorem solve_total {P : PriorityQueue} (hP : P.Lawful) (atan : Nat → ℚ) {n : Nat}
    {data : List (List Nat)} (h : ValidGrid n data) {fuel : Nat}
    (hfuel : (n * n).factorial + 2 ≤ fuel) :
    ∃ s, solve P atan fuel (Board.fromData data) = some s ∧
      (s.m_moves = [] ↔ (Board.fromData data).is_solvable = false) := by
  have hi : ValidBoard n (Board.fromData data) := ⟨data, h, rfl⟩
  cases hs : (Board.fromData data).is_solvable with
  | false =>
    refine ⟨⟨[]⟩, ?_, by simp⟩
    unfold solve
    rw [hs]
    rfl
  | true =>
    by_cases hc : ((Board.fromData data).size ≤ 1 || (Board.fromData data).is_goal) = true
    · refine ⟨⟨[Board.fromData data]⟩, ?_, by simp⟩
      unfold solve
      rw [hs]
      simp only [Bool.not_true, Bool.false_eq_true, if_false]
      rw [if_pos hc]
    · simp only [Bool.or_eq_true, decide_eq_true_eq, not_or, Bool.not_eq_true] at hc
      rw [solve_search_case P atan fuel _ hs hc.1 hc.2]
      have hlen := length_all_boards n
      obtain ⟨out, e, hne⟩ := search_total hP atan hi fuel (by omega) fuel _ []
        (run_inv_init hP atan hi) (by
          rw [contents_push_empty hP, unkeyed_nil, hlen]
          simp only [List.length_singleton]
          omega)
      have hout : out ≠ [] := by
        intro e0
        have := hne e0 _ (reach_goal h hs)
        rw [create_goal_is_goal h.1 h.side_le] at this
        cases this
      refine ⟨⟨out.reverse⟩, by rw [e]; rfl, ?_⟩
      simp only [List.reverse_eq_nil_iff, hout, false_iff]
      exact Bool.noConfusion

end EightPuzzle

namespace EightPuzzle

/-! ## C1: the returned path is valid -/

/-- C1. For every valid board `b` (a valid grid of side `n ≥ 1`), every queue that satisfies the
contract of `std::priority_queue`, every `atan` and every fuel: with fuel for `(n²)! + 2`
iterations `Solver::solve(b)` returns; and if `Solver::solve(b)` returns a non-empty sequence
`s`, then `s[0]` is `b`, the last board of `s` satisfies `is_goal()`, and for every consecutive
pair `(a, c)` of `s` there is a unit move `m` (exactly one of `di`, `dj` is `±1`, the other `0`)
with `a.is_valid_move(m)` and `a.my_move(m) = c`. -/
theorem solve_returns_valid_path (P : PriorityQueue) (hP : P.Lawful) (atan : Nat → ℚ)
    (fuel n : Nat) (data : List (List Nat)) (h : ValidGrid n data) :
    ((n * n).factorial + 2 ≤ fuel → ∃ s, solve P atan fuel (Board.fromData data) = some s) ∧
      ∀ s, solve P atan fuel (Board.fromData data) = some s → s.m_moves ≠ [] →
        s.m_moves.head? = some (Board.fromData data) ∧
          (∃ g, s.m_moves.getLast? = some g ∧ g.is_goal = true) ∧
          List.Chain' (fun a c => ∃ m : Move,
            ((m.di = 0 ∧ (m.dj = 1 ∨ m.dj = -1)) ∨ (m.dj = 0 ∧ (m.di = 1 ∨ m.di = -1))) ∧
              a.is_valid_move m = true ∧ a.my_move m = c) s.m_moves := by
  refine ⟨fun hfuel => ?_, fun s hs hne => ?_⟩
  · obtain ⟨s, hs, _⟩ := solve_total hP atan h hfuel
    exact ⟨s, hs⟩
  · rcases solve_path hP atan fuel n h hs with he | ⟨h1, h2, h3⟩
    · exact absurd he hne
    · refine ⟨h1, h2, h3.imp ?_⟩
      rintro a c ⟨m, hm, hv, hc⟩
      exact ⟨m, (Move.is_unit_iff m).mp hm, hv, hc⟩

/-- C1 at a concrete input: the list queue, a constant `atan`, fuel `3` and the grid
`[[1,2,3],[4,5,6],[7,0,8]]`, on which `solve` returns the board and the goal board. -/
theorem solve_returns_valid_path_witness :
    solve list_queue (fun _ => 1) 3 (Board.fromData [[1, 2, 3], [4, 5, 6], [7, 0, 8]])
        = some ⟨[Board.fromData [[1, 2, 3], [4, 5, 6], [7, 0, 8]], Board.create_goal 3]⟩ ∧
      List.Chain' (fun a c => ∃ m : Move,
        ((m.di = 0 ∧ (m.dj = 1 ∨ m.dj = -1)) ∨ (m.dj = 0 ∧ (m.di = 1 ∨ m.di = -1))) ∧
          a.is_valid_move m = true ∧ a.my_move m = c)
        [Board.fromData [[1, 2, 3], [4, 5, 6], [7, 0, 8]], Board.create_goal 3] :=
  ⟨by decide!,
    ((solve_returns_valid_path list_queue list_queue_lawful (fun _ => 1) 3 3
      [[1, 2, 3], [4, 5, 6], [7, 0, 8]] (by decide)).2
      ⟨[Board.fromData [[1, 2, 3], [4, 5, 6], [7, 0, 8]], Board.create_goal 3]⟩
      (by decide!) (by simp)).2.2⟩

end EightPuzzle

namespace EightPuzzle

/-! ## C12, C13: `create_goal(0)` and the inversion count -/

/-- C12. `Board::create_goal(0)`: the vector `board` is empty, the index `size - 1` of the final
write `board[size - 1][size - 1] = 0` is computed in `unsigned` and is `4294967295`, and the
write is not inside the vector. -/
theorem create_goal_zero_out_of_range :
    create_goal_fill 0 = [] ∧ create_goal_last 0 = 4294967295 ∧
      create_goal_in_bounds 0 = false := by
  decide

theorem countP_index (l : List Nat) (f : Nat → Bool) :
    (List.range l.length).countP (fun q => f (l.getD q 0)) = l.countP f := by
  have h := List.countP_map f (fun q => l.getD q 0) (List.range l.length)
  rw [map_getD_range] at h
  exact h.symm

/-- The count pair by pair is the count entry by entry. -/
theorem inversion_pairs_eq (arr : List Nat) : inversion_pairs arr = inversions arr := by
  induction arr with
  | nil => rfl
  | cons x xs ih =>
    unfold inversion_pairs at ih ⊢
    rw [inversions, ← ih, List.length_cons, List.range_succ_eq_map, List.map_cons,
      List.sum_cons, List.map_map]
    congr 1
    · rw [List.countP_cons, List.countP_map]
      simp only [lt_self_iff_false, decide_False, Bool.false_and, Bool.false_eq_true, if_false,
        Nat.add_zero]
      rw [← countP_index xs (fun y => decide (y < x))]
      apply List.countP_congr
      intro q _
      simp
    · congr 1
      apply List.map_congr_left
      intro p _
      rw [Function.comp_apply, List.countP_cons, List.countP_map]
      simp only [Nat.succ_eq_add_one, Nat.not_lt_zero, decide_False, Bool.false_and,
        Bool.false_eq_true, if_false, Nat.add_zero]
      apply List.countP_congr
      intro q _
      simp

theorem inversions_le_sq (l : List Nat) : inversions l ≤ l.length * l.length := by
  induction l with
  | nil => simp [inversions]
  | cons x xs ih =>
    rw [inversions, List.length_cons]
    have h1 : xs.countP (fun y => decide (y < x)) ≤ xs.length := List.countP_le_length _
    have h2 : (xs.length + 1) * (xs.length + 1)
        = xs.length * xs.length + xs.length + xs.length + 1 := by ring
    omega

/-- C13. For every list `arr` of length below `2 ^ 16`, `Board::calc_inversions(arr)` returns
the number of index pairs `p < q` with `arr[p] > arr[q]` and leaves `arr` sorted ascending, a
permutation of its original contents; for the empty list it returns `0`. -/
theorem calc_inversions_eq_naive (arr : List Nat) (hlen : arr.length < 65536) :
    (calc_inversions arr).2 = inversion_pairs arr ∧
      (calc_inversions arr).1.Sorted (· ≤ ·) ∧ (calc_inversions arr).1.Perm arr ∧
      (calc_inversions []).2 = 0 := by
  obtain ⟨h1, h2, h3⟩ := calc_inversions_spec arr
  refine ⟨?_, h2, h3, rfl⟩
  rw [h1, inversion_pairs_eq]
  apply u32_of_lt
  have := inversions_le_sq arr
  have h4 : arr.length * arr.length ≤ 65535 * 65535 := Nat.mul_le_mul (by omega) (by omega)
  omega

theorem calc_inversions_eq_naive_witness :
    (calc_inversions [3, 1, 2]).2 = inversion_pairs [3, 1, 2] ∧
      (calc_inversions [3, 1, 2]).1 = [1, 2, 3] ∧ inversion_pairs [3, 1, 2] = 2 :=
  ⟨(calc_inversions_eq_naive [3, 1, 2] (by decide)).1, by decide, by decide⟩

end EightPuzzle

namespace EightPuzzle

/-! ## C14, C16: solvability under moves, and the reverse move -/

/-- C14. For every valid board `b` of side `n` and every unit move `m` with
`b.is_valid_move(m)`, `b.my_move(m).is_solvable()` equals `b.is_solvable()`; every board reached
from `b` by legal unit moves has the same `is_solvable()`, so a board with `is_solvable()` false
does not reach the goal board. -/
theorem is_solvable_invariant (n : Nat) (data : List (List Nat)) (h : ValidGrid n data)
    (m : Move) (hm : m.is_unit) (hv : (Board.fromData data).is_valid_move m = true) :
    ((Board.fromData data).my_move m).is_solvable = (Board.fromData data).is_solvable ∧
      (∀ c, Reach (Board.fromData data) c →
        c.is_solvable = (Board.fromData data).is_solvable) ∧
      ((Board.fromData data).is_solvable = false →
        ¬ Reach (Board.fromData data) (Board.create_goal n)) := by
  refine ⟨is_solvable_my_move h m hm hv, fun c hc => (reach_valid ⟨data, h, rfl⟩ hc).2, ?_⟩
  intro hs hr
  have := (reach_valid ⟨data, h, rfl⟩ hr).2
  rw [create_goal_is_solvable h.1 h.side_le, hs] at this
  cases this

theorem is_solvable_invariant_witness :
    ValidGrid 3 [[1, 2, 3], [4, 5, 6], [8, 7, 0]] ∧
      (Board.fromData [[1, 2, 3], [4, 5, 6], [8, 7, 0]]).is_solvable = false ∧
      ((Board.fromData [[1, 2, 3], [4, 5, 6], [8, 7, 0]]).my_move ⟨-1, 0⟩).is_solvable = false ∧
      ¬ Reach (Board.fromData [[1, 2, 3], [4, 5, 6], [8, 7, 0]]) (Board.create_goal 3) :=
  ⟨by decide, by decide, by decide,
    (is_solvable_invariant 3 [[1, 2, 3], [4, 5, 6], [8, 7, 0]] (by decide) ⟨-1, 0⟩ (by decide)
      (by decide)).2.2 (by decide)⟩

/-- C16. For every valid board `b` and every unit move `m` with `b.is_valid_move(m)`, the move
`m.reverse()` is `(-di, -dj)`, it is a unit move that is valid on `b.my_move(m)`, and
`b.my_move(m).my_move(m.reverse()) == b`; the two boards agree in all members. -/
theorem reverse_undoes_move (n : Nat) (data : List (List Nat)) (h : ValidGrid n data)
    (m : Move) (hm : m.is_unit) (hv : (Board.fromData data).is_valid_move m = true) :
    m.reverse = ⟨-m.di, -m.dj⟩ ∧ m.reverse.is_unit ∧
      ((Board.fromData data).my_move m).is_valid_move m.reverse = true ∧
      (((Board.fromData data).my_move m).my_move m.reverse).eq (Board.fromData data) = true ∧
      ((Board.fromData data).my_move m).my_move m.reverse = Board.fromData data := by
  obtain ⟨h1, h2⟩ := my_move_reverse ⟨data, h, rfl⟩ hm hv
  refine ⟨rfl, Move.reverse_is_unit hm, h1, ?_, h2⟩
  rw [h2]
  exact Board.eq_self _

theorem reverse_undoes_move_witness :
    ValidGrid 3 [[1, 2, 3], [4, 5, 6], [7, 0, 8]] ∧
      ((Board.fromData [[1, 2, 3], [4, 5, 6], [7, 0, 8]]).my_move ⟨0, 1⟩).m_data
        = [[1, 2, 3], [4, 5, 6], [7, 8, 0]] ∧
      (((Board.fromData [[1, 2, 3], [4, 5, 6], [7, 0, 8]]).my_move ⟨0, 1⟩).my_move
        (Move.reverse ⟨0, 1⟩)).eq (Board.fromData [[1, 2, 3], [4, 5, 6], [7, 0, 8]]) = true :=
  ⟨by decide, by decide,
    (reverse_undoes_move 3 [[1, 2, 3], [4, 5, 6], [7, 0, 8]] (by decide) ⟨0, 1⟩ (by decide)
      (by decide)).2.2.2.1⟩

end EightPuzzle

namespace EightPuzzle

/-! ## C11: hashes of equal boards -/

theorem constructed_cases {b : Board} (h : Constructed b) :
    b = Board.default ∨ b = Board.fromData b.m_data := by
  cases h with
  | default => exact Or.inl rfl
  | data d => exact Or.inr rfl
  | goal size => exact Or.inr rfl
  | move b m _ => exact Or.inr rfl

theorem hash_of_fromData {a b : Board} (ha : a = Board.fromData a.m_data)
    (hb : b = Board.fromData b.m_data) (he : a.eq b = true) : a = b := by
  unfold Board.eq at he
  rw [beq_iff_eq] at he
  rw [ha, hb, he]

/-- C11. The default constructor leaves `hash` at `0`, and the constructor from the empty grid
stores `std::hash<std::string>` of the empty string: the two boards are equal under
`operator==`, and their hashes differ whenever the hash of the empty string is not `0`. All
other pairs of boards obtained through the public interface that are equal under `operator==`
have equal hashes, and so have the pairs in which both boards are default-constructed. -/
theorem hash_of_equal_boards (strHash : List Char → Nat) (h0 : strHash [] ≠ 0) :
    Constructed Board.default ∧ Constructed (Board.fromData []) ∧
      Board.default.eq (Board.fromData []) = true ∧
      Board.default.get_hash strHash = 0 ∧
      (Board.fromData []).get_hash strHash = strHash [] ∧
      Board.default.get_hash strHash ≠ (Board.fromData []).get_hash strHash ∧
      ∀ a b, Constructed a → Constructed b → (a = Board.default ↔ b = Board.default) →
        a.eq b = true → a.get_hash strHash = b.get_hash strHash := by
  refine ⟨Constructed.default, Constructed.data [], rfl, rfl, rfl, fun e => h0 e.symm, ?_⟩
  intro a b ha hb hd he
  by_cases h1 : a = Board.default
  · rw [h1, hd.mp h1]
  · have h2 : b ≠ Board.default := fun e => h1 (hd.mpr e)
    have ea := (constructed_cases ha).resolve_left h1
    have eb := (constructed_cases hb).resolve_left h2
    rw [hash_of_fromData ea eb he]

theorem hash_of_equal_boards_witness :
    Board.default.eq (Board.fromData []) = true ∧
      Board.default.get_hash (fun s => s.length + 1)
        ≠ (Board.fromData []).get_hash (fun s => s.length + 1) :=
  ⟨(hash_of_equal_boards (fun s => s.length + 1) (by decide)).2.2.1,
    (hash_of_equal_boards (fun s => s.length + 1) (by decide)).2.2.2.2.2.1⟩

end EightPuzzle

namespace EightPuzzle

/-! ## C19: the priority of boards of side four -/

theorem foldl_keeps {α β : Type} (p : α → Prop) (f : α → β → α)
    (h : ∀ a b, p a → p (f a b)) : ∀ (l : List β) (a : α), p a → p (l.foldl f a)
  | [], _, ha => ha
  | x :: xs, a, ha => foldl_keeps p f h xs (f a x) (h a x ha)

/-- The two counters of `Board::initialize` are values of `unsigned`. -/
theorem initialize_loops_lt (data : List (List Nat)) :
    (initialize_loops data).m_hamming_distance < 4294967296 ∧
      (initialize_loops data).m_manhattan_distance < 4294967296 := by
  unfold initialize_loops
  apply foldl_keeps
    (fun s : InitState => s.m_hamming_distance < 4294967296 ∧ s.m_manhattan_distance < 4294967296)
  · intro s i hs
    unfold initialize_row
    apply foldl_keeps (fun s : InitState =>
      s.m_hamming_distance < 4294967296 ∧ s.m_manhattan_distance < 4294967296)
    · intro t j ht
      unfold initialize_cell
      dsimp only
      split
      · exact ⟨u32_lt _, u32_lt _⟩
      · exact ⟨u32_lt _, ht.2⟩
    · split
      · exact hs
      · exact hs
  · exact ⟨by decide, by decide⟩

/-- On every board obtained through the public interface, `hamming()` and `manhattan()` are below
`2 ^ 32`. -/
theorem constructed_lt {b : Board} (h : Constructed b) :
    b.hamming < 4294967296 ∧ b.manhattan < 4294967296 := by
  rcases constructed_cases h with e | e
  · rw [e]
    exact ⟨by decide, by decide⟩
  · rw [e]
    exact initialize_loops_lt _

/-- The value of `heuristic` on a board of side four, as long as every `double` operation is
exact: the `double` value `2.25 * manhattan + hamming + depth` converted to `std::size_t`. -/
theorem heuristic_four (atan : Nat → ℚ) (b : Board) (d : Nat) (h4 : b.size = 4)
    (hr : 9 * b.manhattan + 4 * b.hamming + 4 * d < 9007199254740992) :
    heuristic atan b d = 9 * b.manhattan / 4 + b.hamming + d := by
  have p53 : (2 : Nat) ^ 53 = 9007199254740992 := by norm_num
  have e1 : double_mul (9 / 4) (to_double b.manhattan) = ((9 * b.manhattan : Nat) : ℚ) / 4 := by
    rw [to_double_eq (by rw [p53]; omega)]
    unfold double_mul
    have : (9 / 4 : ℚ) * (b.manhattan : ℚ) = ((9 * b.manhattan : Nat) : ℚ) / 4 := by
      push_cast
      ring
    rw [this, round_double_quarter (by rw [p53]; omega)]
  have e2 : double_add (((9 * b.manhattan : Nat) : ℚ) / 4) (to_double b.hamming)
      = ((9 * b.manhattan + 4 * b.hamming : Nat) : ℚ) / 4 := by
    rw [to_double_eq (by rw [p53]; omega)]
    unfold double_add
    have : ((9 * b.manhattan : Nat) : ℚ) / 4 + (b.hamming : ℚ)
        = ((9 * b.manhattan + 4 * b.hamming : Nat) : ℚ) / 4 := by
      push_cast
      ring
    rw [this, round_double_quarter (by rw [p53]; omega)]
  have e3 : double_add (((9 * b.manhattan + 4 * b.hamming : Nat) : ℚ) / 4) (to_double d)
      = ((9 * b.manhattan + 4 * b.hamming + 4 * d : Nat) : ℚ) / 4 := by
    rw [to_double_eq (by rw [p53]; omega)]
    unfold double_add
    have : ((9 * b.manhattan + 4 * b.hamming : Nat) : ℚ) / 4 + (d : ℚ)
        = ((9 * b.manhattan + 4 * b.hamming + 4 * d : Nat) : ℚ) / 4 := by
      push_cast
      ring
    rw [this, round_double_quarter (by rw [p53]; omega)]
  unfold heuristic
  rw [if_neg (by omega), if_pos h4, e1, e2, e3, to_size_quarter (by omega)]
  omega

theorem cast_heuristic_four (M H d : Nat) :
    (((9 * M / 4 + H + d : Nat) : ℚ) = 9 / 4 * (M : ℚ) + (H : ℚ) + (d : ℚ)) ↔ M % 4 = 0 := by
  constructor
  · intro h
    push_cast at h
    have h1 : ((4 * (9 * M / 4) : Nat) : ℚ) = ((9 * M : Nat) : ℚ) := by
      push_cast
      linarith
    have h2 : 4 * (9 * M / 4) = 9 * M := by exact_mod_cast h1
    omega
  · intro h
    obtain ⟨k, rfl⟩ : ∃ k, M = 4 * k := ⟨M / 4, by omega⟩
    have : 9 * (4 * k) / 4 = 9 * k := by omega
    rw [this]
    push_cast
    ring

/-- The rounding of each `double` operation shows on a board of side five with Manhattan distance
`100` and Hamming distance `24`: the product `3.34 * 100` is the `double` `334`, and `heuristic`
returns `358`, although `3.34` stands for a `double` below `3.34`, for which the exact product is
below `334`. -/
theorem heuristic_five_rounds :
    (Board.mk [[], [], [], [], []] 0 24 100 0 0 none).size = 5 ∧
      round_double (167 / 50) = 940126422213591 / 281474976710656 ∧
      (940126422213591 / 281474976710656 : ℚ) * 100 < 334 ∧
      double_mul (round_double (167 / 50)) (to_double 100) = 334 ∧
      heuristic (fun _ => 0) (Board.mk [[], [], [], [], []] 0 24 100 0 0 none) 7 = 358 := by
  refine ⟨by decide, by decide!, by norm_num, by decide!, by decide!⟩

/-- C19 as stated fails in two ways. On the board
`[[1,2,3,4],[5,6,7,8],[9,10,11,12],[13,14,0,15]]`, with Manhattan distance `1` and Hamming
distance `2`, the priority at depth `0` is `4`, and the rational number `2.25 * 1 + 2 + 0` is
`17/4`: the fraction is dropped. On the board `[[1,2,3,4],[5,6,7,8],[9,10,11,12],[0,13,14,15]]`,
with Manhattan distance `3` and Hamming distance `4`, at depth `2 ^ 51 - 10` the sum
`6.75 + 4 + depth` is `2 ^ 51 + 0.75`, which is not a `double`: the sum is rounded to
`2 ^ 51 + 1`, which is the priority, above the rational number. -/
theorem heuristic_four_counterexample :
    ((Board.fromData [[1, 2, 3, 4], [5, 6, 7, 8], [9, 10, 11, 12], [13, 14, 0, 15]]).size = 4 ∧
      (State.new (fun _ => 0)
        (Board.fromData [[1, 2, 3, 4], [5, 6, 7, 8], [9, 10, 11, 12], [13, 14, 0, 15]])
        0).heuristic_value = 4 ∧
      (((State.new (fun _ => 0)
        (Board.fromData [[1, 2, 3, 4], [5, 6, 7, 8], [9, 10, 11, 12], [13, 14, 0, 15]])
        0).heuristic_value : Nat) : ℚ)
        ≠ 9 / 4 *
          ((Board.fromData
            [[1, 2, 3, 4], [5, 6, 7, 8], [9, 10, 11, 12], [13, 14, 0, 15]]).manhattan : ℚ)
          + ((Board.fromData
            [[1, 2, 3, 4], [5, 6, 7, 8], [9, 10, 11, 12], [13, 14, 0, 15]]).hamming : ℚ)
          + ((0 : Nat) : ℚ)) ∧
    ((Board.fromData [[1, 2, 3, 4], [5, 6, 7, 8], [9, 10, 11, 12], [0, 13, 14, 15]]).size = 4 ∧
      (Board.fromData [[1, 2, 3, 4], [5, 6, 7, 8], [9, 10, 11, 12], [0, 13, 14, 15]]).manhattan
        = 3 ∧
      (Board.fromData [[1, 2, 3, 4], [5, 6, 7, 8], [9, 10, 11, 12], [0, 13, 14, 15]]).hamming
        = 4 ∧
      (State.new (fun _ => 0)
        (Board.fromData [[1, 2, 3, 4], [5, 6, 7, 8], [9, 10, 11, 12], [0, 13, 14, 15]])
        2251799813685238).heuristic_value = 2251799813685249 ∧
      (2251799813685249 : ℚ) ≠ 9 / 4 * 3 + 4 + 2251799813685238 ∧
      2251799813685249 ≠ 9 * 3 / 4 + 4 + 2251799813685238) := by
  have hs : (Board.fromData
      [[1, 2, 3, 4], [5, 6, 7, 8], [9, 10, 11, 12], [13, 14, 0, 15]]).size = 4 := by decide
  have hM : (Board.fromData
      [[1, 2, 3, 4], [5, 6, 7, 8], [9, 10, 11, 12], [13, 14, 0, 15]]).manhattan = 1 := by decide
  have hH : (Board.fromData
      [[1, 2, 3, 4], [5, 6, 7, 8], [9, 10, 11, 12], [13, 14, 0, 15]]).hamming = 2 := by decide
  have hv : (State.new (fun _ => 0)
      (Board.fromData [[1, 2, 3, 4], [5, 6, 7, 8], [9, 10, 11, 12], [13, 14, 0, 15]])
      0).heuristic_value = 4 := by
    show heuristic (fun _ => 0)
      (Board.fromData [[1, 2, 3, 4], [5, 6, 7, 8], [9, 10, 11, 12], [13, 14, 0, 15]]) 0 = 4
    rw [heuristic_four _ _ _ hs (by rw [hM, hH]; norm_num), hM, hH]
  refine ⟨⟨hs, hv, ?_⟩, by decide, by decide, by decide, by decide!, by norm_num, by norm_num⟩
  rw [hv, hM, hH]
  norm_num

/-- C19. For every board `b` of side `4` and every depth `d` with
`9 * b.manhattan() + 4 * b.hamming() + 4 * d < 2 ^ 53`, which holds for every board obtained
through the public interface and every `d ≤ 2 ^ 50`: `State::heuristic_value`, the result of
`heuristic(b, d)`, is the integer part of `2.25 * b.manhattan() + b.hamming() + d`, which is
`9 * b.manhattan() / 4 + b.hamming() + d` with integer division; it equals the rational number
itself exactly when `b.manhattan()` is a multiple of `4`. -/
theorem heuristic_four_truncated (atan : Nat → ℚ) (b : Board) (d : Nat) (h4 : b.size = 4) :
    (Constructed b → d ≤ 1125899906842624 →
      9 * b.manhattan + 4 * b.hamming + 4 * d < 9007199254740992) ∧
    (9 * b.manhattan + 4 * b.hamming + 4 * d < 9007199254740992 →
      (State.new atan b d).heuristic_value = heuristic atan b d ∧
      heuristic atan b d = 9 * b.manhattan / 4 + b.hamming + d ∧
      ((heuristic atan b d : ℚ) ≤ 9 / 4 * (b.manhattan : ℚ) + (b.hamming : ℚ) + (d : ℚ)) ∧
      (9 / 4 * (b.manhattan : ℚ) + (b.hamming : ℚ) + (d : ℚ) < (heuristic atan b d : ℚ) + 1) ∧
      (((heuristic atan b d : Nat) : ℚ)
          = 9 / 4 * (b.manhattan : ℚ) + (b.hamming : ℚ) + (d : ℚ)
        ↔ b.manhattan % 4 = 0)) := by
  constructor
  · intro hc hd
    obtain ⟨h1, h2⟩ := constructed_lt hc
    omega
  intro hr
  have e := heuristic_four atan b d h4 hr
  refine ⟨rfl, e, ?_, ?_, ?_⟩
  · rw [e]
    have h1 : ((4 * (9 * b.manhattan / 4) : Nat) : ℚ) ≤ ((9 * b.manhattan : Nat) : ℚ) :=
      Nat.cast_le.mpr (Nat.mul_div_le _ _)
    push_cast at h1 ⊢
    linarith
  · rw [e]
    have h1 : ((9 * b.manhattan : Nat) : ℚ) < ((4 * (9 * b.manhattan / 4) + 4 : Nat) : ℚ) :=
      Nat.cast_lt.mpr (by omega)
    push_cast at h1 ⊢
    linarith
  · rw [e]
    exact cast_heuristic_four _ _ _

/-- C19 at the board `[[1,2,3,4],[5,6,7,8],[9,10,11,12],[13,14,0,15]]` and the depth `7`: the
priority is `9 * 1 / 4 + 2 + 7 = 11`. -/
theorem heuristic_four_truncated_witness :
    (Board.fromData [[1, 2, 3, 4], [5, 6, 7, 8], [9, 10, 11, 12], [13, 14, 0, 15]]).size = 4 ∧
      9 * (Board.fromData
          [[1, 2, 3, 4], [5, 6, 7, 8], [9, 10, 11, 12], [13, 14, 0, 15]]).manhattan
        + 4 * (Board.fromData
          [[1, 2, 3, 4], [5, 6, 7, 8], [9, 10, 11, 12], [13, 14, 0, 15]]).hamming
        + 4 * 7 < 9007199254740992 ∧
      heuristic (fun _ => 0)
          (Board.fromData [[1, 2, 3, 4], [5, 6, 7, 8], [9, 10, 11, 12], [13, 14, 0, 15]]) 7
        = 9 * (Board.fromData
            [[1, 2, 3, 4], [5, 6, 7, 8], [9, 10, 11, 12], [13, 14, 0, 15]]).manhattan / 4
          + (Board.fromData
            [[1, 2, 3, 4], [5, 6, 7, 8], [9, 10, 11, 12], [13, 14, 0, 15]]).hamming + 7 :=
  ⟨by decide, by decide,
    ((heuristic_four_truncated (fun _ => 0)
      (Board.fromData [[1, 2, 3, 4], [5, 6, 7, 8], [9, 10, 11, 12], [13, 14, 0, 15]]) 7
      (by decide)).2 (by decide)).2.1⟩

end EightPuzzle

namespace EightPuzzle

/-! ## C15: `is_goal` and the goal grid -/

theorem at2_shifted {n : Nat} {p : Nat × Nat} (hp : p ∈ cells n) :
    at2 (grid_of_list n ((List.range (n * n)).rotate 2)) p.1 p.2
      = (p.1 * n + p.2 + 2) % (n * n) := by
  obtain ⟨h1, h2⟩ := mem_cells.mp hp
  have hidx := cell_index_lt hp
  rw [at2_grid_of_list h1 h2]
  have hlt : p.1 * n + p.2 < ((List.range (n * n)).rotate 2).length := by
    rw [List.length_rotate, List.length_range]
    exact hidx
  rw [List.getD_eq_getElem _ _ hlt, List.getElem_rotate, List.getElem_range, List.length_range]

theorem place_ne (n q e : Nat) (p : Nat × Nat) (hq : q = p.1 * n + p.2) (hne : e ≠ q) :
    ((p.1 != e / n || p.2 != e % n) = true) := by
  by_contra hc
  simp only [Bool.or_eq_true, bne_iff_ne, ne_eq, not_or, not_not] at hc
  have := Nat.div_add_mod e n
  rw [← hc.1, ← hc.2, Nat.mul_comm] at this
  omega

theorem hamming_term_shifted {n : Nat} (hn : 2 ≤ n) {p : Nat × Nat} (hp : p ∈ cells n) :
    hamming_term (grid_of_list n ((List.range (n * n)).rotate 2)) p = 1 := by
  have hidx := cell_index_lt hp
  have h4 := side_sq hn
  have hlen : (grid_of_list n ((List.range (n * n)).rotate 2)).length = n := by
    unfold grid_of_list
    rw [List.length_map, List.length_range]
  unfold hamming_term
  rw [hlen, at2_shifted hp]
  unfold expected
  dsimp only
  rw [if_pos]
  apply place_ne n (p.1 * n + p.2) _ p rfl
  generalize p.1 * n + p.2 = q at hidx
  generalize n * n = N at hidx h4
  rcases Nat.lt_trichotomy (q + 2) N with h | h | h
  · have hv : (q + 2) % N = q + 2 := Nat.mod_eq_of_lt h
    have he : (q + 2 + N - 1) % N = q + 1 := by
      rw [show q + 2 + N - 1 = q + 1 + N by omega, Nat.add_mod_right]
      exact Nat.mod_eq_of_lt (by omega)
    rw [hv, he]
    omega
  · have hv : (q + 2) % N = 0 := by rw [h, Nat.mod_self]
    have he : (0 + N - 1) % N = N - 1 := by
      rw [Nat.zero_add]
      exact Nat.mod_eq_of_lt (by omega)
    rw [hv, he]
    omega
  · have hv : (q + 2) % N = 1 := by
      rw [show q + 2 = 1 + N by omega, Nat.add_mod_right]
      exact Nat.mod_eq_of_lt (by omega)
    have he : (1 + N - 1) % N = 0 := by rw [show 1 + N - 1 = N by omega, Nat.mod_self]
    rw [hv, he]
    omega

theorem hamming_sum_shifted {n : Nat} (hn : 2 ≤ n) :
    ((cells n).map (hamming_term (grid_of_list n ((List.range (n * n)).rotate 2)))).sum
      = n * n := by
  have e : (cells n).map (hamming_term (grid_of_list n ((List.range (n * n)).rotate 2)))
      = (cells n).map fun _ => 1 :=
    List.map_congr_left fun p hp => hamming_term_shifted hn hp
  rw [e, List.map_const', List.sum_replicate, length_cells]
  simp

/-- When the misplacement count of a square grid is `2 ^ 32`, the `unsigned` member
`m_hamming_distance` is `0` and `is_goal()` holds. -/
theorem hamming_wraps {n : Nat} {data : List (List Nat)} (h : SquareGrid n data)
    (hs : ((cells n).map (hamming_term data)).sum = 4294967296) :
    (Board.fromData data).is_goal = true := by
  unfold Board.is_goal
  rw [fromData_hamming h.1 h.2, hs]
  rfl

theorem shifted_not_goal {n : Nat} (hn : 2 ≤ n) (h2 : n ≤ 65536) :
    (Board.fromData (grid_of_list n ((List.range (n * n)).rotate 2))).eq (Board.create_goal n)
      = false := by
  have h4 := side_sq hn
  have hp : ((0 : Nat), (0 : Nat)) ∈ cells n :=
    mem_cells.mpr ⟨by dsimp only; omega, by dsimp only; omega⟩
  unfold Board.eq
  rw [fromData_data, create_goal_data (by omega) h2, beq_eq_false_iff_ne]
  intro e
  have e1 := at2_shifted hp
  have e2 := at2_goal_grid hp
  rw [e, e2] at e1
  dsimp only at e1
  rw [if_neg (by omega), Nat.mod_eq_of_lt (by omega)] at e1
  omega

/-- C15 as stated fails on a grid of side `65536`: on `shifted_grid` every one of the `2 ^ 32`
cells is misplaced, the `unsigned` count is `0`, and `is_goal()` holds although the board is
not the goal board. -/
theorem is_goal_counterexample :
    ValidGrid 65536 shifted_grid ∧ (Board.fromData shifted_grid).is_goal = true ∧
      (Board.fromData shifted_grid).eq (Board.create_goal 65536) = false := by
  have hv : ValidGrid 65536 shifted_grid :=
    valid_grid_of_list (by decide) (by decide) (List.rotate_perm _ _)
  exact ⟨hv, hamming_wraps ⟨hv.2.1, hv.2.2.1⟩ (hamming_sum_shifted (n := 65536) (by decide)),
    shifted_not_goal (n := 65536) (by decide) (by decide)⟩

theorem hamming_sum_le {n : Nat} (data : List (List Nat)) :
    ((cells n).map (hamming_term data)).sum ≤ n * n := by
  have key : ∀ l : List (Nat × Nat), (l.map (hamming_term data)).sum ≤ l.length := by
    intro l
    induction l with
    | nil => simp
    | cons a l ih =>
      rw [List.map_cons, List.sum_cons, List.length_cons]
      have := hamming_term_le_one data a
      omega
  have := key (cells n)
  rw [length_cells] at this
  exact this

/-- A valid grid of side below `65536` whose board satisfies `is_goal()` is the goal grid. -/
theorem goal_grid_of_is_goal {n : Nat} {data : List (List Nat)} (h : ValidGrid n data)
    (hn : n < 65536) (hg : (Board.fromData data).is_goal = true) :
    data = grid_of_list n (goal_list n) := by
  have hle := hamming_sum_le (n := n) data
  have hsq : n * n ≤ 65535 * 65535 := Nat.mul_le_mul (by omega) (by omega)
  unfold Board.is_goal at hg
  rw [fromData_hamming h.2.1 h.2.2.1, u32_of_lt (by omega), beq_iff_eq, hamming_sum_eq h] at hg
  have hmis : misplaced_tiles n data = 0 := by omega
  apply manhattan_sum_zero h
  unfold manhattan_sum
  apply List.sum_eq_zero
  intro x hx
  obtain ⟨p, hp, rfl⟩ := List.mem_map.mp hx
  unfold misplaced_tiles at hmis
  rw [List.countP_eq_zero] at hmis
  have := hmis p hp
  simp only [Bool.and_eq_true, bne_iff_ne, ne_eq, not_and, not_not] at this
  by_cases hz : at2 data p.1 p.2 = 0
  · simp [hz]
  · have e := this hz
    rw [← e]
    simp [Nat.dist]

/-- C15. For every valid board `b` of side `n`: if `b == create_goal(n)` then `b.is_goal()`; for
`n` below `65536`, `b.is_goal()` is true if and only if `b == create_goal(n)`; and the grid of
`create_goal(n)` holds `i * n + j + 1` in every cell `(i, j)` except the last, which holds `0`. -/
theorem is_goal_iff_goal_grid (n : Nat) (data : List (List Nat)) (h : ValidGrid n data) :
    ((Board.fromData data).eq (Board.create_goal n) = true →
        (Board.fromData data).is_goal = true) ∧
      (n < 65536 → ((Board.fromData data).is_goal = true ↔
        (Board.fromData data).eq (Board.create_goal n) = true)) ∧
      (∀ i j, i < n → j < n → at2 (Board.create_goal n).m_data i j
        = if i = n - 1 ∧ j = n - 1 then 0 else i * n + j + 1) := by
  have h1 := h.1
  have h2 := h.side_le
  have hb : ValidBoard n (Board.fromData data) := ⟨data, h, rfl⟩
  have hgv : ValidBoard n (Board.create_goal n) :=
    ⟨_, goal_grid_valid h1 h2, create_goal_eq h1 h2⟩
  have hfwd : (Board.fromData data).eq (Board.create_goal n) = true →
      (Board.fromData data).is_goal = true := by
    intro he
    rw [(ValidBoard.eq_iff hb hgv).mp he]
    exact create_goal_is_goal h1 h2
  refine ⟨hfwd, fun hn => ⟨fun hg => ?_, hfwd⟩, ?_⟩
  · rw [ValidBoard.eq_iff hb hgv, create_goal_eq h1 h2, ← goal_grid_of_is_goal h hn hg]
  · intro i j hi hj
    have hp : (i, j) ∈ cells n := mem_cells.mpr ⟨hi, hj⟩
    have := at2_goal_grid hp
    dsimp only at this
    rw [create_goal_data h1 h2, this]
    by_cases hc : i = n - 1 ∧ j = n - 1
    · rw [if_pos hc, if_pos (by rw [hc.1, hc.2]; exact last_index h1)]
    · rw [if_neg hc, if_neg]
      intro e
      apply hc
      have := cell_index_inj hp (last_cell_mem h1) (by dsimp only; rw [e, last_index h1])
      exact ⟨congrArg Prod.fst this, congrArg Prod.snd this⟩

theorem is_goal_iff_goal_grid_witness :
    ValidGrid 3 [[1, 2, 3], [4, 5, 6], [7, 0, 8]] ∧
      ((Board.fromData [[1, 2, 3], [4, 5, 6], [7, 0, 8]]).is_goal = true ↔
        (Board.fromData [[1, 2, 3], [4, 5, 6], [7, 0, 8]]).eq (Board.create_goal 3) = true) ∧
      (Board.fromData [[1, 2, 3], [4, 5, 6], [7, 0, 8]]).is_goal = false :=
  ⟨by decide,
    (is_goal_iff_goal_grid 3 [[1, 2, 3], [4, 5, 6], [7, 0, 8]] (by decide)).2.1 (by decide),
    by decide⟩

end EightPuzzle

namespace EightPuzzle

/-! ## The reconstructed path has no repetition -/

theorem reconstruct_zero (initial : Board) (prev : PrevMap) {back : Board}
    {result : List Board} (hl : result.getLast? = some back) (he : ¬ back.eq initial = true) :
    reconstruct initial prev 0 result = none := by
  unfold reconstruct
  rw [hl]
  simp only [he, Bool.not_false, if_true]

/-- The boards that the inner `while` loop of `Solver::solve` has appended are neither the
initial board nor keys of the older entries, so the finished path has no repetition. -/
theorem reconstruct_nodup {n : Nat} {initial : Board} (hi : ValidBoard n initial)
    (full : PrevMap) :
    ∀ (rest : PrevMap), PrevChain n initial rest →
      (∀ b m, (b, m) ∈ rest → prev_find full b = some m) →
      ∀ (fuel : Nat) (back : Board) (R out : List Board), ValidBoard n back →
        Known initial rest back → (∀ r ∈ R, r ≠ initial ∧ ∀ m, (r, m) ∉ rest) → R.Nodup →
        reconstruct initial full fuel (R ++ [back]) = some out → out.Nodup := by
  have hlast : ∀ (R : List Board) (back : Board), (R ++ [back]).getLast? = some back := by
    intro R back
    simp
  have hdone : ∀ (R : List Board) (back : Board), R.Nodup → back ∉ R →
      (R ++ [back]).Nodup := by
    intro R back hR hb
    rw [List.nodup_append]
    refine ⟨hR, List.nodup_singleton _, ?_⟩
    intro a ha hb'
    rw [List.mem_singleton] at hb'
    subst hb'
    exact hb ha
  intro rest
  induction rest with
  | nil =>
    intro _ _ fuel back R out _ hk hR hnd hrec
    rcases hk with rfl | ⟨m, hm⟩
    · rw [reconstruct_done _ _ _ (hlast R back) (Board.eq_self _)] at hrec
      cases hrec
      exact hdone R back hnd fun hmem => (hR _ hmem).1 rfl
    · cases hm
  | cons e rest ih =>
    intro hc hag fuel back R out hb hk hR hnd hrec
    have hag' : ∀ b m, (b, m) ∈ rest → prev_find full b = some m :=
      fun b m hm => hag b m (List.mem_cons_of_mem _ hm)
    have hR' : ∀ r ∈ R, r ≠ initial ∧ ∀ m, (r, m) ∉ rest :=
      fun r hr => ⟨(hR r hr).1, fun m hm => (hR r hr).2 m (List.mem_cons_of_mem _ hm)⟩
    by_cases heq : back.eq initial = true
    · rw [reconstruct_done _ _ _ (hlast R back) heq] at hrec
      cases hrec
      have e0 := (ValidBoard.eq_iff hb hi).mp heq
      exact hdone R back hnd fun hmem => (hR _ hmem).1 e0
    rcases hk with rfl | ⟨m, hm⟩
    · exact absurd (Board.eq_self _) heq
    rcases List.mem_cons.mp hm with e1 | hmem
    · subst e1
      obtain ⟨⟨_, hu, hnone, a, ha, hka, hva, hmv⟩, hrest⟩ := hc
      dsimp only at hu hva hmv hnone
      cases fuel with
      | zero =>
        rw [reconstruct_zero _ _ (hlast R back) heq] at hrec
        cases hrec
      | succ f =>
        have hat : prev_at full back = m := by
          unfold prev_at
          rw [hag back m (List.mem_cons_self _ _)]
          rfl
        have hrev := (my_move_reverse ha hu hva).2
        rw [hmv] at hrev
        rw [reconstruct_step _ _ _ (hlast R back) heq, hat, hrev] at hrec
        refine ih hrest hag' f a (R ++ [back]) out ha hka ?_ ?_ hrec
        · intro r hr
          rcases List.mem_append.mp hr with h1 | h1
          · exact hR' r h1
          · rw [List.mem_singleton] at h1
            subst h1
            exact ⟨fun e0 => heq (by rw [e0]; exact Board.eq_self _),
              fun m' => prev_find_none hb hnone⟩
        · exact hdone R back hnd fun hmem => (hR _ hmem).2 m (List.mem_cons_self _ _)
    · exact ih hc.2 hag' fuel back R out hb (Or.inr ⟨m, hmem⟩) hR' hnd hrec

/-- Every result of the `while (!pq.empty())` loop of `Solver::solve` is free of
repetitions. -/
theorem search_nodup {P : PriorityQueue} (hP : P.Lawful) (atan : Nat → ℚ) {n : Nat}
    {initial : Board} (hi : ValidBoard n initial) (rfuel : Nat) :
    ∀ (fuel : Nat) (pq : P.Q) (prev : PrevMap) (out : List Board),
      RunInv P n initial pq prev → search P atan initial rfuel fuel pq prev = some out →
      out.Nodup := by
  intro fuel
  induction fuel with
  | zero => intro pq prev out _ h; simp [search] at h
  | succ fuel ih =>
    intro pq prev out hinv h
    unfold search at h
    cases hpop : P.pop pq with
    | none =>
      rw [hpop] at h
      simp only [Option.some.injEq] at h
      rw [← h]
      exact List.nodup_nil
    | some r =>
      obtain ⟨state, pq'⟩ := r
      rw [hpop] at h
      simp only at h
      obtain ⟨hmem, _⟩ := pop_mem hP hpop
      obtain ⟨hv, hk⟩ := hinv.1 state hmem
      by_cases hg : state.board.is_goal = true
      · rw [if_pos hg] at h
        exact reconstruct_nodup hi prev prev hinv.2.1 (fun b m hm => hinv.2.1.find b m hm)
          rfuel state.board [] out hv hk (fun r hr => by cases hr) List.nodup_nil h
      · rw [if_neg hg] at h
        exact ih _ _ out (expand_run hP atan hinv hpop hg).1 h

/-- Every result of `Solver::solve` on a valid board is free of repetitions. -/
theorem solve_nodup {P : PriorityQueue} (hP : P.Lawful) (atan : Nat → ℚ) (fuel n : Nat)
    {data : List (List Nat)} (h : ValidGrid n data) {s : Solution}
    (hs : solve P atan fuel (Board.fromData data) = some s) : s.m_moves.Nodup := by
  have hi : ValidBoard n (Board.fromData data) := ⟨data, h, rfl⟩
  unfold solve at hs
  by_cases hsol : (Board.fromData data).is_solvable = true
  · rw [hsol] at hs
    simp only [Bool.not_true, Bool.false_eq_true, if_false] at hs
    by_cases hc : ((Board.fromData data).size ≤ 1 || (Board.fromData data).is_goal) = true
    · rw [if_pos hc] at hs
      cases hs
      exact List.nodup_singleton _
    · rw [if_neg hc] at hs
      obtain ⟨out, ho, rfl⟩ := Option.map_eq_some'.mp hs
      show out.reverse.Nodup
      rw [List.nodup_reverse]
      exact search_nodup hP atan hi fuel fuel _ _ out (run_inv_init hP atan hi) ho
  · simp only [hsol, Bool.not_false, if_true] at hs
    cases hs
    exact List.nodup_nil

theorem chain_reach : ∀ (l : List Board) (b : Board), l.head? = some b → List.Chain' Step l →
    ∀ c ∈ l, Reach b c := by
  intro l
  induction l with
  | nil => intro b _ _ c hc; cases hc
  | cons x xs ih =>
    intro b hb hch c hc
    simp only [List.head?_cons, Option.some.injEq] at hb
    subst hb
    rcases List.mem_cons.mp hc with rfl | hmem
    · exact Relation.ReflTransGen.refl
    · cases xs with
      | nil => cases hmem
      | cons y ys =>
        rw [List.chain'_cons] at hch
        exact Relation.ReflTransGen.head hch.1 (ih y rfl hch.2 c hmem)

end EightPuzzle

namespace EightPuzzle

/-! ## C2: the result is empty exactly for the boards that are not solvable -/

/-- C2: empty result iff unsolvable. For every priority queue that obeys the contract of
`std::priority_queue`, every `atan`, every valid board `b` of side `n` and every fuel of at least
`(n²)! + 2` iterations, `solve(b)` returns; the returned sequence is empty if and only if
`b.is_solvable()` is false. When `b.is_solvable()` is true, the sequence starts with `b`, each
board of it is one legal unit move after the board before it, and it ends with a board `g` for
which `is_goal()` holds, which is reached from `b` by legal unit moves and which is
`create_goal(n)` when `n < 65536`; and when the search loop is entered (`n > 1` and `b` is not a
goal board), the loop does not leave with an empty queue: it returns a non-empty `result`, whose
reversal is the returned sequence. -/
theorem solve_empty_iff_unsolvable (P : PriorityQueue) (hP : P.Lawful) (atan : Nat → ℚ)
    (n : Nat) (data : List (List Nat)) (h : ValidGrid n data) (fuel : Nat)
    (hfuel : (n * n).factorial + 2 ≤ fuel) :
    ∃ s, solve P atan fuel (Board.fromData data) = some s ∧
      (s.m_moves = [] ↔ (Board.fromData data).is_solvable = false) ∧
      ((Board.fromData data).is_solvable = true →
        s.m_moves.head? = some (Board.fromData data) ∧
        (∃ g, s.m_moves.getLast? = some g ∧ g.is_goal = true ∧
          Reach (Board.fromData data) g ∧ (n < 65536 → g = Board.create_goal n)) ∧
        List.Chain' (fun a c => ∃ m : Move,
          ((m.di = 0 ∧ (m.dj = 1 ∨ m.dj = -1)) ∨ (m.dj = 0 ∧ (m.di = 1 ∨ m.di = -1))) ∧
            a.is_valid_move m = true ∧ a.my_move m = c) s.m_moves ∧
        (1 < n → (Board.fromData data).is_goal = false →
          ∃ result, search P atan (Board.fromData data) fuel fuel
              (P.push P.empty (State.new atan (Board.fromData data) 0)) [] = some result ∧
            result ≠ [] ∧ s.m_moves = result.reverse)) := by
  have hi : ValidBoard n (Board.fromData data) := ⟨data, h, rfl⟩
  obtain ⟨s, hs, hiff⟩ := solve_total hP atan h hfuel
  refine ⟨s, hs, hiff, ?_⟩
  intro hsol
  have hne : s.m_moves ≠ [] := by
    intro he
    rw [hiff.mp he] at hsol
    cases hsol
  rcases solve_path hP atan fuel n h hs with he | ⟨hhead, ⟨g, hlast, hg⟩, hchain⟩
  · exact absurd he hne
  · refine ⟨hhead, ⟨g, hlast, hg, ?_, ?_⟩, hchain.imp ?_, ?_⟩
    · exact chain_reach s.m_moves _ hhead hchain g (List.mem_of_getLast?_eq_some hlast)
    · intro hn
      have hr := chain_reach s.m_moves _ hhead hchain g (List.mem_of_getLast?_eq_some hlast)
      obtain ⟨gd, hgd, rfl⟩ := (reach_valid hi hr).1
      rw [goal_grid_of_is_goal hgd hn hg, create_goal_eq h.1 h.side_le]
    · rintro a c ⟨m, hm, hv, hc⟩
      exact ⟨m, (Move.is_unit_iff m).mp hm, hv, hc⟩
    · intro h1 hng
      have hsize : ¬ (Board.fromData data).size ≤ 1 := by
        have : (Board.fromData data).size = n := h.2.1
        omega
      rw [solve_search_case P atan _ _ hsol hsize hng] at hs
      obtain ⟨result, hres, hmk⟩ := Option.map_eq_some'.mp hs
      refine ⟨result, hres, ?_, ?_⟩
      · intro he
        apply hne
        rw [← hmk, he]
        rfl
      · rw [← hmk]

/-- C2 at the solvable board `[[1,2,3],[4,5,6],[0,7,8]]`, two moves from the goal, and at the
board `[[1,2,3],[4,5,6],[8,7,0]]`, which is not solvable, both with fuel `9! + 2`: on the first
`solve` returns a sequence from the board to `create_goal(3)`, on the second the empty
sequence. -/
theorem solve_empty_iff_unsolvable_witness :
    (ValidGrid 3 [[1, 2, 3], [4, 5, 6], [0, 7, 8]] ∧
      (Board.fromData [[1, 2, 3], [4, 5, 6], [0, 7, 8]]).is_solvable = true ∧
      ∃ s, solve list_queue (fun _ => 1) 362882 (Board.fromData [[1, 2, 3], [4, 5, 6], [0, 7, 8]])
          = some s ∧ s.m_moves ≠ [] ∧
        s.m_moves.head? = some (Board.fromData [[1, 2, 3], [4, 5, 6], [0, 7, 8]]) ∧
        s.m_moves.getLast? = some (Board.create_goal 3) ∧
        ∃ result, search list_queue (fun _ => 1)
            (Board.fromData [[1, 2, 3], [4, 5, 6], [0, 7, 8]]) 362882 362882
            (list_queue.push list_queue.empty
              (State.new (fun _ => 1) (Board.fromData [[1, 2, 3], [4, 5, 6], [0, 7, 8]]) 0)) []
            = some result ∧ result ≠ [] ∧ s.m_moves = result.reverse) ∧
    (ValidGrid 3 [[1, 2, 3], [4, 5, 6], [8, 7, 0]] ∧
      (Board.fromData [[1, 2, 3], [4, 5, 6], [8, 7, 0]]).is_solvable = false ∧
      solve list_queue (fun _ => 1) 362882 (Board.fromData [[1, 2, 3], [4, 5, 6], [8, 7, 0]])
        = some ⟨[]⟩) := by
  refine ⟨⟨by decide, by decide, ?_⟩, by decide, by decide, ?_⟩
  · obtain ⟨s, hs, hiff, hsol⟩ := solve_empty_iff_unsolvable list_queue list_queue_lawful
      (fun _ => 1) 3 [[1, 2, 3], [4, 5, 6], [0, 7, 8]] (by decide) 362882 (by decide)
    obtain ⟨hhead, ⟨g, hlast, _, _, hgoal⟩, _, hsearch⟩ := hsol (by decide)
    refine ⟨s, hs, ?_, hhead, ?_, hsearch (by decide) (by decide)⟩
    · intro he
      have := hiff.mp he
      revert this
      decide
    · rw [hlast, hgoal (by decide)]
  · obtain ⟨s, hs, hiff, _⟩ := solve_empty_iff_unsolvable list_queue list_queue_lawful
      (fun _ => 1) 3 [[1, 2, 3], [4, 5, 6], [8, 7, 0]] (by decide) 362882 (by decide)
    have he : s.m_moves = [] := hiff.mpr (by decide)
    rw [hs]
    cases s
    cases he
    rfl

end EightPuzzle

namespace EightPuzzle

/-! ## C18, C20: termination, and paths without repetition -/

/-- C18. For every valid board `b` of side `n` with `b.is_solvable()` true, every queue that
obeys the contract of `std::priority_queue` and every `atan`: with fuel for `(n²)! + 2`
iterations `solve(b)` returns a non-empty sequence, so both loops terminate. One iteration of the
search loop that does not end the loop lowers the size of the queue plus the number of boards
without an entry in the predecessor map, which is at most `(n²)!`; and the path reconstruction
from a known board returns within as many steps as the predecessor map has entries. -/
theorem solve_terminates (P : PriorityQueue) (hP : P.Lawful) (atan : Nat → ℚ) (n : Nat)
    (data : List (List Nat)) (h : ValidGrid n data)
    (hs : (Board.fromData data).is_solvable = true) :
    (∀ fuel, (n * n).factorial + 2 ≤ fuel →
      ∃ s, solve P atan fuel (Board.fromData data) = some s ∧ s.m_moves ≠ []) ∧
    (∀ prev, unkeyed n prev ≤ (n * n).factorial) ∧
    (∀ (pq pq' : P.Q) (prev : PrevMap) (state : State),
      RunInv P n (Board.fromData data) pq prev → P.pop pq = some (state, pq') →
      ¬ state.board.is_goal = true →
      RunInv P n (Board.fromData data) (expand P atan state pq' prev).1
          (expand P atan state pq' prev).2 ∧
        (P.contents (expand P atan state pq' prev).1).length
            + unkeyed n (expand P atan state pq' prev).2 + 1
          ≤ (P.contents pq).length + unkeyed n prev) ∧
    (∀ (pq : P.Q) (prev : PrevMap) (back : Board) (rfuel : Nat),
      RunInv P n (Board.fromData data) pq prev → Known (Board.fromData data) prev back →
      prev.length ≤ rfuel →
      ∃ out, reconstruct (Board.fromData data) prev rfuel [back] = some out ∧ out ≠ []) := by
  refine ⟨?_, ?_, ?_, ?_⟩
  · intro fuel hfuel
    obtain ⟨s, hsome, hiff⟩ := solve_total hP atan h hfuel
    refine ⟨s, hsome, fun he => ?_⟩
    rw [hiff.mp he] at hs
    cases hs
  · intro prev
    rw [← length_all_boards]
    exact List.countP_le_length _
  · intro pq pq' prev state hinv hpop hg
    exact expand_run hP atan hinv hpop hg
  · intro pq prev back rfuel hinv hk hr
    exact reconstruct_total prev prev hinv.2.1 (fun b m hm => hinv.2.1.find b m hm) rfuel back
      [back] hk rfl hr

theorem solve_terminates_witness :
    ValidGrid 3 [[1, 2, 3], [4, 5, 6], [0, 7, 8]] ∧
      (Board.fromData [[1, 2, 3], [4, 5, 6], [0, 7, 8]]).is_solvable = true ∧
      ∃ s, solve list_queue (fun _ => 1) 362882
          (Board.fromData [[1, 2, 3], [4, 5, 6], [0, 7, 8]]) = some s ∧ s.m_moves ≠ [] :=
  ⟨by decide, by decide,
    (solve_terminates list_queue list_queue_lawful (fun _ => 1) 3
      [[1, 2, 3], [4, 5, 6], [0, 7, 8]] (by decide) (by decide)).1 362882 (by decide)⟩

/-- C20. For every valid board `b`: with fuel for `(n²)! + 2` iterations `solve(b)` returns, and
every sequence that `solve(b)` returns holds pairwise distinct boards (no two of them are equal
under `operator==`), so `moves()` is less than the number of boards that are reached from `b` by
legal unit moves. -/
theorem path_never_revisits (P : PriorityQueue) (hP : P.Lawful) (atan : Nat → ℚ)
    (fuel n : Nat) (data : List (List Nat)) (h : ValidGrid n data) :
    ((n * n).factorial + 2 ≤ fuel → ∃ s, solve P atan fuel (Board.fromData data) = some s) ∧
      ∀ s, solve P atan fuel (Board.fromData data) = some s →
        s.m_moves.Nodup ∧ s.m_moves.Pairwise (fun a c => a.eq c = false) ∧
          s.moves < Set.ncard {c | Reach (Board.fromData data) c} := by
  have hi : ValidBoard n (Board.fromData data) := ⟨data, h, rfl⟩
  refine ⟨fun hfuel => ?_, fun s hs => ?_⟩
  · obtain ⟨s, hs, _⟩ := solve_total hP atan h hfuel
    exact ⟨s, hs⟩
  have hnd := solve_nodup hP atan fuel n h hs
  have hreach : ∀ c ∈ s.m_moves, Reach (Board.fromData data) c := by
    rcases solve_path hP atan fuel n h hs with he | ⟨h1, _, h3⟩
    · intro c hc
      rw [he] at hc
      cases hc
    · exact chain_reach _ _ h1 h3
  have hfin : {c | Reach (Board.fromData data) c}.Finite := by
    apply Set.Finite.subset (Finset.finite_toSet (all_boards n).toFinset)
    intro c hc
    simp only [Finset.mem_coe, List.mem_toFinset]
    exact mem_all_boards (reach_valid hi hc).1
  refine ⟨hnd, ?_, ?_⟩
  · refine List.Pairwise.imp_of_mem ?_ hnd
    intro a c ha hc hne
    cases hx : a.eq c with
    | false => rfl
    | true =>
      exact absurd ((ValidBoard.eq_iff (reach_valid hi (hreach a ha)).1
        (reach_valid hi (hreach c hc)).1).mp hx) hne
  · have hsub : (↑s.m_moves.toFinset : Set Board) ⊆ {c | Reach (Board.fromData data) c} := by
      intro c hc
      simp only [Finset.mem_coe, List.mem_toFinset] at hc
      exact hreach c hc
    have hle := Set.ncard_le_ncard hsub hfin
    rw [Set.ncard_coe_Finset, List.toFinset_card_of_nodup hnd] at hle
    have hpos : 0 < Set.ncard {c | Reach (Board.fromData data) c} :=
      (Set.ncard_pos hfin).mpr ⟨_, Relation.ReflTransGen.refl⟩
    unfold Solution.moves
    split
    · exact hpos
    · omega

theorem path_never_revisits_witness :
    solve list_queue (fun _ => 1) 3 (Board.fromData [[1, 2, 3], [4, 5, 6], [0, 7, 8]])
        = some ⟨[Board.fromData [[1, 2, 3], [4, 5, 6], [0, 7, 8]],
          Board.fromData [[1, 2, 3], [4, 5, 6], [7, 0, 8]], Board.create_goal 3]⟩ ∧
      (Solution.mk [Board.fromData [[1, 2, 3], [4, 5, 6], [0, 7, 8]],
          Board.fromData [[1, 2, 3], [4, 5, 6], [7, 0, 8]], Board.create_goal 3]).m_moves.Nodup
      := by
  have e : solve list_queue (fun _ => 1) 3 (Board.fromData [[1, 2, 3], [4, 5, 6], [0, 7, 8]])
      = some ⟨[Board.fromData [[1, 2, 3], [4, 5, 6], [0, 7, 8]],
        Board.fromData [[1, 2, 3], [4, 5, 6], [7, 0, 8]], Board.create_goal 3]⟩ := by decide!
  exact ⟨e, ((path_never_revisits list_queue list_queue_lawful (fun _ => 1) 3 3
    [[1, 2, 3], [4, 5, 6], [0, 7, 8]] (by decide)).2 _ e).1⟩

end EightPuzzle

namespace EightPuzzle

/-! ## The search with a record of the pushes -/

theorem expand_move_log_erase (P : PriorityQueue) (atan : Nat → ℚ) (state : State)
    (acc : P.Q × PrevMap × List Board) (mv : Move) :
    ((expand_move_log P atan state acc mv).1, (expand_move_log P atan state acc mv).2.1)
      = expand_move P atan state (acc.1, acc.2.1) mv := by
  unfold expand_move_log expand_move
  dsimp only
  split
  · rfl
  · split <;> rfl

theorem expand_log_erase (P : PriorityQueue) (atan : Nat → ℚ) (state : State) :
    ∀ (moves : List Move) (acc : P.Q × PrevMap × List Board),
      ((moves.foldl (expand_move_log P atan state) acc).1,
          (moves.foldl (expand_move_log P atan state) acc).2.1)
        = moves.foldl (expand_move P atan state) (acc.1, acc.2.1) := by
  intro moves
  induction moves with
  | nil => intro acc; rfl
  | cons mv moves ih =>
    intro acc
    rw [List.foldl_cons, List.foldl_cons, ih, expand_move_log_erase]

/-- Without the record, `search_log` is `search`. -/
theorem search_log_erase (P : PriorityQueue) (atan : Nat → ℚ) (initial : Board) (rfuel : Nat) :
    ∀ (fuel : Nat) (pq : P.Q) (prev : PrevMap) (log : List Board),
      (search_log P atan initial rfuel fuel pq prev log).map Prod.fst
        = search P atan initial rfuel fuel pq prev := by
  intro fuel
  induction fuel with
  | zero => intro pq prev log; rfl
  | succ fuel ih =>
    intro pq prev log
    unfold search_log search
    cases hpop : P.pop pq with
    | none => rfl
    | some r =>
      obtain ⟨state, pq'⟩ := r
      dsimp only
      by_cases hg : state.board.is_goal = true
      · rw [if_pos hg, if_pos hg, Option.map_map]
        simp [Function.comp_def]
      · rw [if_neg hg, if_neg hg, ih]
        have e := expand_log_erase P atan state loop_moves (pq', prev, log)
        have e1 := congrArg Prod.fst e
        have e2 := congrArg Prod.snd e
        dsimp only at e1 e2
        rw [e1, e2]
        rfl

theorem expand_move_log_keys (P : PriorityQueue) (atan : Nat → ℚ) (initial : Board)
    (state : State) (acc : P.Q × PrevMap × List Board) (mv : Move)
    (h : acc.2.2 = initial :: (acc.2.1.map Prod.fst).reverse) :
    (expand_move_log P atan state acc mv).2.2
      = initial :: ((expand_move_log P atan state acc mv).2.1.map Prod.fst).reverse := by
  unfold expand_move_log
  dsimp only
  split
  · exact h
  · split
    · dsimp only
      rw [h, List.map_cons, List.reverse_cons]
      rfl
    · exact h

theorem expand_log_keys (P : PriorityQueue) (atan : Nat → ℚ) (initial : Board)
    (state : State) :
    ∀ (moves : List Move) (acc : P.Q × PrevMap × List Board),
      acc.2.2 = initial :: (acc.2.1.map Prod.fst).reverse →
      (moves.foldl (expand_move_log P atan state) acc).2.2
        = initial :: ((moves.foldl (expand_move_log P atan state) acc).2.1.map
            Prod.fst).reverse := by
  intro moves
  induction moves with
  | nil => intro acc h; exact h
  | cons mv moves ih =>
    intro acc h
    rw [List.foldl_cons]
    exact ih _ (expand_move_log_keys P atan initial state acc mv h)

theorem PrevChain.keys_nodup {n : Nat} {initial : Board} :
    ∀ {prev : PrevMap}, PrevChain n initial prev → (prev.map Prod.fst).Nodup := by
  intro prev
  induction prev with
  | nil => intro _; exact List.nodup_nil
  | cons e rest ih =>
    intro h
    rw [List.map_cons, List.nodup_cons]
    refine ⟨?_, ih h.2⟩
    intro hmem
    obtain ⟨x, hx, ex⟩ := List.mem_map.mp hmem
    have : (e.1, x.2) ∈ rest := by
      rw [← ex]
      exact hx
    exact prev_find_none h.1.1 h.1.2.2.1 this

/-- The record of the pushes is the initial board followed by the keys of the predecessor map
in the order of their insertion. -/
theorem search_log_keys {P : PriorityQueue} (hP : P.Lawful) (atan : Nat → ℚ) {n : Nat}
    {initial : Board} (rfuel : Nat) :
    ∀ (fuel : Nat) (pq : P.Q) (prev : PrevMap) (log : List Board) (x : List Board × List Board),
      RunInv P n initial pq prev → log = initial :: (prev.map Prod.fst).reverse →
      search_log P atan initial rfuel fuel pq prev log = some x →
      ∃ prev', PrevChain n initial prev' ∧ x.2 = initial :: (prev'.map Prod.fst).reverse := by
  intro fuel
  induction fuel with
  | zero => intro pq prev log x _ _ h; simp [search_log] at h
  | succ fuel ih =>
    intro pq prev log x hinv hlog h
    unfold search_log at h
    cases hpop : P.pop pq with
    | none =>
      rw [hpop] at h
      simp only [Option.some.injEq] at h
      rw [← h]
      exact ⟨prev, hinv.2.1, hlog⟩
    | some r =>
      obtain ⟨state, pq'⟩ := r
      rw [hpop] at h
      dsimp only at h
      by_cases hg : state.board.is_goal = true
      · rw [if_pos hg] at h
        obtain ⟨out, _, rfl⟩ := Option.map_eq_some'.mp h
        exact ⟨prev, hinv.2.1, hlog⟩
      · rw [if_neg hg] at h
        have e := expand_log_erase P atan state loop_moves (pq', prev, log)
        have e1 := congrArg Prod.fst e
        have e2 := congrArg Prod.snd e
        dsimp only at e1 e2
        have hrun := (expand_run hP atan hinv hpop hg).1
        unfold expand at hrun
        rw [← e1, ← e2] at hrun
        exact ih _ _ _ x hrun
          (expand_log_keys P atan initial state loop_moves (pq', prev, log) hlog) h

end EightPuzzle

namespace EightPuzzle

/-! ## The initial board is pushed a second time -/

theorem my_move_ne {n : Nat} {b : Board} (hb : ValidBoard n b) {m : Move} (hm : m.is_unit)
    (hv : b.is_valid_move m = true) : b.my_move m ≠ b := by
  obtain ⟨data, h, rfl⟩ := hb
  intro e
  obtain ⟨_, h1, h2⟩ := my_move_blank h m hm hv
  rw [e] at h1 h2
  exact (target_cell h m hm hv).2.2.2 (Prod.ext h1.symm h2.symm)

theorem exists_valid_move {n : Nat} {data : List (List Nat)} (h : ValidGrid n data)
    (hn : 2 ≤ n) :
    ∃ m : Move, m.is_unit ∧ (Board.fromData data).is_valid_move m = true := by
  have h4 := side_sq hn
  obtain ⟨i, hi, h0⟩ := exists_blank_index h
  obtain ⟨b1, b2⟩ := fromData_blank h (snake_cell_mem hi) h0
  have hb : ((Board.fromData data).m_blank_row, (Board.fromData data).m_blank_col)
      = snake_cell n i := Prod.ext b1 b2
  by_cases hlast : i + 1 < n * n
  · obtain ⟨m, hm, hv, _⟩ := exists_move h (snake_cell_mem hlast)
      (by rw [hb]; exact snake_adjacent hlast)
    exact ⟨m, hm, hv⟩
  · obtain ⟨j, rfl⟩ : ∃ j, i = j + 1 := ⟨i - 1, by omega⟩
    obtain ⟨m, hm, hv, _⟩ := exists_move h (snake_cell_mem (show j < n * n by omega))
      (by rw [hb]; exact adjacent_symm (snake_adjacent hi))
    exact ⟨m, hm, hv⟩

theorem expand_move_log_count (P : PriorityQueue) (atan : Nat → ℚ) (state : State)
    (acc : P.Q × PrevMap × List Board) (mv : Move) (c : Board) :
    acc.2.2.count c ≤ (expand_move_log P atan state acc mv).2.2.count c := by
  unfold expand_move_log
  dsimp only
  split
  · exact le_refl _
  · split
    · dsimp only
      rw [List.count_append]
      omega
    · exact le_refl _

theorem expand_log_count (P : PriorityQueue) (atan : Nat → ℚ) (state : State) (c : Board) :
    ∀ (moves : List Move) (acc : P.Q × PrevMap × List Board),
      acc.2.2.count c ≤ (moves.foldl (expand_move_log P atan state) acc).2.2.count c := by
  intro moves
  induction moves with
  | nil => intro acc; exact le_refl _
  | cons mv moves ih =>
    intro acc
    rw [List.foldl_cons]
    exact le_trans (expand_move_log_count P atan state acc mv c) (ih _)

/-- The record of the pushes only grows. -/
theorem search_log_count (P : PriorityQueue) (atan : Nat → ℚ) (initial : Board) (rfuel : Nat)
    (c : Board) :
    ∀ (fuel : Nat) (pq : P.Q) (prev : PrevMap) (log : List Board) (x : List Board × List Board),
      search_log P atan initial rfuel fuel pq prev log = some x →
      log.count c ≤ x.2.count c := by
  intro fuel
  induction fuel with
  | zero => intro pq prev log x h; simp [search_log] at h
  | succ fuel ih =>
    intro pq prev log x h
    unfold search_log at h
    cases hpop : P.pop pq with
    | none =>
      rw [hpop] at h
      simp only [Option.some.injEq] at h
      rw [← h]
    | some r =>
      obtain ⟨state, pq'⟩ := r
      rw [hpop] at h
      dsimp only at h
      by_cases hg : state.board.is_goal = true
      · rw [if_pos hg] at h
        obtain ⟨out, _, rfl⟩ := Option.map_eq_some'.mp h
        exact le_refl _
      · rw [if_neg hg] at h
        exact le_trans (expand_log_count P atan state c loop_moves (pq', prev, log))
          (ih _ _ _ x h)

/-- While a valid board is expanded: the board `b` has no entry in the predecessor map, or it
has been pushed twice. -/
theorem expand_move_log_twice (P : PriorityQueue) (atan : Nat → ℚ) {n : Nat} (state : State)
    (acc : P.Q × PrevMap × List Board) (mv : Move) {b : Board} (hb : ValidBoard n b)
    (hs : ValidBoard n state.board) (h1 : 1 ≤ acc.2.2.count b)
    (h2 : prev_find acc.2.1 b = none ∨ 2 ≤ acc.2.2.count b) :
    prev_find (expand_move_log P atan state acc mv).2.1 b = none ∨
      2 ≤ (expand_move_log P atan state acc mv).2.2.count b := by
  unfold expand_move_log
  dsimp only
  by_cases hc : (mv.di * mv.di + mv.dj * mv.dj != 1 || !state.board.is_valid_move mv) = true
  · rw [if_pos hc]
    exact h2
  · rw [if_neg hc]
    simp only [Bool.or_eq_true, bne_iff_ne, ne_eq, Bool.not_eq_true', not_or, not_not,
      Bool.not_eq_false] at hc
    obtain ⟨hu, hv⟩ := hc
    have hu' : mv.is_unit := hu
    by_cases hf : (prev_find acc.2.1 (state.board.my_move mv)).isNone = true
    · rw [if_pos hf]
      dsimp only
      by_cases he : (state.board.my_move mv).eq b = true
      · right
        rw [(ValidBoard.eq_iff (hs.my_move hu' hv) hb).mp he, List.count_append,
          List.count_singleton_self]
        omega
      · rcases h2 with h3 | h3
        · left
          rw [prev_find_cons]
          dsimp only
          rw [if_neg he]
          exact h3
        · right
          rw [List.count_append]
          omega
    · rw [if_neg hf]
      exact h2

theorem expand_log_twice (P : PriorityQueue) (atan : Nat → ℚ) {n : Nat} (state : State)
    {b : Board} (hb : ValidBoard n b) (hs : ValidBoard n state.board) :
    ∀ (moves : List Move) (acc : P.Q × PrevMap × List Board), 1 ≤ acc.2.2.count b →
      (prev_find acc.2.1 b = none ∨ 2 ≤ acc.2.2.count b) →
      prev_find (moves.foldl (expand_move_log P atan state) acc).2.1 b = none ∨
        2 ≤ (moves.foldl (expand_move_log P atan state) acc).2.2.count b := by
  intro moves
  induction moves with
  | nil => intro acc _ h; exact h
  | cons mv moves ih =>
    intro acc h1 h2
    rw [List.foldl_cons]
    exact ih _ (le_trans h1 (expand_move_log_count P atan state acc mv b))
      (expand_move_log_twice P atan state acc mv hb hs h1 h2)

end EightPuzzle

namespace EightPuzzle

/-- On a valid board that is not a goal board and has no goal board among its neighbours, the
main loop expands a neighbour of the initial board in its second iteration, and the move back
pushes the initial board, which has no entry in the predecessor map, a second time. -/
theorem initial_pushed_twice {P : PriorityQueue} (hP : P.Lawful) (atan : Nat → ℚ) {n : Nat}
    {data : List (List Nat)} (h : ValidGrid n data) (hn : 2 ≤ n)
    (hg : (Board.fromData data).is_goal = false)
    (hnb : ∀ m : Move, m.is_unit → (Board.fromData data).is_valid_move m = true →
      ((Board.fromData data).my_move m).is_goal = false)
    {fuel : Nat} {log : List Board}
    (hlog : pushed_boards P atan fuel (Board.fromData data) = some log) :
    2 ≤ log.count (Board.fromData data) := by
  have hb : ValidBoard n (Board.fromData data) := ⟨data, h, rfl⟩
  unfold pushed_boards at hlog
  obtain ⟨x, hx, rfl⟩ := Option.map_eq_some'.mp hlog
  -- the first iteration pops the seed
  have hc0 := contents_push_empty hP (State.new atan (Board.fromData data) 0)
  obtain ⟨s, pq1, hpop⟩ := pop_of_mem hP
    (q := P.push P.empty (State.new atan (Board.fromData data) 0))
    (t := State.new atan (Board.fromData data) 0) (by rw [hc0]; exact List.mem_singleton_self _)
  have hs : s = State.new atan (Board.fromData data) 0 := by
    have hmem := (pop_mem hP hpop).1
    rw [hc0] at hmem
    exact List.mem_singleton.mp hmem
  have hc1 : P.contents pq1 = [] := by
    have hl := (hP.pop_some _ _ _ hpop).length_eq
    rw [hc0] at hl
    have hl' : 1 = (P.contents pq1).length + 1 := hl
    exact List.eq_nil_of_length_eq_zero (by omega)
  subst hs
  cases fuel with
  | zero => simp [search_log] at hx
  | succ f =>
  unfold search_log at hx
  rw [hpop] at hx
  dsimp only at hx
  have hg0 : ¬ (State.new atan (Board.fromData data) 0).board.is_goal = true := by
    intro e
    rw [show (State.new atan (Board.fromData data) 0).board = Board.fromData data from rfl,
      hg] at e
    cases e
  rw [if_neg hg0] at hx
  have er1 := expand_log_erase P atan (State.new atan (Board.fromData data) 0) loop_moves
    (pq1, [], [Board.fromData data])
  have hI1 := expand_log_twice P atan (State.new atan (Board.fromData data) 0) hb hb loop_moves
    (pq1, [], [Board.fromData data]) (by simp) (Or.inl rfl)
  have hJ1 := expand_log_count P atan (State.new atan (Board.fromData data) 0)
    (Board.fromData data) loop_moves (pq1, [], [Board.fromData data])
  have hE1 := expand_spec hP atan (State.new atan (Board.fromData data) 0) pq1 []
  unfold expand at hE1
  dsimp only at er1
  rw [← er1] at hE1
  generalize loop_moves.foldl (expand_move_log P atan (State.new atan (Board.fromData data) 0))
    (pq1, [], [Board.fromData data]) = acc1 at hx hI1 hJ1 hE1
  have hJ1' : 1 ≤ acc1.2.2.count (Board.fromData data) := by
    simp only [List.count_cons_self, List.count_nil] at hJ1
    exact hJ1
  -- the queue holds the neighbours of the initial board
  obtain ⟨m0, hm0, hv0⟩ := exists_valid_move h hn
  have hne : P.contents acc1.1 ≠ [] := by
    have hf := hE1.2.2.2.2 m0 (unit_mem_loop_moves hm0) hm0 hv0
    obtain ⟨mv, hmv⟩ := Option.isSome_iff_exists.mp hf
    obtain ⟨e, he, _, _⟩ := prev_find_mem hmv
    rcases hE1.1 e he with hx1 | hx1
    · cases hx1
    · exact List.ne_nil_of_mem hx1.2.2.2
  cases f with
  | zero => simp [search_log] at hx
  | succ f' =>
  unfold search_log at hx
  cases hpop2 : P.pop acc1.1 with
  | none => exact absurd ((hP.pop_none _).mp hpop2) hne
  | some r =>
    obtain ⟨s2, pq2⟩ := r
    rw [hpop2] at hx
    dsimp only at hx
    obtain ⟨m, hm, hv, hs2⟩ : ∃ m : Move, m.is_unit ∧
        (Board.fromData data).is_valid_move m = true ∧
        s2 = State.new atan ((Board.fromData data).my_move m) 1 := by
      rcases hE1.2.1 s2 (pop_mem hP hpop2).1 with hx1 | hx1
      · rw [hc1] at hx1
        cases hx1
      · exact hx1
    subst hs2
    have hb2 : ValidBoard n (State.new atan ((Board.fromData data).my_move m) 1).board :=
      hb.my_move hm hv
    have hg2 : ¬ (State.new atan ((Board.fromData data).my_move m) 1).board.is_goal = true := by
      intro e
      rw [show (State.new atan ((Board.fromData data).my_move m) 1).board
        = (Board.fromData data).my_move m from rfl, hnb m hm hv] at e
      cases e
    rw [if_neg hg2] at hx
    have er2 := expand_log_erase P atan (State.new atan ((Board.fromData data).my_move m) 1)
      loop_moves (pq2, acc1.2.1, acc1.2.2)
    have hI2 := expand_log_twice P atan (State.new atan ((Board.fromData data).my_move m) 1)
      hb hb2 loop_moves (pq2, acc1.2.1, acc1.2.2) hJ1' hI1
    have hE2 := expand_spec hP atan (State.new atan ((Board.fromData data).my_move m) 1) pq2
      acc1.2.1
    unfold expand at hE2
    dsimp only at er2
    rw [← er2] at hE2
    have hcount := search_log_count P atan (Board.fromData data) (f' + 1 + 1)
      (Board.fromData data) f' _ _ _ x hx
    generalize loop_moves.foldl
      (expand_move_log P atan (State.new atan ((Board.fromData data).my_move m) 1))
      (pq2, acc1.2.1, acc1.2.2) = acc2 at hI2 hE2 hcount
    obtain ⟨hrv, hrb⟩ := my_move_reverse hb hm hv
    have hkey := hE2.2.2.2.2 m.reverse (unit_mem_loop_moves (Move.reverse_is_unit hm))
      (Move.reverse_is_unit hm) hrv
    rw [show (State.new atan ((Board.fromData data).my_move m) 1).board
      = (Board.fromData data).my_move m from rfl, hrb] at hkey
    rcases hI2 with h3 | h3
    · rw [h3] at hkey
      cases hkey
    · exact le_trans h3 hcount

end EightPuzzle

namespace EightPuzzle

/-! ## C17: how often a board is pushed -/

/-- C17 as stated fails on the board `[[1,2,3],[4,5,6],[0,7,8]]`, two moves from the goal: the
main loop pushes the seed, the two neighbours, and from the neighbour `[[1,2,3],[4,5,6],[7,0,8]]`
its three neighbours, among them the initial board, which has no entry in the predecessor map:
the initial board is pushed twice. -/
theorem pushed_twice_counterexample :
    ValidGrid 3 [[1, 2, 3], [4, 5, 6], [0, 7, 8]] ∧
      (Board.fromData [[1, 2, 3], [4, 5, 6], [0, 7, 8]]).is_solvable = true ∧
      (Board.fromData [[1, 2, 3], [4, 5, 6], [0, 7, 8]]).is_goal = false ∧
      pushed_boards list_queue (fun _ => 1) 3 (Board.fromData [[1, 2, 3], [4, 5, 6], [0, 7, 8]])
        = some [Board.fromData [[1, 2, 3], [4, 5, 6], [0, 7, 8]],
          Board.fromData [[1, 2, 3], [0, 5, 6], [4, 7, 8]],
          Board.fromData [[1, 2, 3], [4, 5, 6], [7, 0, 8]],
          Board.fromData [[1, 2, 3], [4, 0, 6], [7, 5, 8]],
          Board.fromData [[1, 2, 3], [4, 5, 6], [0, 7, 8]],
          Board.fromData [[1, 2, 3], [4, 5, 6], [7, 8, 0]]] ∧
      List.count (Board.fromData [[1, 2, 3], [4, 5, 6], [0, 7, 8]])
        [Board.fromData [[1, 2, 3], [4, 5, 6], [0, 7, 8]],
          Board.fromData [[1, 2, 3], [0, 5, 6], [4, 7, 8]],
          Board.fromData [[1, 2, 3], [4, 5, 6], [7, 0, 8]],
          Board.fromData [[1, 2, 3], [4, 0, 6], [7, 5, 8]],
          Board.fromData [[1, 2, 3], [4, 5, 6], [0, 7, 8]],
          Board.fromData [[1, 2, 3], [4, 5, 6], [7, 8, 0]]] = 2 :=
  ⟨by decide, by decide, by decide, by decide!, by decide⟩

/-- With fuel for `(n²)! + 2` iterations the run of the main loop returns its record of pushes. -/
theorem pushed_boards_total {P : PriorityQueue} (hP : P.Lawful) (atan : Nat → ℚ) {n : Nat}
    {data : List (List Nat)} (h : ValidGrid n data) {fuel : Nat}
    (hfuel : (n * n).factorial + 2 ≤ fuel) :
    ∃ log, pushed_boards P atan fuel (Board.fromData data) = some log := by
  have hi : ValidBoard n (Board.fromData data) := ⟨data, h, rfl⟩
  have hlen := length_all_boards n
  obtain ⟨out, e, _⟩ := search_total hP atan hi fuel (by omega) fuel _ []
    (run_inv_init hP atan hi) (by
      rw [contents_push_empty hP, unkeyed_nil, hlen]
      simp only [List.length_singleton]
      omega)
  rw [← search_log_erase P atan _ fuel fuel _ [] [Board.fromData data]] at e
  obtain ⟨x, hx, _⟩ := Option.map_eq_some'.mp e
  exact ⟨x.2, by unfold pushed_boards; rw [hx]; rfl⟩

/-- C17. In every run of the main loop of `Solver::solve` on a valid board `b`, the boards pushed
after the seed are pairwise distinct: every board other than `b` is pushed at most once, and `b`
at most twice, once as the seed and at most once as a successor. When `b` is not a goal board
and none of its neighbours is, `b` is pushed exactly twice. With fuel for `(n²)! + 2` iterations
the run returns. -/
theorem pushed_at_most_once_after_seed (P : PriorityQueue) (hP : P.Lawful) (atan : Nat → ℚ)
    (fuel n : Nat) (data : List (List Nat)) (h : ValidGrid n data) :
    ((n * n).factorial + 2 ≤ fuel →
      ∃ log, pushed_boards P atan fuel (Board.fromData data) = some log) ∧
    ∀ log, pushed_boards P atan fuel (Board.fromData data) = some log →
      (∃ rest, log = Board.fromData data :: rest ∧ rest.Nodup) ∧
      (∀ c, c ≠ Board.fromData data → log.count c ≤ 1) ∧
      log.count (Board.fromData data) ≤ 2 ∧
      (2 ≤ n → (Board.fromData data).is_goal = false →
        (∀ m : Move, m.is_unit → (Board.fromData data).is_valid_move m = true →
          ((Board.fromData data).my_move m).is_goal = false) →
        log.count (Board.fromData data) = 2) := by
  have hi : ValidBoard n (Board.fromData data) := ⟨data, h, rfl⟩
  refine ⟨fun hfuel => pushed_boards_total hP atan h hfuel, fun log hlog => ?_⟩
  have hlog' := hlog
  unfold pushed_boards at hlog'
  obtain ⟨x, hx, rfl⟩ := Option.map_eq_some'.mp hlog'
  obtain ⟨prev', hchain, hkeys⟩ := search_log_keys hP atan fuel fuel _ [] [Board.fromData data] x
    (run_inv_init hP atan hi) rfl hx
  have hnd : ((prev'.map Prod.fst).reverse).Nodup := List.nodup_reverse.mpr hchain.keys_nodup
  have hcnt : ∀ c, ((prev'.map Prod.fst).reverse).count c ≤ 1 :=
    fun c => List.nodup_iff_count_le_one.mp hnd c
  have h2 : x.2.count (Board.fromData data) ≤ 2 := by
    rw [hkeys, List.count_cons_self]
    have := hcnt (Board.fromData data)
    omega
  refine ⟨⟨_, hkeys, hnd⟩, ?_, h2, ?_⟩
  · intro c hc
    rw [hkeys, List.count_cons_of_ne hc]
    exact hcnt c
  · intro hn hg hnb
    have := initial_pushed_twice hP atan h hn hg hnb hlog
    omega

theorem pushed_at_most_once_after_seed_witness :
    ValidGrid 3 [[1, 2, 3], [4, 5, 6], [0, 7, 8]] ∧
      ∃ log, pushed_boards list_queue (fun _ => 1) 362882
        (Board.fromData [[1, 2, 3], [4, 5, 6], [0, 7, 8]]) = some log :=
  ⟨by decide,
    (pushed_at_most_once_after_seed list_queue list_queue_lawful (fun _ => 1) 362882 3
      [[1, 2, 3], [4, 5, 6], [0, 7, 8]] (by decide)).1 (by decide)⟩

end EightPuzzle
